import Mathlib

/-!
RedPanda-CPP editing core (qsynedit/SynEdit.cpp): shallow embedding.

The editor object is embedded as a record `SynEdit` and every member function
that is modelled becomes a function on that record.  C++ `int` is `Int`
(documents are far below the 32-bit range, no wrap-around is modelled), a
`QString` is a list of characters and a `QStringList` a list of such lists.
Loops run on structural recursion or on explicit fuel.

Painting, scroll bars, status flags and the Qt signals that only feed them are
not part of the state.  Classes whose bodies are outside SynEdit.cpp (the
document, the undo list, the fold range record, the string helpers) are
modelled after the specification and marked as such.
-/

namespace RedPanda

/-! ## Qt strings -/

/-- A QString: a sequence of UTF-16 code units, here characters. -/
abbrev QString := List Char

/-- The tab character. -/
def chTab : Char := Char.ofNat 9

/-- The blank character. -/
def chSpace : Char := Char.ofNat 32

/-- QString::length, as an int. -/
def qlen (s : QString) : Int := (s.length : Int)

/-- QString(n, ch): n copies of ch, empty for n <= 0. -/
def qfill (n : Int) (ch : Char) : QString := List.replicate n.toNat ch

/-- QString::mid(position, n) with the clamping of QContainerImplHelper::mid. -/
def qmid (s : QString) (position n : Int) : QString :=
  if position > qlen s then []
  else if position < 0 then
    if n < 0 ∨ n + position ≥ qlen s then s
    else if n + position ≤ 0 then []
    else s.take (n + position).toNat
  else if n < 0 ∨ n > qlen s - position then s.drop position.toNat
  else (s.drop position.toNat).take n.toNat

/-- QString::mid(position): everything from position on. -/
def qmidFrom (s : QString) (position : Int) : QString := qmid s position (-1)

/-- QString::left(n): the whole string when n is negative or too large. -/
def qleft (s : QString) (n : Int) : QString :=
  if n < 0 ∨ n ≥ qlen s then s else s.take n.toNat

/-- QString::remove(pos, len): a negative pos counts from the end. -/
def qremove (s : QString) (pos len : Int) : QString :=
  let p := if pos < 0 then pos + qlen s else pos
  if p < 0 ∨ p ≥ qlen s then s
  else if len ≥ qlen s - p then s.take p.toNat
  else if len > 0 then s.take p.toNat ++ s.drop (p + len).toNat
  else s

/-- QString::insert(i, str): nothing for i < 0 or an empty str, blank padding
when i is past the end. -/
def qinsert (s : QString) (i : Int) (str : QString) : QString :=
  if i < 0 ∨ str = [] then s
  else if i > qlen s then s ++ qfill (i - qlen s) chSpace ++ str
  else s.take i.toNat ++ str ++ s.drop i.toNat

/-- The character s[i]; C++ leaves an index outside the string undefined, the
model answers the NUL character there. -/
def qat (s : QString) (i : Int) : Char :=
  if i < 0 then Char.ofNat 0 else s.getD i.toNat (Char.ofNat 0)

/-- Whether a character is a blank or a tab. -/
def isBlankChar (c : Char) : Bool := c == chSpace || c == chTab

/-- Modelled from the spec: the helper trimRight (its body is not in
SynEdit.cpp); trailing-space trimming removes the blanks and tabs that end a
line. -/
def trimRight (s : QString) : QString := (s.reverse.dropWhile isBlankChar).reverse

/-- Modelled from the spec: the helper trimLeft (its body is not in
SynEdit.cpp); it removes the blanks and tabs that start a line. -/
def trimLeft (s : QString) : QString := s.dropWhile isBlankChar

/-- Modelled from the spec: the helper stringIsBlank (its body is not in
SynEdit.cpp); a string is blank when it holds only blanks and tabs. -/
def stringIsBlank (s : QString) : Bool := s.all isBlankChar

/-- The helper minMax(x, lo, hi) = min(max(x, lo), hi). -/
def minMax (x lo hi : Int) : Int := min (max x lo) hi

/-! ## Coordinates, selection modes, undo items -/

/-- A buffer coordinate (1-based character and line). -/
structure BufferCoord where
  Char : Int
  Line : Int
deriving DecidableEq, Repr

/-- A display coordinate (1-based column and row). -/
structure DisplayCoord where
  Column : Int
  Row : Int
deriving DecidableEq, Repr

/-- The order of BufferCoord: line first, then character. -/
def BufferCoord.lt (a b : BufferCoord) : Bool :=
  decide (a.Line < b.Line) || (decide (a.Line = b.Line) && decide (a.Char < b.Char))

/-- The three selection modes. -/
inductive SynSelectionMode where
  | smNormal
  | smLine
  | smColumn
deriving DecidableEq, Repr

/-- The reason tag of an undo item. -/
inductive SynChangeReason where
  | crInsert
  | crDelete
  | crCaret
  | crSelection
  | crGroupBreak
  | crLeftTop
  | crLineBreak
  | crMoveSelectionUp
  | crMoveSelectionDown
  | crNothing
deriving DecidableEq, Repr

/-- An undo or redo item. -/
structure SynEditUndoItem where
  changeReason : SynChangeReason
  changeSelMode : SynSelectionMode
  changeStartPos : BufferCoord
  changeEndPos : BufferCoord
  changeText : List QString
  changeNumber : Int
deriving DecidableEq, Repr

/-- Modelled from the spec: the class SynEditUndoList (its body is not in
SynEdit.cpp).  The newest item is the head of items.  blockCount counts the
open beginBlock brackets, blockChangeNumber is the group number forced on new
items (0 when none), nextChangeNumber the next fresh group number, insideRedo
the replay flag, initialMark the private marker of the saved state. -/
structure SynEditUndoList where
  items : List SynEditUndoItem
  blockChangeNumber : Int
  blockCount : Int
  nextChangeNumber : Int
  insideRedo : Bool
  initialMark : Int
deriving DecidableEq, Repr

/-- Modelled from the spec: the fold range record SynEditFoldRange (its class
is not in SynEdit.cpp).  The parent is an index into the arena of all records
(design note on cyclic fold ownership). -/
structure SynEditFoldRange where
  fromLine : Int
  toLine : Int
  collapsed : Bool
  linesCollapsed : Int
  parent : Option Nat
deriving DecidableEq, Repr

/-! ## The editor state -/

/-- The options and the external capabilities of an editor; the one modelled
function that changes any of them is searchReplace, which switches
eoAutoIndent off for the time of a replacement.  The capabilities are the
glyph width of the document, the highlighter (absent when hasHighlighter is false: identifier test, indent
computation, comment test, fold string, fold re-scan), the character classes
QChar::isPrint and QChar::isSpace, and the saved-state bookkeeping of the undo
list, whose bodies are outside SynEdit.cpp. -/
structure SynEditConfig where
  eoAutoIndent : Bool
  eoTrimTrailingSpaces : Bool
  eoGroupUndo : Bool
  eoTabsToSpaces : Bool
  eoTabIndent : Bool
  eoEnhanceEndKey : Bool
  mUseCodeFolding : Bool
  mTabWidth : Int
  hasHighlighter : Bool
  isCppHighlighter : Bool
  foldString : QString
  charColumnsOf : Char → Int
  highlighterIsIdentChar : Char → Bool
  charIsPrint : Char → Bool
  charIsSpace : Char → Bool
  calcIndentSpacesOf : List QString → Int → QString → Bool → Int
  notInCommentOf : List QString → Int → QString → Bool
  initialStateOf : SynEditUndoList → Bool
  setInitialStateOf : Bool → SynEditUndoList → Int
  rescanFoldsOf : List QString → List SynEditFoldRange → List Nat →
    List SynEditFoldRange × List Nat

/-- The part of the SynEdit object that the editing core reads and writes. -/
structure SynEdit where
  cfg : SynEditConfig
  mDocument : List QString
  mCaretX : Int
  mCaretY : Int
  mLastCaretColumn : Int
  mBlockBegin : BufferCoord
  mBlockEnd : BufferCoord
  mActiveSelectionMode : SynSelectionMode
  mSelectionMode : SynSelectionMode
  mUndoList : SynEditUndoList
  mRedoList : SynEditUndoList
  mUndoing : Bool
  mReadOnly : Bool
  mInserting : Bool
  mModified : Bool
  eoScrollPastEol : Bool
  foldArena : List SynEditFoldRange
  mAllFoldRanges : List Nat
  mLeftChar : Int
  mTopLine : Int

/-! ## Line store -/

/-- Modelled from the spec: lineCount() of the Line Store (class SynDocument
is not in the sources). -/
def docCount (s : SynEdit) : Int := (s.mDocument.length : Int)

/-- Modelled from the spec: getLine(i) of the Line Store, 0-based; an index
outside the document gives the empty string. -/
def linesGet (d : List QString) (i : Int) : QString :=
  if i < 0 then [] else d.getD i.toNat []

/-- Modelled from the spec: setLine(i, text) of the Line Store, 0-based;
writing at index lineCount appends, any other index outside the document
leaves it alone. -/
def linesPut (d : List QString) (i : Int) (t : QString) : List QString :=
  if i < 0 then d
  else if i = (d.length : Int) then d ++ [t]
  else d.set i.toNat t

/-- Modelled from the spec: deleteLines(at, count) of the Line Store, 0-based. -/
def linesDelete (d : List QString) (idx n : Int) : List QString :=
  if n ≤ 0 ∨ idx < 0 ∨ idx ≥ (d.length : Int) then d
  else d.take idx.toNat ++ d.drop (idx.toNat + n.toNat)

/-- Modelled from the spec: insertLines(at, texts) of the Line Store, 0-based,
for a list of new lines. -/
def linesInsert (d : List QString) (idx : Int) (ts : List QString) : List QString :=
  if idx < 0 ∨ idx > (d.length : Int) then d
  else d.take idx.toNat ++ ts ++ d.drop idx.toNat

/-- SynEdit reads a line through mDocument->getString(i). -/
def getString (s : SynEdit) (i : Int) : QString := linesGet s.mDocument i

/-! ## Fold ranges -/

/-- The fold range record behind an arena index. -/
def foldAt (s : SynEdit) (i : Nat) : Option SynEditFoldRange := s.foldArena.get? i

/-- Walk up the parents, fuel bounded by the size of the arena. -/
def parentCollapsedFuel (arena : List SynEditFoldRange) : Nat → Option Nat → Bool
  | 0, _ => false
  | _, none => false
  | fuel + 1, some p =>
    match arena.get? p with
    | none => false
    | some r => if r.collapsed then true else parentCollapsedFuel arena fuel r.parent

/-- Modelled from the spec: SynEditFoldRange::parentCollapsed, true when any
ancestor is collapsed. -/
def parentCollapsed (s : SynEdit) (r : SynEditFoldRange) : Bool :=
  parentCollapsedFuel s.foldArena s.foldArena.length r.parent

/-- The records of mAllFoldRanges in list order. -/
def allFoldRanges (s : SynEdit) : List SynEditFoldRange :=
  s.mAllFoldRanges.filterMap (foldAt s)

/-- The loop of foldStartAtLine over the ranges in order. -/
def foldStartAtLineLoop (Line : Int) : List SynEditFoldRange → Option SynEditFoldRange
  | [] => none
  | r :: rest =>
    if r.fromLine = Line then some r
    else if r.fromLine > Line then none
    else foldStartAtLineLoop Line rest

/-- SynEdit::foldStartAtLine. -/
def foldStartAtLine (s : SynEdit) (Line : Int) : Option SynEditFoldRange :=
  foldStartAtLineLoop Line (allFoldRanges s)

/-- Whether foldStartAtLine finds a range and that range is collapsed. -/
def collapsedFoldAt (s : SynEdit) (Line : Int) : Bool :=
  match foldStartAtLine s Line with
  | some r => r.collapsed
  | none => false

/-- SynEdit::getDisplayStringAtLine. -/
def getDisplayStringAtLine (s : SynEdit) (line : Int) : QString :=
  if collapsedFoldAt s line then getString s (line - 1) ++ s.cfg.foldString
  else getString s (line - 1)

/-! ## Coordinate mapper -/

/-- One step of the column walk: the width after a character met at width x
(the C++ remainder truncates towards zero). -/
def advanceColumn (s : SynEdit) (x : Int) (c : Char) : Int :=
  if c = chTab then x + (s.cfg.mTabWidth - Int.tmod x s.cfg.mTabWidth) else x + s.cfg.charColumnsOf c

/-- The difference aChar - 1 of charToColumn in the 32-bit int arithmetic of the
compiled code: the one int at which the subtraction wraps around is the least
one, -2147483648, where the difference is the greatest int. -/
def charIndexBefore (aChar : Int) : Int :=
  if aChar = -2147483648 then 2147483647 else aChar - 1

/-- SynEdit::charToColumn(const QString&, int). -/
def charToColumnStr (s : SynEdit) (str : QString) (aChar : Int) : Int :=
  let len := min (charIndexBefore aChar) (qlen str)
  (str.take len.toNat).foldl (advanceColumn s) 0 + 1

/-- SynEdit::charToColumn(int, int). -/
def charToColumn (s : SynEdit) (aLine aChar : Int) : Int :=
  if aLine ≥ 1 ∧ aLine ≤ docCount s then
    charToColumnStr s (getDisplayStringAtLine s aLine) aChar
  else aChar

/-- The loop of columnToChar: i is the index reached, x the width so far. -/
def columnToCharLoop (s : SynEdit) (aColumn : Int) : QString → Int → Int → Int
  | [], _, i => i
  | c :: rest, x, i =>
    let x1 := advanceColumn s x c
    if x1 ≥ aColumn then i else columnToCharLoop s aColumn rest x1 (i + 1)

/-- SynEdit::columnToChar (the Q_ASSERT on the line is compiled out). -/
def columnToChar (s : SynEdit) (aLine aColumn : Int) : Int :=
  if aLine ≤ docCount s then
    columnToCharLoop s aColumn (getDisplayStringAtLine s aLine) 0 0 + 1
  else aColumn

/-- Whether a range counts in the row mapping: collapsed and no collapsed
ancestor. -/
def foldCounts (s : SynEdit) (r : SynEditFoldRange) : Bool :=
  r.collapsed && !parentCollapsed s r

/-- One step of the loop of foldRowToLine. -/
def foldRowToLineStep (s : SynEdit) (result : Int) (r : SynEditFoldRange) : Int :=
  if foldCounts s r ∧ r.fromLine < result then result + r.linesCollapsed else result

/-- SynEdit::foldRowToLine. -/
def foldRowToLine (s : SynEdit) (Row : Int) : Int :=
  (allFoldRanges s).foldl (foldRowToLineStep s) Row

/-- One step of the loop of foldLineToRow. -/
def foldLineToRowStep (s : SynEdit) (Line : Int) (result : Int) (r : SynEditFoldRange) : Int :=
  if foldCounts s r then
    if r.toLine < Line then result - r.linesCollapsed
    else if r.fromLine < Line ∧ Line ≤ r.toLine then result - (Line - r.fromLine)
    else result
  else result

/-- SynEdit::foldLineToRow: the loop runs from the last range to the first. -/
def foldLineToRow (s : SynEdit) (Line : Int) : Int :=
  (allFoldRanges s).reverse.foldl (foldLineToRowStep s Line) Line

/-- SynEdit::bufferToDisplayPos. -/
def bufferToDisplayPos (s : SynEdit) (p : BufferCoord) : DisplayCoord :=
  let column := if p.Line - 1 < docCount s then charToColumn s p.Line p.Char else p.Char
  let row := if s.cfg.mUseCodeFolding then foldLineToRow s p.Line else p.Line
  { Column := column, Row := row }

/-- SynEdit::displayToBufferPos. -/
def displayToBufferPos (s : SynEdit) (p : DisplayCoord) : BufferCoord :=
  let line := if s.cfg.mUseCodeFolding then foldRowToLine s p.Row else p.Row
  let ch := if line ≤ docCount s then columnToChar s line p.Column else p.Column
  { Char := ch, Line := line }

/-! ## Selection -/

/-- SynEdit::selAvail. -/
def selAvail (s : SynEdit) : Bool :=
  if s.mBlockBegin.Char = s.mBlockEnd.Char ∧ s.mBlockBegin.Line = s.mBlockEnd.Line then false
  else if s.mActiveSelectionMode = SynSelectionMode.smColumn then
    if s.mBlockBegin.Line ≠ s.mBlockEnd.Line then
      decide ((bufferToDisplayPos s s.mBlockBegin).Column ≠ (bufferToDisplayPos s s.mBlockEnd).Column)
    else true
  else true

/-! ## Undo list -/

/-- Modelled from the spec: SynEditUndoList::PeekItem, the newest item. -/
def SynEditUndoList.PeekItem (l : SynEditUndoList) : Option SynEditUndoItem := l.items.head?

/-- Modelled from the spec: SynEditUndoList::LastChangeReason, crNothing on an
empty list. -/
def SynEditUndoList.LastChangeReason (l : SynEditUndoList) : SynChangeReason :=
  match l.items with
  | [] => SynChangeReason.crNothing
  | i :: _ => i.changeReason

/-- Modelled from the spec: SynEditUndoList::PopItem, the list without its
newest item. -/
def SynEditUndoList.PopItem (l : SynEditUndoList) : SynEditUndoList :=
  { l with items := l.items.tail }

/-- Modelled from the spec: SynEditUndoList::Clear. -/
def SynEditUndoList.Clear (l : SynEditUndoList) : SynEditUndoList := { l with items := [] }

/-- The next fresh group number; 0 is skipped because it means no group. -/
def nextNumber (n : Int) : Int := if n + 1 = 0 then n + 2 else n + 1

/-- Modelled from the spec: SynEditUndoList::AddChange without its signal.  An
item takes the forced group number when there is one, else the next fresh
number, which is used up unless a block is open. -/
def SynEditUndoList.AddChange (l : SynEditUndoList) (reason : SynChangeReason)
    (startPos endPos : BufferCoord) (text : List QString) (mode : SynSelectionMode) :
    SynEditUndoList :=
  let number := if l.blockChangeNumber ≠ 0 then l.blockChangeNumber else l.nextChangeNumber
  let next := if l.blockChangeNumber = 0 ∧ l.blockCount = 0 then nextNumber l.nextChangeNumber
    else l.nextChangeNumber
  { l with
    items := { changeReason := reason, changeSelMode := mode, changeStartPos := startPos,
               changeEndPos := endPos, changeText := text, changeNumber := number } :: l.items,
    nextChangeNumber := next }

/-- Modelled from the spec: SynEditUndoList::AddGroupBreak; no second break on
top of a break. -/
def SynEditUndoList.AddGroupBreak (l : SynEditUndoList) : SynEditUndoList :=
  if l.LastChangeReason ≠ SynChangeReason.crGroupBreak then
    l.AddChange SynChangeReason.crGroupBreak ⟨0, 0⟩ ⟨0, 0⟩ [] SynSelectionMode.smNormal
  else l

/-- Modelled from the spec: SynEditUndoList::BeginBlock; the items pushed up to
the matching EndBlock share one group number. -/
def SynEditUndoList.BeginBlock (l : SynEditUndoList) : SynEditUndoList :=
  { l with blockCount := l.blockCount + 1, blockChangeNumber := l.nextChangeNumber }

/-- Modelled from the spec: SynEditUndoList::EndBlock. -/
def SynEditUndoList.EndBlock (l : SynEditUndoList) : SynEditUndoList :=
  if l.blockCount > 0 then
    if l.blockCount - 1 = 0 then
      { l with blockCount := 0, blockChangeNumber := 0,
               nextChangeNumber := nextNumber l.nextChangeNumber }
    else { l with blockCount := l.blockCount - 1 }
  else l

/-- SynEdit::setModified; the modified signals are not modelled. -/
def setModified (s : SynEdit) (Value : Bool) : SynEdit :=
  if Value ≠ s.mModified then
    let u1 := if s.cfg.eoGroupUndo ∧ Value = false ∧ s.mUndoList.items ≠ [] then
        s.mUndoList.AddGroupBreak else s.mUndoList
    { s with mModified := Value,
             mUndoList := { u1 with initialMark := s.cfg.setInitialStateOf (!Value) u1 } }
  else s

/-- SynEdit::updateModifiedStatus. -/
def updateModifiedStatus (s : SynEdit) : SynEdit :=
  setModified s (!s.cfg.initialStateOf s.mUndoList)

/-- SynEdit::onUndoAdded, the slot run when the undo list has received an item. -/
def onUndoAdded (s : SynEdit) : SynEdit :=
  let s1 := updateModifiedStatus s
  match s1.mUndoList.PeekItem with
  | some top =>
    if s1.mUndoList.insideRedo = false ∧ top.changeReason ≠ SynChangeReason.crGroupBreak then
      { s1 with mRedoList := s1.mRedoList.Clear }
    else s1
  | none => s1

/-- SynEdit::onRedoAdded, the slot run when the redo list has received an item. -/
def onRedoAdded (s : SynEdit) : SynEdit := updateModifiedStatus s

/-- The call mUndoList->AddChange(...) with the slot it triggers. -/
def undoAddChange (s : SynEdit) (reason : SynChangeReason) (startPos endPos : BufferCoord)
    (text : List QString) (mode : SynSelectionMode) : SynEdit :=
  onUndoAdded { s with mUndoList := s.mUndoList.AddChange reason startPos endPos text mode }

/-- The call mRedoList->AddChange(...) with the slot it triggers. -/
def redoAddChange (s : SynEdit) (reason : SynChangeReason) (startPos endPos : BufferCoord)
    (text : List QString) (mode : SynSelectionMode) : SynEdit :=
  onRedoAdded { s with mRedoList := s.mRedoList.AddChange reason startPos endPos text mode }

/-- The call mUndoList->AddGroupBreak(); a break raises no signal. -/
def undoAddGroupBreak (s : SynEdit) : SynEdit :=
  { s with mUndoList := s.mUndoList.AddGroupBreak }

/-- The call mUndoList->BeginBlock(). -/
def undoBeginBlock (s : SynEdit) : SynEdit := { s with mUndoList := s.mUndoList.BeginBlock }

/-- The call mUndoList->EndBlock(). -/
def undoEndBlock (s : SynEdit) : SynEdit := { s with mUndoList := s.mUndoList.EndBlock }

/-! ## Fold list maintenance -/

/-- SynEdit::uncollapse on the record behind arena index i. -/
def uncollapseAt (s : SynEdit) (i : Nat) : SynEdit :=
  match s.foldArena.get? i with
  | none => s
  | some r =>
    { s with foldArena := s.foldArena.set i { r with linesCollapsed := 0, collapsed := false } }

/-- Modelled from the spec: SynEditFoldRange::move, shifting both ends of the
record behind arena index i. -/
def moveAt (s : SynEdit) (i : Nat) (count : Int) : SynEdit :=
  match s.foldArena.get? i with
  | none => s
  | some r =>
    let r1 : SynEditFoldRange := { r with fromLine := r.fromLine + count, toLine := r.toLine + count }
    { s with foldArena := s.foldArena.set i r1 }

/-- The loop of foldOnListInserted over the positions it still has to visit. -/
def foldOnListInsertedLoop (Line Count : Int) : List Nat → SynEdit → SynEdit
  | [], s => s
  | i :: rest, s =>
    let s1 := match foldAt s i with
      | none => s
      | some r =>
        if r.collapsed ∨ parentCollapsed s r then
          if r.fromLine = Line - 1 then uncollapseAt s i
          else if r.fromLine ≥ Line then moveAt s i Count
          else s
        else s
    foldOnListInsertedLoop Line Count rest s1

/-- SynEdit::foldOnListInserted: the list is walked from its last range. -/
def foldOnListInserted (s : SynEdit) (Line Count : Int) : SynEdit :=
  foldOnListInsertedLoop Line Count s.mAllFoldRanges.reverse s

/-- The loop of foldOnListDeleted: the later positions are handled first, the
second component is the list of ranges kept. -/
def foldOnListDeletedLoop (Line Count : Int) : List Nat → SynEdit → SynEdit × List Nat
  | [], s => (s, [])
  | i :: rest, s =>
    let p := foldOnListDeletedLoop Line Count rest s
    match foldAt p.1 i with
    | none => (p.1, i :: p.2)
    | some r =>
      if r.collapsed ∨ parentCollapsed p.1 r then
        if r.fromLine = Line ∧ Count = 1 then (uncollapseAt p.1 i, i :: p.2)
        else if r.fromLine ≥ Line - 1 ∧ r.fromLine < Line + Count then (p.1, p.2)
        else if r.fromLine ≥ Line + Count then (moveAt p.1 i (-Count), i :: p.2)
        else (p.1, i :: p.2)
      else (p.1, i :: p.2)

/-- SynEdit::foldOnListDeleted. -/
def foldOnListDeleted (s : SynEdit) (Line Count : Int) : SynEdit :=
  let p := foldOnListDeletedLoop Line Count s.mAllFoldRanges s
  { p.1 with mAllFoldRanges := p.2 }

/-- SynEdit::rescanFolds as far as the fold list goes: the ranges come from the
highlighter tokens, so the new list is what the capability answers. -/
def rescanFolds (s : SynEdit) : SynEdit :=
  if s.cfg.mUseCodeFolding then
    let r := s.cfg.rescanFoldsOf s.mDocument s.foldArena s.mAllFoldRanges
    { s with foldArena := r.1, mAllFoldRanges := r.2 }
  else s

/-- SynEdit::scanFrom as far as the fold list goes: the range states of the
highlighter are not modelled, the scan ends with a fold re-scan unless the
start index is past the document. -/
def scanFrom (s : SynEdit) (Index : Int) : SynEdit :=
  if max 0 Index ≥ docCount s then s else rescanFolds s

/-- SynEdit::onLinesDeleted. -/
def onLinesDeleted (s : SynEdit) (index count : Int) : SynEdit :=
  let s1 := if s.cfg.hasHighlighter ∧ docCount s > 0 then scanFrom s index else s
  if s1.cfg.mUseCodeFolding then foldOnListDeleted s1 (index + 1) count else s1

/-- SynEdit::onLinesInserted. -/
def onLinesInserted (s : SynEdit) (index count : Int) : SynEdit :=
  let s1 := if s.cfg.mUseCodeFolding then foldOnListInserted s (index + 1) count else s
  if s1.cfg.hasHighlighter ∧ docCount s1 > 0 then scanFrom s1 index else s1

/-- SynEdit::onLinesPutted. -/
def onLinesPutted (s : SynEdit) (index : Int) : SynEdit :=
  if s.cfg.hasHighlighter then scanFrom s index else s


/-! ## Document mutations with their signals

The slots modelled here are those of the signals inserted, deleted and putted.
The signal changed of the document is raised inside SynDocument; its slot
onLinesChanged puts the selection on the caret and is not part of the model, so
the selection that a state holds after a document write is the one the last
explicit call of setBlockBegin, setBlockEnd or setCaretAndSelection stored. -/

/-- Modelled from the spec: SynDocument::deleteLines with its lines-deleted
notification; a count past the end is cut at the end. -/
def docDeleteLines (s : SynEdit) (Index NumLines : Int) : SynEdit :=
  if NumLines ≤ 0 ∨ Index < 0 ∨ Index ≥ docCount s then s
  else
    let n := if docCount s - (Index + NumLines) < 0 then docCount s - Index else NumLines
    onLinesDeleted { s with mDocument := linesDelete s.mDocument Index n } Index n

/-- Modelled from the spec: SynDocument::deleteAt with its lines-deleted
notification. -/
def docDeleteAt (s : SynEdit) (Index : Int) : SynEdit :=
  if Index < 0 ∨ Index ≥ docCount s then s
  else onLinesDeleted { s with mDocument := linesDelete s.mDocument Index 1 } Index 1

/-- Modelled from the spec: SynDocument::insertLines (NumLines empty lines)
with its lines-inserted notification. -/
def docInsertLines (s : SynEdit) (Index NumLines : Int) : SynEdit :=
  if Index < 0 ∨ Index > docCount s ∨ NumLines ≤ 0 then s
  else
    onLinesInserted
      { s with mDocument := linesInsert s.mDocument Index (List.replicate NumLines.toNat []) }
      Index NumLines

/-- Modelled from the spec: SynDocument::insert (one line) with its
lines-inserted notification. -/
def docInsert (s : SynEdit) (Index : Int) (t : QString) : SynEdit :=
  if Index < 0 ∨ Index > docCount s then s
  else onLinesInserted { s with mDocument := linesInsert s.mDocument Index [t] } Index 1

/-- Modelled from the spec: SynDocument::add (append one line) with its
lines-inserted notification. -/
def docAdd (s : SynEdit) (t : QString) : SynEdit :=
  onLinesInserted { s with mDocument := s.mDocument ++ [t] } (docCount s) 1

/-- Modelled from the spec: SynDocument::putString with its
line-content-changed notification; writing at index lineCount appends. -/
def docPutString (s : SynEdit) (Index : Int) (t : QString) (notify : Bool) : SynEdit :=
  if Index = docCount s then docAdd s t
  else if Index < 0 ∨ Index > docCount s then s
  else
    let s1 := { s with mDocument := linesPut s.mDocument Index t }
    if notify then onLinesPutted s1 Index else s1

/-- SynEdit::properSetLine. -/
def properSetLine (s : SynEdit) (ALine : Int) (ALineText : QString) (notify : Bool) : SynEdit :=
  if s.cfg.eoTrimTrailingSpaces then docPutString s ALine (trimRight ALineText) notify
  else docPutString s ALine ALineText notify

/-- Modelled from the spec: SynDocument::stringColumns, the width of a string
that starts after colsBefore columns. -/
def stringColumns (s : SynEdit) (line : QString) (colsBefore : Int) : Int :=
  line.foldl (advanceColumn s) (max 0 colsBefore) - colsBefore

/-- Modelled from the spec: SynDocument::lengthOfLongestLine, the width of the
widest line. -/
def lengthOfLongestLine (s : SynEdit) : Int :=
  s.mDocument.foldl (fun m l => max m (stringColumns s l 0)) 0

/-! ## Caret and selection -/

/-- SynEdit::caretXY. -/
def caretXY (s : SynEdit) : BufferCoord := { Char := s.mCaretX, Line := s.mCaretY }

/-- SynEdit::displayX. -/
def displayX (s : SynEdit) : Int := (bufferToDisplayPos s (caretXY s)).Column

/-- SynEdit::lineText. -/
def lineText (s : SynEdit) : QString :=
  if s.mCaretY ≥ 1 ∧ s.mCaretY ≤ docCount s then getString s (s.mCaretY - 1) else []

/-- SynEdit::updateLastCaretX. -/
def updateLastCaretX (s : SynEdit) : SynEdit := { s with mLastCaretColumn := displayX s }

/-- SynEdit::setCaretXYEx; scrolling the caret into view is not modelled. -/
def setCaretXYEx (s : SynEdit) (value : BufferCoord) : SynEdit :=
  let line0 := if value.Line > docCount s then docCount s else value.Line
  let line1 :=
    if s.mActiveSelectionMode ≠ SynSelectionMode.smColumn ∧ line0 < 1 then 1 else line0
  let ch1 :=
    if s.mActiveSelectionMode ≠ SynSelectionMode.smColumn then
      if line0 < 1 then
        min value.Char (if s.eoScrollPastEol = false then 1
                        else qlen (getDisplayStringAtLine s 1) + 1)
      else min value.Char (qlen (getDisplayStringAtLine s line0) + 1)
    else value.Char
  updateLastCaretX { s with mCaretX := max ch1 1, mCaretY := line1 }

/-- SynEdit::internalSetCaretXY. -/
def internalSetCaretXY (s : SynEdit) (Value : BufferCoord) : SynEdit := setCaretXYEx s Value

/-- SynEdit::internalSetCaretX. -/
def internalSetCaretX (s : SynEdit) (Value : Int) : SynEdit :=
  internalSetCaretXY s { Char := Value, Line := s.mCaretY }

/-- SynEdit::internalSetCaretY. -/
def internalSetCaretY (s : SynEdit) (Value : Int) : SynEdit :=
  internalSetCaretXY s { Char := s.mCaretX, Line := Value }

/-- The character clamp shared by setBlockBegin and setBlockEnd (minMax is
taken for a non-empty document). -/
def clampBlockChar (s : SynEdit) (ch line : Int) : Int :=
  if s.mActiveSelectionMode = SynSelectionMode.smNormal then
    if line ≥ 1 ∧ line ≤ docCount s then min ch (qlen (getDisplayStringAtLine s line) + 1)
    else 1
  else
    let maxLen0 := lengthOfLongestLine s
    let maxLen := if s.cfg.hasHighlighter then maxLen0 + stringColumns s s.cfg.foldString maxLen0
      else maxLen0
    minMax ch 1 (maxLen + 1)

/-- SynEdit::setBlockBegin: both ends of the block are set. -/
def setBlockBegin (s : SynEdit) (value : BufferCoord) : SynEdit :=
  let line := minMax value.Line 1 (docCount s)
  let v : BufferCoord := { Char := clampBlockChar s value.Char line, Line := line }
  { s with mBlockBegin := v, mBlockEnd := v }

/-- SynEdit::setBlockEnd. -/
def setBlockEnd (s : SynEdit) (Value : BufferCoord) : SynEdit :=
  let line := minMax Value.Line 1 (docCount s)
  let v : BufferCoord := { Char := clampBlockChar s Value.Char line, Line := line }
  { s with mBlockEnd := v }

/-- SynEdit::blockBegin, the normalised begin of the selection. -/
def blockBegin (s : SynEdit) : BufferCoord :=
  if s.mActiveSelectionMode = SynSelectionMode.smColumn then s.mBlockBegin
  else if s.mBlockEnd.Line < s.mBlockBegin.Line
      ∨ (s.mBlockEnd.Line = s.mBlockBegin.Line ∧ s.mBlockEnd.Char < s.mBlockBegin.Char) then
    s.mBlockEnd
  else s.mBlockBegin

/-- SynEdit::blockEnd, the normalised end of the selection. -/
def blockEnd (s : SynEdit) : BufferCoord :=
  if s.mActiveSelectionMode = SynSelectionMode.smColumn then s.mBlockEnd
  else if s.mBlockEnd.Line < s.mBlockBegin.Line
      ∨ (s.mBlockEnd.Line = s.mBlockBegin.Line ∧ s.mBlockEnd.Char < s.mBlockBegin.Char) then
    s.mBlockBegin
  else s.mBlockEnd

/-- SynEdit::setCaretAndSelection; the active mode is put back at the end. -/
def setCaretAndSelection (s : SynEdit) (ptCaret ptSelBegin ptSelEnd : BufferCoord) : SynEdit :=
  let s1 := setBlockEnd (setBlockBegin (internalSetCaretXY s ptCaret) ptSelBegin) ptSelEnd
  { s1 with mActiveSelectionMode := s.mActiveSelectionMode }

/-- SynEdit::setActiveSelectionMode. -/
def setActiveSelectionMode (s : SynEdit) (Value : SynSelectionMode) : SynEdit :=
  { s with mActiveSelectionMode := Value }

/-- SynEdit::setCaretXY. -/
def setCaretXY (s : SynEdit) (value : BufferCoord) : SynEdit :=
  setCaretXYEx (setBlockEnd (setBlockBegin s value) value) value


/-! ## Reading and deleting text -/

/-- The integers lo, lo+1, ..., hi (empty when hi < lo). -/
def intRange (lo hi : Int) : List Int :=
  (List.range (hi - lo + 1).toNat).map (fun (k : Nat) => lo + (k : Int))

/-- The end of a stream range after the fold check of getContent: a position
past the marker of a collapsed fold is moved to the end of the fold. -/
def contentEnd (s : SynEdit) (endPos : BufferCoord) : BufferCoord :=
  match foldStartAtLine s endPos.Line with
  | some fr =>
    let str := getString s (endPos.Line - 1)
    if fr.collapsed ∧ endPos.Char > qlen str ∧ endPos.Char > qlen (str ++ s.cfg.foldString) then
      { Char := qlen (getString s (fr.toLine - 1)) + 1, Line := fr.toLine }
    else endPos
  | none => endPos

/-- The column-mode part of getContent: it reads the current selection, not
its arguments. -/
def getContentColumn (s : SynEdit) : List QString :=
  let c1 := charToColumn s (blockBegin s).Line (blockBegin s).Char
  let c2 := charToColumn s (blockEnd s).Line (blockEnd s).Char
  let ColFrom := if c1 > c2 then c2 else c1
  let ColTo := if c1 > c2 then c1 else c2
  let First := min (blockBegin s).Line (blockEnd s).Line
  let Last := max (blockBegin s).Line (blockEnd s).Line
  (intRange First Last).map (fun i =>
    let l := columnToChar s i ColFrom
    let r := columnToChar s i (ColTo - 1) + 1
    qmid (getString s (i - 1)) (l - 1) (r - l))

/-- SynEdit::getContent. -/
def getContent (s : SynEdit) (startPos0 endPos0 : BufferCoord) (mode : SynSelectionMode) :
    List QString :=
  if startPos0 = endPos0 then []
  else
    let startPos := if endPos0.lt startPos0 then endPos0 else startPos0
    let endPos := if endPos0.lt startPos0 then startPos0 else endPos0
    let First := startPos.Line - 1
    match mode with
    | SynSelectionMode.smNormal =>
      let e := contentEnd s endPos
      let Last := e.Line - 1
      if First = Last then
        [qmid (getString s First) (startPos.Char - 1) (e.Char - startPos.Char)]
      else
        [qmidFrom (getString s First) (startPos.Char - 1)]
          ++ (intRange (First + 1) (Last - 1)).map (getString s)
          ++ [qleft (getString s Last) (e.Char - 1)]
    | SynSelectionMode.smColumn => getContentColumn s
    | SynSelectionMode.smLine =>
      let Last := endPos.Line - 1
      (intRange First (Last - 1)).map (getString s) ++ [getString s Last]
        ++ (if Last < docCount s - 1 then [[]] else [])

/-- The end position that doDeleteText works with, or none when it returns at
once: a stream deletion that ends in the marker of a collapsed fold either
takes the whole fold or does nothing. -/
def deleteEnd (s : SynEdit) (startPos endPos : BufferCoord) (mode : SynSelectionMode) :
    Option BufferCoord :=
  if mode = SynSelectionMode.smNormal then
    match foldStartAtLine s endPos.Line with
    | some fr =>
      let str := getString s (endPos.Line - 1)
      if fr.collapsed ∧ endPos.Char > qlen str then
        if (startPos.Char ≤ qlen str ∨ startPos.Line < endPos.Line)
            ∧ endPos.Char > qlen (str ++ s.cfg.foldString) then
          some { Char := qlen (getString s (fr.toLine - 1)) + 1, Line := fr.toLine }
        else none
      else some endPos
    | none => some endPos
  else some endPos

/-- The loop of the column-mode deletion over the 0-based line indices. -/
def deleteColumnsLoop (ColFrom ColTo : Int) : List Int → SynEdit → SynEdit
  | [], s => s
  | i :: rest, s =>
    let l := columnToChar s (i + 1) ColFrom
    let r := columnToChar s (i + 1) (ColTo - 1) + 1
    deleteColumnsLoop ColFrom ColTo rest
      (properSetLine s i (qremove (getString s i) (l - 1) (r - l)) true)

/-- The mode switch of doDeleteText. -/
def deleteTextBody (s : SynEdit) (startPos endPos : BufferCoord) (mode : SynSelectionMode) :
    SynEdit :=
  match mode with
  | SynSelectionMode.smNormal =>
    if docCount s > 0 then
      let TempString := qmid (getString s (startPos.Line - 1)) 0 (startPos.Char - 1)
        ++ qmidFrom (getString s (endPos.Line - 1)) (endPos.Char - 1)
      let s1 := docDeleteLines s startPos.Line (endPos.Line - startPos.Line)
      internalSetCaretXY (properSetLine s1 (startPos.Line - 1) TempString true) startPos
    else s
  | SynSelectionMode.smColumn =>
    let c1 := charToColumn s startPos.Line startPos.Char
    let c2 := charToColumn s endPos.Line endPos.Char
    let ColFrom := if c1 > c2 then c2 else c1
    let ColTo := if c1 > c2 then c1 else c2
    let First := min (startPos.Line - 1) (endPos.Line - 1)
    let Last := max (startPos.Line - 1) (endPos.Line - 1)
    internalSetCaretXY (deleteColumnsLoop ColFrom ColTo (intRange First Last) s) startPos
  | SynSelectionMode.smLine =>
    let s1 :=
      if endPos.Line = docCount s then
        docDeleteLines (docPutString s (endPos.Line - 1) [] true)
          (startPos.Line - 1) (endPos.Line - startPos.Line)
      else docDeleteLines s (startPos.Line - 1) (endPos.Line - startPos.Line + 1)
    internalSetCaretXY s1 { Char := 1, Line := startPos.Line }

/-- SynEdit::doDeleteText. -/
def doDeleteText (s : SynEdit) (startPos endPos0 : BufferCoord) (mode : SynSelectionMode) :
    SynEdit :=
  match deleteEnd s startPos endPos0 mode with
  | none => s
  | some endPos =>
    let deleted := getContent s startPos endPos mode
    let s1 := deleteTextBody s startPos endPos mode
    if s1.mUndoing = false then
      undoAddChange s1 SynChangeReason.crDelete startPos endPos deleted mode
    else s1


/-! ## Inserting text -/

/-- SynEdit::GetLeftSpacing (C++ division and remainder truncate). -/
def GetLeftSpacing (s : SynEdit) (charCount : Int) (wantTabs : Bool) : QString :=
  if wantTabs ∧ s.cfg.eoTabsToSpaces = false ∧ s.cfg.mTabWidth > 0 then
    qfill (Int.tdiv charCount s.cfg.mTabWidth) chTab
      ++ qfill (Int.tmod charCount s.cfg.mTabWidth) chSpace
  else qfill charCount chSpace

/-- SynEdit::calcIndentSpaces: 0 without a highlighter, else what the
highlighter-driven computation answers. -/
def calcIndentSpaces (s : SynEdit) (line : Int) (text : QString) (addIndent : Bool) : Int :=
  if s.cfg.hasHighlighter = false then 0
  else s.cfg.calcIndentSpacesOf s.mDocument line text addIndent

/-- SynEdit::leftSpaces. -/
def leftSpaces (s : SynEdit) (line : QString) : Int :=
  if s.cfg.eoAutoIndent then
    (line.takeWhile isBlankChar).foldl
      (fun r ch => if ch = chTab then r + (s.cfg.mTabWidth - Int.tmod r s.cfg.mTabWidth) else r + 1) 0
  else 0

/-- Whether the stream insertion re-indents the lines it writes. -/
def autoIndents (s : SynEdit) : Bool :=
  !s.mUndoing && s.cfg.hasHighlighter && s.cfg.eoAutoIndent

/-- Step 2 of doInsertTextByNormalMode: the lines text[i], text[i+1], ... are
written below the caret line; n is the number of text lines, the last
component is the string written last. -/
def insertRestLoop (pos : BufferCoord) (sRightSide : QString) (n : Int) :
    List QString → Int → SynEdit → QString → SynEdit × QString
  | [], _, s, str => (s, str)
  | t :: rest, i, s, _ =>
    let caretY := pos.Line + i
    let str :=
      if t = [] then
        if i = n - 1 then sRightSide
        else if autoIndents s then GetLeftSpacing s (calcIndentSpaces s caretY [] true) true
        else []
      else
        let str0 := if i = n - 1 then t ++ sRightSide else t
        if autoIndents s then
          GetLeftSpacing s (calcIndentSpaces s caretY str0 true) true ++ trimLeft str0
        else str0
    insertRestLoop pos sRightSide n rest (i + 1) (properSetLine s (caretY - 1) str false) str

/-- The outcome of one of the three insertion routines: the new state, the
caret position after the text, the number of lines added. -/
structure InsertOutcome where
  state : SynEdit
  newPos : BufferCoord
  result : Int

/-- The left half sLeftSide of doInsertTextByNormalMode: the target line up to
the caret, padded when the caret is past the end of the line. -/
def insertLeftSide (s : SynEdit) (pos : BufferCoord) : QString :=
  let sLeft0 := qmid (getString s (pos.Line - 1)) 0 (pos.Char - 1)
  if pos.Char - 1 > qlen sLeft0 then
    if stringIsBlank sLeft0 then GetLeftSpacing s (displayX s - 1) true
    else sLeft0 ++ qfill (pos.Char - 1 - qlen sLeft0) chSpace
  else sLeft0

/-- The right half sRightSide of doInsertTextByNormalMode: the target line from
the caret on. -/
def insertRightSide (s : SynEdit) (pos : BufferCoord) : QString :=
  qmidFrom (getString s (pos.Line - 1)) (pos.Char - 1)

/-- The first string that doInsertTextByNormalMode writes (step 1). -/
def insertFirstString (s : SynEdit) (pos : BufferCoord) (text : List QString) : QString :=
  let sLeftSide := insertLeftSide s pos
  let t0 := text.headD []
  if (text.length : Int) > 1 then
    if autoIndents s then
      (if sLeftSide = [] then
          GetLeftSpacing s (calcIndentSpaces s pos.Line (trimLeft t0) true) true
        else sLeftSide) ++ trimLeft t0
    else sLeftSide ++ t0
  else sLeftSide ++ t0 ++ insertRightSide s pos

/-- Steps 1 and 2 of doInsertTextByNormalMode: the state after all lines are
written, and the string written last. -/
def insertNormalLines (s : SynEdit) (pos : BufferCoord) (text : List QString) :
    SynEdit × QString :=
  let n : Int := (text.length : Int)
  let str1 := insertFirstString s pos text
  let s1 := properSetLine s (pos.Line - 1) str1 true
  let s2 := if n > 1 then docInsertLines s1 pos.Line (n - 1) else s1
  insertRestLoop pos (insertRightSide s pos) n text.tail 1 s2 str1

/-- The end position newPos of doInsertTextByNormalMode, from the state and the
string that steps 1 and 2 leave. -/
def insertNormalNewPos (s : SynEdit) (pos : BufferCoord) (text : List QString)
    (p : SynEdit × QString) : BufferCoord :=
  let caretY := pos.Line + ((text.length : Int) - 1)
  if p.1.cfg.eoTrimTrailingSpaces ∧ insertRightSide s pos = [] then
    { Char := qlen (getString p.1 (caretY - 1)) + 1, Line := caretY }
  else { Char := qlen p.2 - qlen (insertRightSide s pos) + 1, Line := caretY }

/-- SynEdit::doInsertTextByNormalMode; text is not empty. -/
def doInsertTextByNormalMode (s : SynEdit) (pos : BufferCoord) (text : List QString) :
    InsertOutcome :=
  let p := insertNormalLines s pos text
  let newPos := insertNormalNewPos s pos text p
  let s3 := onLinesPutted p.1 (pos.Line - 1)
  let s4 := if s3.mUndoing = false then
      undoAddChange s3 SynChangeReason.crInsert pos newPos [] SynSelectionMode.smNormal
    else s3
  { state := s4, newPos := newPos, result := (text.length : Int) - 1 }

/-- The loop of doInsertTextByColumnMode over the lines line, line+1, ...,
endLine; i is the index of the text line in use, fuel the number of lines
left. -/
def insertColumnLoop (text : List QString) (insertCol endLine : Int) :
    Nat → Int → Int → SynEdit → Int → SynEdit × Int
  | 0, _, _, s, result => (s, result)
  | fuel + 1, line, i, s, result =>
    if line ≤ endLine then
      let str := text.getD i.toNat []
      let beyond := decide (line > docCount s)
      let sA := if beyond then docAdd s [] else s
      let lineBreakPos : BufferCoord :=
        { Char := qlen (getString sA (line - 2)) + 1, Line := line - 1 }
      let sB := if beyond ∧ sA.mUndoing = false then
          undoAddChange sA SynChangeReason.crLineBreak lineBreakPos lineBreakPos []
            SynSelectionMode.smNormal
        else sA
      let result1 := if beyond then (if sA.mUndoing = false then result + 2 else result + 1)
        else result
      let old := getString s (line - 1)
      let len := stringColumns s old 0
      let insertPos : Int :=
        if beyond then 0
        else if len < insertCol then qlen old + 1
        else columnToChar s line insertCol
      let tempString :=
        if beyond then qfill (insertCol - 1) chSpace ++ str
        else if len < insertCol then old ++ qfill (insertCol - len - 1) chSpace ++ str
        else qinsert old (insertPos - 1) str
      let sC := properSetLine sB (line - 1) tempString true
      let sD := if sC.mUndoing = false then
          undoAddChange sC SynChangeReason.crInsert { Char := insertPos, Line := line }
            { Char := insertPos + qlen str, Line := line } [] SynSelectionMode.smNormal
        else sC
      let i1 := if i < (text.length : Int) - 1 then i + 1 else i
      insertColumnLoop text insertCol endLine fuel (line + 1) i1 sD result1
    else (s, result)

/-- SynEdit::doInsertTextByColumnMode; text is not empty. -/
def doInsertTextByColumnMode (s : SynEdit) (pos : BufferCoord) (text : List QString)
    (startLine endLine : Int) : InsertOutcome :=
  let insertCol := (bufferToDisplayPos s (caretXY s)).Column
  let s0 := if s.mUndoing = false then undoBeginBlock s else s
  let p := insertColumnLoop text insertCol endLine (endLine - startLine + 1).toNat startLine 0 s0 0
  let t0 := text.headD []
  let newPos : BufferCoord := { Char := pos.Char + qlen t0, Line := pos.Line }
  let s1 := if p.1.mUndoing = false then undoEndBlock p.1 else p.1
  { state := s1, newPos := newPos, result := p.2 }

/-- The loop of doInsertTextByLineMode: one round per text line; the string
written is the local Str, which the routine never fills. -/
def insertLineLoop : List QString → SynEdit → Int → SynEdit × Int
  | [], s, result => (s, result)
  | _ :: rest, s, result =>
    let ins := decide (s.mCaretY = docCount s) || s.mInserting
    let s1 := if ins then docInsert s (s.mCaretY - 1) [] else s
    insertLineLoop rest (properSetLine s1 (s1.mCaretY - 1) [] true)
      (if ins then result + 1 else result)

/-- SynEdit::doInsertTextByLineMode. -/
def doInsertTextByLineMode (s : SynEdit) (pos : BufferCoord) (text : List QString) :
    InsertOutcome :=
  let p := insertLineLoop text s 0
  let newPos : BufferCoord := { Char := 1, Line := pos.Line + (text.length : Int) }
  let s1 := if p.1.mUndoing = false then
      undoAddChange p.1 SynChangeReason.crInsert { Char := 1, Line := pos.Line } newPos []
        SynSelectionMode.smLine
    else p.1
  { state := s1, newPos := newPos, result := p.2 }

/-- SynEdit::doInsertText. -/
def doInsertText (s : SynEdit) (pos : BufferCoord) (text : List QString)
    (mode : SynSelectionMode) (startLine0 endLine0 : Int) : SynEdit :=
  if text = [] then s
  else
    let startLine := if startLine0 > endLine0 then endLine0 else startLine0
    let endLine := if startLine0 > endLine0 then startLine0 else endLine0
    if mode = SynSelectionMode.smNormal ∧ collapsedFoldAt s pos.Line
        ∧ pos.Char > qlen (getString s (pos.Line - 1)) + 1 then s
    else
      let o := match mode with
        | SynSelectionMode.smNormal => doInsertTextByNormalMode s pos text
        | SynSelectionMode.smColumn => doInsertTextByColumnMode s pos text startLine endLine
        | SynSelectionMode.smLine => doInsertTextByLineMode s pos text
      internalSetCaretXY o.state o.newPos


/-! ## Commands used by undo and redo -/

/-- SynEdit::setSelectedTextEmpty. -/
def setSelectedTextEmpty (s : SynEdit) : SynEdit :=
  internalSetCaretXY (doDeleteText s (blockBegin s) (blockEnd s) s.mActiveSelectionMode)
    (blockBegin s)

/-- QString::endsWith. -/
def qEndsWith (s t : QString) : Bool := t.reverse.isPrefixOf s.reverse

/-- QString::startsWith. -/
def qStartsWith (s t : QString) : Bool := t.isPrefixOf s

/-- The caret jump of insertLine out of the marker of a collapsed fold. -/
def insertLineFoldJump (s : SynEdit) : SynEdit :=
  if s.mCaretX > qlen (lineText s) + 1 then
    match foldStartAtLine s s.mCaretY with
    | some fr =>
      if fr.collapsed ∧ s.mCaretX > qlen (lineText s ++ s.cfg.foldString) then
        let s1 := if s.mUndoing = false then
            let c := caretXY s
            let a := undoAddChange s SynChangeReason.crCaret c c [] s.mActiveSelectionMode
            undoAddChange a SynChangeReason.crSelection a.mBlockBegin a.mBlockEnd []
              a.mActiveSelectionMode
          else s
        let y := if fr.toLine > docCount s1 then docCount s1 else fr.toLine
        let s2 := { s1 with mCaretY := y }
        { s2 with mCaretX := qlen (lineText s2) + 1 }
      else s
    | none => s
  else s

/-- One of the two extra empty lines of insertLine (between a comment opener
and closer, between braces). -/
def insertLineExtra (s : SynEdit) (addIndent : Bool) : SynEdit × QString :=
  let indent := GetLeftSpacing s (calcIndentSpaces s (s.mCaretY + 1) [] addIndent) true
  let s1 := docInsert s s.mCaretY indent
  (undoAddChange s1 SynChangeReason.crLineBreak (caretXY s1) (caretXY s1) []
      SynSelectionMode.smNormal, indent)

/-- SynEdit::insertLine. -/
def insertLine (s : SynEdit) (moveCaret : Bool) : SynEdit :=
  if s.mReadOnly then s
  else
    let s0 := if s.mUndoing = false then undoBeginBlock s else s
    let s1 := if selAvail s0 then setSelectedTextEmpty s0 else s0
    let s2 := insertLineFoldJump s1
    let leftLineText := qmid (lineText s2) 0 (s2.mCaretX - 1)
    let right0 := qmidFrom (lineText s2) (s2.mCaretX - 1)
    let s3 := properSetLine s2 (s2.mCaretY - 1) leftLineText true
    let notInComment := if s3.cfg.hasHighlighter then
        s3.cfg.notInCommentOf s3.mDocument s3.mCaretY leftLineText else true
    let rightLineText := if s3.cfg.eoAutoIndent then trimLeft right0 else right0
    let indentSpaces := if s3.cfg.eoAutoIndent then
        calcIndentSpaces s3 (s3.mCaretY + 1) rightLineText s3.cfg.eoAutoIndent else 0
    let indent0 := GetLeftSpacing s3 indentSpaces true
    let s4 := docInsert s3 s3.mCaretY (indent0 ++ rightLineText)
    let s5 := if s4.mUndoing = false then
        undoAddChange s4 SynChangeReason.crLineBreak (caretXY s4) (caretXY s4) [rightLineText]
          SynSelectionMode.smNormal
      else s4
    let p6 := if s5.mUndoing = false ∧ notInComment = false
          ∧ qEndsWith leftLineText [Char.ofNat 47, Char.ofNat 42]
          ∧ qStartsWith rightLineText [Char.ofNat 42, Char.ofNat 47] then
        insertLineExtra s5 s5.cfg.eoAutoIndent
      else (s5, indent0)
    let p7 := if p6.1.mUndoing = false ∧ notInComment = true
          ∧ qEndsWith leftLineText [Char.ofNat 123] ∧ qStartsWith rightLineText [Char.ofNat 125] then
        insertLineExtra p6.1 (p6.1.cfg.eoAutoIndent && notInComment)
      else p6
    let s8 := if moveCaret then
        internalSetCaretXY p7.1 { Char := qlen p7.2 + 1, Line := p7.1.mCaretY + 1 }
      else p7.1
    let s9 := updateLastCaretX (setBlockEnd (setBlockBegin s8 (caretXY s8)) (caretXY s8))
    if s9.mUndoing = false then undoEndBlock s9 else s9

/-- SynEdit::doMoveSelUp. -/
def doMoveSelUp (s : SynEdit) : SynEdit :=
  if s.mActiveSelectionMode = SynSelectionMode.smColumn then s
  else if s.mReadOnly = false ∧ docCount s > 0 ∧ (blockBegin s).Line > 1 then
    let origBlockBegin := blockBegin s
    let origBlockEnd := blockEnd s
    if collapsedFoldAt s origBlockEnd.Line then s
    else
      let s1 := if s.mUndoing = false then
          let a := undoBeginBlock s
          let b := undoAddChange a SynChangeReason.crCaret (caretXY a) (caretXY a) []
            SynSelectionMode.smNormal
          let c := undoAddChange b SynChangeReason.crMoveSelectionUp origBlockBegin origBlockEnd []
            SynSelectionMode.smNormal
          undoEndBlock c
        else s
      let str := getString s1 (origBlockBegin.Line - 2)
      let s2 := docDeleteAt s1 (origBlockBegin.Line - 2)
      let s3 := docInsert s2 (origBlockEnd.Line - 1) str
      setCaretAndSelection s3
        { Char := s3.mCaretX, Line := origBlockBegin.Line - 1 }
        { Char := origBlockBegin.Char, Line := origBlockBegin.Line - 1 }
        { Char := origBlockEnd.Char, Line := origBlockEnd.Line - 1 }
  else s

/-- SynEdit::doMoveSelDown. -/
def doMoveSelDown (s : SynEdit) : SynEdit :=
  if s.mActiveSelectionMode = SynSelectionMode.smColumn then s
  else if s.mReadOnly = false ∧ docCount s > 0 ∧ (blockEnd s).Line < docCount s then
    let origBlockBegin := blockBegin s
    let origBlockEnd := blockEnd s
    if collapsedFoldAt s origBlockEnd.Line then s
    else
      let s1 := if s.mUndoing = false then
          let a := undoBeginBlock s
          let b := undoAddChange a SynChangeReason.crCaret (caretXY a) (caretXY a) []
            SynSelectionMode.smNormal
          let c := undoAddChange b SynChangeReason.crMoveSelectionDown origBlockBegin
            origBlockEnd [] SynSelectionMode.smNormal
          undoEndBlock c
        else s
      let str := getString s1 origBlockEnd.Line
      let s2 := docDeleteAt s1 origBlockEnd.Line
      let s3 := docInsert s2 (origBlockBegin.Line - 1) str
      setCaretAndSelection s3
        { Char := s3.mCaretX, Line := origBlockEnd.Line + 1 }
        { Char := origBlockBegin.Char, Line := origBlockBegin.Line + 1 }
        { Char := origBlockEnd.Char, Line := origBlockEnd.Line + 1 }
  else s


/-! ## Undo and redo -/

/-- The switch of doUndoItem on the reason of the popped item. -/
def undoItemBody (s : SynEdit) (Item : SynEditUndoItem) : SynEdit :=
  match Item.changeReason with
  | SynChangeReason.crCaret =>
    internalSetCaretXY
      (redoAddChange s Item.changeReason (caretXY s) (caretXY s) [] Item.changeSelMode)
      Item.changeStartPos
  | SynChangeReason.crLeftTop =>
    let p : BufferCoord := { Char := s.mLeftChar, Line := s.mTopLine }
    let s1 := redoAddChange s Item.changeReason p p [] Item.changeSelMode
    { s1 with mLeftChar := Item.changeStartPos.Char, mTopLine := Item.changeStartPos.Line }
  | SynChangeReason.crSelection =>
    let s1 := redoAddChange s Item.changeReason s.mBlockBegin s.mBlockEnd [] Item.changeSelMode
    setCaretAndSelection s1 (caretXY s1) Item.changeStartPos Item.changeEndPos
  | SynChangeReason.crInsert =>
    let tmpText := getContent s Item.changeStartPos Item.changeEndPos Item.changeSelMode
    let s1 := doDeleteText s Item.changeStartPos Item.changeEndPos Item.changeSelMode
    let s2 := redoAddChange s1 Item.changeReason Item.changeStartPos Item.changeEndPos tmpText
      Item.changeSelMode
    internalSetCaretXY s2 Item.changeStartPos
  | SynChangeReason.crMoveSelectionUp =>
    let s1 := setBlockBegin s
      { Char := Item.changeStartPos.Char, Line := Item.changeStartPos.Line - 1 }
    let s2 := setBlockEnd s1 { Char := Item.changeEndPos.Char, Line := Item.changeEndPos.Line - 1 }
    redoAddChange (doMoveSelDown s2) Item.changeReason Item.changeStartPos Item.changeEndPos
      Item.changeText Item.changeSelMode
  | SynChangeReason.crMoveSelectionDown =>
    let s1 := setBlockBegin s
      { Char := Item.changeStartPos.Char, Line := Item.changeStartPos.Line + 1 }
    let s2 := setBlockEnd s1 { Char := Item.changeEndPos.Char, Line := Item.changeEndPos.Line + 1 }
    redoAddChange (doMoveSelUp s2) Item.changeReason Item.changeStartPos Item.changeEndPos
      Item.changeText Item.changeSelMode
  | SynChangeReason.crDelete =>
    let s1 := doInsertText s Item.changeStartPos Item.changeText Item.changeSelMode
      Item.changeStartPos.Line Item.changeEndPos.Line
    let s2 := internalSetCaretXY s1 Item.changeEndPos
    redoAddChange s2 Item.changeReason Item.changeStartPos Item.changeEndPos Item.changeText
      Item.changeSelMode
  | SynChangeReason.crLineBreak =>
    let str := Item.changeText.headD []
    let s1 := internalSetCaretXY s Item.changeStartPos
    let s2 :=
      if s1.mCaretY > 0 then
        let TmpStr0 := getString s1 (s1.mCaretY - 1)
        let TmpStr := if s1.mCaretX > qlen TmpStr0 + 1 ∧ leftSpaces s1 str = 0 then
            TmpStr0 ++ qfill (s1.mCaretX - 1 - qlen TmpStr0) chSpace
          else TmpStr0
        let a := properSetLine s1 (s1.mCaretY - 1) (TmpStr ++ str) true
        docDeleteAt a a.mCaretY
      else s1
    redoAddChange s2 Item.changeReason Item.changeStartPos Item.changeEndPos []
      Item.changeSelMode
  | _ => s

/-- The work of doUndoItem on the item it has popped: the body runs with
mUndoing and scroll-past-end-of-line on, both are put back when it ends. -/
def undoItemWith (s : SynEdit) (Item : SynEditUndoItem) : SynEdit :=
  let s1 := { s with mUndoing := true }
  let s2 := { setActiveSelectionMode s1 Item.changeSelMode with eoScrollPastEol := true }
  let s3 := undoItemBody s2 Item
  { s3 with mUndoing := false, eoScrollPastEol := s.eoScrollPastEol }

/-- SynEdit::doUndoItem.  With an empty list only mUndoing is set. -/
def doUndoItem (s : SynEdit) : SynEdit :=
  match s.mUndoList.items with
  | [] => { s with mUndoing := true }
  | Item :: _ => undoItemWith { s with mUndoList := s.mUndoList.PopItem } Item

/-- The switch of doRedoItem on the reason of the popped item; a line break is
replayed through the command ecLineBreak, that is insertLine(true). -/
def redoItemBody (s : SynEdit) (Item : SynEditUndoItem) : SynEdit :=
  match Item.changeReason with
  | SynChangeReason.crCaret =>
    internalSetCaretXY
      (undoAddChange s Item.changeReason (caretXY s) (caretXY s) [] s.mActiveSelectionMode)
      Item.changeStartPos
  | SynChangeReason.crLeftTop =>
    let p : BufferCoord := { Char := s.mLeftChar, Line := s.mTopLine }
    let s1 := undoAddChange s Item.changeReason p p [] Item.changeSelMode
    { s1 with mLeftChar := Item.changeStartPos.Char, mTopLine := Item.changeStartPos.Line }
  | SynChangeReason.crSelection =>
    let s1 := undoAddChange s Item.changeReason s.mBlockBegin s.mBlockEnd []
      s.mActiveSelectionMode
    setCaretAndSelection s1 (caretXY s1) Item.changeStartPos Item.changeEndPos
  | SynChangeReason.crMoveSelectionUp =>
    let s1 := setBlockBegin s Item.changeStartPos
    let s2 := setBlockEnd s1 Item.changeEndPos
    undoAddChange (doMoveSelUp s2) Item.changeReason Item.changeStartPos Item.changeEndPos
      Item.changeText Item.changeSelMode
  | SynChangeReason.crMoveSelectionDown =>
    let s1 := setBlockBegin s Item.changeStartPos
    let s2 := setBlockEnd s1 Item.changeEndPos
    undoAddChange (doMoveSelDown s2) Item.changeReason Item.changeStartPos Item.changeEndPos
      Item.changeText Item.changeSelMode
  | SynChangeReason.crInsert =>
    let s1 := setCaretAndSelection s Item.changeStartPos Item.changeStartPos Item.changeStartPos
    let s2 := doInsertText s1 Item.changeStartPos Item.changeText Item.changeSelMode
      Item.changeStartPos.Line Item.changeEndPos.Line
    let s3 := internalSetCaretXY s2 Item.changeEndPos
    undoAddChange s3 Item.changeReason Item.changeStartPos Item.changeEndPos []
      Item.changeSelMode
  | SynChangeReason.crDelete =>
    let s1 := doDeleteText s Item.changeStartPos Item.changeEndPos Item.changeSelMode
    let s2 := undoAddChange s1 Item.changeReason Item.changeStartPos Item.changeEndPos
      Item.changeText Item.changeSelMode
    internalSetCaretXY s2 Item.changeStartPos
  | SynChangeReason.crLineBreak =>
    let CaretPt := Item.changeStartPos
    insertLine (setCaretAndSelection s CaretPt CaretPt CaretPt) true
  | _ => s

/-- The work of doRedoItem on the item it has popped: the body runs with
mUndoing, scroll-past-end-of-line and the inside-redo flag of the undo list on,
all three are put back when it ends. -/
def redoItemWith (s : SynEdit) (Item : SynEditUndoItem) : SynEdit :=
  let s1 := { s with mUndoing := true }
  let s2 := { setActiveSelectionMode s1 Item.changeSelMode with
              eoScrollPastEol := true,
              mUndoList := { s1.mUndoList with insideRedo := true } }
  let s3 := redoItemBody s2 Item
  { s3 with mUndoing := false, eoScrollPastEol := s.eoScrollPastEol,
            mUndoList := { s3.mUndoList with insideRedo := false } }

/-- SynEdit::doRedoItem.  With an empty list only mUndoing is set. -/
def doRedoItem (s : SynEdit) : SynEdit :=
  match s.mRedoList.items with
  | [] => { s with mUndoing := true }
  | Item :: _ => redoItemWith { s with mRedoList := s.mRedoList.PopItem } Item

/-- The loop that skips group breaks in doUndo. -/
def undoSkipBreaks : Nat → SynEdit → SynEdit
  | 0, s => s
  | fuel + 1, s =>
    if s.mUndoList.items ≠ [] ∧ s.mUndoList.LastChangeReason = SynChangeReason.crGroupBreak then
      undoSkipBreaks fuel (doUndoItem s)
    else s

/-- The do-while loop of doUndo. -/
def undoLoop (OldChangeNumber : Int) : Nat → SynChangeReason → SynEdit → SynEdit
  | 0, _, s => s
  | fuel + 1, FLastChange, s =>
    let s1 := doUndoItem s
    match s1.mUndoList.PeekItem with
    | none => s1
    | some Item =>
      if Item.changeNumber = OldChangeNumber
          ∨ (s1.cfg.eoGroupUndo ∧ FLastChange = Item.changeReason) then
        undoLoop OldChangeNumber fuel Item.changeReason s1
      else s1

/-- SynEdit::doUndo; every round of its loops pops one item, so the length of
the undo list bounds them. -/
def doUndo (s : SynEdit) : SynEdit :=
  if s.mReadOnly then s
  else
    let s1 :=
      match s.mUndoList.items with
      | Item :: _ =>
        if Item.changeReason = SynChangeReason.crGroupBreak then
          let r1 := { s.mRedoList with blockChangeNumber := Item.changeNumber }.AddGroupBreak
          { s with mUndoList := s.mUndoList.PopItem,
                   mRedoList := { r1 with blockChangeNumber := s.mRedoList.blockChangeNumber } }
        else s
      | [] => s
    match s1.mUndoList.PeekItem with
    | none => s1
    | some Item =>
      let fuel := s1.mUndoList.items.length + 1
      let s2 := { s1 with mRedoList := { s1.mRedoList with blockChangeNumber := Item.changeNumber } }
      let s3 := if s2.mUndoList.LastChangeReason = SynChangeReason.crGroupBreak then
          undoSkipBreaks fuel s2 else s2
      let s4 := undoLoop Item.changeNumber fuel s3.mUndoList.LastChangeReason s3
      { s4 with mRedoList := { s4.mRedoList with blockChangeNumber := s1.mRedoList.blockChangeNumber } }

/-- The loop that skips group breaks in doRedo. -/
def redoSkipBreaks : Nat → SynEdit → SynEdit
  | 0, s => s
  | fuel + 1, s =>
    if s.mRedoList.items ≠ [] ∧ s.mRedoList.LastChangeReason = SynChangeReason.crGroupBreak then
      redoSkipBreaks fuel (doRedoItem s)
    else s

/-- The do-while loop of doRedo. -/
def redoLoop (OldChangeNumber : Int) : Nat → SynChangeReason → SynEdit → SynEdit
  | 0, _, s => s
  | fuel + 1, FLastChange, s =>
    let s1 := doRedoItem s
    match s1.mRedoList.PeekItem with
    | none => s1
    | some Item =>
      if Item.changeNumber = OldChangeNumber
          ∨ (s1.cfg.eoGroupUndo ∧ FLastChange = Item.changeReason) then
        redoLoop OldChangeNumber fuel Item.changeReason s1
      else s1

/-- SynEdit::doRedo. -/
def doRedo (s : SynEdit) : SynEdit :=
  if s.mReadOnly then s
  else
    match s.mRedoList.PeekItem with
    | none => s
    | some Item =>
      let fuel := s.mRedoList.items.length + 1
      let s2 := { s with mUndoList := { s.mUndoList with blockChangeNumber := Item.changeNumber } }
      let s3 := if s2.mRedoList.LastChangeReason = SynChangeReason.crGroupBreak then
          redoSkipBreaks fuel s2 else s2
      let s4 := redoLoop Item.changeNumber fuel s3.mRedoList.LastChangeReason s3
      let s5 := { s4 with mUndoList :=
          { s4.mUndoList with blockChangeNumber := s.mUndoList.blockChangeNumber } }
      match s5.mRedoList.items with
      | Top :: _ =>
        if Top.changeReason = SynChangeReason.crGroupBreak then
          let u1 := { s5.mUndoList with blockChangeNumber := Top.changeNumber }.AddGroupBreak
          updateModifiedStatus
            { s5 with mRedoList := s5.mRedoList.PopItem,
                      mUndoList := { u1 with blockChangeNumber := s5.mUndoList.blockChangeNumber } }
        else s5
      | [] => s5


/-! ## Editing commands -/

/-- Modelled from the spec: the helper splitStrings (its body is not in
SynEdit.cpp), cutting a text into lines at line feeds and carriage returns; cur
is the line being read, in reverse, afterCR tells that the last character was a
carriage return. -/
def splitStringsLoop : List Char → QString → Bool → List QString
  | [], cur, _ => [cur.reverse]
  | c :: rest, cur, afterCR =>
    if c = Char.ofNat 10 then
      if afterCR then splitStringsLoop rest cur false
      else cur.reverse :: splitStringsLoop rest [] false
    else if c = Char.ofNat 13 then cur.reverse :: splitStringsLoop rest [] true
    else splitStringsLoop rest (c :: cur) false

/-- The helper splitStrings. -/
def splitStrings (text : QString) : List QString := splitStringsLoop text [] false

/-- SynEdit::setSelTextPrimitiveEx. -/
def setSelTextPrimitiveEx (s : SynEdit) (mode : SynSelectionMode) (text : List QString) :
    SynEdit :=
  let startPos := blockBegin s
  let endPos := blockEnd s
  let groupUndo := selAvail s && !s.mUndoing && decide (text ≠ [])
  let s1 :=
    if selAvail s then
      let a := if groupUndo then undoBeginBlock s else s
      let b := doDeleteText a startPos endPos a.mActiveSelectionMode
      if mode = SynSelectionMode.smColumn then
        if charToColumn b startPos.Line startPos.Char < charToColumn b endPos.Line endPos.Char then
          internalSetCaretXY b startPos
        else internalSetCaretXY b endPos
      else internalSetCaretXY b startPos
    else s
  let s2 := if text ≠ [] then
      doInsertText s1 (caretXY s1) text mode s1.mBlockBegin.Line s1.mBlockEnd.Line
    else s1
  if groupUndo then undoEndBlock s2 else s2

/-- SynEdit::setSelTextPrimitive. -/
def setSelTextPrimitive (s : SynEdit) (text : List QString) : SynEdit :=
  setSelTextPrimitiveEx s s.mActiveSelectionMode text

/-- SynEdit::doSetSelText. -/
def doSetSelText (s : SynEdit) (value : QString) : SynEdit :=
  let blockBeginned := selAvail s
  let s1 := if blockBeginned then undoBeginBlock s else s
  let s2 := { s1 with mBlockBegin := blockBegin s1, mBlockEnd := blockEnd s1 }
  let s3 := setSelTextPrimitive s2 (splitStrings value)
  if blockBeginned then undoEndBlock s3 else s3

/-- The forward loop of setSelLength: the end position after x characters more,
a line break counting for two. -/
def selLengthForward (s : SynEdit) : Nat → Int → Int → Int × Int
  | 0, x, y => (x, y)
  | fuel + 1, x, y =>
    if y ≤ docCount s then
      let len := qlen (getString s (y - 1))
      if x ≤ len + 2 then (if x = len + 2 then len + 1 else x, y)
      else selLengthForward s fuel (x - (len + 2)) (y + 1)
    else (x, y)

/-- The backward loop of setSelLength. -/
def selLengthBackward (s : SynEdit) : Nat → Int → Int → Int × Int
  | 0, x, y => (x, y)
  | fuel + 1, x, y =>
    if y ≥ 1 then
      if x ≥ 0 then (if x = 0 then 1 else x, y)
      else selLengthBackward s fuel (x + (qlen (getString s (y - 2)) + 2)) (y - 1)
    else (x, y)

/-- SynEdit::setSelLength.  For a negative length the member mBlockBegin is
handed to setCaretAndSelection by reference as the selection end, so
setBlockEnd reads what setBlockBegin has just stored there. -/
def setSelLength (s : SynEdit) (Value : Int) : SynEdit :=
  if s.mBlockBegin.Line > docCount s ∨ s.mBlockBegin.Line ≤ 0 then s
  else
    let p := if Value ≥ 0 then
        selLengthForward s (s.mDocument.length + 1) (s.mBlockBegin.Char + Value) s.mBlockBegin.Line
      else
        selLengthBackward s (s.mDocument.length + 1) (s.mBlockBegin.Char + Value) s.mBlockBegin.Line
    let q : BufferCoord := if p.2 > docCount s then
        { Char := qlen (getString s (docCount s - 1)) + 1, Line := docCount s }
      else { Char := p.1, Line := p.2 }
    if Value ≥ 0 then setCaretAndSelection s q s.mBlockBegin q
    else
      let s1 := setBlockBegin (internalSetCaretXY s q) q
      { setBlockEnd s1 s1.mBlockBegin with mActiveSelectionMode := s.mActiveSelectionMode }

/-- SynEdit::isIdentChar. -/
def isIdentChar (s : SynEdit) (ch : Char) : Bool :=
  if s.cfg.hasHighlighter then s.cfg.highlighterIsIdentChar ch
  else ch = Char.ofNat 95 || (48 ≤ ch.toNat && ch.toNat ≤ 57) || (97 ≤ ch.toNat && ch.toNat ≤ 122)
    || (65 ≤ ch.toNat && ch.toNat ≤ 90)

/-- The re-indentation of doAddChar after a colon or a star typed at the end of
a line. -/
def reindentLineEnd (s : SynEdit) (AChar : Char) (oldCaretX oldCaretY : Int) : SynEdit :=
  let line := getString s (oldCaretY - 1)
  if qlen line ≤ oldCaretX then
    let indentSpaces := calcIndentSpaces s oldCaretY (line ++ [AChar]) true
    if indentSpaces ≠ leftSpaces s line then
      let newLine := GetLeftSpacing s indentSpaces true ++ trimLeft line
      let s1 := docPutString s (oldCaretY - 1) newLine true
      let s2 := internalSetCaretXY s1 { Char := qlen newLine + 2, Line := oldCaretY }
      let s3 := setBlockEnd (setBlockBegin s2 (caretXY s2)) (caretXY s2)
      let s4 := undoAddChange s3 SynChangeReason.crDelete { Char := 1, Line := oldCaretY }
        { Char := qlen line + 1, Line := oldCaretY } [line] SynSelectionMode.smNormal
      undoAddChange s4 SynChangeReason.crInsert { Char := 1, Line := oldCaretY }
        { Char := qlen newLine + 1, Line := oldCaretY } [] SynSelectionMode.smNormal
    else s
  else s

/-- The re-indentation of doAddChar after a brace or a hash typed as the first
non-blank character of a line. -/
def reindentLineStart (s : SynEdit) (AChar : Char) (oldCaretX oldCaretY : Int) : SynEdit :=
  let left := qmid (getString s (oldCaretY - 1)) 0 (oldCaretX - 1)
  if stringIsBlank left then
    let indentSpaces := calcIndentSpaces s oldCaretY [AChar] true
    if indentSpaces ≠ leftSpaces s left then
      let right := qmidFrom (getString s (oldCaretY - 1)) (oldCaretX - 1)
      let newLeft := GetLeftSpacing s indentSpaces true
      let s1 := docPutString s (oldCaretY - 1) (newLeft ++ right) true
      let s2 := internalSetCaretXY s1 { Char := qlen newLeft + 2, Line := oldCaretY }
      let s3 := setBlockEnd (setBlockBegin s2 (caretXY s2)) (caretXY s2)
      let s4 := undoAddChange s3 SynChangeReason.crDelete { Char := 1, Line := oldCaretY }
        { Char := qlen left + 1, Line := oldCaretY } [left] SynSelectionMode.smNormal
      undoAddChange s4 SynChangeReason.crInsert { Char := 1, Line := oldCaretY }
        { Char := qlen newLeft + 1, Line := oldCaretY } [[]] SynSelectionMode.smNormal
    else s
  else s

/-- SynEdit::doAddChar. -/
def doAddChar (s : SynEdit) (AChar : Char) : SynEdit :=
  if s.mReadOnly then s
  else if s.cfg.charIsPrint AChar = false ∧ AChar ≠ chTab then s
  else
    let s1 :=
      if s.mInserting = false ∧ selAvail s = false then
        match s.mActiveSelectionMode with
        | SynSelectionMode.smColumn =>
          let swap := decide (s.mBlockBegin.Line > s.mBlockEnd.Line)
          let start := if swap then s.mBlockEnd else s.mBlockBegin
          let stop := if swap then s.mBlockBegin else s.mBlockEnd
          setBlockEnd (setBlockBegin s { Char := start.Char + 1, Line := start.Line }) stop
        | SynSelectionMode.smLine => s
        | SynSelectionMode.smNormal => setSelLength s 1
      else s
    if isIdentChar s1 AChar then doSetSelText s1 [AChar]
    else if s1.cfg.charIsSpace AChar then doSetSelText (undoAddGroupBreak s1) [AChar]
    else
      let s2 := doSetSelText (undoBeginBlock s1) [AChar]
      let oldCaretX := s2.mCaretX - 1
      let oldCaretY := s2.mCaretY
      let s3 :=
        if s2.mActiveSelectionMode = SynSelectionMode.smNormal ∧ s2.cfg.eoAutoIndent
            ∧ s2.cfg.hasHighlighter ∧ s2.cfg.isCppHighlighter ∧ oldCaretY ≤ docCount s2 then
          if AChar = Char.ofNat 58 ∨ AChar = Char.ofNat 42 then
            reindentLineEnd s2 AChar oldCaretX oldCaretY
          else if AChar = Char.ofNat 123 ∨ AChar = Char.ofNat 125 ∨ AChar = Char.ofNat 35 then
            reindentLineStart s2 AChar oldCaretX oldCaretY
          else s2
        else s2
      undoEndBlock s3


/-- SynEdit::setLineText. -/
def setLineText (s : SynEdit) (t : QString) : SynEdit :=
  if s.mCaretY ≥ 1 ∧ s.mCaretY ≤ docCount s then docPutString s (s.mCaretY - 1) t true else s

/-- The column-mode start of doDeleteLastChar and doDeleteCurrentChar: an
empty selection is widened by one character (to the left when dLeft is true,
else to the right) and the selection is deleted. -/
def deleteCharColumnMode (s : SynEdit) (dLeft : Bool) : SynEdit :=
  let start := blockBegin s
  let stop := blockEnd s
  let s1 :=
    if selAvail s = false then
      if dLeft then
        setBlockEnd (setBlockBegin s { Char := start.Char - 1, Line := start.Line }) stop
      else setBlockEnd (setBlockBegin s start) { Char := stop.Char + 1, Line := stop.Line }
    else s
  setSelectedTextEmpty s1

/-- The closing step of doDeleteLastChar and doDeleteCurrentChar: the delete
item is recorded when the recorded end differs from the caret. -/
def recordCharDelete (s : SynEdit) (Caret : BufferCoord) (helper : List QString)
    (shouldAddGroupBreak : Bool) : SynEdit :=
  if Caret.Char ≠ s.mCaretX ∨ Caret.Line ≠ s.mCaretY then
    let s1 := undoAddChange s SynChangeReason.crDelete (caretXY s) Caret helper
      s.mActiveSelectionMode
    if shouldAddGroupBreak then undoAddGroupBreak s1 else s1
  else s

/-- SynEdit::doDeleteLastChar (backspace). -/
def doDeleteLastChar (s : SynEdit) : SynEdit :=
  if s.mReadOnly then s
  else if s.mActiveSelectionMode = SynSelectionMode.smColumn then deleteCharColumnMode s true
  else if selAvail s then setSelectedTextEmpty s
  else
    let Temp := lineText s
    let Len := qlen Temp
    let Caret := caretXY s
    if s.mCaretX > Len + 1 then s
    else if s.mCaretX = 1 then
      if s.mCaretY > 1 then
        let s1 := internalSetCaretY s (s.mCaretY - 1)
        let s2 := internalSetCaretX s1 (qlen (getString s1 (s1.mCaretY - 1)) + 1)
        let s3 := docDeleteAt s2 s2.mCaretY
        let Temp1 := if s3.cfg.eoTrimTrailingSpaces then trimRight Temp else Temp
        let s4 := setLineText s3 (lineText s3 ++ Temp1)
        recordCharDelete s4 Caret [[], []] true
      else recordCharDelete s Caret [] false
    else
      let caretColumn := charToColumn s s.mCaretY s.mCaretX
      let SpaceCount1 := leftSpaces s Temp
      if SpaceCount1 = caretColumn - 1 then
        let SpaceCount2 := max 0 (SpaceCount1 - s.cfg.mTabWidth)
        let newCaretX := columnToChar s s.mCaretY (SpaceCount2 + 1)
        let helper := [qmid Temp (newCaretX - 1) (s.mCaretX - newCaretX)]
        let s1 := properSetLine s (s.mCaretY - 1)
          (qremove Temp (newCaretX - 1) (s.mCaretX - newCaretX)) true
        recordCharDelete (internalSetCaretX s1 newCaretX) Caret helper false
      else
        let s1 := internalSetCaretX s (s.mCaretX - 1)
        let ch := qat Temp (s1.mCaretX - 1)
        let s2 := properSetLine s1 (s1.mCaretY - 1) (qremove Temp (s1.mCaretX - 1) 1) true
        recordCharDelete s2 Caret [[ch]] (decide (ch = chSpace ∨ ch = chTab))

/-- SynEdit::doDeleteCurrentChar (delete key).  The local Caret has no
initial value in the source; the model starts it at (0, 0). -/
def doDeleteCurrentChar (s : SynEdit) : SynEdit :=
  if s.mReadOnly then s
  else if s.mActiveSelectionMode = SynSelectionMode.smColumn then deleteCharColumnMode s false
  else if selAvail s then setSelectedTextEmpty s
  else
    let s0 := updateLastCaretX s
    let Temp := lineText s0
    let Len := qlen Temp
    if s0.mCaretX > Len + 1 then s0
    else if s0.mCaretX ≤ Len then
      let ch := qat Temp (s0.mCaretX - 1)
      let s1 := properSetLine s0 (s0.mCaretY - 1) (qremove Temp (s0.mCaretX - 1) 1) true
      recordCharDelete s1 { Char := s0.mCaretX + 1, Line := s0.mCaretY } [[ch]]
        (decide (ch = chSpace ∨ ch = chTab))
    else if s0.mCaretY < docCount s0 then
      let s1 := properSetLine s0 (s0.mCaretY - 1) (Temp ++ getString s0 s0.mCaretY) true
      let s2 := docDeleteAt s1 s1.mCaretY
      recordCharDelete s2 { Char := 1, Line := s0.mCaretY + 1 } [[], []] true
    else recordCharDelete s0 { Char := 0, Line := 0 } [] false

/-- SynEdit::onLinesCleared. -/
def onLinesCleared (s : SynEdit) : SynEdit :=
  let s1 := if s.cfg.mUseCodeFolding then { s with mAllFoldRanges := [] } else s
  let s2 := { s1 with mUndoList := s1.mUndoList.Clear, mRedoList := s1.mRedoList.Clear }
  let s3 := setCaretXY s2 { Char := 1, Line := 1 }
  { s3 with mTopLine := 1, mLeftChar := 1 }

/-- SynEdit::clearAll; SynDocument::clear empties the document and raises the
cleared notification. -/
def clearAll (s : SynEdit) : SynEdit :=
  let s1 := onLinesCleared { s with mDocument := [] }
  setModified { s1 with mUndoList := s1.mUndoList.Clear, mRedoList := s1.mRedoList.Clear } false

/-- SynEdit::moveCaretAndSelection. -/
def moveCaretAndSelection (s : SynEdit) (ptBefore ptAfter : BufferCoord) (isSelection : Bool) :
    SynEdit :=
  let s1 := if s.cfg.eoGroupUndo ∧ s.mUndoList.items ≠ [] then undoAddGroupBreak s else s
  let s2 :=
    if isSelection then
      setBlockEnd (if selAvail s1 = false then setBlockBegin s1 ptBefore else s1) ptAfter
    else setBlockBegin s1 ptAfter
  internalSetCaretXY s2 ptAfter

/-- SynEdit::displayLineText. -/
def displayLineText (s : SynEdit) : QString :=
  if s.mCaretY ≥ 1 ∧ s.mCaretY ≤ docCount s then
    if collapsedFoldAt s s.mCaretY then getString s (s.mCaretY - 1) ++ s.cfg.foldString
    else getString s (s.mCaretY - 1)
  else []

/-- SynEdit::moveCaretToLineEnd. -/
def moveCaretToLineEnd (s : SynEdit) (isSelection : Bool) : SynEdit :=
  let vText := displayLineText s
  let vNewX :=
    if s.cfg.eoEnhanceEndKey then
      let vLastNonBlank := qlen (trimRight vText)
      if s.mCaretX ≤ vLastNonBlank ∨ s.mCaretX = qlen vText + 1 then vLastNonBlank + 1
      else qlen vText + 1
    else qlen vText + 1
  moveCaretAndSelection s (caretXY s) { Char := vNewX, Line := s.mCaretY } isSelection

/-- The editor commands that are embedded (a part of the enumeration
SynEditorCommand). -/
inductive SynEditorCommand where
  | ecDeleteLastChar
  | ecDeleteChar
  | ecMoveSelUp
  | ecMoveSelDown
  | ecClearAll
  | ecInsertLine
  | ecLineBreak
  | ecLineBreakAtEnd
  | ecChar
  | ecUndo
  | ecRedo
deriving DecidableEq, Repr

/-- SynEdit::ExecuteCommand on the embedded commands; AChar is the character
payload of ecChar. -/
def ExecuteCommand (s : SynEdit) (Command : SynEditorCommand) (AChar : Char) : SynEdit :=
  match Command with
  | SynEditorCommand.ecDeleteLastChar => doDeleteLastChar s
  | SynEditorCommand.ecDeleteChar => doDeleteCurrentChar s
  | SynEditorCommand.ecMoveSelUp => doMoveSelUp s
  | SynEditorCommand.ecMoveSelDown => doMoveSelDown s
  | SynEditorCommand.ecClearAll => clearAll s
  | SynEditorCommand.ecInsertLine => insertLine s false
  | SynEditorCommand.ecLineBreak => insertLine s true
  | SynEditorCommand.ecLineBreakAtEnd =>
    let s1 := undoBeginBlock s
    let s2 := undoAddChange s1 SynChangeReason.crCaret (caretXY s1) (caretXY s1) []
      s1.mActiveSelectionMode
    undoEndBlock (insertLine (moveCaretToLineEnd s2 false) true)
  | SynEditorCommand.ecChar => doAddChar s AChar
  | SynEditorCommand.ecUndo => if s.mReadOnly = false then doUndo s else s
  | SynEditorCommand.ecRedo => if s.mReadOnly = false then doRedo s else s


/-! ## Fold commands and fold scan -/

/-- SynEdit::collapse on the record behind arena index i. -/
def collapseAt (s : SynEdit) (i : Nat) : SynEdit :=
  match s.foldArena.get? i with
  | none => s
  | some r =>
    let r1 : SynEditFoldRange := { r with linesCollapsed := r.toLine - r.fromLine, collapsed := true }
    let s1 := { s with foldArena := s.foldArena.set i r1 }
    if s1.mCaretY > r.fromLine ∧ s1.mCaretY ≤ r.toLine then
      setCaretXY s1 { Char := qlen (getString s1 (r.fromLine - 1)) + 1, Line := r.fromLine }
    else s1

/-- SynEdit::rowToLine. -/
def rowToLine (s : SynEdit) (aRow : Int) : Int :=
  if s.cfg.mUseCodeFolding then foldRowToLine s aRow else aRow

/-- SynEdit::lineToRow. -/
def lineToRow (s : SynEdit) (aLine : Int) : Int :=
  (bufferToDisplayPos s { Char := 1, Line := aLine }).Row

/-- The loop of collapsedFoldStartAtLine over the ranges it visits. -/
def collapsedFoldStartAtLineLoop (Line : Int) : List SynEditFoldRange → Option SynEditFoldRange
  | [] => none
  | r :: rest =>
    if r.fromLine = Line ∧ r.collapsed then some r
    else if r.fromLine > Line then none
    else collapsedFoldStartAtLineLoop Line rest

/-- SynEdit::collapsedFoldStartAtLine: the loop runs while i < count() - 1, so
the last range of the list is not looked at. -/
def collapsedFoldStartAtLine (s : SynEdit) (Line : Int) : Option SynEditFoldRange :=
  collapsedFoldStartAtLineLoop Line (s.mAllFoldRanges.dropLast.filterMap (foldAt s))

/-- What the fold scan reads from outside SynEdit.cpp: for each configured fold
region whether its symbols are the braces, the cached counts of unmatched
braces of each line (SynDocument::leftBraces and rightBraces, 0-based line),
and for a region with other symbols the outcome of the token walk over a
line: some true when an opening symbol decides (no closing symbol after it on
the line), some false when a closing symbol decides, none otherwise. -/
structure FoldScanInput where
  regionUsesBraces : List Bool
  leftBraces : Int → Int
  rightBraces : Int → Int
  tokenEvent : Nat → Int → Option Bool

/-- The state of a fold scan: the editor, whose arena takes the new records,
the list TopFoldRanges when it is a list of its own (none when the scan fills
mAllFoldRanges itself), and the innermost open range Parent. -/
structure FoldScan where
  ed : SynEdit
  temp : Option (List Nat)
  Parent : Option Nat

/-- The closing step of findSubFoldRange: the innermost open range ends on
this line and its parent becomes the innermost open range. -/
def scanClose (st : FoldScan) (Line : Int) : FoldScan :=
  match st.Parent with
  | none => st
  | some p =>
    match st.ed.foldArena.get? p with
    | none => st
    | some r =>
      let r1 : SynEditFoldRange := { r with toLine := Line + 1 }
      let ed1 := { st.ed with foldArena := st.ed.foldArena.set p r1 }
      { st with ed := ed1, Parent := r.parent }

/-- Modelled from the spec: the opening step of findSubFoldRange through
SynEditFoldRanges::addByParts, which makes an open range that starts and ends
on this line, parented to the innermost open range, and puts it at the end of
TopFoldRanges; the new range becomes the innermost open range. -/
def scanOpen (st : FoldScan) (Line : Int) : FoldScan :=
  let idx := st.ed.foldArena.length
  let r : SynEditFoldRange :=
    { fromLine := Line + 1, toLine := Line + 1, collapsed := false, linesCollapsed := 0,
      parent := st.Parent }
  match st.temp with
  | some t =>
    let ed1 := { st.ed with foldArena := st.ed.foldArena ++ [r] }
    { ed := ed1, temp := some (t ++ [idx]), Parent := some idx }
  | none =>
    let ed1 := { st.ed with foldArena := st.ed.foldArena ++ [r],
                            mAllFoldRanges := st.ed.mAllFoldRanges ++ [idx] }
    { ed := ed1, temp := none, Parent := some idx }

/-- The work of findSubFoldRange on one line that no collapsed fold skips: for
the brace region one closing step per unmatched closing brace, then one
opening step per unmatched opening brace; for another region the step that
the token walk decides. -/
def scanLine (inp : FoldScanInput) (FoldIndex : Nat) (useBraces : Bool) (st : FoldScan)
    (Line : Int) : FoldScan :=
  if useBraces then
    let st1 := Nat.repeat (fun x => scanClose x Line) (inp.rightBraces Line).toNat st
    Nat.repeat (fun x => scanOpen x Line) (inp.leftBraces Line).toNat st1
  else
    match inp.tokenEvent FoldIndex Line with
    | some true => scanOpen st Line
    | some false => scanClose st Line
    | none => st

/-- The line loop of findSubFoldRange (Line is 0-based); a collapsed fold that
starts on the line is skipped up to its last line.  The answer is none when
the loop has not ended after fuel rounds. -/
def findSubFoldRangeLoop (inp : FoldScanInput) (FoldIndex : Nat) (useBraces : Bool) :
    Nat → Int → FoldScan → Option FoldScan
  | 0, _, _ => none
  | fuel + 1, Line, st =>
    if Line < docCount st.ed then
      match collapsedFoldStartAtLine st.ed (Line + 1) with
      | some cf => findSubFoldRangeLoop inp FoldIndex useBraces fuel cf.toLine st
      | none =>
        findSubFoldRangeLoop inp FoldIndex useBraces fuel (Line + 1)
          (scanLine inp FoldIndex useBraces st Line)
    else some st

/-- SynEdit::findSubFoldRange for the fold region FoldIndex; nothing happens
without a highlighter.  The fuel is one round per line and one more. -/
def findSubFoldRange (inp : FoldScanInput) (st : FoldScan) (FoldIndex : Nat) : Option FoldScan :=
  if st.ed.cfg.hasHighlighter = false then some st
  else
    findSubFoldRangeLoop inp FoldIndex (inp.regionUsesBraces.getD FoldIndex false)
      ((docCount st.ed).toNat + 1) 0 st

/-- The loop of scanForFoldRanges over the fold regions; each call starts
without a parent. -/
def scanForFoldRangesLoop (inp : FoldScanInput) : List Nat → FoldScan → Option FoldScan
  | [], st => some st
  | i :: rest, st =>
    match findSubFoldRange inp { st with Parent := none } i with
    | none => none
    | some st1 => scanForFoldRangesLoop inp rest st1

/-- SynEdit::scanForFoldRanges into the list temp (none: into mAllFoldRanges). -/
def scanForFoldRanges (inp : FoldScanInput) (s : SynEdit) (temp : Option (List Nat)) :
    Option FoldScan :=
  scanForFoldRangesLoop inp (List.range inp.regionUsesBraces.length)
    { ed := s, temp := temp, Parent := none }

/-- The test of the first loop of rescanForFoldRanges: a range stays when it
is collapsed or has a collapsed ancestor. -/
def keepsOnRescan (s : SynEdit) (i : Nat) : Bool :=
  match foldAt s i with
  | some r => r.collapsed || parentCollapsed s r
  | none => true

/-- The test of the combining loop of rescanForFoldRanges: the new range t and
the old range j have the same first and last line and j is collapsed. -/
def rescanMatches (s : SynEdit) (t j : Nat) : Bool :=
  match foldAt s t, foldAt s j with
  | some a, some b => decide (a.fromLine = b.fromLine) && decide (a.toLine = b.toLine) && b.collapsed
  | _, _ => false

/-- SynEdit::rescanForFoldRanges; none when a scan does not end. -/
def rescanForFoldRanges (inp : FoldScanInput) (s : SynEdit) : Option SynEdit :=
  let kept := s.mAllFoldRanges.filter (keepsOnRescan s)
  let s1 := { s with mAllFoldRanges := kept }
  if kept.length > 0 then
    match scanForFoldRanges inp s1 (some []) with
    | none => none
    | some st =>
      let merged := (st.temp.getD []).map (fun t =>
        match kept.find? (fun j => rescanMatches st.ed t j) with
        | some j => j
        | none => t)
      some { st.ed with mAllFoldRanges := merged }
  else
    match scanForFoldRanges inp s1 none with
    | none => none
    | some st => some st.ed



/-! ## Search and replace -/

/-- The answers of the decision callback of searchReplace. -/
inductive SynSearchAction where
  | Replace
  | ReplaceAll
  | Skip
  | Exit
deriving DecidableEq, Repr

/-- The search options that searchReplace reads. -/
structure SynSearchOptions where
  ssoBackwards : Bool
  ssoEntireScope : Bool
  ssoSelectedOnly : Bool
  ssoWrapAround : Bool
deriving DecidableEq, Repr

/-- Modelled from the spec: the search engine behind PSynSearchBase (its class
is not in SynEdit.cpp).  For the options and the pattern it was given, findAll
answers the matches of a line in the order of their index, each as its 0-based
offset and its length; replace answers the text that takes the place of an
occurrence. -/
structure SynSearchBase where
  findAll : SynSearchOptions → QString → QString → List (Int × Int)
  replace : QString → QString → QString

/-- What searchReplace does, in the order in which it does it: findAll on a
line, a match that passed the range filter (line, char, length), the decision
callback with its answer, BeginBlock of the batch, doSetSelText on a match
(line, char), the wrap-around, EndBlock of the batch. -/
inductive SearchEvent where
  | lineSearched (line : Int)
  | matchFound (line nFound nSearchLen : Int)
  | asked (action : SynSearchAction)
  | blockOpened
  | replaced (line nFound : Int)
  | wrapped
  | blockClosed
deriving DecidableEq, Repr

/-- The local variables of searchReplace together with the editor; asked
counts the calls of the decision callback, trace lists the events so far. -/
structure SearchRun where
  ed : SynEdit
  ptCurrent : BufferCoord
  ptStart : BufferCoord
  ptEnd : BufferCoord
  bFromCursor : Bool
  result : Int
  dobatchReplace : Bool
  searchAction : SynSearchAction
  asked : Nat
  trace : List SearchEvent

/-- What a call of searchReplace leaves: the returned count, the editor and
the events of the call. -/
structure SearchOutcome where
  result : Int
  ed : SynEdit
  trace : List SearchEvent

/-- Modelled from the spec: SynDocument::lineBreak, taken as a line feed. -/
def lineBreak : QString := [Char.ofNat 10]

/-- SynEdit::selText. -/
def selText (s : SynEdit) : QString :=
  if selAvail s = false then []
  else
    let ColFrom := (blockBegin s).Char
    let First := (blockBegin s).Line - 1
    let ColTo := (blockEnd s).Char
    let Last := (blockEnd s).Line - 1
    match s.mActiveSelectionMode with
    | SynSelectionMode.smNormal =>
      let str := getString s Last
      let whole : Option SynEditFoldRange :=
        match foldStartAtLine s (blockEnd s).Line with
        | some fr =>
          if fr.collapsed ∧ ColTo > qlen str ∧ ColTo > qlen (str ++ s.cfg.foldString) then some fr
          else none
        | none => none
      let Last1 := match whole with
        | some fr => fr.toLine - 1
        | none => Last
      let ColTo1 := match whole with
        | some _ => qlen (getString s Last1) + 1
        | none => ColTo
      if First = Last1 then qmid (getString s First) (ColFrom - 1) (ColTo1 - ColFrom)
      else
        qmidFrom (getString s First) (ColFrom - 1) ++ lineBreak
          ++ ((intRange (First + 1) (Last1 - 1)).map (fun i => getString s i ++ lineBreak)).flatten
          ++ qleft (getString s Last1) (ColTo1 - 1)
    | SynSelectionMode.smColumn =>
      let c1 := charToColumn s (blockBegin s).Line (blockBegin s).Char
      let c2 := charToColumn s (blockEnd s).Line (blockEnd s).Char
      let colFrom := if c1 > c2 then c2 else c1
      let colTo := if c1 > c2 then c1 else c2
      let first := min (blockBegin s).Line (blockEnd s).Line
      let last := max (blockBegin s).Line (blockEnd s).Line
      ((intRange first last).map (fun i =>
        let l := columnToChar s i colFrom
        let r := columnToChar s i (colTo - 1) + 1
        qmid (getString s (i - 1)) (l - 1) (r - l) ++ (if i < last then lineBreak else []))).flatten
    | SynSelectionMode.smLine =>
      ((intRange First (Last - 1)).map (fun i => getString s i ++ lineBreak)).flatten
        ++ getString s Last ++ (if Last < docCount s - 1 then lineBreak else [])

/-- The range filter of searchReplace for a match at char first that ends
before char last. -/
def isInValidSearchRange (st : SearchRun) (opts : SynSearchOptions) (first last : Int) : Bool :=
  if st.ed.mActiveSelectionMode = SynSelectionMode.smNormal ∨ opts.ssoSelectedOnly = false then
    !(decide ((st.ptCurrent.Line = st.ptStart.Line ∧ first < st.ptStart.Char)
        ∨ (st.ptCurrent.Line = st.ptEnd.Line ∧ last > st.ptEnd.Char)))
  else if st.ed.mActiveSelectionMode = SynSelectionMode.smColumn then
    decide ((first ≥ st.ptStart.Char ∧ last ≤ st.ptEnd.Char)
      ∨ st.ptEnd.Char - st.ptStart.Char < 1)
  else true

/-- The replacement of the selected match in searchReplace: the batch is opened
on the first ReplaceAll, auto-indent is off while doSetSelText runs, and in a
forward search the caret, the offset of the later matches of the line and the
end of the range follow the change of length.  The answer is the new state and
the new offset. -/
def searchDoReplace (bBackward : Bool) (st : SearchRun)
    (replaceText : QString) (nFound nSearchLen iResultOffset : Int) : SearchRun × Int :=
  let opening := !st.dobatchReplace && decide (st.searchAction = SynSearchAction.ReplaceAll)
  let ed0 := if opening then undoBeginBlock st.ed else st.ed
  let trace0 := if opening then st.trace ++ [SearchEvent.blockOpened] else st.trace
  let oldAutoIndent := ed0.cfg.eoAutoIndent
  let ed1 := doSetSelText { ed0 with cfg := { ed0.cfg with eoAutoIndent := false } } replaceText
  let nReplaceLen := ed1.mCaretX - nFound
  let ed2 := if bBackward then ed1 else internalSetCaretX ed1 (nFound + nReplaceLen)
  let changed := !bBackward && decide (nSearchLen ≠ nReplaceLen)
  let moveEnd := changed && decide (ed2.mActiveSelectionMode ≠ SynSelectionMode.smColumn)
    && decide (ed2.mCaretY = st.ptEnd.Line)
  let ptEnd1 : BufferCoord :=
    if moveEnd then { st.ptEnd with Char := st.ptEnd.Char + (nReplaceLen - nSearchLen) }
    else st.ptEnd
  let ed3 := if moveEnd then setBlockEnd ed2 ptEnd1 else ed2
  let ed4 := { ed3 with cfg := { ed3.cfg with eoAutoIndent := oldAutoIndent } }
  ({ st with ed := ed4, ptEnd := ptEnd1, dobatchReplace := st.dobatchReplace || opening,
             trace := trace0 ++ [SearchEvent.replaced st.ptCurrent.Line nFound] },
   if changed then iResultOffset + (nReplaceLen - nSearchLen) else iResultOffset)

/-- The part of a round of searchReplace that counts the match at char nFound
and selects it, leaving the caret at its end (at its begin in a backward
search).  Scrolling is not modelled. -/
def searchSelect (opts : SynSearchOptions) (st : SearchRun) (nFound nSearchLen : Int) :
    SearchRun :=
  let cur1 : BufferCoord := { st.ptCurrent with Char := nFound }
  let ed1 := setBlockBegin st.ed cur1
  let ed2 := setCaretXYEx ed1 { Char := 1, Line := cur1.Line }
  let cur2 : BufferCoord := { cur1 with Char := cur1.Char + nSearchLen }
  let ed3 := setBlockEnd ed2 cur2
  let ed4 := if opts.ssoBackwards then internalSetCaretXY ed3 (blockBegin ed3)
    else internalSetCaretXY ed3 cur2
  { st with ed := ed4, ptCurrent := cur2, result := st.result + 1,
            trace := st.trace ++ [SearchEvent.matchFound cur1.Line nFound nSearchLen] }

/-- The part of a round of searchReplace that asks the decision callback, when
there is one and no batch is running; its argument counts the earlier calls. -/
def searchAsk
    (matchedCallback : Option (Nat → QString → QString → Int → Int → Int → SynSearchAction))
    (sSearch replaceText : QString) (st : SearchRun) (nFound nSearchLen : Int) : SearchRun :=
  match matchedCallback with
  | some cb =>
    if st.dobatchReplace = false then
      { st with searchAction := cb st.asked sSearch replaceText st.ptCurrent.Line nFound
                  nSearchLen,
                asked := st.asked + 1,
                trace := st.trace ++ [SearchEvent.asked
                  (cb st.asked sSearch replaceText st.ptCurrent.Line nFound nSearchLen)] }
    else st
  | none => st

/-- One round of the loop of searchReplace over the matches of a line, for the
match m = (offset, length): the new state, the new offset of the later matches,
and whether searchReplace returns at once. -/
def searchMatch (eng : SynSearchBase)
    (matchedCallback : Option (Nat → QString → QString → Int → Int → Int → SynSearchAction))
    (opts : SynSearchOptions) (sSearch sReplace : QString) (st : SearchRun)
    (iResultOffset : Int) (m : Int × Int) : SearchRun × Int × Bool :=
  let nFound := m.1 + 1 + iResultOffset
  let nSearchLen := m.2
  if isInValidSearchRange st opts nFound (nFound + nSearchLen) = false then
    (st, iResultOffset, false)
  else
    let st1 := searchSelect opts st nFound nSearchLen
    let replaceText := eng.replace (selText st1.ed) sReplace
    let st2 := searchAsk matchedCallback sSearch replaceText st1 nFound nSearchLen
    match st2.searchAction with
    | SynSearchAction.Exit => (st2, iResultOffset, true)
    | SynSearchAction.Skip => (st2, iResultOffset, false)
    | _ =>
      let p := searchDoReplace opts.ssoBackwards st2 replaceText nFound nSearchLen iResultOffset
      (p.1, p.2, false)

/-- The loop of searchReplace over the matches of the current line, in the
order in which they are worked on. -/
def searchLine (eng : SynSearchBase)
    (matchedCallback : Option (Nat → QString → QString → Int → Int → Int → SynSearchAction))
    (opts : SynSearchOptions) (sSearch sReplace : QString) :
    List (Int × Int) → SearchRun → Int → SearchRun × Bool
  | [], st, _ => (st, false)
  | m :: rest, st, iResultOffset =>
    let r := searchMatch eng matchedCallback opts sSearch sReplace st iResultOffset m
    if r.2.2 then (r.1, true)
    else searchLine eng matchedCallback opts sSearch sReplace rest r.1 r.2.1

/-- The wrap-around of searchReplace: the search goes on over the part of the
document that the first pass left out. -/
def searchWrap (opts : SynSearchOptions) (originCaretXY : BufferCoord) (st : SearchRun) :
    SearchRun :=
  let docEnd : BufferCoord :=
    { Char := qlen (getString st.ed (docCount st.ed - 1)), Line := docCount st.ed }
  let st1 : SearchRun :=
    { st with bFromCursor := false, trace := st.trace ++ [SearchEvent.wrapped] }
  if opts.ssoBackwards then { st1 with ptStart := originCaretXY, ptEnd := docEnd, ptCurrent := docEnd }
  else { st1 with ptStart := { Char := 1, Line := 1 }, ptEnd := originCaretXY,
                  ptCurrent := { Char := 1, Line := 1 } }

/-- The work of searchReplace on the current line: findAll, then the rounds
over the matches, the last match first in a backward search.  The answer is
the new state and whether searchReplace returns at once. -/
def searchCurrentLine (eng : SynSearchBase)
    (matchedCallback : Option (Nat → QString → QString → Int → Int → Int → SynSearchAction))
    (opts : SynSearchOptions) (sSearch sReplace : QString) (st : SearchRun) :
    SearchRun × Bool :=
  let found := eng.findAll opts sSearch (getString st.ed (st.ptCurrent.Line - 1))
  let order := if opts.ssoBackwards then found.reverse else found
  searchLine eng matchedCallback opts sSearch sReplace order
    { st with trace := st.trace ++ [SearchEvent.lineSearched st.ptCurrent.Line] } 0

/-- The step of searchReplace to the next line, the previous one in a backward
search. -/
def searchNextLine (opts : SynSearchOptions) (st : SearchRun) : SearchRun :=
  { st with ptCurrent :=
      { st.ptCurrent with
        Line := if opts.ssoBackwards then st.ptCurrent.Line - 1 else st.ptCurrent.Line + 1 } }

/-- The loop of searchReplace over the lines; the answer is none when the loop
has not ended after fuel rounds. -/
def searchLoop (eng : SynSearchBase)
    (matchedCallback : Option (Nat → QString → QString → Int → Int → Int → SynSearchAction))
    (confirmAroundCallback : Option Bool)
    (opts : SynSearchOptions) (sSearch sReplace : QString) (originCaretXY : BufferCoord) :
    Nat → SearchRun → Option SearchRun
  | 0, _ => none
  | fuel + 1, st =>
    if st.ptCurrent.Line ≥ st.ptStart.Line ∧ st.ptCurrent.Line ≤ st.ptEnd.Line then
      let r := searchCurrentLine eng matchedCallback opts sSearch sReplace st
      if r.2 then some r.1
      else
        let st1 := searchNextLine opts r.1
        if (st1.ptCurrent.Line < st1.ptStart.Line ∨ st1.ptCurrent.Line > st1.ptEnd.Line)
            ∧ st1.bFromCursor ∧ opts.ssoWrapAround then
          if confirmAroundCallback = some false then some st1
          else
            searchLoop eng matchedCallback confirmAroundCallback opts sSearch sReplace
              originCaretXY fuel (searchWrap opts originCaretXY st1)
        else
          searchLoop eng matchedCallback confirmAroundCallback opts sSearch sReplace
            originCaretXY fuel st1
    else some st

/-- The range and the start of a search, as searchReplace sets them up. -/
def searchStart (s : SynEdit) (opts : SynSearchOptions) : SearchRun :=
  let bBackward := opts.ssoBackwards
  let bFromCursor := !opts.ssoEntireScope
  let range : BufferCoord × BufferCoord :=
    if opts.ssoSelectedOnly then
      if s.mActiveSelectionMode = SynSelectionMode.smLine then
        ({ blockBegin s with Char := 1 },
         { blockEnd s with Char := qlen (getString s ((blockEnd s).Line - 1)) })
      else if s.mActiveSelectionMode = SynSelectionMode.smColumn
          ∧ (blockBegin s).Char > (blockEnd s).Char then
        ({ blockBegin s with Char := (blockEnd s).Char },
         { blockEnd s with Char := (blockBegin s).Char })
      else (blockBegin s, blockEnd s)
    else
      let docStart : BufferCoord := { Char := 1, Line := 1 }
      let docEnd : BufferCoord :=
        { Char := qlen (getString s (docCount s - 1)), Line := docCount s }
      if bFromCursor then
        if bBackward then (docStart, caretXY s) else (caretXY s, docEnd)
      else (docStart, docEnd)
  { ed := s, ptCurrent := if bBackward then range.2 else range.1, ptStart := range.1,
    ptEnd := range.2, bFromCursor := bFromCursor, result := 0, dobatchReplace := false,
    searchAction := SynSearchAction.Exit, asked := 0, trace := [] }

/-- SynEdit::searchReplace with the fuel of its line loop; an absent callback
is none.  The answer is none when the line loop has not ended after fuel
rounds.  Painting is not modelled. -/
def searchReplace (fuel : Nat) (s : SynEdit) (sSearch sReplace : QString)
    (sOptions : SynSearchOptions) (searchEngine : Option SynSearchBase)
    (matchedCallback : Option (Nat → QString → QString → Int → Int → Int → SynSearchAction))
    (confirmAroundCallback : Option Bool) : Option SearchOutcome :=
  match searchEngine with
  | none => some { result := 0, ed := s, trace := [] }
  | some eng =>
    if sSearch = [] then some { result := 0, ed := s, trace := [] }
    else
      let opts := if selAvail s then sOptions else { sOptions with ssoSelectedOnly := false }
      match searchLoop eng matchedCallback confirmAroundCallback opts sSearch sReplace (caretXY s)
          fuel (searchStart s opts) with
      | none => none
      | some st =>
        if st.dobatchReplace then
          some { result := st.result, ed := undoEndBlock st.ed,
                 trace := st.trace ++ [SearchEvent.blockClosed] }
        else some { result := st.result, ed := st.ed, trace := st.trace }


/-! ## Deleting the caret line -/

/-- SynEdit::doDeleteLine.  The local helper is a string list, so
helper.length() is the number of its strings. -/
def doDeleteLine (s : SynEdit) : SynEdit :=
  if s.mReadOnly = false ∧ docCount s > 0 then
    if collapsedFoldAt s s.mCaretY then s
    else
      let s1 := undoBeginBlock s
      let s2 := undoAddChange s1 SynChangeReason.crCaret (caretXY s1) (caretXY s1) []
        s1.mActiveSelectionMode
      let s3 := undoAddChange s2 SynChangeReason.crSelection s2.mBlockBegin s2.mBlockEnd []
        s2.mActiveSelectionMode
      let s4 := if selAvail s3 then setBlockBegin s3 (caretXY s3) else s3
      let helper : List QString := [lineText s4]
      let s5 :=
        if s4.mCaretY = docCount s4 then
          if docCount s4 = 1 then
            let a := docPutString s4 (s4.mCaretY - 1) [] true
            undoAddChange a SynChangeReason.crDelete { Char := 1, Line := a.mCaretY }
              { Char := (helper.length : Int) + 1, Line := a.mCaretY } helper
              SynSelectionMode.smNormal
          else
            let str := getString s4 (s4.mCaretY - 2)
            let a := docDeleteAt s4 (s4.mCaretY - 1)
            let helper1 : List QString := [] :: helper
            let b := undoAddChange a SynChangeReason.crDelete
              { Char := qlen str + 1, Line := a.mCaretY - 1 }
              { Char := (helper1.length : Int) + 1, Line := a.mCaretY } helper1
              SynSelectionMode.smNormal
            { b with mCaretY := b.mCaretY - 1 }
        else
          let a := docDeleteAt s4 (s4.mCaretY - 1)
          let helper1 : List QString := helper ++ [[]]
          undoAddChange a SynChangeReason.crDelete { Char := 1, Line := a.mCaretY }
            { Char := (helper1.length : Int) + 1, Line := a.mCaretY } helper1
            SynSelectionMode.smNormal
      let s6 := undoEndBlock s5
      internalSetCaretXY s6 { Char := 1, Line := s6.mCaretY }
  else s

/-! ## Dropping dragged text -/

/-- The drop actions that dropEvent tells apart. -/
inductive DropAction where
  | CopyAction
  | MoveAction
  | IgnoreAction
deriving DecidableEq, Repr

/-- SynEdit::addLeftTopToUndo. -/
def addLeftTopToUndo (s : SynEdit) : SynEdit :=
  undoAddChange s SynChangeReason.crLeftTop { Char := s.mLeftChar, Line := s.mTopLine }
    { Char := s.mLeftChar, Line := s.mTopLine } [] s.mActiveSelectionMode

/-- SynEdit::addCaretToUndo. -/
def addCaretToUndo (s : SynEdit) : SynEdit :=
  undoAddChange s SynChangeReason.crCaret (caretXY s) (caretXY s) [] s.mActiveSelectionMode

/-- SynEdit::addSelectionToUndo. -/
def addSelectionToUndo (s : SynEdit) : SynEdit :=
  undoAddChange s SynChangeReason.crSelection s.mBlockBegin s.mBlockEnd []
    s.mActiveSelectionMode

/-- SynEdit::dropEvent.  The arguments are what the handler reads from the
event and from the members set when the drag started: the nearest row and
column of the drop point, the dropped text, the proposed action, and the
selection saved at the start of the drag.  Scrolling is not modelled. -/
def dropEvent (s : SynEdit) (p : DisplayCoord) (mimeText : QString)
    (proposedAction : DropAction) (mDragSelBeginSave mDragSelEndSave : BufferCoord) : SynEdit :=
  let coord := displayToBufferPos s p
  if coord.lt mDragSelBeginSave = false ∧ mDragSelEndSave.lt coord = false then s
  else
    let text := splitStrings mimeText
    let s1 := addSelectionToUndo (addCaretToUndo (addLeftTopToUndo (undoBeginBlock s)))
    let s2 := internalSetCaretXY s1 coord
    let lastLine := coord.Line + (text.length : Int) - 1
    match proposedAction with
    | DropAction.CopyAction =>
      internalSetCaretXY (doInsertText s2 coord text s2.mActiveSelectionMode coord.Line lastLine)
        coord
    | DropAction.MoveAction =>
      if coord.lt mDragSelBeginSave then
        let a := doDeleteText s2 mDragSelBeginSave mDragSelEndSave s2.mActiveSelectionMode
        let b := doInsertText a coord text a.mActiveSelectionMode coord.Line lastLine
        internalSetCaretXY (undoEndBlock b) coord
      else
        let a := doInsertText s2 coord text s2.mActiveSelectionMode coord.Line lastLine
        let b := doDeleteText a mDragSelBeginSave mDragSelEndSave a.mActiveSelectionMode
        let coord1 : BufferCoord :=
          if mDragSelBeginSave.Line = mDragSelEndSave.Line then
            if coord.Line = mDragSelEndSave.Line then
              { coord with Char := coord.Char - (mDragSelEndSave.Char - mDragSelBeginSave.Char) }
            else coord
          else if coord.Line = mDragSelEndSave.Line then
            { coord with Char := coord.Char - (mDragSelEndSave.Char - 1) }
          else { coord with Line := coord.Line - (mDragSelEndSave.Line - mDragSelBeginSave.Line) }
        internalSetCaretXY (undoEndBlock b) coord1
    | DropAction.IgnoreAction => internalSetCaretXY s2 coord

/-! ## Compiler arguments -/

/-- Modelled from the spec: a compiler option of the compiler set (its class is
not in compiler.cpp), as far as getLibraryArguments reads it. -/
structure CompilerOption where
  value : Int
  isLinker : Bool
  choices : List QString
  setting : QString

/-- Modelled from the spec: the compiler set (its class is not in
compiler.cpp), as far as getLibraryArguments reads it. -/
structure CompilerSet where
  libDirs : List QString
  useCustomLinkParams : Bool
  customLinkParams : QString
  customCompileParams : QString
  options : List CompilerOption

/-- QString::split at one character, empty parts kept; cur is the part being
read, in reverse. -/
def qsplitLoop (sep : Char) : List Char → QString → List QString
  | [], cur => [cur.reverse]
  | c :: rest, cur =>
    if c = sep then cur.reverse :: qsplitLoop sep rest [] else qsplitLoop sep rest (c :: cur)

/-- QString::split at one character. -/
def qsplit (str : QString) (sep : Char) : List QString := qsplitLoop sep str []

/-- The part of the result of getLibraryArguments that a compiler option
adds. -/
def libraryOptionArgument (o : CompilerOption) : QString :=
  if o.value > 0 ∧ o.isLinker then
    if o.choices = [] then " ".toList ++ o.setting
    else if o.value < (o.choices.length : Int) then
      match qsplit (o.choices.getD o.value.toNat []) (Char.ofNat 61) with
      | [_, v] => " ".toList ++ o.setting ++ v
      | _ => []
    else []
  else []

/-- Compiler::getLibraryArguments over the compiler set in use. -/
def getLibraryArguments (cs : CompilerSet) : QString :=
  let dirs := (cs.libDirs.map (fun folder => " -L\"".toList ++ folder ++ "\"".toList)).flatten
  let custom := if cs.useCustomLinkParams ∧ cs.customLinkParams ≠ [] then
      " ".toList ++ cs.customCompileParams
    else []
  dirs ++ custom ++ (cs.options.map libraryOptionArgument).flatten


/-! ## A sample editor -/

/-- The saved-state test of the sample editor: the list is in its saved state
when its newest item carries the saved mark (mark 0 for the empty list). -/
def sampleInitialState (l : SynEditUndoList) : Bool :=
  match l.items with
  | [] => decide (l.initialMark = 0)
  | i :: _ => decide (i.changeNumber = l.initialMark)

/-- The saved mark of the sample editor after setInitialState(Value). -/
def sampleSetInitialState (Value : Bool) (l : SynEditUndoList) : Int :=
  match l.items with
  | [] => if Value then 0 else if l.initialMark = 0 then -1 else l.initialMark
  | i :: _ =>
    if Value then i.changeNumber
    else if i.changeNumber = l.initialMark then -1 else l.initialMark

/-- The options an editor is constructed with, no highlighter attached, tab
width 4, every glyph one column wide. -/
def sampleConfig : SynEditConfig :=
  { eoAutoIndent := true
    eoTrimTrailingSpaces := false
    eoGroupUndo := true
    eoTabsToSpaces := false
    eoTabIndent := true
    eoEnhanceEndKey := true
    mUseCodeFolding := true
    mTabWidth := 4
    hasHighlighter := false
    isCppHighlighter := false
    foldString := []
    charColumnsOf := fun _ => 1
    highlighterIsIdentChar := fun _ => false
    charIsPrint := fun c => decide (32 ≤ c.toNat ∧ c.toNat ≠ 127)
    charIsSpace := fun c => decide (c.toNat = 32 ∨ (9 ≤ c.toNat ∧ c.toNat ≤ 13))
    calcIndentSpacesOf := fun _ _ _ _ => 0
    notInCommentOf := fun _ _ _ => true
    initialStateOf := sampleInitialState
    setInitialStateOf := sampleSetInitialState
    rescanFoldsOf := fun _ arena ranges => (arena, ranges) }

/-- An empty undo list as constructed. -/
def emptyUndoList : SynEditUndoList :=
  { items := [], blockChangeNumber := 0, blockCount := 0, nextChangeNumber := 1,
    insideRedo := false, initialMark := 0 }

/-- An editor over the given configuration and document, in stream mode, with
the caret and an empty selection at the given position, no folds, empty undo
and redo lists. -/
def editorWith (cfg : SynEditConfig) (doc : List QString) (caret : BufferCoord) : SynEdit :=
  { cfg := cfg
    mDocument := doc
    mCaretX := caret.Char
    mCaretY := caret.Line
    mLastCaretColumn := 1
    mBlockBegin := caret
    mBlockEnd := caret
    mActiveSelectionMode := SynSelectionMode.smNormal
    mSelectionMode := SynSelectionMode.smNormal
    mUndoList := emptyUndoList
    mRedoList := emptyUndoList
    mUndoing := false
    mReadOnly := false
    mInserting := true
    mModified := false
    eoScrollPastEol := false
    foldArena := []
    mAllFoldRanges := []
    mLeftChar := 1
    mTopLine := 1 }

/-- The sample editor over a document given as strings. -/
def sampleEditor (doc : List String) (caret : BufferCoord) : SynEdit :=
  editorWith sampleConfig (doc.map String.toList) caret

/-- The document of an editor as strings. -/
def docStrings (s : SynEdit) : List String := s.mDocument.map String.mk


/-! ## Sample states -/

/-- The sample configuration with trailing-space trimming switched on. -/
def trimmingConfig : SynEditConfig := { sampleConfig with eoTrimTrailingSpaces := true }

/-- Trimming on, one line of three blanks and a letter, caret at its end,
after one backspace. -/
def afterBackspaceWithTrimming : SynEdit :=
  ExecuteCommand (editorWith trimmingConfig ["   b".toList] ⟨5, 1⟩)
    SynEditorCommand.ecDeleteLastChar (Char.ofNat 0)

/-- A read-only editor over one line, caret at (2, 1). -/
def readOnlyEditor : SynEdit := { sampleEditor ["abcd"] ⟨2, 1⟩ with mReadOnly := true }

/-- Group undo on (as constructed), one line, caret at (2, 1): the command
line-break-at-end followed by the command line-break. -/
def afterTwoLineBreaks : SynEdit :=
  ExecuteCommand
    (ExecuteCommand (sampleEditor ["abcd"] ⟨2, 1⟩) SynEditorCommand.ecLineBreakAtEnd (Char.ofNat 0))
    SynEditorCommand.ecLineBreak (Char.ofNat 0)

/-- The change numbers and reason tags of the items of a list, newest first. -/
def groupTags (l : SynEditUndoList) : List (Int × SynChangeReason) :=
  l.items.map (fun i => (i.changeNumber, i.changeReason))

/-- One line, caret at (3, 1), the redo list holding one line-break item for
that position (the state that undoing a line break at (3, 1) leaves). -/
def beforeLineBreakRedo : SynEdit :=
  doUndo (insertLine (sampleEditor ["abcd"] ⟨3, 1⟩) true)

/-- Column mode over two lines, both ends of the block on line 1 past the end
of its text, at characters 5 and 7. -/
def columnBlockPastLineEnd : SynEdit :=
  { sampleEditor ["ab", "abcdefgh"] ⟨7, 1⟩ with
    mActiveSelectionMode := SynSelectionMode.smColumn
    mBlockBegin := ⟨5, 1⟩
    mBlockEnd := ⟨7, 1⟩ }


/-- The hypotheses of the row round trip on a list of ranges: the counted ones
obey the invariant, do not hide line L, and are ordered without overlap. -/
def RowHyp (s : SynEdit) (L : Int) (rs : List SynEditFoldRange) : Prop :=
  (∀ r ∈ rs, foldCounts s r = true →
      r.fromLine < r.toLine ∧ r.linesCollapsed = r.toLine - r.fromLine
      ∧ ¬ (r.fromLine < L ∧ L ≤ r.toLine))
  ∧ (rs.filter (foldCounts s)).Pairwise (fun a b => a.toLine ≤ b.fromLine)

/-- Six lines with the range of lines 2 to 4 collapsed, caret on line 5. -/
def foldedEditor : SynEdit :=
  { sampleEditor ["a", "b \x7b", "c", "\x7d", "\tde", "f"] ⟨3, 5⟩ with
    foldArena := [{ fromLine := 2, toLine := 4, collapsed := true, linesCollapsed := 2,
                    parent := none }]
    mAllFoldRanges := [0] }

/-- State t holds the document D and has the configuration and the replay flag
of state s. -/
def TextIs (s t : SynEdit) (D : List QString) : Prop :=
  t.mDocument = D ∧ t.cfg = s.cfg ∧ t.mUndoing = s.mUndoing

/-- State t has the text, the configuration and the replay flag of state s. -/
def SameText (s t : SynEdit) : Prop := TextIs s t s.mDocument


/-- The lines that follow the first line of a stream insertion: the text lines
as they are, the last one followed by the right half of the target line. -/
def spliceTail (post : QString) : List QString → List QString
  | [] => []
  | t :: rest =>
    match rest with
    | [] => [t ++ post]
    | _ :: _ => t :: spliceTail post rest

/-- The lines that a stream insertion of the text t0, ..., tn puts in place of
the target line split into pre and post: pre ++ t0 ++ post for a single text
line, else pre ++ t0, then t1, ..., t(n-1), then tn ++ post. -/
def spliceLines (pre post : QString) : List QString → List QString
  | [] => [pre ++ post]
  | t :: rest =>
    match rest with
    | [] => [pre ++ t ++ post]
    | _ :: _ => (pre ++ t) :: spliceTail post rest


/-- Auto-indent off, trailing-space trimming on, one line "ab". -/
def trimmingNoIndentEditor : SynEdit :=
  editorWith { sampleConfig with eoAutoIndent := false, eoTrimTrailingSpaces := true }
    ["ab".toList] ⟨3, 1⟩

/-- The scenario document of the specification, caret at (1, 1), auto-indent
off. -/
def scenarioEditor : SynEdit :=
  editorWith { sampleConfig with eoAutoIndent := false }
    ["int main() \x7b".toList, "    return 0;".toList, "\x7d".toList] ⟨1, 1⟩


/-- The line without the characters at the columns c1, ..., c2 - 1 when every
character is one column wide: the characters before column c1 followed by the
characters from column c2 on. -/
def removeColumns (c1 c2 : Int) (l : QString) : QString :=
  l.take (c1 - 1).toNat ++ l.drop (c2 - 1).toNat

/-- Trailing-space trimming on, one line "ab cd". -/
def trimmingColumnEditor : SynEdit :=
  editorWith { sampleConfig with eoTrimTrailingSpaces := true } ["ab cd".toList] ⟨4, 1⟩

/-- The column scenario document of the specification. -/
def columnScenarioEditor : SynEdit := sampleEditor ["abcdef", "ghijkl"] ⟨3, 1⟩



/-- One line "ab" in column mode, caret at (1, 1). -/
def columnModeEditor : SynEdit :=
  { sampleEditor ["ab"] ⟨1, 1⟩ with mActiveSelectionMode := SynSelectionMode.smColumn }

/-- Six lines with the range of lines 2 to 4 open, caret at (1, 2), on the
first line of the range. -/
def openFoldEditor : SynEdit :=
  { sampleEditor ["a", "b \x7b", "c", "\x7d", "\tde", "f"] ⟨1, 2⟩ with
    foldArena := [{ fromLine := 2, toLine := 4, collapsed := false, linesCollapsed := 0,
                    parent := none }]
    mAllFoldRanges := [0] }

/-- The state openFoldEditor with the caret at (1, 3), inside the range. -/
def caretInFoldEditor : SynEdit := { openFoldEditor with mCaretY := 3 }

/-- Five lines whose third line closes one brace block and opens the next, the
ranges of lines 1 to 3 and of lines 3 to 5 both collapsed, neither the parent
of the other. -/
def elseChainEditor : SynEdit :=
  { sampleEditor ["if (x) \x7b", "a;", "\x7d else \x7b", "b;", "\x7d"] ⟨1, 1⟩ with
    foldArena := [{ fromLine := 1, toLine := 3, collapsed := true, linesCollapsed := 2,
                    parent := none },
                  { fromLine := 3, toLine := 5, collapsed := true, linesCollapsed := 2,
                    parent := none }]
    mAllFoldRanges := [0, 1] }

/-- The sample configuration with a highlighter attached. -/
def highlighterConfig : SynEditConfig := { sampleConfig with hasHighlighter := true }

/-- Two brace blocks of three lines each. -/
def twoBlocksDocument : List QString :=
  ["void f() \x7b", "a;", "\x7d", "void g() \x7b", "b;", "\x7d"].map String.toList

/-- The brace counts of twoBlocksDocument, one brace region configured. -/
def twoBlocksInput : FoldScanInput :=
  { regionUsesBraces := [true]
    leftBraces := fun l => if l = 0 ∨ l = 3 then 1 else 0
    rightBraces := fun l => if l = 2 ∨ l = 5 then 1 else 0
    tokenEvent := fun _ _ => none }

/-- The document twoBlocksDocument with an empty fold list. -/
def twoBlocksEditor : SynEdit := editorWith highlighterConfig twoBlocksDocument ⟨1, 1⟩

/-- The document twoBlocksDocument with the ranges of both blocks in the fold
list, both collapsed. -/
def twoBlocksCollapsed : SynEdit :=
  { twoBlocksEditor with
    foldArena := [{ fromLine := 1, toLine := 3, collapsed := true, linesCollapsed := 2,
                    parent := none },
                  { fromLine := 4, toLine := 6, collapsed := true, linesCollapsed := 2,
                    parent := none }]
    mAllFoldRanges := [0, 1] }

/-- The brace counts of a document whose first line opens a brace that no line
closes. -/
def unclosedBraceInput : FoldScanInput :=
  { regionUsesBraces := [true]
    leftBraces := fun l => if l = 0 then 1 else 0
    rightBraces := fun _ => 0
    tokenEvent := fun _ _ => none }

/-- Two lines, the first one opening a brace, empty fold list. -/
def unclosedBraceEditor : SynEdit :=
  editorWith highlighterConfig ["void f() \x7b".toList, "a;".toList] ⟨1, 1⟩

/-- The first and last line and the collapsed flag of the ranges of the fold
list, in list order. -/
def foldSpans (s : SynEdit) : List (Int × Int × Bool) :=
  (allFoldRanges s).map (fun r => (r.fromLine, r.toLine, r.collapsed))

/-- The invariant of linesCollapsed: toLine - fromLine while collapsed, else
0. -/
def foldInvariant (r : SynEditFoldRange) : Prop :=
  if r.collapsed then r.linesCollapsed = r.toLine - r.fromLine else r.linesCollapsed = 0



/-- Two fold regions, the braces and a region with other symbols: line 1
holds the opening symbol of the second region and line 4 its closing symbol,
line 2 opens a brace that line 3 closes. -/
def twoRegionsInput : FoldScanInput :=
  { regionUsesBraces := [true, false]
    leftBraces := fun l => if l = 1 then 1 else 0
    rightBraces := fun l => if l = 2 then 1 else 0
    tokenEvent := fun i l =>
      if i = 1 ∧ l = 0 then some true else if i = 1 ∧ l = 3 then some false else none }

/-- Four lines, a brace block inside a block of the second fold region, empty
fold list. -/
def twoRegionsEditor : SynEdit :=
  editorWith highlighterConfig
    (["#region", "void f() \x7b", "\x7d", "#endregion"].map String.toList) ⟨1, 1⟩

/-- Three plain lines followed by a brace block of two lines and one of three
lines. -/
def shiftedBlocksDocument : List QString :=
  ["x;", "y;", "z;", "void f() \x7b", "\x7d", "void g() \x7b", "b;", "\x7d"].map String.toList

/-- The document shiftedBlocksDocument with the first block collapsed and the
second block open. -/
def collapsedThenOpenEditor : SynEdit :=
  { editorWith highlighterConfig shiftedBlocksDocument ⟨1, 1⟩ with
    foldArena := [{ fromLine := 4, toLine := 5, collapsed := true, linesCollapsed := 1,
                    parent := none },
                  { fromLine := 6, toLine := 8, collapsed := false, linesCollapsed := 0,
                    parent := none }]
    mAllFoldRanges := [0, 1] }

/-- The document shiftedBlocksDocument with the first block open and the
second block collapsed. -/
def openThenCollapsedEditor : SynEdit :=
  { editorWith highlighterConfig shiftedBlocksDocument ⟨1, 1⟩ with
    foldArena := [{ fromLine := 4, toLine := 5, collapsed := false, linesCollapsed := 0,
                    parent := none },
                  { fromLine := 6, toLine := 8, collapsed := true, linesCollapsed := 2,
                    parent := none }]
    mAllFoldRanges := [0, 1] }

/-- The fold list is sorted by first line. -/
def foldsSortedByFromLine (s : SynEdit) : Prop :=
  (allFoldRanges s).Pairwise (fun a b => a.fromLine ≤ b.fromLine)

instance (s : SynEdit) : Decidable (foldsSortedByFromLine s) := by
  unfold foldsSortedByFromLine
  infer_instance

/-- Two lines in stream mode with insert mode on, caret at (1, 1). -/
def twoLinesEditor : SynEdit := sampleEditor ["a", "b"] ⟨1, 1⟩

/-- Two lines in line selection mode, caret and empty selection at (1, 1). -/
def lineModeEditor : SynEdit :=
  { sampleEditor ["ab", "cd"] ⟨1, 1⟩ with mActiveSelectionMode := SynSelectionMode.smLine }


/-- The state foldedEditor with a fold marker of three dots. -/
def markerFoldEditor : SynEdit :=
  { foldedEditor with cfg := { foldedEditor.cfg with foldString := "...".toList } }


/-- The line that a column insertion at display column C is to leave when
every glyph is one column wide: a line of fewer than C columns is followed by
blanks up to column C - 1 and then by the slice; in a wider line the slice
goes in front of the character at column C. -/
def columnInsertedLine (C : Int) (old slice : QString) : QString :=
  if qlen old < C then old ++ qfill (C - 1 - qlen old) chSpace ++ slice
  else old.take (C - 1).toNat ++ slice ++ old.drop (C - 1).toNat

/-- The slice of a column insertion for the k-th affected line: the k-th text
line, and the last text line once the text has run out. -/
def columnSlice (text : List QString) (k : Int) : QString :=
  text.getD (min k.toNat (text.length - 1)) []

/-- Trailing-space trimming on, the lines abc and h, caret at (4, 1). -/
def trimmingInsertEditor : SynEdit :=
  editorWith trimmingConfig ["abc".toList, "h".toList] ⟨4, 1⟩

/-- Trailing-space trimming off, the lines abcdef, g and hij, caret at
(4, 1). -/
def columnInsertEditor : SynEdit := sampleEditor ["abcdef", "g", "hij"] ⟨4, 1⟩


/-- Whether the string starts with the pattern. -/
def qstartsWith : QString → QString → Bool
  | [], _ => true
  | _ :: _, [] => false
  | p :: ps, c :: cs => decide (p = c) && qstartsWith ps cs

/-- The occurrences of a pattern in the rest of a line, from left to right and
not overlapping: pos is the offset of the rest, skip the number of characters
still covered by the last occurrence. -/
def plainMatches (pat : QString) : QString → Int → Nat → List (Int × Int)
  | [], _, _ => []
  | c :: rest, pos, skip =>
    if skip > 0 then plainMatches pat rest (pos + 1) (skip - 1)
    else if pat ≠ [] ∧ qstartsWith pat (c :: rest) = true then
      (pos, (pat.length : Int)) :: plainMatches pat rest (pos + 1) (pat.length - 1)
    else plainMatches pat rest (pos + 1) 0

/-- A sample search engine: the plain case-sensitive search for the pattern,
an occurrence is replaced by the replacement text as it is. -/
def plainEngine : SynSearchBase :=
  { findAll := fun _ pat line => plainMatches pat line 0 0
    replace := fun _ r => r }

/-- The options of a forward search over the whole document. -/
def wholeDocumentSearch : SynSearchOptions :=
  { ssoBackwards := false, ssoEntireScope := true, ssoSelectedOnly := false,
    ssoWrapAround := false }

/-- The options of a forward search from the caret with wrap-around. -/
def fromCursorWrapSearch : SynSearchOptions :=
  { ssoBackwards := false, ssoEntireScope := false, ssoSelectedOnly := false,
    ssoWrapAround := true }

/-- A decision callback that always answers Skip. -/
def alwaysSkip : Nat → QString → QString → Int → Int → Int → SynSearchAction :=
  fun _ _ _ _ _ _ => SynSearchAction.Skip

/-- A decision callback that always answers Replace. -/
def alwaysReplace : Nat → QString → QString → Int → Int → Int → SynSearchAction :=
  fun _ _ _ _ _ _ => SynSearchAction.Replace

/-- A decision callback that answers Skip at its first call and ReplaceAll at
every later call. -/
def skipThenReplaceAll : Nat → QString → QString → Int → Int → Int → SynSearchAction :=
  fun k _ _ _ _ _ => if k = 0 then SynSearchAction.Skip else SynSearchAction.ReplaceAll


/-- Two lines in column mode, caret and empty selection at (1, 1). -/
def columnEmptySelection : SynEdit :=
  { sampleEditor ["abcdef", "ghijkl"] ⟨1, 1⟩ with
    mActiveSelectionMode := SynSelectionMode.smColumn }

/-- The state columnEmptySelection with the selection from (3, 1) to (5, 2). -/
def columnOtherSelection : SynEdit :=
  { columnEmptySelection with mBlockBegin := ⟨3, 1⟩, mBlockEnd := ⟨5, 2⟩ }

/-- A compiler set with one library directory, custom link parameters switched
on, the link parameters -lm and the compile parameters -Wall. -/
def sampleCompilerSet : CompilerSet :=
  { libDirs := ["/usr/lib".toList], useCustomLinkParams := true,
    customLinkParams := "-lm".toList, customCompileParams := "-Wall".toList, options := [] }


/-- The insert item of the letter x typed at (1, 1). -/
def typedX : SynEditUndoItem :=
  { changeReason := SynChangeReason.crInsert, changeSelMode := SynSelectionMode.smNormal,
    changeStartPos := ⟨1, 1⟩, changeEndPos := ⟨2, 1⟩, changeText := [], changeNumber := 1 }

/-- The state after typing x and y into "ab" and undoing the y: the insert of
x on the undo list, the insert of y on the redo list. -/
def redoPending : SynEdit :=
  { sampleEditor ["xab"] ⟨2, 1⟩ with
    mModified := true
    mUndoList := { emptyUndoList with items := [typedX], nextChangeNumber := 3, initialMark := -1 }
    mRedoList := { emptyUndoList with items :=
      [{ changeReason := SynChangeReason.crInsert, changeSelMode := SynSelectionMode.smNormal,
         changeStartPos := ⟨2, 1⟩, changeEndPos := ⟨3, 1⟩, changeText := ["y".toList],
         changeNumber := 2 }] } }

/-- The state redoPending with the saved mark on the number of its newest undo
item: the undo list counts as being in its saved state while the editor is
marked modified. -/
def savedMarkOnTop : SynEdit :=
  { redoPending with mUndoList := { redoPending.mUndoList with initialMark := 1 } }

/-- An editor marked modified inside an undo block with the forced group number
5, which is also the saved mark; the undo list is empty, the redo list holds
one item. -/
def savedMarkInBlock : SynEdit :=
  { redoPending with
    mUndoList := { emptyUndoList with blockCount := 1, blockChangeNumber := 5,
                                      nextChangeNumber := 5, initialMark := 5 } }

/-! ## Predicates used in the statements -/

/-- The fold ranges that count in the row mapping (collapsed, no collapsed
ancestor), in list order. -/
def topCollapsedRanges (s : SynEdit) : List SynEditFoldRange :=
  (allFoldRanges s).filter (foldCounts s)

/-- The counted ranges obey the fold range invariant (fromLine < toLine,
linesCollapsed = toLine - fromLine while collapsed) and come sorted and not
overlapping: each ends no later than the next one starts. -/
def TopFoldsOrdered (s : SynEdit) : Prop :=
  (∀ r ∈ topCollapsedRanges s, r.fromLine < r.toLine ∧ r.linesCollapsed = r.toLine - r.fromLine)
  ∧ (topCollapsedRanges s).Pairwise (fun a b => a.toLine ≤ b.fromLine)

/-- A line is hidden when it lies inside a counted range, below its first
line. -/
def lineHidden (s : SynEdit) (L : Int) : Prop :=
  ∃ r ∈ topCollapsedRanges s, r.fromLine < L ∧ L ≤ r.toLine


/-- The events of a batch behind its first replacement: every match found is
followed at once by its replacement; in between lines are searched and the
search may wrap around.  No callback call and no BeginBlock or EndBlock is
among them. -/
def batchTail : List SearchEvent → Bool
  | [] => true
  | SearchEvent.matchFound l f _ :: SearchEvent.replaced l2 f2 :: rest =>
    decide (l = l2 ∧ f = f2) && batchTail rest
  | SearchEvent.lineSearched _ :: rest => batchTail rest
  | SearchEvent.wrapped :: rest => batchTail rest
  | _ => false

/-- The events in front of a batch: the callback has not answered ReplaceAll
and the undo block of the batch has been neither opened nor closed. -/
def beforeBatch (t : List SearchEvent) : Prop :=
  ∀ e ∈ t, e ≠ SearchEvent.blockOpened ∧ e ≠ SearchEvent.blockClosed
    ∧ e ≠ SearchEvent.asked SynSearchAction.ReplaceAll

instance (t : List SearchEvent) : Decidable (beforeBatch t) := by
  unfold beforeBatch
  infer_instance

/-- The state of a search between two rounds: either no batch is running, the
last answer is not ReplaceAll and the events are those in front of a batch, or
a batch is running, the last answer is ReplaceAll and the events are those of
an open batch. -/
def batchInvariant (st : SearchRun) : Prop :=
  (st.dobatchReplace = false ∧ st.searchAction ≠ SynSearchAction.ReplaceAll
      ∧ beforeBatch st.trace)
  ∨ (st.dobatchReplace = true ∧ st.searchAction = SynSearchAction.ReplaceAll
      ∧ ∃ pre l f mid,
          st.trace = pre ++ SearchEvent.asked SynSearchAction.ReplaceAll
              :: SearchEvent.blockOpened :: SearchEvent.replaced l f :: mid
          ∧ beforeBatch pre ∧ batchTail mid = true)

/-- The number of wrap-arounds among the events. -/
def wrapCount (t : List SearchEvent) : Nat := t.count SearchEvent.wrapped

/-- What the rounds over the matches of a line leave alone: the line of the
current position, the start of the range, the line of its end, the from-cursor
flag and the number of wrap-arounds. -/
def searchFrame (st st2 : SearchRun) : Prop :=
  st2.ptCurrent.Line = st.ptCurrent.Line ∧ st2.ptStart = st.ptStart
  ∧ st2.ptEnd.Line = st.ptEnd.Line ∧ st2.bFromCursor = st.bFromCursor
  ∧ wrapCount st2.trace = wrapCount st.trace

/-- The number of lines between the current position and the end of the range
in the direction of the search, the current line included. -/
def searchLinesLeft (opts : SynSearchOptions) (st : SearchRun) : Nat :=
  if opts.ssoBackwards then (st.ptCurrent.Line - st.ptStart.Line + 1).toNat
  else (st.ptEnd.Line - st.ptCurrent.Line + 1).toNat

/-- Four lines, none of them holding the letter x, caret at (1, 3). -/
def fourLinesEditor : SynEdit := sampleEditor ["a", "b", "c", "d"] ⟨1, 3⟩

/-- Three lines holding the word foo five times, caret at (1, 1). -/
def fiveMatchesEditor : SynEdit := sampleEditor ["foo foo foo x", "a foo b", "foo."] ⟨1, 1⟩

/-- The events of the search for foo over fiveMatchesEditor when the callback
answers Skip for the first match and ReplaceAll for the second. -/
def fiveMatchesEvents : List SearchEvent :=
  [SearchEvent.lineSearched 1, SearchEvent.matchFound 1 1 3,
   SearchEvent.asked SynSearchAction.Skip, SearchEvent.matchFound 1 5 3,
   SearchEvent.asked SynSearchAction.ReplaceAll, SearchEvent.blockOpened,
   SearchEvent.replaced 1 5, SearchEvent.matchFound 1 8 3, SearchEvent.replaced 1 8,
   SearchEvent.lineSearched 2, SearchEvent.matchFound 2 3 3, SearchEvent.replaced 2 3,
   SearchEvent.lineSearched 3, SearchEvent.matchFound 3 1 3, SearchEvent.replaced 3 1,
   SearchEvent.blockClosed]


/-- The column width accumulated over a string from the width x on, in the
words of the specification: a tab met at the accumulated width x adds
w - (x mod w), any other character adds its glyph width. -/
def accumulatedWidth (w : Int) (glyph : Char → Int) : QString → Int → Int
  | [], x => x
  | c :: rest, x =>
    accumulatedWidth w glyph rest (if c = chTab then x + (w - x % w) else x + glyph c)

/-- The width of the first i characters of a string, as the column walk of
the editor accumulates it. -/
def widthAfter (s : SynEdit) (d : QString) (i : Int) : Int :=
  (d.take i.toNat).foldl (advanceColumn s) 0


/-- The state of the brace pairing in the words of the specification: the
ranges emitted so far, in the order of their emission, and the stack of the
ranges still open, each by its place among the emitted ranges, the innermost
first. -/
structure BraceStack where
  ranges : List SynEditFoldRange
  stack : List Nat

/-- An unmatched closing brace on the 0-based line: the innermost open range
ends on the line and leaves the stack; the brace is ignored when no range is
open. -/
def stackClose (b : BraceStack) (Line : Int) : BraceStack :=
  match b.stack with
  | [] => b
  | k :: rest =>
    match b.ranges.get? k with
    | none => { b with stack := rest }
    | some r => { ranges := b.ranges.set k { r with toLine := Line + 1 }, stack := rest }

/-- An unmatched opening brace on the 0-based line: a new open range that
starts on the line is emitted, its parent is the innermost open range (base is
the arena index of the first emitted range), and it goes on top of the
stack. -/
def stackOpen (base : Nat) (b : BraceStack) (Line : Int) : BraceStack :=
  { ranges := b.ranges ++
      [{ fromLine := Line + 1, toLine := Line + 1, collapsed := false, linesCollapsed := 0,
         parent := b.stack.head?.map (fun k => base + k) }],
    stack := b.ranges.length :: b.stack }

/-- The braces of one line: the closing braces first, then the opening
braces. -/
def stackLine (base : Nat) (inp : FoldScanInput) (b : BraceStack) (Line : Int) : BraceStack :=
  Nat.repeat (fun x => stackOpen base x Line) (inp.leftBraces Line).toNat
    (Nat.repeat (fun x => stackClose x Line) (inp.rightBraces Line).toNat b)

/-- The brace pairing over n lines from the 0-based line Line on. -/
def stackScanFrom (base : Nat) (inp : FoldScanInput) : Nat → Int → BraceStack → BraceStack
  | 0, _, b => b
  | n + 1, Line, b => stackScanFrom base inp n (Line + 1) (stackLine base inp b Line)

/-- The brace pairing over a document of the given number of lines. -/
def stackScan (base : Nat) (inp : FoldScanInput) (lines : Nat) : BraceStack :=
  stackScanFrom base inp lines 0 { ranges := [], stack := [] }

/-- The scan state of the editor that holds the brace pairing b: the emitted
ranges stand in the arena behind the records that were there, the fold list
names them in order, and the innermost open range is the top of the stack. -/
def scanOfStack (s : SynEdit) (b : BraceStack) : FoldScan :=
  { ed := { s with foldArena := s.foldArena ++ b.ranges,
                   mAllFoldRanges := (List.range b.ranges.length).map
                     (fun k => s.foldArena.length + k) }
    temp := none
    Parent := b.stack.head?.map (fun k => s.foldArena.length + k) }

/-- The stack of a brace pairing is linked through the parents: every range on
the stack is an emitted range whose parent is the next range on the stack. -/
def stackLinked (base : Nat) (ranges : List SynEditFoldRange) : List Nat → Prop
  | [] => True
  | k :: rest =>
    (∃ r, ranges.get? k = some r ∧ r.parent = rest.head?.map (fun j => base + j))
    ∧ stackLinked base ranges rest

/-- What the brace pairing keeps before it works on the 0-based line Line: the
stack is linked, every range is open, starts no later than it ends and ends no
later than the 1-based line Line, and the ranges come in the order of their
first line. -/
def stackInvariant (base : Nat) (b : BraceStack) (Line : Int) : Prop :=
  stackLinked base b.ranges b.stack
  ∧ (∀ r ∈ b.ranges, r.collapsed = false ∧ r.fromLine ≤ r.toLine ∧ r.toLine ≤ Line)
  ∧ (b.ranges.map (fun r => r.fromLine)).Pairwise (fun x y => x ≤ y)

/-- Five lines with a block that holds two blocks, the second of which opens
on the line that closes the first, and a closing brace too many on the last
line. -/
def nestedBlocksDocument : List QString :=
  ["a \x7b", "b \x7b", "\x7d c \x7b", "\x7d", "\x7d \x7d"].map String.toList

/-- The brace counts of nestedBlocksDocument, one brace region configured. -/
def nestedBlocksInput : FoldScanInput :=
  { regionUsesBraces := [true]
    leftBraces := fun l => if l = 0 ∨ l = 1 ∨ l = 2 then 1 else 0
    rightBraces := fun l => if l = 2 ∨ l = 3 then 1 else if l = 4 then 2 else 0
    tokenEvent := fun _ _ => none }

/-- The document nestedBlocksDocument with an empty fold list. -/
def nestedBlocksEditor : SynEdit := editorWith highlighterConfig nestedBlocksDocument ⟨1, 1⟩


/-- Three lines, the lines 2 and 3 selected from the end of line 3 back to
the start of line 2, where the caret stands. -/
def backwardSelection : SynEdit :=
  { sampleEditor ["x", "ab", "cd"] ⟨1, 2⟩ with mBlockBegin := ⟨3, 3⟩, mBlockEnd := ⟨1, 2⟩ }

/-- Three lines, the lines 2 and 3 selected from the start of line 2 to the
end of line 3, where the caret stands; line 3 is longer than line 2. -/
def longLastLineSelection : SynEdit :=
  { sampleEditor ["x", "a", "cdefg"] ⟨6, 3⟩ with mBlockBegin := ⟨1, 2⟩, mBlockEnd := ⟨6, 3⟩ }

/-- The fields of the editor that moving the selection reads and writes,
apart from the fold ranges and the undo lists. -/
structure MoveCore where
  doc : List QString
  cfg : SynEditConfig
  undoing : Bool
  readOnly : Bool
  mode : SynSelectionMode
  caretX : Int
  caretY : Int
  blockBegin : BufferCoord
  blockEnd : BufferCoord

/-- The fields of MoveCore in an editor state. -/
def moveCore (s : SynEdit) : MoveCore :=
  { doc := s.mDocument, cfg := s.cfg, undoing := s.mUndoing, readOnly := s.mReadOnly,
    mode := s.mActiveSelectionMode, caretX := s.mCaretX, caretY := s.mCaretY,
    blockBegin := s.mBlockBegin, blockEnd := s.mBlockEnd }

/-- No fold range record of the editor is collapsed. -/
def AllOpen (s : SynEdit) : Prop := ∀ r ∈ s.foldArena, r.collapsed = false

/-- The fold re-scan of the highlighter collapses nothing: from records that
are all open it makes records that are all open. -/
def rescanKeepsOpen (cfg : SynEditConfig) : Prop :=
  ∀ (D : List QString) (A : List SynEditFoldRange) (F : List Nat),
    (∀ r ∈ A, r.collapsed = false) → ∀ r ∈ (cfg.rescanFoldsOf D A F).1, r.collapsed = false

/-- Three lines, the lines 2 and 3 selected from the start of line 2 to the
end of line 3, where the caret stands. -/
def forwardSelection : SynEdit :=
  { sampleEditor ["x", "ab", "cd"] ⟨3, 3⟩ with mBlockBegin := ⟨1, 2⟩, mBlockEnd := ⟨3, 3⟩ }


/-- The fold records with every record that starts on the line L taken as
open. -/
def arenaOpenedAt (A : List SynEditFoldRange) (L : Int) : List SynEditFoldRange :=
  A.map (fun q => if q.fromLine = L then { q with collapsed := false } else q)

/-- Whether r has a collapsed ancestor when the ranges that start on the line L
count as open: those are the ranges that an update of the fold list may
uncollapse before it comes to r. -/
def collapsedAncestorOutside (s : SynEdit) (L : Int) (r : SynEditFoldRange) : Bool :=
  parentCollapsedFuel (arenaOpenedAt s.foldArena L) s.foldArena.length r.parent

/-- Six lines with the collapsed range of lines 2 to 5 and, inside it, the open
range of lines 3 to 4. -/
def nestedFoldEditor : SynEdit :=
  { sampleEditor ["a", "b \x7b", "c \x7b", "\x7d", "\x7d", "f"] ⟨1, 1⟩ with
    foldArena := [{ fromLine := 2, toLine := 5, collapsed := true, linesCollapsed := 3,
                    parent := none },
                  { fromLine := 3, toLine := 4, collapsed := false, linesCollapsed := 0,
                    parent := some 0 }]
    mAllFoldRanges := [0, 1] }


/-- The part of an editor state that decides what is recorded for undo: the
options, the replay flag and the undo list. -/
def undoCore (s : SynEdit) : SynEditConfig × Bool × SynEditUndoList :=
  (s.cfg, s.mUndoing, s.mUndoList)

/-- An undo list inside an open block whose items take the group number n. -/
def InBlock (n : Int) (u : SynEditUndoList) : Prop :=
  1 ≤ u.blockCount ∧ u.blockChangeNumber = n ∧ u.nextChangeNumber = n

/-- What an editing step may do to the undo list: the options and the replay
flag stay; the number of open blocks stays when it is not negative; inside an
open block of the number n the list stays inside that block; items are only
pushed on top, none during a replay with group undo off, and inside an open
block of the number n every pushed item has the number n. -/
def UndoGrows (s t : SynEdit) : Prop :=
  t.cfg = s.cfg ∧ t.mUndoing = s.mUndoing
  ∧ (0 ≤ s.mUndoList.blockCount → t.mUndoList.blockCount = s.mUndoList.blockCount)
  ∧ (∀ n, InBlock n s.mUndoList →
      t.mUndoList.blockChangeNumber = n ∧ t.mUndoList.nextChangeNumber = n)
  ∧ ∃ added, t.mUndoList.items = added ++ s.mUndoList.items
      ∧ (s.mUndoing = true → s.cfg.eoGroupUndo = false → added = [])
      ∧ ∀ n, InBlock n s.mUndoList → ∀ i ∈ added, i.changeNumber = n

/-- The number of items of the change number n on a list of undo items. -/
def groupSize (n : Int) (l : List SynEditUndoItem) : Nat :=
  l.countP (fun i => decide (i.changeNumber = n))

/-- Whether the items of every change number stand next to each other on the
list: behind the run of items that share the number of an item no later item
has that number. -/
def groupsContiguous : List SynEditUndoItem → Bool
  | [] => true
  | i :: rest =>
    (rest.dropWhile (fun j => decide (j.changeNumber = i.changeNumber))).all
        (fun j => decide (j.changeNumber ≠ i.changeNumber))
      && groupsContiguous rest

/-- Whether the two newest items of the list are both group breaks. -/
def doubleBreakOnTop : List SynEditUndoItem → Bool
  | a :: b :: _ =>
    decide (a.changeReason = SynChangeReason.crGroupBreak
      ∧ b.changeReason = SynChangeReason.crGroupBreak)
  | _ => false

/-- The state afterTwoLineBreaks with group undo switched off. -/
def afterTwoLineBreaksPlain : SynEdit :=
  { afterTwoLineBreaks with cfg := { afterTwoLineBreaks.cfg with eoGroupUndo := false } }

/-- Group undo off, one line, the undo list holding a group break of the
number 3 on a group break of the number 2 on two caret items of the
number 1. -/
def doubleBreakEditor : SynEdit :=
  { sampleEditor ["abcd"] ⟨2, 1⟩ with
    cfg := { sampleConfig with eoGroupUndo := false }
    mUndoList :=
      { emptyUndoList with
        items := [⟨SynChangeReason.crGroupBreak, SynSelectionMode.smNormal, ⟨0, 0⟩, ⟨0, 0⟩, [], 3⟩,
                  ⟨SynChangeReason.crGroupBreak, SynSelectionMode.smNormal, ⟨0, 0⟩, ⟨0, 0⟩, [], 2⟩,
                  ⟨SynChangeReason.crCaret, SynSelectionMode.smNormal, ⟨1, 1⟩, ⟨1, 1⟩, [], 1⟩,
                  ⟨SynChangeReason.crCaret, SynSelectionMode.smNormal, ⟨2, 1⟩, ⟨2, 1⟩, [], 1⟩]
        nextChangeNumber := 4 } }

/-- A search state inside the batch that a ReplaceAll answer has opened: the
batch flag is set, the last answer is ReplaceAll, the undo list is inside an
open block of the number n with c blocks open, and the items pushed on top of
the list base all have the number n. -/
def InBatchBlock (n : Int) (base : List SynEditUndoItem) (c : Int) (x : SearchRun) : Prop :=
  x.dobatchReplace = true ∧ x.searchAction = SynSearchAction.ReplaceAll
  ∧ InBlock n x.ed.mUndoList ∧ x.ed.mUndoList.blockCount = c
  ∧ ∃ added, x.ed.mUndoList.items = added ++ base ∧ ∀ i ∈ added, i.changeNumber = n


/-! ## Theorems -/

/-- The column of a char index that is not the least int: the walk runs over
the first min(aChar - 1, length) characters. -/
theorem charToColumnStr_of_ne (s : SynEdit) (str : QString) (aChar : Int)
    (h : aChar ≠ -2147483648) :
    charToColumnStr s str aChar
      = (str.take (min (aChar - 1) (qlen str)).toNat).foldl (advanceColumn s) 0 + 1 := by
  unfold charToColumnStr charIndexBefore
  rw [if_neg h]

/-- C2 (failing input): with trailing-space trimming on, a backspace that
deletes the letter of "   b" leaves an empty line; doUndo followed by doRedo
then ends with the line "b" and the caret at (2, 1), not with the empty line
and the caret at (4, 1) that held before the doUndo. -/
theorem C2_undo_redo_changes_state_with_trimming :
    docStrings afterBackspaceWithTrimming = [""]
    ∧ caretXY afterBackspaceWithTrimming = ⟨4, 1⟩
    ∧ groupTags afterBackspaceWithTrimming.mUndoList = [(1, SynChangeReason.crDelete)]
    ∧ docStrings (doUndo afterBackspaceWithTrimming) = ["b"]
    ∧ docStrings (doRedo (doUndo afterBackspaceWithTrimming)) = ["b"]
    ∧ caretXY (doRedo (doUndo afterBackspaceWithTrimming)) = ⟨2, 1⟩ := by
  decide

/-- C6 (failing input): on a read-only editor the command clear-all empties the
document, and the command line-break-at-end pushes items onto the undo list. -/
theorem C6_read_only_commands_mutate :
    readOnlyEditor.mReadOnly = true
    ∧ docStrings readOnlyEditor = ["abcd"]
    ∧ readOnlyEditor.mUndoList.items = []
    ∧ docStrings (ExecuteCommand readOnlyEditor SynEditorCommand.ecClearAll (Char.ofNat 0)) = []
    ∧ groupTags (ExecuteCommand readOnlyEditor SynEditorCommand.ecLineBreakAtEnd
        (Char.ofNat 0)).mUndoList
      = [(1, SynChangeReason.crGroupBreak), (1, SynChangeReason.crCaret)] := by
  decide

/-- C9 (failing input): replaying a line-break item with doRedoItem splits the
line again and pushes no item onto the undo list. -/
theorem C9_redo_line_break_pushes_nothing :
    groupTags beforeLineBreakRedo.mRedoList = [(1, SynChangeReason.crLineBreak)]
    ∧ beforeLineBreakRedo.mUndoList.items = []
    ∧ docStrings beforeLineBreakRedo = ["abcd"]
    ∧ docStrings (doRedoItem beforeLineBreakRedo) = ["ab", "cd"]
    ∧ (doRedoItem beforeLineBreakRedo).mUndoList.items = [] := by
  decide


/-- C10 (counterexample): in column mode with both ends of the block on one
line, at characters 5 and 7 past the end of the text "ab", the display columns
of the two ends coincide (both 3) and the ends differ, yet selAvail is true. -/
theorem C10_same_line_columns_coincide_yet_available :
    ¬ (selAvail columnBlockPastLineEnd = false ↔
        (columnBlockPastLineEnd.mBlockBegin = columnBlockPastLineEnd.mBlockEnd
          ∨ (columnBlockPastLineEnd.mActiveSelectionMode = SynSelectionMode.smColumn
              ∧ (bufferToDisplayPos columnBlockPastLineEnd
                    columnBlockPastLineEnd.mBlockBegin).Column
                = (bufferToDisplayPos columnBlockPastLineEnd
                    columnBlockPastLineEnd.mBlockEnd).Column))) := by
  decide

/-- C10 (amended): selAvail is false exactly when the two ends of the block
are equal, or the mode is column, the ends are on different lines and their
display columns coincide; so a column block with equal ends reports false and
a stream block reports true exactly when its ends differ. -/
theorem C10_selAvail_false_iff (s : SynEdit) (p : BufferCoord) :
    (selAvail s = false ↔
      (s.mBlockBegin = s.mBlockEnd
        ∨ (s.mActiveSelectionMode = SynSelectionMode.smColumn
            ∧ s.mBlockBegin.Line ≠ s.mBlockEnd.Line
            ∧ (bufferToDisplayPos s s.mBlockBegin).Column
              = (bufferToDisplayPos s s.mBlockEnd).Column)))
    ∧ selAvail { s with mActiveSelectionMode := SynSelectionMode.smColumn,
                        mBlockBegin := p, mBlockEnd := p } = false
    ∧ (selAvail { s with mActiveSelectionMode := SynSelectionMode.smNormal } = true
        ↔ s.mBlockBegin ≠ s.mBlockEnd) := by
  have hEq : s.mBlockBegin = s.mBlockEnd ↔
      (s.mBlockBegin.Char = s.mBlockEnd.Char ∧ s.mBlockBegin.Line = s.mBlockEnd.Line) := by
    constructor
    · intro h
      rw [h]
      exact ⟨rfl, rfl⟩
    · intro h
      cases hb : s.mBlockBegin
      cases he : s.mBlockEnd
      rw [hb, he] at h
      simp only at h
      rw [h.1, h.2]
  refine ⟨?_, ?_, ?_⟩
  · rw [hEq]
    unfold selAvail
    by_cases h1 : s.mBlockBegin.Char = s.mBlockEnd.Char ∧ s.mBlockBegin.Line = s.mBlockEnd.Line
    · simp [h1]
    · by_cases h2 : s.mActiveSelectionMode = SynSelectionMode.smColumn
      · by_cases h3 : s.mBlockBegin.Line = s.mBlockEnd.Line
        · simp [h1, h2, h3]
        · simp [h1, h2, h3]
      · simp [h1, h2]
  · simp [selAvail]
  · rw [ne_eq, hEq]
    simp only [selAvail]
    by_cases h1 : s.mBlockBegin.Char = s.mBlockEnd.Char ∧ s.mBlockBegin.Line = s.mBlockEnd.Line
    · simp [h1]
    · simp [h1]

/-- The status update changes nothing but the modified flag and the undo
list. -/
theorem updateModifiedStatus_redo (s : SynEdit) :
    (updateModifiedStatus s).mRedoList = s.mRedoList := by
  unfold updateModifiedStatus setModified
  split <;> rfl

/-- The status update keeps the inside-redo flag of the undo list. -/
theorem updateModifiedStatus_insideRedo (s : SynEdit) :
    (updateModifiedStatus s).mUndoList.insideRedo = s.mUndoList.insideRedo := by
  unfold updateModifiedStatus setModified
  split
  · simp only
    split
    · unfold SynEditUndoList.AddGroupBreak
      split <;> rfl
    · rfl
  · rfl

/-- The status update leaves a group break on top of the undo list. -/
theorem updateModifiedStatus_break (s : SynEdit)
    (h : s.mUndoList.LastChangeReason = SynChangeReason.crGroupBreak) :
    (updateModifiedStatus s).mUndoList.LastChangeReason = SynChangeReason.crGroupBreak := by
  unfold updateModifiedStatus setModified
  split
  · simp only
    split
    · have hk : s.mUndoList.AddGroupBreak = s.mUndoList := by
        simp [SynEditUndoList.AddGroupBreak, h]
      rw [hk]
      simpa [SynEditUndoList.LastChangeReason] using h
    · simpa [SynEditUndoList.LastChangeReason] using h
  · exact h

/-- The status update pushes its group break only when group undo is on, the
editor was modified and the undo list is back in its saved state. -/
theorem updateModifiedStatus_items (s : SynEdit)
    (h : s.cfg.eoGroupUndo = false ∨ s.mModified = false
      ∨ s.cfg.initialStateOf s.mUndoList = false) :
    (updateModifiedStatus s).mUndoList.items = s.mUndoList.items := by
  unfold updateModifiedStatus setModified
  split
  · rename_i hne
    simp only
    split
    · rename_i hc
      exfalso
      rcases h with h | h | h
      · simp [h] at hc
      · rw [h] at hne
        simp at hne hc
        simp [hne] at hc
      · simp [h] at hc
    · rfl
  · rfl

/-- The three cases of onUndoAdded on an undo list whose newest item is item. -/
theorem onUndoAdded_cases (s : SynEdit) (item : SynEditUndoItem)
    (rest : List SynEditUndoItem) (h : s.mUndoList.items = item :: rest) :
    (s.mUndoList.insideRedo = true ∨ item.changeReason = SynChangeReason.crGroupBreak →
        (onUndoAdded s).mRedoList = s.mRedoList)
    ∧ (s.mUndoList.insideRedo = false →
        (updateModifiedStatus s).mUndoList.LastChangeReason ≠ SynChangeReason.crGroupBreak →
        (onUndoAdded s).mRedoList = s.mRedoList.Clear ∧ (onUndoAdded s).mRedoList.items = [])
    ∧ (s.cfg.eoGroupUndo = false ∨ s.mModified = false
          ∨ s.cfg.initialStateOf s.mUndoList = false →
        (updateModifiedStatus s).mUndoList.LastChangeReason = item.changeReason) := by
  have hlast : s.mUndoList.LastChangeReason = item.changeReason := by
    simp [SynEditUndoList.LastChangeReason, h]
  refine ⟨?_, ?_, ?_⟩
  · intro hc
    unfold onUndoAdded
    simp only
    split
    · rename_i top htop
      split
      · rename_i hcond
        exfalso
        rcases hc with hc | hc
        · rw [updateModifiedStatus_insideRedo, hc] at hcond
          simp at hcond
        · have hb := updateModifiedStatus_break s (hlast.trans hc)
          simp only [SynEditUndoList.PeekItem] at htop
          simp only [SynEditUndoList.LastChangeReason] at hb
          cases hitems : (updateModifiedStatus s).mUndoList.items with
          | nil => rw [hitems] at htop; simp at htop
          | cons a l =>
            rw [hitems] at htop hb
            simp at htop hb
            rw [htop] at hb
            exact hcond.2 hb
      · exact updateModifiedStatus_redo s
    · exact updateModifiedStatus_redo s
  · intro hin hne
    have key : (onUndoAdded s).mRedoList = s.mRedoList.Clear := by
      unfold onUndoAdded
      simp only
      cases hitems : (updateModifiedStatus s).mUndoList.items with
      | nil =>
        exfalso
        have : (updateModifiedStatus s).mUndoList.items ≠ [] := by
          unfold updateModifiedStatus setModified
          split
          · simp only
            split
            · unfold SynEditUndoList.AddGroupBreak
              split
              · simp [SynEditUndoList.AddChange]
              · simp [h]
            · simp [h]
          · simp [h]
        exact this hitems
      | cons a l =>
        simp only [SynEditUndoList.PeekItem, hitems, List.head?_cons]
        have ha : a.changeReason ≠ SynChangeReason.crGroupBreak := by
          simpa [SynEditUndoList.LastChangeReason, hitems] using hne
        rw [updateModifiedStatus_insideRedo, hin]
        simp [ha, updateModifiedStatus_redo]
    exact ⟨key, by rw [key]; rfl⟩
  · intro hc
    simp [SynEditUndoList.LastChangeReason, updateModifiedStatus_items s hc, h]

/-- The status update pushes a group break when group undo is on, the editor
is marked modified and the undo list, which is not empty, is in its saved
state. -/
theorem updateModifiedStatus_pushes_break (s : SynEdit) (hne : s.mUndoList.items ≠ [])
    (hg : s.cfg.eoGroupUndo = true) (hm : s.mModified = true)
    (hi : s.cfg.initialStateOf s.mUndoList = true) :
    (updateModifiedStatus s).mUndoList.LastChangeReason = SynChangeReason.crGroupBreak := by
  unfold updateModifiedStatus setModified
  rw [hi, hm]
  simp only [Bool.not_true, ne_eq, Bool.false_eq_true, not_false_eq_true, if_true, hg,
    true_and, hne]
  unfold SynEditUndoList.AddGroupBreak
  split
  · rfl
  · rename_i hb
    simpa [SynEditUndoList.LastChangeReason] using hb

/-- Every character advances the column by at least one. -/
theorem advanceColumn_gt (s : SynEdit) (htab : 0 < s.cfg.mTabWidth)
    (hglyph : ∀ ch, 1 ≤ s.cfg.charColumnsOf ch) (x : Int) (c : Char) :
    x + 1 ≤ advanceColumn s x c := by
  unfold advanceColumn
  split
  · have := Int.tmod_lt_of_pos x htab
    omega
  · have := hglyph c
    omega

/-- The column walk never goes back. -/
theorem foldl_advanceColumn_ge (s : SynEdit) (htab : 0 < s.cfg.mTabWidth)
    (hglyph : ∀ ch, 1 ≤ s.cfg.charColumnsOf ch) (l : QString) (x : Int) :
    x ≤ l.foldl (advanceColumn s) x := by
  induction l generalizing x with
  | nil => simp
  | cons c rest ih =>
    simp only [List.foldl_cons]
    have h1 := advanceColumn_gt s htab hglyph x c
    have h2 := ih (advanceColumn s x c)
    omega

/-- The loop of columnToChar, asked for the column just after the first k
characters, stops after exactly k characters. -/
theorem columnToCharLoop_after_take (s : SynEdit) (htab : 0 < s.cfg.mTabWidth)
    (hglyph : ∀ ch, 1 ≤ s.cfg.charColumnsOf ch) (d : QString) (k : Nat) (hk : k ≤ d.length)
    (x i : Int) :
    columnToCharLoop s ((d.take k).foldl (advanceColumn s) x + 1) d x i = i + (k : Int) := by
  induction d generalizing k x i with
  | nil =>
    have : k = 0 := by simpa using hk
    subst this
    simp [columnToCharLoop]
  | cons c rest ih =>
    cases k with
    | zero =>
      simp only [List.take_zero, List.foldl_nil, columnToCharLoop]
      have := advanceColumn_gt s htab hglyph x c
      simp
      omega
    | succ k =>
      simp only [List.take_succ_cons, List.foldl_cons, columnToCharLoop]
      have h1 := foldl_advanceColumn_ge s htab hglyph (rest.take k) (advanceColumn s x c)
      have hk2 : k ≤ rest.length := by simpa using hk
      have h3 := ih k hk2 (advanceColumn s x c) (i + 1)
      rw [if_neg (by omega), h3]
      push_cast
      omega

/-- The display string of a line starts with the text of the line. -/
theorem getDisplayStringAtLine_length (s : SynEdit) (line : Int) :
    qlen (getString s (line - 1)) ≤ qlen (getDisplayStringAtLine s line) := by
  unfold getDisplayStringAtLine qlen
  split
  · simp
  · exact le_refl _

/-- The character part of the round trip: columnToChar undoes charToColumn on
every character position of a line. -/
theorem columnToChar_charToColumn (s : SynEdit) (htab : 0 < s.cfg.mTabWidth)
    (hglyph : ∀ ch, 1 ≤ s.cfg.charColumnsOf ch) (L c : Int)
    (hline : 1 ≤ L ∧ L ≤ docCount s)
    (hchar : 1 ≤ c ∧ c ≤ qlen (getString s (L - 1)) + 1) :
    columnToChar s L (charToColumn s L c) = c := by
  have hd := getDisplayStringAtLine_length s L
  unfold columnToChar charToColumn
  rw [if_pos hline.2, if_pos ⟨hline.1, hline.2⟩, charToColumnStr_of_ne s _ c (by omega)]
  have hmin : min (c - 1) (qlen (getDisplayStringAtLine s L)) = c - 1 := by
    apply min_eq_left
    omega
  rw [hmin]
  have hk : (c - 1).toNat ≤ (getDisplayStringAtLine s L).length := by
    unfold qlen at hd hchar
    omega
  rw [columnToCharLoop_after_take s htab hglyph _ _ hk 0 0]
  omega


/-- The loop of foldLineToRow, unfolded at the first range of the list (which
the loop visits last). -/
theorem foldLineToRow_cons (s : SynEdit) (L : Int) (r : SynEditFoldRange)
    (rs : List SynEditFoldRange) :
    (r :: rs).reverse.foldl (foldLineToRowStep s L) L
      = foldLineToRowStep s L (rs.reverse.foldl (foldLineToRowStep s L) L) r := by
  simp [List.foldl_append]

/-- The hypotheses pass to the tail, and the head ends before every counted
range of the tail starts. -/
theorem RowHyp_tail (s : SynEdit) (L : Int) (r : SynEditFoldRange)
    (rs : List SynEditFoldRange) (h : RowHyp s L (r :: rs)) :
    RowHyp s L rs
    ∧ (foldCounts s r = true → ∀ q ∈ rs, foldCounts s q = true → r.toLine ≤ q.fromLine) := by
  obtain ⟨h1, h2⟩ := h
  refine ⟨⟨fun q hq => h1 q (List.mem_cons_of_mem _ hq), ?_⟩, ?_⟩
  · by_cases hc : foldCounts s r = true
    · rw [List.filter_cons_of_pos hc] at h2
      exact (List.pairwise_cons.mp h2).2
    · rw [List.filter_cons_of_neg hc] at h2
      exact h2
  · intro hc q hq hqc
    rw [List.filter_cons_of_pos hc] at h2
    exact (List.pairwise_cons.mp h2).1 q (List.mem_filter.mpr ⟨hq, hqc⟩)

/-- The step of foldLineToRow at a counted range that ends before line L. -/
theorem lineToRowStep_before (s : SynEdit) (L R : Int) (r : SynEditFoldRange)
    (hc : foldCounts s r = true) (hlt : r.toLine < L) :
    foldLineToRowStep s L R r = R - r.linesCollapsed := by
  unfold foldLineToRowStep
  rw [if_pos hc, if_pos hlt]

/-- The step of foldLineToRow at a counted range that neither ends before
line L nor hides it. -/
theorem lineToRowStep_beyond (s : SynEdit) (L R : Int) (r : SynEditFoldRange)
    (hlt : ¬ r.toLine < L) (hin : ¬ (r.fromLine < L ∧ L ≤ r.toLine)) :
    foldLineToRowStep s L R r = R := by
  unfold foldLineToRowStep
  by_cases hc : foldCounts s r = true
  · rw [if_pos hc, if_neg hlt, if_neg hin]
  · rw [if_neg hc]

/-- The step of foldLineToRow at a range that does not count. -/
theorem lineToRowStep_skip (s : SynEdit) (L R : Int) (r : SynEditFoldRange)
    (hc : ¬ foldCounts s r = true) : foldLineToRowStep s L R r = R := by
  unfold foldLineToRowStep
  rw [if_neg hc]

/-- The step of foldRowToLine at a counted range that starts before the
row. -/
theorem rowToLineStep_add (s : SynEdit) (R : Int) (r : SynEditFoldRange)
    (hc : foldCounts s r = true) (hlt : r.fromLine < R) :
    foldRowToLineStep s R r = R + r.linesCollapsed := by
  unfold foldRowToLineStep
  rw [if_pos ⟨hc, hlt⟩]

/-- The step of foldRowToLine at a range that does not count or does not
start before the row. -/
theorem rowToLineStep_keep (s : SynEdit) (R : Int) (r : SynEditFoldRange)
    (h : ¬ foldCounts s r = true ∨ ¬ r.fromLine < R) :
    foldRowToLineStep s R r = R := by
  unfold foldRowToLineStep
  rw [if_neg]
  rintro ⟨h1, h2⟩
  rcases h with h | h
  · exact h h1
  · exact h h2

/-- Ranges that all start at or after line L leave both mappings at L. -/
theorem rows_beyond (s : SynEdit) (L : Int) (rs : List SynEditFoldRange)
    (h : RowHyp s L rs)
    (hb : ∀ r ∈ rs, foldCounts s r = true → L ≤ r.fromLine) :
    rs.reverse.foldl (foldLineToRowStep s L) L = L
    ∧ rs.foldl (foldRowToLineStep s) L = L := by
  induction rs with
  | nil => simp
  | cons r rs ih =>
    have ht := RowHyp_tail s L r rs h
    have ih2 := ih ht.1 (fun q hq => hb q (List.mem_cons_of_mem _ hq))
    have hr := hb r (List.mem_cons_self _ _)
    have hinv := h.1 r (List.mem_cons_self _ _)
    constructor
    · rw [foldLineToRow_cons, ih2.1]
      by_cases hc : foldCounts s r = true
      · have := hr hc
        have := hinv hc
        exact lineToRowStep_beyond s L L r (by omega) (by omega)
      · exact lineToRowStep_skip s L L r hc
    · simp only [List.foldl_cons]
      have hstep : foldRowToLineStep s L r = L := by
        by_cases hc : foldCounts s r = true
        · have := hr hc
          exact rowToLineStep_keep s L r (Or.inr (by omega))
        · exact rowToLineStep_keep s L r (Or.inl hc)
      rw [hstep]
      exact ih2.2

/-- The row of a visible line stays above every line t below it from which on
the counted ranges start. -/
theorem row_lower_bound (s : SynEdit) (L : Int) (rs : List SynEditFoldRange)
    (h : RowHyp s L rs) (t : Int) (ht : t < L)
    (hb : ∀ r ∈ rs, foldCounts s r = true → t ≤ r.fromLine) :
    t < rs.reverse.foldl (foldLineToRowStep s L) L := by
  induction rs generalizing t with
  | nil => simpa using ht
  | cons r rs ih =>
    have htl := RowHyp_tail s L r rs h
    have hinv := h.1 r (List.mem_cons_self _ _)
    rw [foldLineToRow_cons]
    by_cases hc : foldCounts s r = true
    · have hi := hinv hc
      have hrt := hb r (List.mem_cons_self _ _) hc
      by_cases hlt : r.toLine < L
      · rw [lineToRowStep_before s L _ r hc hlt]
        have := ih htl.1 r.toLine hlt (fun q hq hqc => htl.2 hc q hq hqc)
        omega
      · rw [lineToRowStep_beyond s L _ r hlt hi.2.2]
        have hbeyond : ∀ q ∈ rs, foldCounts s q = true → L ≤ q.fromLine := by
          intro q hq hqc
          have := htl.2 hc q hq hqc
          omega
        rw [(rows_beyond s L rs htl.1 hbeyond).1]
        exact ht
    · rw [lineToRowStep_skip s L _ r hc]
      exact ih htl.1 t ht (fun q hq hqc => hb q (List.mem_cons_of_mem _ hq) hqc)

/-- The row part of the round trip on a list of ranges. -/
theorem rows_round_trip (s : SynEdit) (L : Int) (rs : List SynEditFoldRange)
    (h : RowHyp s L rs) :
    rs.foldl (foldRowToLineStep s) (rs.reverse.foldl (foldLineToRowStep s L) L) = L := by
  induction rs with
  | nil => simp
  | cons r rs ih =>
    have htl := RowHyp_tail s L r rs h
    have hinv := h.1 r (List.mem_cons_self _ _)
    rw [foldLineToRow_cons]
    simp only [List.foldl_cons]
    by_cases hc : foldCounts s r = true
    · have hi := hinv hc
      by_cases hlt : r.toLine < L
      · have hlow := row_lower_bound s L rs htl.1 r.toLine hlt
          (fun q hq hqc => htl.2 hc q hq hqc)
        rw [lineToRowStep_before s L _ r hc hlt,
          rowToLineStep_add s _ r hc (by omega), Int.sub_add_cancel]
        exact ih htl.1
      · have hbeyond : ∀ q ∈ rs, foldCounts s q = true → L ≤ q.fromLine := by
          intro q hq hqc
          have := htl.2 hc q hq hqc
          omega
        have hz := rows_beyond s L rs htl.1 hbeyond
        rw [lineToRowStep_beyond s L _ r hlt hi.2.2, hz.1,
          rowToLineStep_keep s L r (Or.inr (by omega))]
        exact hz.2
    · rw [lineToRowStep_skip s L _ r hc, rowToLineStep_keep s _ r (Or.inl hc)]
      exact ih htl.1

/-- The hypotheses on the counted ranges of an editor give the hypotheses of
the row round trip for every line that is not hidden. -/
theorem RowHyp_of_ordered (s : SynEdit) (L : Int) (hfolds : TopFoldsOrdered s)
    (hvis : ¬ lineHidden s L) : RowHyp s L (allFoldRanges s) := by
  refine ⟨?_, hfolds.2⟩
  intro r hr hc
  have hmem : r ∈ topCollapsedRanges s := List.mem_filter.mpr ⟨hr, hc⟩
  have h1 := hfolds.1 r hmem
  exact ⟨h1.1, h1.2, fun hh => hvis ⟨r, hmem, hh⟩⟩

/-- C3: for every buffer coordinate with a line of the document and a
character in [1, lineLength+1], on a line that is not hidden in a collapsed
fold, displayToBufferPos undoes bufferToDisplayPos (tab width > 0, every glyph
at least one column wide, the counted fold ranges well-formed, sorted and not
overlapping). -/
theorem C3_display_buffer_round_trip (s : SynEdit) (c : BufferCoord)
    (htab : 0 < s.cfg.mTabWidth) (hglyph : ∀ ch, 1 ≤ s.cfg.charColumnsOf ch)
    (hfolds : TopFoldsOrdered s)
    (hline : 1 ≤ c.Line ∧ c.Line ≤ docCount s)
    (hchar : 1 ≤ c.Char ∧ c.Char ≤ qlen (getString s (c.Line - 1)) + 1)
    (hvis : ¬ lineHidden s c.Line) :
    displayToBufferPos s (bufferToDisplayPos s c) = c := by
  have hrow : (if s.cfg.mUseCodeFolding = true then
        foldRowToLine s (if s.cfg.mUseCodeFolding = true then foldLineToRow s c.Line else c.Line)
      else (if s.cfg.mUseCodeFolding = true then foldLineToRow s c.Line else c.Line)) = c.Line := by
    by_cases hf : s.cfg.mUseCodeFolding = true
    · rw [if_pos hf, if_pos hf]
      unfold foldRowToLine foldLineToRow
      exact rows_round_trip s c.Line (allFoldRanges s) (RowHyp_of_ordered s c.Line hfolds hvis)
    · rw [if_neg hf, if_neg hf]
  have hcol := columnToChar_charToColumn s htab hglyph c.Line c.Char hline hchar
  unfold displayToBufferPos bufferToDisplayPos
  simp only
  rw [hrow, if_pos (by omega : c.Line - 1 < docCount s), if_pos hline.2, hcol]


/-- C3 (witness): with lines 2 to 4 collapsed, the position (2, 5) behind a
tab on line 5 is shown at row 3, column 5 and maps back to (2, 5). -/
theorem C3_display_buffer_round_trip_witness :
    bufferToDisplayPos foldedEditor ⟨2, 5⟩ = ⟨5, 3⟩
    ∧ displayToBufferPos foldedEditor (bufferToDisplayPos foldedEditor ⟨2, 5⟩) = ⟨2, 5⟩ :=
  ⟨by decide,
   C3_display_buffer_round_trip foldedEditor ⟨2, 5⟩ (by decide) (fun _ => Int.le_refl 1)
     (by unfold TopFoldsOrdered; decide) (by decide) (by decide)
     (by unfold lineHidden; decide)⟩

/-! ### What the bookkeeping leaves alone -/

/-- SameText is reflexive. -/
theorem SameText.refl (s : SynEdit) : SameText s s := ⟨rfl, rfl, rfl⟩

/-- SameText is transitive. -/
theorem SameText.trans {s t u : SynEdit} (h1 : SameText s t) (h2 : SameText t u) :
    SameText s u :=
  ⟨h2.1.trans h1.1, h2.2.1.trans h1.2.1, h2.2.2.trans h1.2.2⟩

/-- Un-collapsing a range keeps the text. -/
theorem uncollapseAt_sameText (s : SynEdit) (i : Nat) : SameText s (uncollapseAt s i) := by
  unfold uncollapseAt
  split
  · exact SameText.refl s
  · exact ⟨rfl, rfl, rfl⟩

/-- Moving a range keeps the text. -/
theorem moveAt_sameText (s : SynEdit) (i : Nat) (n : Int) : SameText s (moveAt s i n) := by
  unfold moveAt
  split
  · exact SameText.refl s
  · exact ⟨rfl, rfl, rfl⟩

/-- The loop of foldOnListInserted keeps the text. -/
theorem foldOnListInsertedLoop_sameText (Line Count : Int) (is : List Nat) (s : SynEdit) :
    SameText s (foldOnListInsertedLoop Line Count is s) := by
  induction is generalizing s with
  | nil => exact SameText.refl s
  | cons i rest ih =>
    unfold foldOnListInsertedLoop
    refine SameText.trans ?_ (ih _)
    split
    · exact SameText.refl s
    · split
      · split
        · exact uncollapseAt_sameText s i
        · split
          · exact moveAt_sameText s i Count
          · exact SameText.refl s
      · exact SameText.refl s

/-- The loop of foldOnListDeleted keeps the text. -/
theorem foldOnListDeletedLoop_sameText (Line Count : Int) (is : List Nat) (s : SynEdit) :
    SameText s (foldOnListDeletedLoop Line Count is s).1 := by
  induction is generalizing s with
  | nil => exact SameText.refl s
  | cons i rest ih =>
    unfold foldOnListDeletedLoop
    simp only
    split
    · exact ih s
    · split
      · split
        · exact SameText.trans (ih s) (uncollapseAt_sameText _ i)
        · split
          · exact ih s
          · split
            · exact SameText.trans (ih s) (moveAt_sameText _ i _)
            · exact ih s
      · exact ih s

/-- foldOnListInserted keeps the text. -/
theorem foldOnListInserted_sameText (s : SynEdit) (Line Count : Int) :
    SameText s (foldOnListInserted s Line Count) :=
  foldOnListInsertedLoop_sameText Line Count _ s

/-- foldOnListDeleted keeps the text. -/
theorem foldOnListDeleted_sameText (s : SynEdit) (Line Count : Int) :
    SameText s (foldOnListDeleted s Line Count) := by
  have h := foldOnListDeletedLoop_sameText Line Count s.mAllFoldRanges s
  exact ⟨h.1, h.2.1, h.2.2⟩

/-- A fold re-scan keeps the text. -/
theorem rescanFolds_sameText (s : SynEdit) : SameText s (rescanFolds s) := by
  unfold rescanFolds
  split
  · exact ⟨rfl, rfl, rfl⟩
  · exact SameText.refl s

/-- scanFrom keeps the text. -/
theorem scanFrom_sameText (s : SynEdit) (i : Int) : SameText s (scanFrom s i) := by
  unfold scanFrom
  split
  · exact SameText.refl s
  · exact rescanFolds_sameText s

/-- SameText passes through a conditional. -/
theorem sameText_ite {c : Prop} [Decidable c] {s a b : SynEdit} (ha : SameText s a)
    (hb : SameText s b) : SameText s (if c then a else b) := by
  split
  · exact ha
  · exact hb

/-- The lines-deleted slot keeps the text. -/
theorem onLinesDeleted_sameText (s : SynEdit) (i n : Int) :
    SameText s (onLinesDeleted s i n) := by
  have h1 : SameText s (if s.cfg.hasHighlighter = true ∧ docCount s > 0 then scanFrom s i else s) :=
    sameText_ite (scanFrom_sameText s i) (SameText.refl s)
  unfold onLinesDeleted
  exact sameText_ite (SameText.trans h1 (foldOnListDeleted_sameText _ _ _)) h1

/-- The lines-inserted slot keeps the text. -/
theorem onLinesInserted_sameText (s : SynEdit) (i n : Int) :
    SameText s (onLinesInserted s i n) := by
  have h1 : SameText s (if s.cfg.mUseCodeFolding = true then foldOnListInserted s (i + 1) n else s) :=
    sameText_ite (foldOnListInserted_sameText s _ _) (SameText.refl s)
  unfold onLinesInserted
  exact sameText_ite (SameText.trans h1 (scanFrom_sameText _ _)) h1

/-- The line-content-changed slot keeps the text. -/
theorem onLinesPutted_sameText (s : SynEdit) (i : Int) : SameText s (onLinesPutted s i) := by
  unfold onLinesPutted
  split
  · exact scanFrom_sameText s i
  · exact SameText.refl s

/-- The status update keeps the text. -/
theorem updateModifiedStatus_sameText (s : SynEdit) : SameText s (updateModifiedStatus s) := by
  unfold updateModifiedStatus setModified
  split
  · exact ⟨rfl, rfl, rfl⟩
  · exact SameText.refl s

/-- Recording an undo item keeps the text. -/
theorem undoAddChange_sameText (s : SynEdit) (reason : SynChangeReason) (a b : BufferCoord)
    (text : List QString) (mode : SynSelectionMode) :
    SameText s (undoAddChange s reason a b text mode) := by
  unfold undoAddChange onUndoAdded
  simp only
  have h1 := updateModifiedStatus_sameText
    { s with mUndoList := s.mUndoList.AddChange reason a b text mode }
  split
  · split
    · exact ⟨h1.1, h1.2.1, h1.2.2⟩
    · exact h1
  · exact h1

/-- Setting the caret keeps the text. -/
theorem internalSetCaretXY_sameText (s : SynEdit) (v : BufferCoord) :
    SameText s (internalSetCaretXY s v) := ⟨rfl, rfl, rfl⟩


/-! ### The document after each mutation -/

/-- Writing an existing line replaces it. -/
theorem linesPut_valid (D : List QString) (k : Nat) (hk : k < D.length) (t : QString) :
    linesPut D (k : Int) t = D.take k ++ t :: D.drop (k + 1) := by
  unfold linesPut
  rw [if_neg (by omega), if_neg (by omega)]
  simp [List.set_eq_take_append_cons_drop, hk]

/-- Writing an existing line replaces it (index as an int). -/
theorem linesPut_int (D : List QString) (i : Int) (hi : 0 ≤ i ∧ i < (D.length : Int))
    (t : QString) : linesPut D i t = D.take i.toNat ++ t :: D.drop (i.toNat + 1) := by
  obtain ⟨k, rfl⟩ := Int.eq_ofNat_of_zero_le hi.1
  exact linesPut_valid D k (by omega) t

/-- A document splits around each of its lines. -/
theorem lines_split (D : List QString) (k : Nat) (hk : k < D.length) :
    D = D.take k ++ linesGet D (k : Int) :: D.drop (k + 1) := by
  unfold linesGet
  rw [if_neg (by omega)]
  simp only [Int.toNat_ofNat]
  rw [List.getD_eq_getElem D [] hk, List.getElem_cons_drop, List.take_append_drop]

/-- A step that keeps the text, taken after one that sets it. -/
theorem TextIs.then {s t u : SynEdit} {D : List QString} (h1 : TextIs s t D)
    (h2 : SameText t u) : TextIs s u D :=
  ⟨h2.1.trans h1.1, h2.2.1.trans h1.2.1, h2.2.2.trans h1.2.2⟩

/-- The document after SynDocument::add. -/
theorem docAdd_text (s : SynEdit) (t : QString) :
    TextIs s (docAdd s t) (s.mDocument ++ [t]) := by
  unfold docAdd
  have h := onLinesInserted_sameText { s with mDocument := s.mDocument ++ [t] } (docCount s) 1
  exact ⟨h.1, h.2.1, h.2.2⟩

/-- The document after SynDocument::putString. -/
theorem docPutString_text (s : SynEdit) (i : Int) (t : QString) (notify : Bool) :
    TextIs s (docPutString s i t notify) (linesPut s.mDocument i t) := by
  unfold docPutString
  by_cases h1 : i = docCount s
  · rw [if_pos h1]
    have h2 : linesPut s.mDocument i t = s.mDocument ++ [t] := by
      unfold linesPut
      unfold docCount at h1
      rw [if_neg (by omega), if_pos h1]
    rw [h2]
    exact docAdd_text s t
  · rw [if_neg h1]
    by_cases h2 : i < 0 ∨ i > docCount s
    · rw [if_pos h2]
      have h3 : linesPut s.mDocument i t = s.mDocument := by
        unfold linesPut
        unfold docCount at h1 h2
        rcases h2 with h2 | h2
        · rw [if_pos h2]
        · rw [if_neg (by omega), if_neg h1]
          exact List.set_eq_of_length_le (by omega)
      rw [h3]
      exact SameText.refl s
    · rw [if_neg h2]
      simp only
      split
      · have h := onLinesPutted_sameText { s with mDocument := linesPut s.mDocument i t } i
        exact ⟨h.1, h.2.1, h.2.2⟩
      · exact ⟨rfl, rfl, rfl⟩

/-- The document after properSetLine when trailing blanks are kept. -/
theorem properSetLine_text (s : SynEdit) (htrim : s.cfg.eoTrimTrailingSpaces = false) (i : Int)
    (t : QString) (notify : Bool) :
    TextIs s (properSetLine s i t notify) (linesPut s.mDocument i t) := by
  unfold properSetLine
  rw [htrim]
  exact docPutString_text s i t notify

/-- The document after SynDocument::deleteLines. -/
theorem docDeleteLines_text (s : SynEdit) (i n : Int) :
    TextIs s (docDeleteLines s i n) (linesDelete s.mDocument i n) := by
  unfold docDeleteLines
  by_cases h1 : n ≤ 0 ∨ i < 0 ∨ i ≥ docCount s
  · rw [if_pos h1]
    have h2 : linesDelete s.mDocument i n = s.mDocument := by
      unfold linesDelete
      unfold docCount at h1
      rw [if_pos h1]
    rw [h2]
    exact SameText.refl s
  · rw [if_neg h1]
    simp only
    have h2 : linesDelete s.mDocument i
        (if docCount s - (i + n) < 0 then docCount s - i else n) = linesDelete s.mDocument i n := by
      unfold docCount at h1 ⊢
      split
      · rename_i hlt
        unfold linesDelete
        rw [if_neg (by omega), if_neg h1]
        rw [List.drop_of_length_le (by omega), List.drop_of_length_le (by omega)]
      · rfl
    rw [← h2]
    generalize (if docCount s - (i + n) < 0 then docCount s - i else n) = m
    have h := onLinesDeleted_sameText { s with mDocument := linesDelete s.mDocument i m } i m
    exact ⟨h.1, h.2.1, h.2.2⟩

/-- The document after SynDocument::insertLines. -/
theorem docInsertLines_text (s : SynEdit) (i n : Int) (hi : 0 ≤ i ∧ i ≤ docCount s) (hn : 0 < n) :
    TextIs s (docInsertLines s i n)
      (linesInsert s.mDocument i (List.replicate n.toNat [])) := by
  unfold docInsertLines
  rw [if_neg (by omega)]
  have h := onLinesInserted_sameText
    { s with mDocument := linesInsert s.mDocument i (List.replicate n.toNat []) } i n
  exact ⟨h.1, h.2.1, h.2.2⟩

/-! ### Stream insertion -/

/-- The re-indentation switch depends on the configuration and the replay flag
only. -/
theorem autoIndents_textIs {s t : SynEdit} {D : List QString} (h : TextIs s t D) :
    autoIndents t = autoIndents s := by
  unfold autoIndents
  rw [h.2.1, h.2.2]

/-- Step 2 of the stream insertion fills the empty lines made for it with the
text lines, the last one followed by the right half. -/
theorem insertRestLoop_text (pos : BufferCoord) (sR : QString) (n : Int) (ts : List QString) :
    ∀ (i : Int) (st : SynEdit) (str0 : QString) (A B : List QString),
      autoIndents st = false → st.cfg.eoTrimTrailingSpaces = false →
      st.mDocument = A ++ List.replicate ts.length [] ++ B →
      (A.length : Int) = pos.Line + i - 1 → n = i + (ts.length : Int) →
      TextIs st (insertRestLoop pos sR n ts i st str0).1 (A ++ spliceTail sR ts ++ B)
        ∧ (insertRestLoop pos sR n ts i st str0).2 = (spliceTail sR ts).getLastD str0 := by
  induction ts with
  | nil =>
    intro i st str0 A B _ _ hdoc _ _
    simp only [insertRestLoop, spliceTail, List.getLastD_nil, and_true]
    refine ⟨?_, rfl, rfl⟩
    simpa using hdoc
  | cons t rest ih =>
    intro i st str0 A B hauto htrim hdoc hA hn
    have hlast : (i = n - 1) ↔ rest = [] := by
      simp only [List.length_cons] at hn
      constructor
      · intro h
        have : rest.length = 0 := by push_cast at hn; omega
        exact List.length_eq_zero.mp this
      · intro h
        rw [h] at hn
        simp at hn
        omega
    have hstr : (if t = [] then
          (if i = n - 1 then sR
            else if autoIndents st = true then
              GetLeftSpacing st (calcIndentSpaces st (pos.Line + i) [] true) true
            else [])
        else
          (if autoIndents st = true then
              GetLeftSpacing st (calcIndentSpaces st (pos.Line + i)
                (if i = n - 1 then t ++ sR else t) true) true
                ++ trimLeft (if i = n - 1 then t ++ sR else t)
            else (if i = n - 1 then t ++ sR else t)))
        = (if rest = [] then t ++ sR else t) := by
      rw [hauto]
      by_cases h1 : rest = []
      · have := hlast.mpr h1
        by_cases h2 : t = []
        · simp [h1, h2, this]
        · simp [h1, h2, this]
      · have : ¬ i = n - 1 := fun h => h1 (hlast.mp h)
        by_cases h2 : t = []
        · simp [h1, h2, this]
        · simp [h1, h2, this]
    unfold insertRestLoop
    simp only
    rw [hstr]
    generalize hw : (if rest = [] then t ++ sR else t) = w
    have hput := properSetLine_text st htrim (pos.Line + i - 1) w false
    have hdoc2 : linesPut st.mDocument (pos.Line + i - 1) w
        = (A ++ [w]) ++ List.replicate rest.length [] ++ B := by
      rw [← hA, hdoc, linesPut_valid _ _ (by simp)]
      simp [List.take_append_eq_append_take, List.drop_append_eq_append_drop,
        List.replicate_succ]
    rw [hdoc2] at hput
    have hrec := ih (i + 1) (properSetLine st (pos.Line + i - 1) w false) w (A ++ [w]) B
      ((autoIndents_textIs hput).trans hauto)
      ((congrArg SynEditConfig.eoTrimTrailingSpaces hput.2.1).trans htrim) hput.1
      (by simp; omega) (by simp only [List.length_cons] at hn; push_cast at hn; omega)
    have hsplice : spliceTail sR (t :: rest) = w :: spliceTail sR rest := by
      rw [← hw]
      cases rest with
      | nil => simp [spliceTail]
      | cons a l => simp [spliceTail]
    constructor
    · refine ⟨?_, ?_, ?_⟩
      · rw [hrec.1.1, hsplice]
        simp
      · rw [hrec.1.2.1]
        exact hput.2.1
      · rw [hrec.1.2.2]
        exact hput.2.2
    · rw [hrec.2, hsplice]
      cases hsp : spliceTail sR rest with
      | nil => rfl
      | cons a l => rfl

/-- QString::mid(0, k) is the first k characters when k is within the string. -/
theorem qmid_zero (l : QString) (k : Int) (hk : 0 ≤ k ∧ k ≤ qlen l) :
    qmid l 0 k = l.take k.toNat := by
  unfold qmid
  have h0 : 0 ≤ qlen l := by unfold qlen; omega
  rw [if_neg (by omega), if_neg (by omega), if_neg (by omega)]
  simp

/-- QString::mid(k) is the string without its first k characters. -/
theorem qmidFrom_drop (l : QString) (k : Int) (hk : 0 ≤ k ∧ k ≤ qlen l) :
    qmidFrom l k = l.drop k.toNat := by
  unfold qmidFrom qmid
  rw [if_neg (by omega), if_neg (by omega), if_pos (Or.inl (by omega))]

/-- The length of the first k characters. -/
theorem qlen_take (l : QString) (k : Int) (hk : 0 ≤ k ∧ k ≤ qlen l) :
    qlen (l.take k.toNat) = k := by
  unfold qlen at *
  simp only [List.length_take]
  omega

/-- The last of the lines written by step 2 is the last text line followed by
the right half. -/
theorem spliceTail_getLastD (post : QString) (ts : List QString) (hts : ts ≠ []) (x : QString) :
    (spliceTail post ts).getLastD x = ts.getLastD [] ++ post := by
  induction ts generalizing x with
  | nil => exact absurd rfl hts
  | cons t rest ih =>
    cases rest with
    | nil => simp [spliceTail]
    | cons a l =>
      have e : spliceTail post (t :: a :: l) = t :: spliceTail post (a :: l) := rfl
      rw [e, List.getLastD_cons, ih (by simp) t]
      simp [List.getLastD_cons]

/-- Step 2 writes as many lines as there are text lines left. -/
theorem spliceTail_length (post : QString) (ts : List QString) :
    (spliceTail post ts).length = ts.length := by
  induction ts with
  | nil => rfl
  | cons t rest ih =>
    cases rest with
    | nil => simp [spliceTail]
    | cons a l =>
      simp only [spliceTail, List.length_cons] at ih ⊢
      omega

/-- A stream insertion leaves as many lines as the text has. -/
theorem spliceLines_length (pre post : QString) (t0 : QString) (ts : List QString) :
    (spliceLines pre post (t0 :: ts)).length = ts.length + 1 := by
  cases ts with
  | nil => simp [spliceLines]
  | cons a l =>
    have := spliceTail_length post (a :: l)
    simp only [spliceLines, List.length_cons] at this ⊢
    omega

/-- The state and the last string after steps 1 and 2 of the stream insertion
without re-indentation and trimming. -/
theorem insertNormalLines_text (s : SynEdit) (c L : Int) (t0 : QString) (ts : List QString)
    (hauto : autoIndents s = false) (htrim : s.cfg.eoTrimTrailingSpaces = false)
    (hL : 1 ≤ L ∧ L ≤ docCount s)
    (hc : 1 ≤ c ∧ c ≤ qlen (getString s (L - 1)) + 1) :
    TextIs s (insertNormalLines s ⟨c, L⟩ (t0 :: ts)).1
        (s.mDocument.take (L - 1).toNat
          ++ spliceLines ((getString s (L - 1)).take (c - 1).toNat)
              ((getString s (L - 1)).drop (c - 1).toNat) (t0 :: ts)
          ++ s.mDocument.drop L.toNat)
      ∧ (insertNormalLines s ⟨c, L⟩ (t0 :: ts)).2
        = (if ts = [] then (getString s (L - 1)).take (c - 1).toNat ++ t0 else ts.getLastD [])
          ++ (getString s (L - 1)).drop (c - 1).toNat
      ∧ insertRightSide s ⟨c, L⟩ = (getString s (L - 1)).drop (c - 1).toNat := by
  have hlen0 : 0 ≤ qlen (getString s (L - 1)) := by unfold qlen; omega
  have hll := qlen_take (getString s (L - 1)) (c - 1) (by omega)
  have hright : insertRightSide s ⟨c, L⟩ = (getString s (L - 1)).drop (c - 1).toNat :=
    qmidFrom_drop (getString s (L - 1)) (c - 1) (by omega)
  have hleft : insertLeftSide s ⟨c, L⟩ = (getString s (L - 1)).take (c - 1).toNat := by
    unfold insertLeftSide
    simp only
    rw [qmid_zero (getString s (L - 1)) (c - 1) (by omega), hll, if_neg (lt_irrefl _)]
  generalize (getString s (L - 1)).take (c - 1).toNat = pre at *
  generalize hpost : (getString s (L - 1)).drop (c - 1).toNat = post at *
  have hk : (L - 1).toNat < s.mDocument.length := by unfold docCount at hL; omega
  have hLk : ((L - 1).toNat : Int) = L - 1 := by omega
  have hLn : (L - 1).toNat + 1 = L.toNat := by omega
  have hput : ∀ w, TextIs s (properSetLine s (L - 1) w true)
      (s.mDocument.take (L - 1).toNat ++ w :: s.mDocument.drop L.toNat) := by
    intro w
    have h := properSetLine_text s htrim (L - 1) w true
    rw [linesPut_int _ _ (by omega), hLn] at h
    exact h
  cases ts with
  | nil =>
    have hfirst : insertFirstString s ⟨c, L⟩ [t0] = pre ++ t0 ++ post := by
      simp [insertFirstString, hleft, hright]
    refine ⟨?_, ?_, hright⟩
    · simp only [insertNormalLines, List.length_singleton, List.tail_cons, insertRestLoop,
        hfirst, spliceLines]
      simp only [Nat.cast_one, gt_iff_lt, lt_irrefl, if_false]
      simpa using hput (pre ++ t0 ++ post)
    · simp [insertNormalLines, insertRestLoop, hfirst]
  | cons a l =>
    have hn : ((t0 :: a :: l).length : Int) > 1 := by
      simp only [List.length_cons]
      push_cast
      omega
    have hfirst : insertFirstString s ⟨c, L⟩ (t0 :: a :: l) = pre ++ t0 := by
      simp only [insertFirstString, hn, if_true, hauto, List.headD_cons, hleft]
      simp
    have h1 := hput (pre ++ t0)
    have hcount1 : docCount (properSetLine s (L - 1) (pre ++ t0) true) = docCount s := by
      unfold docCount
      rw [h1.1]
      simp only [List.length_append, List.length_cons, List.length_take, List.length_drop]
      omega
    have h2 := docInsertLines_text (properSetLine s (L - 1) (pre ++ t0) true) L
      (((t0 :: a :: l).length : Int) - 1) (by omega) (by omega)
    have hdoc2 : (docInsertLines (properSetLine s (L - 1) (pre ++ t0) true) L
          (((t0 :: a :: l).length : Int) - 1)).mDocument
        = (s.mDocument.take (L - 1).toNat ++ [pre ++ t0])
          ++ List.replicate (a :: l).length [] ++ s.mDocument.drop L.toNat := by
      rw [h2.1, h1.1]
      unfold linesInsert
      have hlenA : (s.mDocument.take (L - 1).toNat ++ [pre ++ t0]).length = L.toNat := by
        simp only [List.length_append, List.length_take, List.length_singleton]
        omega
      have e : s.mDocument.take (L - 1).toNat ++ (pre ++ t0) :: s.mDocument.drop L.toNat
          = (s.mDocument.take (L - 1).toNat ++ [pre ++ t0]) ++ s.mDocument.drop L.toNat := by
        simp
      rw [e, if_neg (by
        simp only [List.length_append, List.length_take, List.length_singleton,
          List.length_drop]
        omega)]
      rw [List.take_left' hlenA, List.drop_left' hlenA]
      congr 2
      simp only [List.length_cons]
      congr 1
      push_cast
      omega
    have hrec := insertRestLoop_text ⟨c, L⟩ post ((t0 :: a :: l).length : Int) (a :: l) 1
      (docInsertLines (properSetLine s (L - 1) (pre ++ t0) true) L
          (((t0 :: a :: l).length : Int) - 1))
      (pre ++ t0) (s.mDocument.take (L - 1).toNat ++ [pre ++ t0]) (s.mDocument.drop L.toNat)
      ((autoIndents_textIs h2).trans ((autoIndents_textIs h1).trans hauto))
      ((congrArg SynEditConfig.eoTrimTrailingSpaces (h2.2.1.trans h1.2.1)).trans htrim)
      hdoc2
      (by
        simp only [List.length_append, List.length_take, List.length_singleton]
        omega)
      (by simp only [List.length_cons]; push_cast; omega)
    have hshape : insertNormalLines s ⟨c, L⟩ (t0 :: a :: l)
        = insertRestLoop ⟨c, L⟩ post ((t0 :: a :: l).length : Int) (a :: l) 1
            (docInsertLines (properSetLine s (L - 1) (pre ++ t0) true) L
              (((t0 :: a :: l).length : Int) - 1)) (pre ++ t0) := by
      simp only [insertNormalLines, hfirst, hn, if_true, List.tail_cons, hright]
    rw [hshape]
    refine ⟨⟨?_, ?_, ?_⟩, ?_, hright⟩
    · rw [hrec.1.1]
      simp [spliceLines]
    · rw [hrec.1.2.1, h2.2.1, h1.2.1]
    · rw [hrec.1.2.2, h2.2.2, h1.2.2]
    · rw [hrec.2, spliceTail_getLastD post (a :: l) (by simp)]
      simp

/-- The last line that a stream insertion writes. -/
theorem spliceLines_getLastD (pre post t0 : QString) (ts : List QString) :
    (spliceLines pre post (t0 :: ts)).getLastD []
      = (if ts = [] then pre ++ t0 else ts.getLastD []) ++ post := by
  cases ts with
  | nil => simp [spliceLines]
  | cons a l =>
    have e : spliceLines pre post (t0 :: a :: l) = (pre ++ t0) :: spliceTail post (a :: l) := rfl
    rw [e, List.getLastD_cons, spliceTail_getLastD post (a :: l) (by simp)]
    simp

/-- The line read at the last index of a block M inside A ++ M ++ B. -/
theorem linesGet_block_last (A M B : List QString) (hM : M ≠ []) (i : Int)
    (hi : i = (A.length : Int) + (M.length : Int) - 1) :
    linesGet (A ++ M ++ B) i = M.getLastD [] := by
  have hpos : 0 < M.length := List.length_pos.mpr hM
  unfold linesGet
  rw [if_neg (by omega)]
  have hidx : i.toNat = A.length + (M.length - 1) := by omega
  rw [hidx, List.getD_eq_getElem?_getD, List.append_assoc,
    List.getElem?_append_right (by omega)]
  simp only [Nat.add_sub_cancel_left]
  rw [List.getElem?_append_left (by omega)]
  rw [List.getLastD_eq_getLast?, List.getLast?_eq_getElem?]

/-- The outcome of doInsertTextByNormalMode without re-indentation and
trimming. -/
theorem normalInsert_outcome (s : SynEdit) (c L : Int) (t0 : QString) (ts : List QString)
    (hauto : autoIndents s = false) (htrim : s.cfg.eoTrimTrailingSpaces = false)
    (hL : 1 ≤ L ∧ L ≤ docCount s)
    (hc : 1 ≤ c ∧ c ≤ qlen (getString s (L - 1)) + 1) :
    TextIs s (doInsertTextByNormalMode s ⟨c, L⟩ (t0 :: ts)).state
        (s.mDocument.take (L - 1).toNat
          ++ spliceLines ((getString s (L - 1)).take (c - 1).toNat)
              ((getString s (L - 1)).drop (c - 1).toNat) (t0 :: ts)
          ++ s.mDocument.drop L.toNat)
      ∧ (doInsertTextByNormalMode s ⟨c, L⟩ (t0 :: ts)).newPos
        = ⟨(if ts = [] then c + qlen t0 else qlen (ts.getLastD []) + 1), L + (ts.length : Int)⟩ := by
  have hlen0 : 0 ≤ qlen (getString s (L - 1)) := by unfold qlen; omega
  have hll := qlen_take (getString s (L - 1)) (c - 1) (by omega)
  obtain ⟨h1, h2, h3⟩ := insertNormalLines_text s c L t0 ts hauto htrim hL hc
  have hnew : insertNormalNewPos s ⟨c, L⟩ (t0 :: ts) (insertNormalLines s ⟨c, L⟩ (t0 :: ts))
      = ⟨(if ts = [] then c + qlen t0 else qlen (ts.getLastD []) + 1), L + (ts.length : Int)⟩ := by
    unfold insertNormalNewPos
    simp only
    rw [h1.2.1, htrim, if_neg (by simp), h2, h3]
    have e1 : L + (((t0 :: ts).length : Int) - 1) = L + (ts.length : Int) := by
      simp only [List.length_cons]
      push_cast
      omega
    rw [e1]
    congr 1
    by_cases hts : ts = []
    · simp only [hts, if_true]
      unfold qlen at hll ⊢
      simp only [List.length_append] at hll ⊢
      push_cast
      omega
    · simp only [hts, if_false]
      unfold qlen
      simp only [List.length_append]
      push_cast
      omega
  unfold doInsertTextByNormalMode
  simp only
  rw [hnew]
  refine ⟨?_, rfl⟩
  have hp := onLinesPutted_sameText (insertNormalLines s ⟨c, L⟩ (t0 :: ts)).1 (L - 1)
  split
  · exact (h1.then hp).then (undoAddChange_sameText _ _ _ _ _ _)
  · exact h1.then hp


/-- The line count after a stream insertion. -/
theorem splice_doc_length (D : List QString) (L : Int) (hL : 1 ≤ L ∧ L ≤ (D.length : Int))
    (M : List QString) :
    ((D.take (L - 1).toNat ++ M ++ D.drop L.toNat).length : Int)
      = (D.length : Int) + (M.length : Int) - 1 := by
  simp only [List.length_append, List.length_take, List.length_drop]
  push_cast
  omega

/-- C4 (counterexample): with auto-indent off and trailing-space trimming on,
inserting the text lines "x " and "y" at the end of "ab" makes line 1 "abx",
not "ab" followed by "x ". -/
theorem C4_trimming_changes_first_line :
    trimmingNoIndentEditor.cfg.eoAutoIndent = false
    ∧ docStrings (doInsertText trimmingNoIndentEditor ⟨3, 1⟩ ["x ".toList, "y".toList]
        SynSelectionMode.smNormal 1 1) = ["abx", "y"]
    ∧ ¬ ((doInsertText trimmingNoIndentEditor ⟨3, 1⟩ ["x ".toList, "y".toList]
          SynSelectionMode.smNormal 1 1).mDocument
        = trimmingNoIndentEditor.mDocument.take 0
          ++ spliceLines ("ab".toList.take 2) ("ab".toList.drop 2) ["x ".toList, "y".toList]
          ++ trimmingNoIndentEditor.mDocument.drop 1) := by
  decide

/-- C4 (amended): stream-mode insert with auto-indent off and trailing-space
trimming off.  For every line s at line L, caret char c with 1 <= c <= |s|+1
and text t0, ..., tn, doInsertText replaces line L by the spliced lines
(s[1..c-1]+t0+s[c..] for n = 0; else s[1..c-1]+t0, then t1, ..., t(n-1), then
tn+s[c..]), keeps every other line in order, raises the line count by n and
puts the caret at (|tn|+1, L+n) for n >= 1, at (c+|t0|, L) for n = 0. -/
theorem C4_stream_insert_splices (s : SynEdit) (c L : Int) (t0 : QString) (ts : List QString)
    (startLine endLine : Int)
    (hind : s.cfg.eoAutoIndent = false) (htrim : s.cfg.eoTrimTrailingSpaces = false)
    (hL : 1 ≤ L ∧ L ≤ docCount s)
    (hc : 1 ≤ c ∧ c ≤ qlen (getString s (L - 1)) + 1) :
    (doInsertText s ⟨c, L⟩ (t0 :: ts) SynSelectionMode.smNormal startLine endLine).mDocument
        = s.mDocument.take (L - 1).toNat
          ++ spliceLines ((getString s (L - 1)).take (c - 1).toNat)
              ((getString s (L - 1)).drop (c - 1).toNat) (t0 :: ts)
          ++ s.mDocument.drop L.toNat
    ∧ docCount (doInsertText s ⟨c, L⟩ (t0 :: ts) SynSelectionMode.smNormal startLine endLine)
        = docCount s + (ts.length : Int)
    ∧ caretXY (doInsertText s ⟨c, L⟩ (t0 :: ts) SynSelectionMode.smNormal startLine endLine)
        = ⟨(if ts = [] then c + qlen t0 else qlen (ts.getLastD []) + 1), L + (ts.length : Int)⟩ := by
  have hauto : autoIndents s = false := by
    unfold autoIndents
    rw [hind]
    simp
  obtain ⟨h1, h2⟩ := normalInsert_outcome s c L t0 ts hauto htrim hL hc
  have hlen0 : 0 ≤ qlen (getString s (L - 1)) := by unfold qlen; omega
  have hll := qlen_take (getString s (L - 1)) (c - 1) (by omega)
  have hshape : doInsertText s ⟨c, L⟩ (t0 :: ts) SynSelectionMode.smNormal startLine endLine
      = internalSetCaretXY (doInsertTextByNormalMode s ⟨c, L⟩ (t0 :: ts)).state
          (doInsertTextByNormalMode s ⟨c, L⟩ (t0 :: ts)).newPos := by
    unfold doInsertText
    rw [if_neg (by simp)]
    simp only
    rw [if_neg (by
      rintro ⟨_, _, h⟩
      omega)]
  rw [hshape]
  generalize hst : (doInsertTextByNormalMode s ⟨c, L⟩ (t0 :: ts)).state = st at *
  rw [h2]
  have hcount : docCount st = docCount s + (ts.length : Int) := by
    unfold docCount at hL ⊢
    rw [h1.1, splice_doc_length _ _ hL, spliceLines_length]
    push_cast
    omega
  refine ⟨h1.1, ?_, ?_⟩
  · exact hcount
  · have hlast : getString st (L + (ts.length : Int) - 1)
        = (if ts = [] then (getString s (L - 1)).take (c - 1).toNat ++ t0 else ts.getLastD [])
          ++ (getString s (L - 1)).drop (c - 1).toNat := by
      rw [show getString st (L + (ts.length : Int) - 1)
          = linesGet st.mDocument (L + (ts.length : Int) - 1) from rfl,
        h1.1, linesGet_block_last _ _ _ (by
        cases ts <;> simp [spliceLines]) _ (by
        rw [spliceLines_length]
        simp only [List.length_take]
        unfold docCount at hL
        push_cast
        omega), spliceLines_getLastD]
    have hdisp := getDisplayStringAtLine_length st (L + (ts.length : Int))
    rw [hlast] at hdisp
    have hchar : (if ts = [] then c + qlen t0 else qlen (ts.getLastD []) + 1)
        ≤ qlen (getDisplayStringAtLine st (L + (ts.length : Int))) + 1
        ∧ 1 ≤ (if ts = [] then c + qlen t0 else qlen (ts.getLastD []) + 1) := by
      unfold qlen at hdisp hll ⊢
      by_cases hts : ts = []
      · simp only [hts, if_true, List.length_append] at hdisp ⊢
        push_cast at hdisp
        omega
      · simp only [hts, if_false, List.length_append] at hdisp ⊢
        push_cast at hdisp
        omega
    generalize (if ts = [] then c + qlen t0 else qlen (ts.getLastD []) + 1) = x at *
    unfold internalSetCaretXY setCaretXYEx caretXY updateLastCaretX
    simp only
    have hnn : (0 : Int) ≤ (ts.length : Int) := by omega
    rw [if_neg (by omega : ¬ L + (ts.length : Int) > docCount st)]
    congr 1
    · by_cases hm : st.mActiveSelectionMode ≠ SynSelectionMode.smColumn
      · rw [if_pos hm, if_neg (by omega)]
        omega
      · rw [if_neg hm]
        omega
    · rw [if_neg (by
        rintro ⟨_, h⟩
        omega)]

/-- C4 (witness): inserting "// hi" and a line break at (1, 1) of
["int main() {", "    return 0;", "}"] gives 4 lines starting with "// hi" and
the caret at (1, 2), that is line 2, char 1. -/
theorem C4_stream_insert_splices_witness :
    docStrings (doInsertText scenarioEditor ⟨1, 1⟩ ["// hi".toList, []]
        SynSelectionMode.smNormal 1 1)
      = ["// hi", "int main() \x7b", "    return 0;", "\x7d"]
    ∧ docCount (doInsertText scenarioEditor ⟨1, 1⟩ ["// hi".toList, []]
        SynSelectionMode.smNormal 1 1) = 4
    ∧ caretXY (doInsertText scenarioEditor ⟨1, 1⟩ ["// hi".toList, []]
        SynSelectionMode.smNormal 1 1) = ⟨1, 2⟩ :=
  ⟨by decide, by decide,
   (C4_stream_insert_splices scenarioEditor 1 1 "// hi".toList [[]] 1 1 rfl rfl
      (by decide) (by decide)).2.2⟩


/-! ### Stream deletion and its inverse -/

/-- Reading consecutive lines gives a slice of the document. -/
theorem map_getD_range (D : List QString) (a n : Nat) (h : a + n ≤ D.length) :
    (List.range n).map (fun k => D.getD (a + k) []) = (D.drop a).take n := by
  apply List.ext_getElem
  · simp
    omega
  · intro i h1 h2
    simp at h1 h2 ⊢
    rw [List.getElem?_eq_getElem (by omega)]
    rfl

/-- The lines lo, ..., hi of a document, read one by one. -/
theorem map_linesGet_intRange (D : List QString) (lo hi : Int)
    (h : 0 ≤ lo ∧ lo ≤ hi + 1 ∧ hi < (D.length : Int)) :
    (intRange lo hi).map (linesGet D) = (D.drop lo.toNat).take (hi - lo + 1).toNat := by
  have e := map_getD_range D lo.toNat (hi - lo + 1).toNat (by omega)
  rw [← e]
  unfold intRange
  rw [List.map_map]
  apply List.map_congr_left
  intro k hk
  simp only [Function.comp, linesGet]
  rw [if_neg (by omega)]
  congr 1
  omega

/-- The document after the stream deletion: the lines between the two ends go
and the start line holds the joined remainders. -/
theorem deleted_doc_shape (D : List QString) (sl el : Int)
    (h : 1 ≤ sl ∧ sl ≤ el ∧ el ≤ (D.length : Int)) (X : QString) :
    linesPut (linesDelete D sl (el - sl)) (sl - 1) X
      = D.take (sl - 1).toNat ++ X :: D.drop el.toNat := by
  unfold linesDelete
  by_cases h1 : el - sl ≤ 0 ∨ sl < 0 ∨ sl ≥ (D.length : Int)
  · rw [if_pos h1, linesPut_int _ _ (by omega)]
    have : (sl - 1).toNat + 1 = el.toNat := by omega
    rw [this]
  · rw [if_neg h1]
    have hlen : ((D.take sl.toNat ++ D.drop (sl.toNat + (el - sl).toNat)).length : Int)
        = (D.length : Int) - (el - sl) := by
      simp only [List.length_append, List.length_take, List.length_drop]
      push_cast
      omega
    rw [linesPut_int _ _ (by omega)]
    have e1 : sl.toNat + (el - sl).toNat = el.toNat := by omega
    have e2 : (sl - 1).toNat + 1 = sl.toNat := by omega
    have hl : (D.take sl.toNat).length = sl.toNat := by
      simp only [List.length_take]
      omega
    rw [e1, e2, List.take_append_eq_append_take, List.drop_left' hl, hl, List.take_take]
    have e3 : (sl - 1).toNat - sl.toNat = 0 := by omega
    have e4 : min (sl - 1).toNat sl.toNat = (sl - 1).toNat := by omega
    rw [e3, e4]
    simp

/-- Step 2 of an insertion whose last text line is x. -/
theorem spliceTail_append_singleton (post : QString) (M : List QString) (x : QString) :
    spliceTail post (M ++ [x]) = M ++ [x ++ post] := by
  induction M with
  | nil => rfl
  | cons m rest ih =>
    cases hr : rest ++ [x] with
    | nil => simp at hr
    | cons a l =>
      have e : spliceTail post (m :: (rest ++ [x])) = m :: spliceTail post (rest ++ [x]) := by
        rw [hr]
        rfl
      rw [List.cons_append, e, ih]
      rfl

/-- foldStartAtLine answers a range of the list that starts at the line. -/
theorem foldStartAtLineLoop_some (Line : Int) (rs : List SynEditFoldRange)
    (r : SynEditFoldRange) (h : foldStartAtLineLoop Line rs = some r) :
    r ∈ rs ∧ r.fromLine = Line := by
  induction rs with
  | nil => simp [foldStartAtLineLoop] at h
  | cons q rest ih =>
    unfold foldStartAtLineLoop at h
    split at h
    · rename_i hq
      simp only [Option.some.injEq] at h
      subst h
      exact ⟨List.mem_cons_self _ _, hq⟩
    · split at h
      · simp at h
      · have := ih h
        exact ⟨List.mem_cons_of_mem _ this.1, this.2⟩

/-- No collapsed fold starts at a line when the ranges that start there are
open. -/
theorem collapsedFoldAt_false (s : SynEdit) (Line : Int)
    (h : ∀ r ∈ allFoldRanges s, r.fromLine = Line → r.collapsed = false) :
    collapsedFoldAt s Line = false := by
  unfold collapsedFoldAt foldStartAtLine
  split
  · rename_i r hr
    have := foldStartAtLineLoop_some Line _ r hr
    exact h r this.1 this.2
  · rfl

/-- Recording a redo item keeps the text. -/
theorem redoAddChange_sameText (s : SynEdit) (reason : SynChangeReason) (a b : BufferCoord)
    (text : List QString) (mode : SynSelectionMode) :
    SameText s (redoAddChange s reason a b text mode) := by
  unfold redoAddChange onRedoAdded
  have h := updateModifiedStatus_sameText
    { s with mRedoList := s.mRedoList.AddChange reason a b text mode }
  exact ⟨h.1, h.2.1, h.2.2⟩

/-- The status update puts at most a group break on top of the undo list. -/
theorem updateModifiedStatus_items_suffix (s : SynEdit) :
    ∃ top, (updateModifiedStatus s).mUndoList.items = top ++ s.mUndoList.items := by
  unfold updateModifiedStatus setModified
  split
  · simp only
    split
    · unfold SynEditUndoList.AddGroupBreak
      split
      · exact ⟨[_], rfl⟩
      · exact ⟨[], rfl⟩
    · exact ⟨[], rfl⟩
  · exact ⟨[], rfl⟩

/-- The item that undoAddChange records is on the undo list afterwards. -/
theorem undoAddChange_mem (s : SynEdit) (reason : SynChangeReason) (a b : BufferCoord)
    (text : List QString) (mode : SynSelectionMode) :
    ∃ item ∈ (undoAddChange s reason a b text mode).mUndoList.items,
      item.changeReason = reason ∧ item.changeStartPos = a ∧ item.changeEndPos = b
      ∧ item.changeText = text ∧ item.changeSelMode = mode := by
  obtain ⟨top, htop⟩ := updateModifiedStatus_items_suffix
    { s with mUndoList := s.mUndoList.AddChange reason a b text mode }
  have hitems : (undoAddChange s reason a b text mode).mUndoList.items
      = top ++ (s.mUndoList.AddChange reason a b text mode).items := by
    unfold undoAddChange onUndoAdded
    simp only
    split
    · split
      · exact htop
      · exact htop
    · exact htop
  rw [hitems]
  refine ⟨_, List.mem_append_right _ (List.mem_cons_self _ _), rfl, rfl, rfl, rfl, rfl⟩


/-- The shape of doInsertText in stream mode at a position inside the line. -/
theorem doInsertText_normal_shape (s : SynEdit) (c L : Int) (t0 : QString) (ts : List QString)
    (startLine endLine : Int) (hc : c ≤ qlen (getString s (L - 1)) + 1) :
    doInsertText s ⟨c, L⟩ (t0 :: ts) SynSelectionMode.smNormal startLine endLine
      = internalSetCaretXY (doInsertTextByNormalMode s ⟨c, L⟩ (t0 :: ts)).state
          (doInsertTextByNormalMode s ⟨c, L⟩ (t0 :: ts)).newPos := by
  unfold doInsertText
  rw [if_neg (by simp)]
  simp only
  rw [if_neg (by
    rintro ⟨_, _, h⟩
    omega)]

/-- The text that getContent reads between two valid positions in stream mode
when no collapsed fold starts on the end line. -/
theorem getContent_stream (s : SynEdit) (start stop : BufferCoord)
    (hl : 1 ≤ start.Line ∧ stop.Line ≤ docCount s)
    (hsc : 1 ≤ start.Char ∧ start.Char ≤ qlen (getString s (start.Line - 1)) + 1)
    (hec : 1 ≤ stop.Char ∧ stop.Char ≤ qlen (getString s (stop.Line - 1)) + 1)
    (hlt : start.lt stop = true)
    (hfold : collapsedFoldAt s stop.Line = false) :
    getContent s start stop SynSelectionMode.smNormal
      = if start.Line = stop.Line then
          [((getString s (start.Line - 1)).drop (start.Char - 1).toNat).take
              (stop.Char - start.Char).toNat]
        else
          (getString s (start.Line - 1)).drop (start.Char - 1).toNat
            :: ((s.mDocument.drop start.Line.toNat).take (stop.Line - start.Line - 1).toNat
                ++ [(getString s (stop.Line - 1)).take (stop.Char - 1).toNat]) := by
  have hlt2 : start.Line < stop.Line ∨ (start.Line = stop.Line ∧ start.Char < stop.Char) := by
    simpa [BufferCoord.lt] using hlt
  have hne : start ≠ stop := by
    intro h
    rw [h] at hlt2
    omega
  have hnot : stop.lt start = false := by
    simp only [BufferCoord.lt, Bool.or_eq_false_iff, Bool.and_eq_false_imp, decide_eq_false_iff_not,
      decide_eq_true_eq]
    omega
  have hend : contentEnd s stop = stop := by
    unfold contentEnd
    unfold collapsedFoldAt at hfold
    split
    · rename_i fr hfr
      rw [hfr] at hfold
      simp only at hfold
      rw [if_neg (by simp [hfold])]
    · rfl
  have hlen_s : 0 ≤ qlen (getString s (start.Line - 1)) := by unfold qlen; omega
  have hlen_e : 0 ≤ qlen (getString s (stop.Line - 1)) := by unfold qlen; omega
  unfold getContent
  rw [if_neg hne]
  simp only [hnot, Bool.false_eq_true, if_false, hend]
  by_cases hsame : start.Line = stop.Line
  · rw [if_pos (by omega), if_pos hsame]
    congr 1
    unfold qmid
    rw [hsame] at hsc ⊢
    rw [if_neg (by omega), if_neg (by omega), if_neg (by omega)]
  · rw [if_neg (by omega), if_neg hsame]
    rw [qmidFrom_drop _ _ (by omega)]
    simp only [List.cons_append, List.nil_append, List.cons.injEq, true_and]
    congr 1
    · have hm := map_linesGet_intRange s.mDocument (start.Line - 1 + 1) (stop.Line - 1 - 1)
        (by unfold docCount at hl; omega)
      have e0 : (intRange (start.Line - 1 + 1) (stop.Line - 1 - 1)).map (getString s)
          = (intRange (start.Line - 1 + 1) (stop.Line - 1 - 1)).map (linesGet s.mDocument) := rfl
      rw [e0, hm]
      congr 2
      · omega
      · congr 1
        omega
    · unfold qleft
      split
      · rename_i hc
        rw [List.take_of_length_le]
        unfold qlen at hc hec
        omega
      · rfl


/-- The state after a recorded stream deletion when no collapsed fold starts on
the end line: the lines between the two ends are gone, the start line holds
the joined remainders, and the delete item with the removed text is on the
undo list. -/
theorem deleteText_stream_text (s : SynEdit) (start stop : BufferCoord)
    (htrim : s.cfg.eoTrimTrailingSpaces = false) (hundo : s.mUndoing = false)
    (hs : 1 ≤ start.Line ∧ start.Line ≤ stop.Line ∧ stop.Line ≤ docCount s)
    (hsc : 1 ≤ start.Char ∧ start.Char ≤ qlen (getString s (start.Line - 1)) + 1)
    (hec : 1 ≤ stop.Char ∧ stop.Char ≤ qlen (getString s (stop.Line - 1)) + 1)
    (hfold : collapsedFoldAt s stop.Line = false) :
    TextIs s (doDeleteText s start stop SynSelectionMode.smNormal)
        (s.mDocument.take (start.Line - 1).toNat
          ++ ((getString s (start.Line - 1)).take (start.Char - 1).toNat
              ++ (getString s (stop.Line - 1)).drop (stop.Char - 1).toNat)
            :: s.mDocument.drop stop.Line.toNat)
      ∧ ∃ item ∈ (doDeleteText s start stop SynSelectionMode.smNormal).mUndoList.items,
          item.changeReason = SynChangeReason.crDelete ∧ item.changeStartPos = start
          ∧ item.changeEndPos = stop
          ∧ item.changeText = getContent s start stop SynSelectionMode.smNormal
          ∧ item.changeSelMode = SynSelectionMode.smNormal := by
  have hdel : deleteEnd s start stop SynSelectionMode.smNormal = some stop := by
    unfold deleteEnd
    rw [if_pos rfl]
    unfold collapsedFoldAt at hfold
    split
    · rename_i fr hfr
      rw [hfr] at hfold
      simp only at hfold
      rw [if_neg (by simp [hfold])]
    · rfl
  have hlen_s : 0 ≤ qlen (getString s (start.Line - 1)) := by unfold qlen; omega
  have hlen_e : 0 ≤ qlen (getString s (stop.Line - 1)) := by unfold qlen; omega
  have hbody : TextIs s (deleteTextBody s start stop SynSelectionMode.smNormal)
      (s.mDocument.take (start.Line - 1).toNat
          ++ ((getString s (start.Line - 1)).take (start.Char - 1).toNat
              ++ (getString s (stop.Line - 1)).drop (stop.Char - 1).toNat)
            :: s.mDocument.drop stop.Line.toNat) := by
    unfold deleteTextBody
    simp only
    rw [if_pos (by omega)]
    rw [qmid_zero _ _ (by omega), qmidFrom_drop _ _ (by omega)]
    have h1 := docDeleteLines_text s start.Line (stop.Line - start.Line)
    have h2 := properSetLine_text (docDeleteLines s start.Line (stop.Line - start.Line))
      (by rw [h1.2.1]; exact htrim) (start.Line - 1)
      ((getString s (start.Line - 1)).take (start.Char - 1).toNat
              ++ (getString s (stop.Line - 1)).drop (stop.Char - 1).toNat) true
    refine TextIs.then ?_ (internalSetCaretXY_sameText _ _)
    refine ⟨?_, h2.2.1.trans h1.2.1, h2.2.2.trans h1.2.2⟩
    rw [h2.1, h1.1, deleted_doc_shape _ _ _ (by unfold docCount at hs; omega)]
  unfold doDeleteText
  rw [hdel]
  simp only
  rw [if_pos (hbody.2.2.trans hundo)]
  exact ⟨hbody.then (undoAddChange_sameText _ _ _ _ _ _),
    undoAddChange_mem _ _ _ _ _ _⟩

/-- A document is its lines before line a, line a, the lines between a and b,
line b and the lines after b. -/
theorem doc_rejoin (D : List QString) (a b : Nat) (hab : a < b) (hb : b < D.length) :
    D.take a ++ linesGet D (a : Int)
        :: ((D.drop (a + 1)).take (b - a - 1) ++ [linesGet D (b : Int)]) ++ D.drop (b + 1)
      = D := by
  have h1 := lines_split D a (by omega)
  have h2 := lines_split (D.drop (a + 1)) (b - a - 1) (by
    simp only [List.length_drop]
    omega)
  have e1 : linesGet (D.drop (a + 1)) ((b - a - 1 : Nat) : Int) = linesGet D (b : Int) := by
    unfold linesGet
    rw [if_neg (by omega), if_neg (by omega)]
    simp only [Int.toNat_ofNat]
    rw [List.getD_eq_getElem?_getD, List.getD_eq_getElem?_getD, List.getElem?_drop]
    congr 2
    omega
  have e2 : (D.drop (a + 1)).drop (b - a - 1 + 1) = D.drop (b + 1) := by
    rw [List.drop_drop]
    congr 1
    omega
  rw [e1, e2] at h2
  conv_rhs => rw [h1, h2]
  simp

/-- The lines written for a text of at least two lines whose last line is x. -/
theorem spliceLines_append_singleton (pre post t0 : QString) (M : List QString) (x : QString) :
    spliceLines pre post (t0 :: (M ++ [x])) = (pre ++ t0) :: (M ++ [x ++ post]) := by
  rw [← spliceTail_append_singleton post M x]
  cases h : M ++ [x] with
  | nil => simp at h
  | cons a l => rfl


/-- A line is its first p characters, the characters p+1..q and the rest. -/
theorem line_rejoin (l : QString) (p q : Nat) (hpq : p ≤ q) :
    l.take p ++ (l.drop p).take (q - p) ++ l.drop q = l := by
  have e : l.drop q = (l.drop p).drop (q - p) := by
    rw [List.drop_drop]
    congr 1
    omega
  rw [List.append_assoc, e, List.take_append_drop, List.take_append_drop]

/-- Inserting the removed text again at the start of a stream deletion, with
re-indentation and trimming off, gives the document D back. -/
theorem reinsertion_restores (t : SynEdit) (D : List QString) (sl sc el ec a b : Int)
    (hs : 1 ≤ sl ∧ sl ≤ el ∧ el ≤ (D.length : Int))
    (hsc : 1 ≤ sc ∧ sc ≤ qlen (linesGet D (sl - 1)) + 1)
    (hec : 1 ≤ ec ∧ ec ≤ qlen (linesGet D (el - 1)) + 1)
    (hlt : sl < el ∨ (sl = el ∧ sc < ec))
    (htrim : t.cfg.eoTrimTrailingSpaces = false) (hund : t.mUndoing = true)
    (hdoc : t.mDocument = D.take (sl - 1).toNat
        ++ ((linesGet D (sl - 1)).take (sc - 1).toNat
            ++ (linesGet D (el - 1)).drop (ec - 1).toNat)
          :: D.drop el.toNat) :
    (doInsertText t ⟨sc, sl⟩
        (if sl = el then [((linesGet D (sl - 1)).drop (sc - 1).toNat).take (ec - sc).toNat]
         else (linesGet D (sl - 1)).drop (sc - 1).toNat
            :: ((D.drop sl.toNat).take (el - sl - 1).toNat
                ++ [(linesGet D (el - 1)).take (ec - 1).toNat]))
        SynSelectionMode.smNormal a b).mDocument = D := by
  have hauto : autoIndents t = false := by
    unfold autoIndents
    rw [hund]
    rfl
  have hlen_s : 0 ≤ qlen (linesGet D (sl - 1)) := by unfold qlen; omega
  have hlen_e : 0 ≤ qlen (linesGet D (el - 1)) := by unfold qlen; omega
  have hprelen := qlen_take (linesGet D (sl - 1)) (sc - 1) (by omega)
  have hA : (D.take (sl - 1).toNat).length = (sl - 1).toNat := by
    simp only [List.length_take]
    omega
  have hline : getString t (sl - 1)
      = (linesGet D (sl - 1)).take (sc - 1).toNat ++ (linesGet D (el - 1)).drop (ec - 1).toNat := by
    rw [show getString t (sl - 1) = linesGet t.mDocument (sl - 1) from rfl, hdoc]
    unfold linesGet
    rw [if_neg (by omega), if_neg (by omega), if_neg (by omega), List.getD_eq_getElem?_getD,
      List.getElem?_append_right (by omega), hA]
    simp
  have hplen : ((linesGet D (sl - 1)).take (sc - 1).toNat).length = (sc - 1).toNat := by
    unfold qlen at hprelen
    omega
  have htake : (getString t (sl - 1)).take (sc - 1).toNat
      = (linesGet D (sl - 1)).take (sc - 1).toNat := by
    rw [hline]
    exact List.take_left' hplen
  have hdrop : (getString t (sl - 1)).drop (sc - 1).toNat
      = (linesGet D (el - 1)).drop (ec - 1).toNat := by
    rw [hline]
    exact List.drop_left' hplen
  have hcount : sl ≤ docCount t := by
    unfold docCount
    rw [hdoc]
    simp only [List.length_append, List.length_take, List.length_cons, List.length_drop]
    push_cast
    omega
  have hc : 1 ≤ sc ∧ sc ≤ qlen (getString t (sl - 1)) + 1 := by
    rw [hline]
    unfold qlen at hprelen ⊢
    simp only [List.length_append]
    push_cast
    omega
  have htk : t.mDocument.take (sl - 1).toNat = D.take (sl - 1).toNat := by
    rw [hdoc]
    exact List.take_left' hA
  have hdr : t.mDocument.drop sl.toNat = D.drop el.toNat := by
    rw [hdoc]
    have e : D.take (sl - 1).toNat
          ++ ((linesGet D (sl - 1)).take (sc - 1).toNat
              ++ (linesGet D (el - 1)).drop (ec - 1).toNat) :: D.drop el.toNat
        = (D.take (sl - 1).toNat
          ++ [(linesGet D (sl - 1)).take (sc - 1).toNat
              ++ (linesGet D (el - 1)).drop (ec - 1).toNat]) ++ D.drop el.toNat := by
      simp
    rw [e]
    exact List.drop_left' (by
      simp only [List.length_append, List.length_take, List.length_singleton]
      omega)
  have e_sl : (sl - 1).toNat + 1 = sl.toNat := by omega
  have e_el : (el - 1).toNat + 1 = el.toNat := by omega
  have e_s : (((sl - 1).toNat : Nat) : Int) = sl - 1 := by omega
  have e_e : (((el - 1).toNat : Nat) : Int) = el - 1 := by omega
  by_cases hsame : sl = el
  · rw [if_pos hsame, doInsertText_normal_shape t sc sl _ [] a b hc.2]
    obtain ⟨h1, _⟩ := normalInsert_outcome t sc sl
      (((linesGet D (sl - 1)).drop (sc - 1).toNat).take (ec - sc).toNat) [] hauto htrim
      ⟨hs.1, hcount⟩ hc
    rw [(internalSetCaretXY_sameText _ _).1, h1.1, htk, hdr, htake, hdrop]
    subst hsame
    have e1 : spliceLines ((linesGet D (sl - 1)).take (sc - 1).toNat)
          ((linesGet D (sl - 1)).drop (ec - 1).toNat)
          [((linesGet D (sl - 1)).drop (sc - 1).toNat).take (ec - sc).toNat]
        = [linesGet D (sl - 1)] := by
      have e2 : (ec - sc).toNat = (ec - 1).toNat - (sc - 1).toNat := by omega
      rw [e2]
      show [_ ++ _ ++ _] = _
      rw [line_rejoin _ _ _ (by omega)]
    rw [e1]
    have h2 := lines_split D (sl - 1).toNat (by omega)
    rw [e_s, e_sl] at h2
    rw [List.append_assoc]
    exact h2.symm
  · have hltl : sl < el := by omega
    rw [if_neg hsame, doInsertText_normal_shape t sc sl _ _ a b hc.2]
    obtain ⟨h1, _⟩ := normalInsert_outcome t sc sl
      ((linesGet D (sl - 1)).drop (sc - 1).toNat)
      ((D.drop sl.toNat).take (el - sl - 1).toNat ++ [(linesGet D (el - 1)).take (ec - 1).toNat])
      hauto htrim ⟨hs.1, hcount⟩ hc
    rw [(internalSetCaretXY_sameText _ _).1, h1.1, htk, hdr, htake, hdrop,
      spliceLines_append_singleton, List.take_append_drop, List.take_append_drop]
    have h2 := doc_rejoin D (sl - 1).toNat (el - 1).toNat (by omega) (by omega)
    have e_m : (el - 1).toNat - (sl - 1).toNat - 1 = (el - sl - 1).toNat := by omega
    rw [e_s, e_e, e_sl, e_el, e_m] at h2
    exact h2


/-- C1: round-trip law of a stream-mode delete.  With trailing-space trimming
off, outside a replay, for valid positions start < stop and no collapsed fold
starting on the end line, doDeleteText records a delete item holding start,
stop and the removed text lines, and replaying the inverse of that item as
doUndoItem does (whatever is left on the undo list) restores every line of
the document and the line count. -/
theorem C1_stream_delete_round_trip (s : SynEdit) (start stop : BufferCoord)
    (htrim : s.cfg.eoTrimTrailingSpaces = false) (hundo : s.mUndoing = false)
    (hs : 1 ≤ start.Line ∧ start.Line ≤ stop.Line ∧ stop.Line ≤ docCount s)
    (hsc : 1 ≤ start.Char ∧ start.Char ≤ qlen (getString s (start.Line - 1)) + 1)
    (hec : 1 ≤ stop.Char ∧ stop.Char ≤ qlen (getString s (stop.Line - 1)) + 1)
    (hlt : start.lt stop = true)
    (hfold : ∀ r ∈ allFoldRanges s, r.fromLine = stop.Line → r.collapsed = false) :
    ∃ item ∈ (doDeleteText s start stop SynSelectionMode.smNormal).mUndoList.items,
      item.changeReason = SynChangeReason.crDelete
      ∧ item.changeStartPos = start ∧ item.changeEndPos = stop
      ∧ item.changeSelMode = SynSelectionMode.smNormal
      ∧ item.changeText = getContent s start stop SynSelectionMode.smNormal
      ∧ ∀ rest : SynEditUndoList,
          (undoItemWith
              { doDeleteText s start stop SynSelectionMode.smNormal with mUndoList := rest }
              item).mDocument = s.mDocument
          ∧ docCount (undoItemWith
              { doDeleteText s start stop SynSelectionMode.smNormal with mUndoList := rest }
              item) = docCount s := by
  have hf := collapsedFoldAt_false s stop.Line hfold
  obtain ⟨htext, item, hmem, hr, hsp, hep, htx, hmode⟩ :=
    deleteText_stream_text s start stop htrim hundo hs hsc hec hf
  refine ⟨item, hmem, hr, hsp, hep, hmode, htx, ?_⟩
  have hcontent := getContent_stream s start stop ⟨hs.1, hs.2.2⟩ hsc hec hlt hf
  have key : ∀ t : SynEdit,
      t.mDocument = (doDeleteText s start stop SynSelectionMode.smNormal).mDocument →
      t.cfg = (doDeleteText s start stop SynSelectionMode.smNormal).cfg →
      t.mUndoing = true → (undoItemBody t item).mDocument = s.mDocument := by
    intro t hd hc hu
    unfold undoItemBody
    simp only [hr]
    rw [(redoAddChange_sameText _ _ _ _ _ _).1, (internalSetCaretXY_sameText _ _).1]
    rw [hsp, hep, htx, hmode, hcontent]
    exact reinsertion_restores t s.mDocument start.Line start.Char stop.Line stop.Char _ _
      (by unfold docCount at hs; exact hs) hsc hec (by simpa [BufferCoord.lt] using hlt)
      (by rw [hc, htext.2.1]; exact htrim) hu (hd.trans htext.1)
  intro rest
  have hdocu : (undoItemWith
      { doDeleteText s start stop SynSelectionMode.smNormal with mUndoList := rest }
      item).mDocument = s.mDocument :=
    key _ rfl rfl rfl
  exact ⟨hdocu, by unfold docCount; rw [hdocu]⟩

/-- C1 (witness): in ["a", "b \x7b", "c", "\x7d", "<tab>de", "f"] with the fold
of lines 2..4 collapsed, deleting from (2, 5) to (1, 6) joins the last two
lines, and the inverse of the recorded item gives the six lines back. -/
theorem C1_stream_delete_round_trip_witness :
    docStrings (doDeleteText foldedEditor ⟨2, 5⟩ ⟨1, 6⟩ SynSelectionMode.smNormal)
      = ["a", "b \x7b", "c", "\x7d", "\tf"]
    ∧ ∃ item ∈ (doDeleteText foldedEditor ⟨2, 5⟩ ⟨1, 6⟩ SynSelectionMode.smNormal).mUndoList.items,
      item.changeReason = SynChangeReason.crDelete
      ∧ item.changeStartPos = ⟨2, 5⟩ ∧ item.changeEndPos = ⟨1, 6⟩
      ∧ item.changeSelMode = SynSelectionMode.smNormal
      ∧ item.changeText = getContent foldedEditor ⟨2, 5⟩ ⟨1, 6⟩ SynSelectionMode.smNormal
      ∧ ∀ rest : SynEditUndoList,
          (undoItemWith
              { doDeleteText foldedEditor ⟨2, 5⟩ ⟨1, 6⟩ SynSelectionMode.smNormal
                  with mUndoList := rest }
              item).mDocument = foldedEditor.mDocument
          ∧ docCount (undoItemWith
              { doDeleteText foldedEditor ⟨2, 5⟩ ⟨1, 6⟩ SynSelectionMode.smNormal
                  with mUndoList := rest }
              item) = docCount foldedEditor :=
  ⟨by decide,
   C1_stream_delete_round_trip foldedEditor ⟨2, 5⟩ ⟨1, 6⟩ rfl rfl (by decide) (by decide)
     (by decide) (by decide) (by decide)⟩



/-! ### Column deletion -/

/-- The loop of columnToChar never answers an index before its start. -/
theorem columnToCharLoop_ge (s : SynEdit) (col : Int) (d : QString) (x i : Int) :
    i ≤ columnToCharLoop s col d x i := by
  induction d generalizing x i with
  | nil => simp [columnToCharLoop]
  | cons c rest ih =>
    unfold columnToCharLoop
    simp only
    split
    · exact le_refl _
    · have := ih (advanceColumn s x c) (i + 1)
      omega

/-- The loop of columnToChar over a string that starts with tab-free glyphs of
width 1: a column inside that part is found at its own index, a column beyond
it is found behind the part. -/
theorem columnToCharLoop_prefix (s : SynEdit) (col : Int) (p sfx : QString)
    (hp : ∀ ch ∈ p, ch ≠ chTab ∧ s.cfg.charColumnsOf ch = 1) (x i : Int) (hx : x < col) :
    (col - x ≤ (p.length : Int) → columnToCharLoop s col (p ++ sfx) x i = i + (col - x - 1))
      ∧ ((p.length : Int) < col - x → i + (p.length : Int) ≤ columnToCharLoop s col (p ++ sfx) x i) := by
  induction p generalizing x i with
  | nil =>
    refine ⟨fun h => ?_, fun _ => ?_⟩
    · simp only [List.length_nil, Nat.cast_zero] at h
      omega
    · have := columnToCharLoop_ge s col sfx x i
      simpa using this
  | cons c rest ih =>
    have hc := hp c (List.mem_cons_self _ _)
    have hadv : advanceColumn s x c = x + 1 := by
      unfold advanceColumn
      rw [if_neg hc.1, hc.2]
    have hrest : ∀ ch ∈ rest, ch ≠ chTab ∧ s.cfg.charColumnsOf ch = 1 :=
      fun ch h => hp ch (List.mem_cons_of_mem _ h)
    rw [List.cons_append]
    unfold columnToCharLoop
    simp only [hadv, List.length_cons]
    push_cast
    by_cases h1 : x + 1 ≥ col
    · rw [if_pos h1]
      refine ⟨fun _ => by omega, fun h => by omega⟩
    · rw [if_neg h1]
      have := ih hrest (x + 1) (i + 1) (by omega)
      refine ⟨fun h => ?_, fun h => ?_⟩
      · rw [this.1 (by omega)]
        omega
      · have := this.2 (by omega)
        omega

/-- In a line of tab-free glyphs of width 1, the removal that the column-mode
deletion performs takes out exactly the characters at the columns
c1, ..., c2 - 1. -/
theorem column_removal_line (t : SynEdit) (L c1 c2 : Int) (hc : 1 ≤ c1 ∧ c1 < c2)
    (hL : L ≤ docCount t)
    (hg : ∀ ch ∈ getString t (L - 1), ch ≠ chTab ∧ t.cfg.charColumnsOf ch = 1) :
    qremove (getString t (L - 1)) (columnToChar t L c1 - 1)
        (columnToChar t L (c2 - 1) + 1 - columnToChar t L c1)
      = removeColumns c1 c2 (getString t (L - 1)) := by
  obtain ⟨sfx, hsfx⟩ : ∃ sfx, getDisplayStringAtLine t L = getString t (L - 1) ++ sfx := by
    unfold getDisplayStringAtLine
    split
    · exact ⟨_, rfl⟩
    · exact ⟨[], (List.append_nil _).symm⟩
  have h1 := columnToCharLoop_prefix t c1 (getString t (L - 1)) sfx hg 0 0 (by omega)
  have h2 := columnToCharLoop_prefix t (c2 - 1) (getString t (L - 1)) sfx hg 0 0 (by omega)
  have hct : ∀ c, columnToChar t L c
      = columnToCharLoop t c (getString t (L - 1) ++ sfx) 0 0 + 1 := by
    intro c
    unfold columnToChar
    rw [if_pos hL, hsfx]
  rw [hct, hct]
  generalize getString t (L - 1) = m at *
  generalize columnToCharLoop t c1 (m ++ sfx) 0 0 = p at *
  generalize columnToCharLoop t (c2 - 1) (m ++ sfx) 0 0 = q at *
  have e0 : p + 1 - 1 = p := by omega
  have e00 : q + 1 + 1 - (p + 1) = q + 1 - p := by omega
  rw [e0, e00]
  unfold qremove removeColumns qlen
  simp only
  by_cases hin : c1 ≤ (m.length : Int)
  · have hp := h1.1 (by omega)
    rw [if_neg (by omega : ¬ p < 0)]
    have e1 : p.toNat = (c1 - 1).toNat := by omega
    by_cases hin2 : c2 - 1 < (m.length : Int)
    · have hq := h2.1 (by omega)
      rw [if_neg (by omega), if_neg (by omega), if_pos (by omega)]
      have e2 : (p + (q + 1 - p)).toNat = (c2 - 1).toNat := by omega
      rw [e1, e2]
    · have hq : (m.length : Int) - 1 ≤ q := by
        by_cases h3 : c2 - 1 = (m.length : Int)
        · have := h2.1 (by omega)
          omega
        · have := h2.2 (by omega)
          omega
      rw [if_neg (by omega), if_pos (by omega)]
      rw [e1, List.drop_of_length_le (by omega)]
      simp
  · have hp := h1.2 (by omega)
    rw [if_neg (by omega : ¬ p < 0), if_pos (Or.inr (by omega))]
    rw [List.take_of_length_le (by omega), List.drop_of_length_le (by omega)]
    simp

/-- The integers from lo up to hi, first one apart. -/
theorem intRange_cons (lo hi : Int) (h : lo ≤ hi) :
    intRange lo hi = lo :: intRange (lo + 1) hi := by
  unfold intRange
  obtain ⟨n, hn⟩ : ∃ n : Nat, (hi - lo + 1).toNat = n + 1 := ⟨(hi - lo).toNat, by omega⟩
  have hn2 : (hi - (lo + 1) + 1).toNat = n := by omega
  rw [hn, hn2, List.range_succ_eq_map]
  simp only [List.map_cons, List.map_map, Nat.cast_zero, add_zero, List.cons.injEq, true_and]
  apply List.map_congr_left
  intro k _
  simp only [Function.comp, Nat.succ_eq_add_one]
  push_cast
  omega

/-- No integers from lo up to hi when hi is below lo. -/
theorem intRange_nil (lo hi : Int) (h : hi < lo) : intRange lo hi = [] := by
  unfold intRange
  have : (hi - lo + 1).toNat = 0 := by omega
  rw [this]
  rfl


/-- The loop of the column-mode deletion over the block M of lines that starts
at index lo: each line of the block loses the columns, the rest stays. -/
theorem deleteColumnsLoop_text (s0 : SynEdit) (c1 c2 : Int) (hc : 1 ≤ c1 ∧ c1 < c2)
    (htrim : s0.cfg.eoTrimTrailingSpaces = false) (M : List QString) :
    ∀ (lo hi : Int) (t : SynEdit) (A B : List QString),
      t.mDocument = A ++ M ++ B → (A.length : Int) = lo → hi = lo + (M.length : Int) - 1 →
      t.cfg = s0.cfg →
      (∀ l ∈ M, ∀ ch ∈ l, ch ≠ chTab ∧ s0.cfg.charColumnsOf ch = 1) →
      TextIs t (deleteColumnsLoop c1 c2 (intRange lo hi) t)
        (A ++ M.map (removeColumns c1 c2) ++ B) := by
  induction M with
  | nil =>
    intro lo hi t A B hdoc hlo hhi hcfg hg
    simp only [List.length_nil, Nat.cast_zero] at hhi
    rw [intRange_nil lo hi (by omega)]
    exact ⟨by simpa [deleteColumnsLoop] using hdoc, rfl, rfl⟩
  | cons m rest ih =>
    intro lo hi t A B hdoc hlo hhi hcfg hg
    simp only [List.length_cons] at hhi
    push_cast at hhi
    have hhi2 : hi = lo + 1 + (rest.length : Int) - 1 := by omega
    rw [intRange_cons lo hi (by omega)]
    unfold deleteColumnsLoop
    simp only
    have hAn : lo.toNat = A.length := by omega
    have hget : getString t lo = m := by
      rw [show getString t lo = linesGet t.mDocument lo from rfl, hdoc]
      have e : A ++ m :: rest ++ B = A ++ m :: (rest ++ B) := by simp
      unfold linesGet
      rw [if_neg (by omega), hAn, e, List.getD_eq_getElem?_getD,
        List.getElem?_append_right (le_refl _)]
      simp
    have hcount : lo + 1 ≤ docCount t := by
      unfold docCount
      rw [hdoc]
      simp only [List.length_append, List.length_cons]
      push_cast
      omega
    have hrem := column_removal_line t (lo + 1) c1 c2 hc hcount (by
      rw [show lo + 1 - 1 = lo by omega, hget, hcfg]
      exact hg m (List.mem_cons_self _ _))
    rw [show lo + 1 - 1 = lo by omega] at hrem
    rw [hrem, hget]
    have hput := properSetLine_text t (by rw [hcfg]; exact htrim) lo (removeColumns c1 c2 m) true
    have hdoc1 : (properSetLine t lo (removeColumns c1 c2 m) true).mDocument
        = (A ++ [removeColumns c1 c2 m]) ++ rest ++ B := by
      unfold docCount at hcount
      rw [hput.1, linesPut_int _ _ (by omega), hdoc, hAn]
      have e : A ++ m :: rest ++ B = A ++ ([m] ++ (rest ++ B)) := by simp
      rw [e, List.take_left' rfl]
      have e2 : A ++ ([m] ++ (rest ++ B)) = (A ++ [m]) ++ (rest ++ B) := by simp
      rw [e2, List.drop_left' (by simp)]
      simp
    have h := ih (lo + 1) hi (properSetLine t lo (removeColumns c1 c2 m) true)
      (A ++ [removeColumns c1 c2 m]) B hdoc1 (by
        simp only [List.length_append, List.length_singleton]
        push_cast
        omega) hhi2 (hput.2.1.trans hcfg) (fun l hl => hg l (List.mem_cons_of_mem _ hl))
    refine ⟨?_, h.2.1.trans hput.2.1, h.2.2.trans hput.2.2⟩
    rw [h.1]
    simp

/-- C5 (counterexample): with trailing-space trimming on, deleting the columns
4..5 of the line "ab cd" (all glyphs one column wide, no tab) leaves "ab",
not "ab " as removing exactly those two characters would. -/
theorem C5_trimming_removes_more_than_columns :
    (∀ l ∈ trimmingColumnEditor.mDocument, ∀ ch ∈ l,
        ch ≠ chTab ∧ trimmingColumnEditor.cfg.charColumnsOf ch = 1)
    ∧ charToColumn trimmingColumnEditor 1 4 = 4 ∧ charToColumn trimmingColumnEditor 1 6 = 6
    ∧ docStrings (doDeleteText trimmingColumnEditor ⟨4, 1⟩ ⟨6, 1⟩ SynSelectionMode.smColumn)
        = ["ab"]
    ∧ (doDeleteText trimmingColumnEditor ⟨4, 1⟩ ⟨6, 1⟩ SynSelectionMode.smColumn).mDocument
        ≠ trimmingColumnEditor.mDocument.map (removeColumns 4 6) := by
  decide

/-- C5 (amended): column-mode delete with trailing-space trimming off.  For
every document whose characters are tab-free glyphs of width 1 and every two
ends on valid lines whose display columns differ (the smaller, c1, at least
1, the larger c2), doDeleteText in column mode replaces each line between the
two end lines by the line without its characters at the columns c1..c2-1,
leaves the other lines as they are and keeps the line count; the two ends may
come in either order. -/
theorem C5_column_delete_removes_columns (s : SynEdit) (start stop : BufferCoord)
    (htrim : s.cfg.eoTrimTrailingSpaces = false)
    (hglyph : ∀ l ∈ s.mDocument, ∀ ch ∈ l, ch ≠ chTab ∧ s.cfg.charColumnsOf ch = 1)
    (hl1 : 1 ≤ start.Line ∧ start.Line ≤ docCount s)
    (hl2 : 1 ≤ stop.Line ∧ stop.Line ≤ docCount s)
    (hcol : 1 ≤ min (charToColumn s start.Line start.Char) (charToColumn s stop.Line stop.Char)
      ∧ charToColumn s start.Line start.Char ≠ charToColumn s stop.Line stop.Char) :
    (doDeleteText s start stop SynSelectionMode.smColumn).mDocument
        = s.mDocument.take (min start.Line stop.Line - 1).toNat
          ++ ((s.mDocument.drop (min start.Line stop.Line - 1).toNat).take
                (max start.Line stop.Line - min start.Line stop.Line + 1).toNat).map
              (removeColumns
                (min (charToColumn s start.Line start.Char) (charToColumn s stop.Line stop.Char))
                (max (charToColumn s start.Line start.Char) (charToColumn s stop.Line stop.Char)))
          ++ s.mDocument.drop (max start.Line stop.Line).toNat
    ∧ docCount (doDeleteText s start stop SynSelectionMode.smColumn) = docCount s := by
  generalize hp : charToColumn s start.Line start.Char = p at *
  generalize hq : charToColumn s stop.Line stop.Char = q at *
  generalize ha : min start.Line stop.Line = a at *
  generalize hb : max start.Line stop.Line = b at *
  have hab : 1 ≤ a ∧ a ≤ b ∧ b ≤ docCount s := by omega
  have hbody : TextIs s (deleteTextBody s start stop SynSelectionMode.smColumn)
      (s.mDocument.take (a - 1).toNat
        ++ ((s.mDocument.drop (a - 1).toNat).take (b - a + 1).toNat).map
            (removeColumns (min p q) (max p q))
        ++ s.mDocument.drop b.toNat) := by
    unfold deleteTextBody
    simp only
    rw [hp, hq]
    have e1 : (if p > q then q else p) = min p q := by omega
    have e2 : (if p > q then p else q) = max p q := by omega
    have e3 : min (start.Line - 1) (stop.Line - 1) = a - 1 := by omega
    have e4 : max (start.Line - 1) (stop.Line - 1) = b - 1 := by omega
    rw [e1, e2, e3, e4]
    refine TextIs.then ?_ (internalSetCaretXY_sameText _ _)
    unfold docCount at hab
    have hlenM : ((s.mDocument.drop (a - 1).toNat).take (b - a + 1).toNat).length
        = (b - a + 1).toNat := by
      simp only [List.length_take, List.length_drop]
      omega
    have hsplit : s.mDocument = s.mDocument.take (a - 1).toNat
        ++ (s.mDocument.drop (a - 1).toNat).take (b - a + 1).toNat
        ++ s.mDocument.drop b.toNat := by
      have e5 : s.mDocument.drop b.toNat
          = (s.mDocument.drop (a - 1).toNat).drop (b - a + 1).toNat := by
        rw [List.drop_drop]
        congr 1
        omega
      rw [e5, List.append_assoc, List.take_append_drop, List.take_append_drop]
    exact deleteColumnsLoop_text s (min p q) (max p q) (by omega) htrim _ (a - 1) (b - 1) s _ _
      hsplit (by
        simp only [List.length_take]
        omega) (by rw [hlenM]; omega) rfl
      (fun l hl => hglyph l (List.mem_of_mem_drop (List.mem_of_mem_take hl)))
  have hdel : TextIs s (doDeleteText s start stop SynSelectionMode.smColumn)
      (s.mDocument.take (a - 1).toNat
        ++ ((s.mDocument.drop (a - 1).toNat).take (b - a + 1).toNat).map
            (removeColumns (min p q) (max p q))
        ++ s.mDocument.drop b.toNat) := by
    unfold doDeleteText
    have hend : deleteEnd s start stop SynSelectionMode.smColumn = some stop := by
      unfold deleteEnd
      rw [if_neg (by simp)]
    rw [hend]
    simp only
    split
    · exact hbody.then (undoAddChange_sameText _ _ _ _ _ _)
    · exact hbody
  refine ⟨hdel.1, ?_⟩
  unfold docCount at hab ⊢
  rw [hdel.1]
  simp only [List.length_append, List.length_take, List.length_map, List.length_drop]
  push_cast
  omega

/-- C5 (witness): the columns 3..5 of the lines 1..2 of ["abcdef", "ghijkl"],
given from (3, 1) to (6, 2), are deleted and ["abf", "ghl"] is left. -/
theorem C5_column_delete_removes_columns_witness :
    (doDeleteText columnScenarioEditor ⟨3, 1⟩ ⟨6, 2⟩ SynSelectionMode.smColumn).mDocument
        = ["abf".toList, "ghl".toList]
    ∧ docCount (doDeleteText columnScenarioEditor ⟨3, 1⟩ ⟨6, 2⟩ SynSelectionMode.smColumn) = 2 :=
  C5_column_delete_removes_columns columnScenarioEditor ⟨3, 1⟩ ⟨6, 2⟩ rfl (by decide)
    (by decide) (by decide) (by decide)



/-! ### Caret and selection clamping -/

/-- C11 (failing input): in column mode setCaretXY leaves a requested line
below 1 as it is; on the one-line document "ab" the requests (1, 0) and
(1, -5) put the caret on line 0 and on line -5. -/
theorem C11_column_mode_keeps_line_below_one :
    docCount columnModeEditor = 1
    ∧ columnModeEditor.mActiveSelectionMode = SynSelectionMode.smColumn
    ∧ caretXY (setCaretXY columnModeEditor ⟨1, 0⟩) = ⟨1, 0⟩
    ∧ caretXY (setCaretXY columnModeEditor ⟨1, -5⟩) = ⟨1, -5⟩ := by
  decide

/-- C12 (failing input): in stream mode setBlockBegin and setBlockEnd store a
requested char below 1 as it is; on the one-line document "ab" the requests
(0, 1) and (-3, 1) are stored with char 0 and char -3. -/
theorem C12_stream_mode_stores_char_below_one :
    docCount (sampleEditor ["ab"] ⟨1, 1⟩) = 1
    ∧ (sampleEditor ["ab"] ⟨1, 1⟩).mActiveSelectionMode = SynSelectionMode.smNormal
    ∧ (setBlockBegin (sampleEditor ["ab"] ⟨1, 1⟩) ⟨0, 1⟩).mBlockBegin = ⟨0, 1⟩
    ∧ (setBlockBegin (sampleEditor ["ab"] ⟨1, 1⟩) ⟨0, 1⟩).mBlockEnd = ⟨0, 1⟩
    ∧ (setBlockEnd (sampleEditor ["ab"] ⟨1, 1⟩) ⟨-3, 1⟩).mBlockEnd = ⟨-3, 1⟩ := by
  decide

/-- C13: the selection accessors.  In column mode blockBegin and blockEnd are
the stored begin and end; in the other modes blockEnd is not before
blockBegin in buffer order and the two are the stored begin and end, in this
or in the other order. -/
theorem C13_block_accessors_normalise (s : SynEdit) :
    (s.mActiveSelectionMode = SynSelectionMode.smColumn
        ∧ blockBegin s = s.mBlockBegin ∧ blockEnd s = s.mBlockEnd)
    ∨ (s.mActiveSelectionMode ≠ SynSelectionMode.smColumn
        ∧ (blockEnd s).lt (blockBegin s) = false
        ∧ ((blockBegin s = s.mBlockBegin ∧ blockEnd s = s.mBlockEnd)
          ∨ (blockBegin s = s.mBlockEnd ∧ blockEnd s = s.mBlockBegin))) := by
  unfold blockBegin blockEnd
  by_cases hm : s.mActiveSelectionMode = SynSelectionMode.smColumn
  · left
    rw [if_pos hm, if_pos hm]
    exact ⟨hm, rfl, rfl⟩
  · right
    rw [if_neg hm, if_neg hm]
    refine ⟨hm, ?_⟩
    by_cases hc : s.mBlockEnd.Line < s.mBlockBegin.Line
        ∨ (s.mBlockEnd.Line = s.mBlockBegin.Line ∧ s.mBlockEnd.Char < s.mBlockBegin.Char)
    · rw [if_pos hc, if_pos hc]
      refine ⟨?_, Or.inr ⟨rfl, rfl⟩⟩
      simp only [BufferCoord.lt, Bool.or_eq_false_iff, Bool.and_eq_false_imp,
        decide_eq_false_iff_not, decide_eq_true_eq]
      omega
    · rw [if_neg hc, if_neg hc]
      refine ⟨?_, Or.inl ⟨rfl, rfl⟩⟩
      simp only [BufferCoord.lt, Bool.or_eq_false_iff, Bool.and_eq_false_imp,
        decide_eq_false_iff_not, decide_eq_true_eq]
      omega


/-- The column walk advances by at least one column per character. -/
theorem foldl_advanceColumn_ge_length (s : SynEdit) (htab : 0 < s.cfg.mTabWidth)
    (hglyph : ∀ ch, 1 ≤ s.cfg.charColumnsOf ch) (l : QString) (x : Int) :
    x + (l.length : Int) ≤ l.foldl (advanceColumn s) x := by
  induction l generalizing x with
  | nil => simp
  | cons c rest ih =>
    have h1 := advanceColumn_gt s htab hglyph x c
    have h2 := ih (advanceColumn s x c)
    simp only [List.foldl_cons, List.length_cons]
    push_cast
    omega

/-- A running maximum is at least its start and at least every value it has
met. -/
theorem foldl_max_ge (f : QString → Int) (D : List QString) (m : Int) :
    m ≤ D.foldl (fun a l => max a (f l)) m
    ∧ ∀ l ∈ D, f l ≤ D.foldl (fun a l => max a (f l)) m := by
  induction D generalizing m with
  | nil => simp
  | cons d rest ih =>
    have h := ih (max m (f d))
    simp only [List.foldl_cons]
    refine ⟨by omega, ?_⟩
    intro l hl
    rcases List.mem_cons.mp hl with h1 | h1
    · rw [h1]
      omega
    · exact h.2 l h1

/-- The selection clamp leaves the end-of-line position of a line of the
document as it is. -/
theorem clampBlockChar_line_end (s : SynEdit) (F : Int) (hF : 1 ≤ F ∧ F ≤ docCount s)
    (hwide : s.mActiveSelectionMode = SynSelectionMode.smNormal
      ∨ (0 < s.cfg.mTabWidth ∧ ∀ ch, 1 ≤ s.cfg.charColumnsOf ch)) :
    clampBlockChar s (qlen (getString s (F - 1)) + 1) F = qlen (getString s (F - 1)) + 1 := by
  have hlen : 0 ≤ qlen (getString s (F - 1)) := by unfold qlen; omega
  unfold clampBlockChar
  by_cases hm : s.mActiveSelectionMode = SynSelectionMode.smNormal
  · rw [if_pos hm, if_pos ⟨hF.1, hF.2⟩]
    have := getDisplayStringAtLine_length s F
    omega
  · rw [if_neg hm]
    rcases hwide with h | ⟨htab, hglyph⟩
    · exact absurd h hm
    · have hmem : getString s (F - 1) ∈ s.mDocument := by
        unfold getString linesGet
        unfold docCount at hF
        rw [if_neg (by omega), List.getD_eq_getElem?_getD,
          List.getElem?_eq_getElem (by omega)]
        exact List.getElem_mem _
      have hmax := foldl_max_ge (fun l => stringColumns s l 0) s.mDocument 0
      have h1 : qlen (getString s (F - 1)) ≤ lengthOfLongestLine s := by
        have h2 : stringColumns s (getString s (F - 1)) 0
            ≤ s.mDocument.foldl (fun a l => max a (stringColumns s l 0)) 0 :=
          hmax.2 _ hmem
        have h3 := foldl_advanceColumn_ge_length s htab hglyph (getString s (F - 1)) 0
        have h5 : stringColumns s (getString s (F - 1)) 0
            = (getString s (F - 1)).foldl (advanceColumn s) 0 := by
          unfold stringColumns
          simp
        unfold lengthOfLongestLine
        unfold qlen
        omega
      have h4 : 0 ≤ stringColumns s s.cfg.foldString (lengthOfLongestLine s) := by
        unfold stringColumns
        have := foldl_advanceColumn_ge s htab hglyph s.cfg.foldString
          (max 0 (lengthOfLongestLine s))
        omega
      simp only [minMax]
      split <;> omega

/-- The caret and both ends of the selection after setCaretXY at the
end-of-line position of a line of the document. -/
theorem setCaretXY_line_end (s : SynEdit) (F : Int) (hF : 1 ≤ F ∧ F ≤ docCount s)
    (hwide : s.mActiveSelectionMode = SynSelectionMode.smNormal
      ∨ (0 < s.cfg.mTabWidth ∧ ∀ ch, 1 ≤ s.cfg.charColumnsOf ch)) :
    caretXY (setCaretXY s ⟨qlen (getString s (F - 1)) + 1, F⟩)
        = ⟨qlen (getString s (F - 1)) + 1, F⟩
    ∧ (setCaretXY s ⟨qlen (getString s (F - 1)) + 1, F⟩).mBlockBegin
        = ⟨qlen (getString s (F - 1)) + 1, F⟩
    ∧ (setCaretXY s ⟨qlen (getString s (F - 1)) + 1, F⟩).mBlockEnd
        = ⟨qlen (getString s (F - 1)) + 1, F⟩ := by
  have hlen : 0 ≤ qlen (getString s (F - 1)) := by unfold qlen; omega
  have hclamp := clampBlockChar_line_end s F hF hwide
  have hline : minMax F 1 (docCount s) = F := by
    unfold minMax
    omega
  have hdisp := getDisplayStringAtLine_length s F
  have hbegin : setBlockBegin s ⟨qlen (getString s (F - 1)) + 1, F⟩
      = { s with mBlockBegin := ⟨qlen (getString s (F - 1)) + 1, F⟩,
                 mBlockEnd := ⟨qlen (getString s (F - 1)) + 1, F⟩ } := by
    unfold setBlockBegin
    simp only [hline, hclamp]
  generalize hv : qlen (getString s (F - 1)) + 1 = c at *
  have hend : setBlockEnd (setBlockBegin s ⟨c, F⟩) ⟨c, F⟩
      = { s with mBlockBegin := ⟨c, F⟩, mBlockEnd := ⟨c, F⟩ } := by
    rw [hbegin]
    unfold setBlockEnd
    have h1 : docCount { s with mBlockBegin := ⟨c, F⟩, mBlockEnd := ⟨c, F⟩ } = docCount s := rfl
    have h2 : clampBlockChar { s with mBlockBegin := ⟨c, F⟩, mBlockEnd := ⟨c, F⟩ } c F
        = clampBlockChar s c F := rfl
    simp only [h1, hline, h2, hclamp]
  unfold setCaretXY
  rw [hend]
  unfold setCaretXYEx updateLastCaretX caretXY
  simp only
  have h1 : docCount { s with mBlockBegin := ⟨c, F⟩, mBlockEnd := ⟨c, F⟩ } = docCount s := rfl
  have h3 : getDisplayStringAtLine { s with mBlockBegin := ⟨c, F⟩, mBlockEnd := ⟨c, F⟩ } F
      = getDisplayStringAtLine s F := rfl
  rw [h1, if_neg (by omega : ¬ F > docCount s), h3]
  refine ⟨?_, trivial, trivial⟩
  congr 1
  · by_cases hm : s.mActiveSelectionMode ≠ SynSelectionMode.smColumn
    · rw [if_pos hm, if_neg (by omega)]
      omega
    · rw [if_neg hm]
      omega
  · rw [if_neg (by
      rintro ⟨_, h⟩
      omega)]



/-- The caret that setCaretXY leaves, read off the state before the call. -/
theorem setCaretXY_caret (s : SynEdit) (v : BufferCoord) :
    (setCaretXY s v).mCaretY
        = (if s.mActiveSelectionMode ≠ SynSelectionMode.smColumn
              ∧ (if v.Line > docCount s then docCount s else v.Line) < 1 then 1
            else (if v.Line > docCount s then docCount s else v.Line))
    ∧ (setCaretXY s v).mCaretX
        = max (if s.mActiveSelectionMode ≠ SynSelectionMode.smColumn then
              if (if v.Line > docCount s then docCount s else v.Line) < 1 then
                min v.Char (if s.eoScrollPastEol = false then 1
                            else qlen (getDisplayStringAtLine s 1) + 1)
              else min v.Char (qlen (getDisplayStringAtLine s
                  (if v.Line > docCount s then docCount s else v.Line)) + 1)
            else v.Char) 1 :=
  ⟨rfl, rfl⟩

/-- What setCaretXY does clamp on a document that is not empty: the caret line
is at most the line count and the caret char at least 1 in every mode;
outside column mode the caret line is at least 1 and the caret char at most
the displayed length of its line plus 1. -/
theorem setCaretXY_clamps (s : SynEdit) (v : BufferCoord) (hdoc : 1 ≤ docCount s) :
    (setCaretXY s v).mCaretY ≤ docCount s
    ∧ 1 ≤ (setCaretXY s v).mCaretX
    ∧ (s.mActiveSelectionMode ≠ SynSelectionMode.smColumn →
        1 ≤ (setCaretXY s v).mCaretY
        ∧ (setCaretXY s v).mCaretX
            ≤ qlen (getDisplayStringAtLine s (setCaretXY s v).mCaretY) + 1) := by
  obtain ⟨hy, hx⟩ := setCaretXY_caret s v
  rw [hy, hx]
  have hd : ∀ L, 0 ≤ qlen (getDisplayStringAtLine s L) := by
    intro L
    unfold qlen
    omega
  have hl : (if v.Line > docCount s then docCount s else v.Line) ≤ docCount s := by
    split <;> omega
  generalize (if v.Line > docCount s then docCount s else v.Line) = line0 at *
  refine ⟨?_, by omega, ?_⟩
  · split <;> omega
  · intro hm
    rw [if_pos hm]
    by_cases h0 : line0 < 1
    · rw [if_pos ⟨hm, h0⟩, if_pos h0]
      have := hd 1
      refine ⟨le_refl _, ?_⟩
      split <;> omega
    · rw [if_neg (fun h => h0 h.2), if_neg h0]
      have := hd line0
      omega


/-- What setBlockBegin and setBlockEnd do clamp on a document that is not
empty: the stored line lies in [1, lineCount] in every mode; in stream mode
the stored char is the smaller of the requested char and the displayed length
of that line plus 1, with no lower bound. -/
theorem setBlock_clamps (s : SynEdit) (v : BufferCoord) (hdoc : 1 ≤ docCount s) :
    (1 ≤ (setBlockBegin s v).mBlockBegin.Line ∧ (setBlockBegin s v).mBlockBegin.Line ≤ docCount s)
    ∧ (1 ≤ (setBlockEnd s v).mBlockEnd.Line ∧ (setBlockEnd s v).mBlockEnd.Line ≤ docCount s)
    ∧ (s.mActiveSelectionMode = SynSelectionMode.smNormal →
        (setBlockBegin s v).mBlockBegin.Char
            = min v.Char (qlen (getDisplayStringAtLine s (setBlockBegin s v).mBlockBegin.Line) + 1)
        ∧ (setBlockEnd s v).mBlockEnd.Char
            = min v.Char (qlen (getDisplayStringAtLine s (setBlockEnd s v).mBlockEnd.Line) + 1)) := by
  have hline : 1 ≤ minMax v.Line 1 (docCount s) ∧ minMax v.Line 1 (docCount s) ≤ docCount s := by
    unfold minMax
    omega
  refine ⟨hline, hline, ?_⟩
  intro hm
  have hc : clampBlockChar s v.Char (minMax v.Line 1 (docCount s))
      = min v.Char (qlen (getDisplayStringAtLine s (minMax v.Line 1 (docCount s))) + 1) := by
    unfold clampBlockChar
    rw [if_pos hm, if_pos ⟨hline.1, hline.2⟩]
  exact ⟨hc, hc⟩


/-! ### Collapsing a fold -/

/-- C14 (counterexample): the caret at (1, 2) is on the first line of the open
range of lines 2 to 4; collapsing that range leaves the caret at (1, 2), not
at the end of line 2, which is (4, 2). -/
theorem C14_caret_on_first_line_stays :
    openFoldEditor.foldArena.get? 0
        = some { fromLine := 2, toLine := 4, collapsed := false, linesCollapsed := 0,
                 parent := none }
    ∧ caretXY openFoldEditor = ⟨1, 2⟩
    ∧ qlen (getString openFoldEditor (2 - 1)) + 1 = 4
    ∧ caretXY (collapseAt openFoldEditor 0) = ⟨1, 2⟩ := by
  decide

/-- C14 (amended): for every fold range r.  When the first line of r is a line
of the document and the caret line lies below the first line of r and not
below its last line (fromLine < caret line <= toLine), after collapse(r) the
caret is at (length of line fromLine + 1, fromLine) and both ends of the
selection are at that position (in line and column mode for a positive tab
width and glyphs at least one column wide).  A caret on line fromLine itself,
like every caret outside the lines fromLine + 1 to toLine, is left where it
is, and so are both ends of the selection. -/
theorem C14_collapse_moves_caret_to_first_line (s : SynEdit) (i : Nat) (r : SynEditFoldRange)
    (hr : s.foldArena.get? i = some r) :
    (r.fromLine < s.mCaretY ∧ s.mCaretY ≤ r.toLine →
      1 ≤ r.fromLine ∧ r.fromLine ≤ docCount s →
      (s.mActiveSelectionMode = SynSelectionMode.smNormal
        ∨ (0 < s.cfg.mTabWidth ∧ ∀ ch, 1 ≤ s.cfg.charColumnsOf ch)) →
      caretXY (collapseAt s i) = ⟨qlen (getString s (r.fromLine - 1)) + 1, r.fromLine⟩
      ∧ (collapseAt s i).mBlockBegin = ⟨qlen (getString s (r.fromLine - 1)) + 1, r.fromLine⟩
      ∧ (collapseAt s i).mBlockEnd = ⟨qlen (getString s (r.fromLine - 1)) + 1, r.fromLine⟩)
    ∧ (s.mCaretY ≤ r.fromLine ∨ r.toLine < s.mCaretY →
      caretXY (collapseAt s i) = caretXY s
      ∧ (collapseAt s i).mBlockBegin = s.mBlockBegin
      ∧ (collapseAt s i).mBlockEnd = s.mBlockEnd)
    ∧ (s.mCaretY = r.fromLine → caretXY (collapseAt s i) = caretXY s) := by
  have hout : s.mCaretY ≤ r.fromLine ∨ r.toLine < s.mCaretY →
      caretXY (collapseAt s i) = caretXY s
      ∧ (collapseAt s i).mBlockBegin = s.mBlockBegin
      ∧ (collapseAt s i).mBlockEnd = s.mBlockEnd := by
    intro hc
    unfold collapseAt
    rw [hr]
    simp only
    rw [if_neg (by omega)]
    exact ⟨rfl, rfl, rfl⟩
  refine ⟨fun hcaret hline hwide => ?_, hout, fun he => (hout (Or.inl (le_of_eq he))).1⟩
  unfold collapseAt
  rw [hr]
  simp only
  rw [if_pos hcaret]
  exact setCaretXY_line_end _ r.fromLine hline hwide

/-- C14 (witness): with the caret at (1, 3) inside the range of lines 2 to 4,
collapsing the range puts the caret and the selection at (4, 2), the end of
the line "b \x7b"; with the caret at (1, 2), on the first line of the range,
collapsing leaves the caret at (1, 2). -/
theorem C14_collapse_moves_caret_to_first_line_witness :
    (caretXY (collapseAt caretInFoldEditor 0) = ⟨4, 2⟩
      ∧ (collapseAt caretInFoldEditor 0).mBlockBegin = ⟨4, 2⟩
      ∧ (collapseAt caretInFoldEditor 0).mBlockEnd = ⟨4, 2⟩)
    ∧ caretXY (collapseAt openFoldEditor 0) = ⟨1, 2⟩ :=
  ⟨(C14_collapse_moves_caret_to_first_line caretInFoldEditor 0
      { fromLine := 2, toLine := 4, collapsed := false, linesCollapsed := 0, parent := none }
      rfl).1 (by decide) (by decide) (Or.inl rfl),
   (C14_collapse_moves_caret_to_first_line openFoldEditor 0
      { fromLine := 2, toLine := 4, collapsed := false, linesCollapsed := 0, parent := none }
      rfl).2.2 rfl⟩



/-! ### Rows of folded lines -/

/-- C15 (counterexample): the ranges of lines 1 to 3 and of lines 3 to 5 are
both collapsed and neither is nested in the other; line 4 lies in the second
one, its row is the row of line 3, yet rowToLine of that row is line 1, not
the first line 3 of its range. -/
theorem C15_row_of_chained_fold_maps_to_first_fold :
    foldSpans elseChainEditor = [(1, 3, true), (3, 5, true)]
    ∧ (allFoldRanges elseChainEditor).all (fun r => !parentCollapsed elseChainEditor r) = true
    ∧ lineToRow elseChainEditor 4 = lineToRow elseChainEditor 3
    ∧ rowToLine elseChainEditor (lineToRow elseChainEditor 4) = 1 := by
  decide

/-- The loop of foldLineToRow over a list whose first range is r. -/
theorem lineToRow_fold_cons (s : SynEdit) (L acc : Int) (r : SynEditFoldRange)
    (rs : List SynEditFoldRange) :
    (r :: rs).reverse.foldl (foldLineToRowStep s L) acc
      = foldLineToRowStep s L (rs.reverse.foldl (foldLineToRowStep s L) acc) r := by
  simp [List.foldl_append]

/-- The step of foldLineToRow at a counted range that hides line L. -/
theorem lineToRowStep_inside (s : SynEdit) (L R : Int) (r : SynEditFoldRange)
    (hc : foldCounts s r = true) (hin : r.fromLine < L ∧ L ≤ r.toLine) :
    foldLineToRowStep s L R r = R - (L - r.fromLine) := by
  unfold foldLineToRowStep
  rw [if_pos hc, if_neg (by omega), if_pos hin]

/-- Counted ranges that start at or after a line leave its row count alone. -/
theorem lineToRow_untouched (s : SynEdit) (L acc : Int) (rs : List SynEditFoldRange)
    (h : ∀ q ∈ rs, foldCounts s q = true → L ≤ q.fromLine ∧ q.fromLine < q.toLine) :
    rs.reverse.foldl (foldLineToRowStep s L) acc = acc := by
  induction rs with
  | nil => rfl
  | cons q rs ih =>
    rw [lineToRow_fold_cons, ih (fun p hp => h p (List.mem_cons_of_mem _ hp))]
    by_cases hc : foldCounts s q = true
    · have := h q (List.mem_cons_self _ _) hc
      exact lineToRowStep_beyond s L acc q (by omega) (by omega)
    · exact lineToRowStep_skip s L acc q hc

/-- The loop of foldLineToRow for a line L inside the counted range r and for
the first line of r: the two results differ by what the accumulators differ,
less the distance from the first line to L. -/
theorem lineToRow_inside_fold (s : SynEdit) (r : SynEditFoldRange) (L : Int)
    (hrc : foldCounts s r = true) (hin : r.fromLine < L ∧ L ≤ r.toLine)
    (rs : List SynEditFoldRange)
    (hinv : ∀ q ∈ rs, foldCounts s q = true →
      q.fromLine < q.toLine ∧ q.linesCollapsed = q.toLine - q.fromLine)
    (hpw : (rs.filter (foldCounts s)).Pairwise (fun a b => a.toLine ≤ b.fromLine))
    (hmem : r ∈ rs) (a b : Int) :
    rs.reverse.foldl (foldLineToRowStep s L) a
      = rs.reverse.foldl (foldLineToRowStep s r.fromLine) b + (a - b) - (L - r.fromLine) := by
  induction rs with
  | nil => simp at hmem
  | cons q rs ih =>
    have hinv2 : ∀ p ∈ rs, foldCounts s p = true →
        p.fromLine < p.toLine ∧ p.linesCollapsed = p.toLine - p.fromLine :=
      fun p hp => hinv p (List.mem_cons_of_mem _ hp)
    rw [lineToRow_fold_cons, lineToRow_fold_cons]
    by_cases hq : q = r
    · subst hq
      rw [List.filter_cons_of_pos hrc] at hpw
      have hafter := (List.pairwise_cons.mp hpw).1
      have h1 := lineToRow_untouched s L a rs (fun p hp hpc =>
        ⟨by
          have := hafter p (List.mem_filter.mpr ⟨hp, hpc⟩)
          omega, (hinv2 p hp hpc).1⟩)
      have h2 := lineToRow_untouched s q.fromLine b rs (fun p hp hpc =>
        ⟨by
          have := hafter p (List.mem_filter.mpr ⟨hp, hpc⟩)
          omega, (hinv2 p hp hpc).1⟩)
      rw [h1, h2, lineToRowStep_inside s L a q hrc hin,
        lineToRowStep_beyond s q.fromLine b q (by omega) (by omega)]
      omega
    · have hmem2 : r ∈ rs := by
        rcases List.mem_cons.mp hmem with h | h
        · exact absurd h.symm hq
        · exact h
      by_cases hc : foldCounts s q = true
      · rw [List.filter_cons_of_pos hc] at hpw
        have hpw2 := List.pairwise_cons.mp hpw
        have hbefore := hpw2.1 r (List.mem_filter.mpr ⟨hmem2, hrc⟩)
        have hi := hinv q (List.mem_cons_self _ _) hc
        have hrec := ih hinv2 hpw2.2 hmem2
        rw [lineToRowStep_before s L _ q hc (by omega), hrec]
        by_cases hlt : q.toLine < r.fromLine
        · rw [lineToRowStep_before s r.fromLine _ q hc hlt]
          omega
        · rw [lineToRowStep_inside s r.fromLine _ q hc ⟨by omega, by omega⟩]
          omega
      · rw [List.filter_cons_of_neg hc] at hpw
        rw [lineToRowStep_skip s L _ q hc, lineToRowStep_skip s r.fromLine _ q hc]
        exact ih hinv2 hpw hmem2

/-- C15 (amended): with the counted fold ranges (collapsed, no collapsed
ancestor) well-formed, sorted and not overlapping.  For every counted range
and every line L with fromLine < L <= toLine, with code folding on,
lineToRow(L) = lineToRow(fromLine), and rowToLine(lineToRow(L)) = fromLine
when fromLine is not itself hidden by a counted range; for every line L that
is not hidden, rowToLine(lineToRow(L)) = L. -/
theorem C15_rows_of_folded_lines (s : SynEdit) (hfolds : TopFoldsOrdered s) :
    (∀ r ∈ topCollapsedRanges s, ∀ L : Int, s.cfg.mUseCodeFolding = true →
        r.fromLine < L → L ≤ r.toLine →
        lineToRow s L = lineToRow s r.fromLine
        ∧ (¬ lineHidden s r.fromLine → rowToLine s (lineToRow s L) = r.fromLine))
    ∧ (∀ L : Int, ¬ lineHidden s L → rowToLine s (lineToRow s L) = L) := by
  have hround : ∀ L : Int, ¬ lineHidden s L → rowToLine s (lineToRow s L) = L := by
    intro L hvis
    unfold rowToLine lineToRow bufferToDisplayPos
    simp only
    by_cases hf : s.cfg.mUseCodeFolding = true
    · rw [if_pos hf, if_pos hf]
      unfold foldRowToLine foldLineToRow
      exact rows_round_trip s L (allFoldRanges s) (RowHyp_of_ordered s L hfolds hvis)
    · rw [if_neg hf, if_neg hf]
  refine ⟨?_, hround⟩
  intro r hr L hf h1 h2
  have hmem := List.mem_filter.mp hr
  have heq : lineToRow s L = lineToRow s r.fromLine := by
    unfold lineToRow bufferToDisplayPos
    simp only
    rw [if_pos hf, if_pos hf]
    unfold foldLineToRow
    have h := lineToRow_inside_fold s r L hmem.2 ⟨h1, h2⟩ (allFoldRanges s)
      (fun q hq hqc => hfolds.1 q (List.mem_filter.mpr ⟨hq, hqc⟩)) hfolds.2 hmem.1 L r.fromLine
    omega
  refine ⟨heq, fun hvis => ?_⟩
  rw [heq]
  exact hround r.fromLine hvis

/-- C15 (witness): with the range of lines 2 to 4 collapsed, line 3 has the row
of line 2, that row maps back to line 2, and the visible line 5 maps to
itself. -/
theorem C15_rows_of_folded_lines_witness :
    lineToRow foldedEditor 3 = lineToRow foldedEditor 2
    ∧ rowToLine foldedEditor (lineToRow foldedEditor 3) = 2
    ∧ rowToLine foldedEditor (lineToRow foldedEditor 5) = 5 :=
  ⟨((C15_rows_of_folded_lines foldedEditor (by unfold TopFoldsOrdered; decide)).1
      { fromLine := 2, toLine := 4, collapsed := true, linesCollapsed := 2, parent := none }
      (by decide) 3 rfl (by decide) (by decide)).1,
   ((C15_rows_of_folded_lines foldedEditor (by unfold TopFoldsOrdered; decide)).1
      { fromLine := 2, toLine := 4, collapsed := true, linesCollapsed := 2, parent := none }
      (by decide) 3 rfl (by decide) (by decide)).2 (by unfold lineHidden; decide),
   (C15_rows_of_folded_lines foldedEditor (by unfold TopFoldsOrdered; decide)).2 5
      (by unfold lineHidden; decide)⟩



/-! ### Fold scan and fold list maintenance -/

/-- C16 (failing input): two brace blocks, lines 1 to 3 and lines 4 to 6.  On
an empty fold list the re-scan finds both ranges, so both still delimit folds;
with both ranges in the list and collapsed, the re-scan ends with the second
range only: the first collapsed range is gone from the list. -/
theorem C16_rescan_drops_collapsed_range :
    foldSpans twoBlocksCollapsed = [(1, 3, true), (4, 6, true)]
    ∧ (rescanForFoldRanges twoBlocksInput twoBlocksEditor).map foldSpans
        = some [(1, 3, false), (4, 6, false)]
    ∧ collapsedFoldStartAtLine twoBlocksCollapsed 1
        = some { fromLine := 1, toLine := 3, collapsed := true, linesCollapsed := 2,
                 parent := none }
    ∧ collapsedFoldStartAtLine twoBlocksCollapsed 4 = none
    ∧ (rescanForFoldRanges twoBlocksInput twoBlocksCollapsed).map foldSpans
        = some [(4, 6, true)] := by
  decide

/-- C18 (failing input): the range of lines 2 to 4 is collapsed; after
foldOnListDeleted(3, 1) the fold list is empty and the record of the removed
range is still collapsed with linesCollapsed = 2. -/
theorem C18_range_removed_while_collapsed :
    foldSpans foldedEditor = [(2, 4, true)]
    ∧ (foldOnListDeleted foldedEditor 3 1).mAllFoldRanges = []
    ∧ (foldOnListDeleted foldedEditor 3 1).foldArena.get? 0
        = some { fromLine := 2, toLine := 4, collapsed := true, linesCollapsed := 2,
                 parent := none } := by
  decide

/-- C19 (failing input): the first of two lines opens a brace that no line
closes; the scan ends with one range whose first and last line are both
line 1. -/
theorem C19_unclosed_brace_gives_one_line_range :
    (scanForFoldRanges unclosedBraceInput unclosedBraceEditor none).map
        (fun st => foldSpans st.ed) = some [(1, 1, false)] := by
  decide

/-- C17 (counterexample): the open range of lines 2 to 4 has no collapsed
ancestor; foldOnListInserted(1, 3) and foldOnListDeleted(1, 1) both leave it
on lines 2 to 4. -/
theorem C17_open_range_not_shifted :
    foldSpans openFoldEditor = [(2, 4, false)]
    ∧ foldSpans (foldOnListInserted openFoldEditor 1 3) = [(2, 4, false)]
    ∧ foldSpans (foldOnListDeleted openFoldEditor 1 1) = [(2, 4, false)] := by
  decide


/-- The fold records are not touched by setCaretXY. -/
theorem setCaretXY_foldArena (s : SynEdit) (v : BufferCoord) :
    (setCaretXY s v).foldArena = s.foldArena := rfl

/-- The record behind index i after uncollapse of the record behind j. -/
theorem uncollapseAt_get (s : SynEdit) (i j : Nat) :
    (uncollapseAt s j).foldArena.get? i
      = if i = j then (s.foldArena.get? i).map
          (fun r => { r with linesCollapsed := 0, collapsed := false })
        else s.foldArena.get? i := by
  unfold uncollapseAt
  cases hj : s.foldArena.get? j with
  | none =>
    simp only
    split
    · rename_i h
      rw [h, hj]
      rfl
    · rfl
  | some r =>
    simp only [List.get?_eq_getElem?] at hj ⊢
    rw [List.getElem?_set]
    by_cases h : i = j
    · subst h
      have hlt : i < s.foldArena.length := by
        by_contra hn
        rw [List.getElem?_eq_none (by omega)] at hj
        exact Option.noConfusion hj
      simp [hlt, hj]
    · rw [if_neg (fun h2 => h h2.symm), if_neg h]

/-- The record behind index i after a move of the record behind j. -/
theorem moveAt_get (s : SynEdit) (i j : Nat) (count : Int) :
    (moveAt s j count).foldArena.get? i
      = if i = j then (s.foldArena.get? i).map
          (fun r => { r with fromLine := r.fromLine + count, toLine := r.toLine + count })
        else s.foldArena.get? i := by
  unfold moveAt
  cases hj : s.foldArena.get? j with
  | none =>
    simp only
    split
    · rename_i h
      rw [h, hj]
      rfl
    · rfl
  | some r =>
    simp only [List.get?_eq_getElem?] at hj ⊢
    rw [List.getElem?_set]
    by_cases h : i = j
    · subst h
      have hlt : i < s.foldArena.length := by
        by_contra hn
        rw [List.getElem?_eq_none (by omega)] at hj
        exact Option.noConfusion hj
      simp [hlt, hj]
    · rw [if_neg (fun h2 => h h2.symm), if_neg h]

/-- A property of the editor that every uncollapse and every move of the loop
of foldOnListInserted keeps holds after the loop. -/
theorem foldOnListInsertedLoop_induct (P : SynEdit → Prop) (Line Count : Int) (l : List Nat)
    (hU : ∀ t j r, j ∈ l → P t → foldAt t j = some r →
      (r.collapsed = true ∨ parentCollapsed t r = true) → r.fromLine = Line - 1 →
      P (uncollapseAt t j))
    (hM : ∀ t j r, j ∈ l → P t → foldAt t j = some r →
      (r.collapsed = true ∨ parentCollapsed t r = true) → r.fromLine ≥ Line →
      ¬ r.fromLine = Line - 1 → P (moveAt t j Count)) :
    ∀ s, P s → P (foldOnListInsertedLoop Line Count l s) := by
  induction l with
  | nil =>
    intro s hs
    exact hs
  | cons j rest ih =>
    intro s hs
    unfold foldOnListInsertedLoop
    simp only
    apply ih (fun t k r hk => hU t k r (List.mem_cons_of_mem _ hk))
      (fun t k r hk => hM t k r (List.mem_cons_of_mem _ hk))
    cases hj : foldAt s j with
    | none => exact hs
    | some r =>
      simp only
      split
      · rename_i h0
        split
        · rename_i h1
          exact hU s j r (List.mem_cons_self _ _) hs hj h0 h1
        · rename_i h1
          split
          · rename_i h2
            exact hM s j r (List.mem_cons_self _ _) hs hj h0 h2 h1
          · exact hs
      · exact hs

/-- A property of the editor that every uncollapse and every move of the loop
of foldOnListDeleted keeps holds after the loop. -/
theorem foldOnListDeletedLoop_induct (P : SynEdit → Prop) (Line Count : Int) (l : List Nat)
    (hU : ∀ t j r, j ∈ l → P t → foldAt t j = some r →
      (r.collapsed = true ∨ parentCollapsed t r = true) → r.fromLine = Line ∧ Count = 1 →
      P (uncollapseAt t j))
    (hM : ∀ t j r, j ∈ l → P t → foldAt t j = some r →
      (r.collapsed = true ∨ parentCollapsed t r = true) → r.fromLine ≥ Line + Count →
      ¬ (r.fromLine ≥ Line - 1 ∧ r.fromLine < Line + Count) → P (moveAt t j (-Count))) :
    ∀ s, P s → P (foldOnListDeletedLoop Line Count l s).1 := by
  induction l with
  | nil =>
    intro s hs
    exact hs
  | cons j rest ih =>
    intro s hs
    have hp := ih (fun t k r hk => hU t k r (List.mem_cons_of_mem _ hk))
      (fun t k r hk => hM t k r (List.mem_cons_of_mem _ hk)) s hs
    unfold foldOnListDeletedLoop
    simp only
    generalize foldOnListDeletedLoop Line Count rest s = p at hp ⊢
    cases hj : foldAt p.1 j with
    | none => exact hp
    | some r =>
      simp only
      split
      · rename_i h0
        split
        · rename_i h1
          exact hU p.1 j r (List.mem_cons_self _ _) hp hj h0 h1
        · split
          · exact hp
          · rename_i h2
            split
            · rename_i h3
              exact hM p.1 j r (List.mem_cons_self _ _) hp hj h0 h3 h2
            · exact hp
      · exact hp


/-- The loop of foldOnListInserted leaves the records behind the indices it
does not visit as they are. -/
theorem foldOnListInsertedLoop_other (Line Count : Int) (i : Nat) (l : List Nat) (s : SynEdit)
    (hi : i ∉ l) :
    (foldOnListInsertedLoop Line Count l s).foldArena.get? i = s.foldArena.get? i := by
  refine foldOnListInsertedLoop_induct
    (fun t => t.foldArena.get? i = s.foldArena.get? i) Line Count l ?_ ?_ s rfl
  · intro t j r hj hP _ _ _
    rw [uncollapseAt_get, if_neg (fun (h : i = j) => hi (h ▸ hj))]
    exact hP
  · intro t j r hj hP _ _ _ _
    rw [moveAt_get, if_neg (fun (h : i = j) => hi (h ▸ hj))]
    exact hP

/-- The loop of foldOnListInserted handles its first index, then the rest. -/
theorem foldOnListInsertedLoop_cons (Line Count : Int) (j : Nat) (rest : List Nat) (s : SynEdit) :
    foldOnListInsertedLoop Line Count (j :: rest) s
      = foldOnListInsertedLoop Line Count rest (foldOnListInsertedLoop Line Count [j] s) := rfl

/-- The loop of foldOnListInserted moves a collapsed record that starts at or
after the line, when its index comes once in the list. -/
theorem foldOnListInsertedLoop_moved (Line Count : Int) (i : Nat) (r : SynEditFoldRange)
    (hc : r.collapsed = true) (hfrom : r.fromLine ≥ Line) :
    ∀ (l : List Nat) (s : SynEdit), l.Nodup → i ∈ l → s.foldArena.get? i = some r →
      (foldOnListInsertedLoop Line Count l s).foldArena.get? i
        = some ⟨r.fromLine + Count, r.toLine + Count, r.collapsed, r.linesCollapsed, r.parent⟩ := by
  intro l
  induction l with
  | nil =>
    intro s _ hi
    simp at hi
  | cons j rest ih =>
    intro s hnd hi hr
    have hnd2 := List.nodup_cons.mp hnd
    by_cases hj : j = i
    · subst hj
      have hsingle : foldOnListInsertedLoop Line Count [j] s = moveAt s j Count := by
        have e : foldOnListInsertedLoop Line Count [j] s
            = (match foldAt s j with
              | none => s
              | some r =>
                if r.collapsed ∨ parentCollapsed s r then
                  if r.fromLine = Line - 1 then uncollapseAt s j
                  else if r.fromLine ≥ Line then moveAt s j Count
                  else s
                else s) := rfl
        rw [e, show foldAt s j = some r from hr]
        simp only
        rw [if_pos (Or.inl hc), if_neg (by omega), if_pos hfrom]
      rw [foldOnListInsertedLoop_cons, hsingle, foldOnListInsertedLoop_other Line Count j rest _ hnd2.1, moveAt_get, if_pos rfl,
        hr]
      rfl
    · have hi2 : i ∈ rest := by
        rcases List.mem_cons.mp hi with h | h
        · exact absurd h.symm hj
        · exact h
      rw [foldOnListInsertedLoop_cons]
      apply ih _ hnd2.2 hi2
      rw [foldOnListInsertedLoop_other Line Count i [j] s (by
        simp only [List.mem_singleton]
        exact fun h => hj h.symm)]
      exact hr

/-- The loop of foldOnListInserted keeps the fold list. -/
theorem foldOnListInsertedLoop_list (Line Count : Int) (l : List Nat) (s : SynEdit) :
    (foldOnListInsertedLoop Line Count l s).mAllFoldRanges = s.mAllFoldRanges := by
  refine foldOnListInsertedLoop_induct
    (fun t => t.mAllFoldRanges = s.mAllFoldRanges) Line Count l ?_ ?_ s rfl
  · intro t j r _ hP _ _ _
    unfold uncollapseAt
    split <;> exact hP
  · intro t j r _ hP _ _ _ _
    unfold moveAt
    split <;> exact hP

/-- The loop of foldOnListDeleted leaves the records behind the indices it
does not visit as they are. -/
theorem foldOnListDeletedLoop_other (Line Count : Int) (i : Nat) (l : List Nat) (s : SynEdit)
    (hi : i ∉ l) :
    (foldOnListDeletedLoop Line Count l s).1.foldArena.get? i = s.foldArena.get? i := by
  refine foldOnListDeletedLoop_induct
    (fun t => t.foldArena.get? i = s.foldArena.get? i) Line Count l ?_ ?_ s rfl
  · intro t j r hj hP _ _ _
    rw [uncollapseAt_get, if_neg (fun (h : i = j) => hi (h ▸ hj))]
    exact hP
  · intro t j r hj hP _ _ _ _
    rw [moveAt_get, if_neg (fun (h : i = j) => hi (h ▸ hj))]
    exact hP

/-- One round of the loop of foldOnListDeleted: the later indices first, then
the index j. -/
theorem foldOnListDeletedLoop_unfold (Line Count : Int) (j : Nat) (rest : List Nat)
    (s : SynEdit) :
    foldOnListDeletedLoop Line Count (j :: rest) s
      = (match foldAt (foldOnListDeletedLoop Line Count rest s).1 j with
        | none => ((foldOnListDeletedLoop Line Count rest s).1,
            j :: (foldOnListDeletedLoop Line Count rest s).2)
        | some r =>
          if r.collapsed ∨ parentCollapsed (foldOnListDeletedLoop Line Count rest s).1 r then
            if r.fromLine = Line ∧ Count = 1 then
              (uncollapseAt (foldOnListDeletedLoop Line Count rest s).1 j,
                j :: (foldOnListDeletedLoop Line Count rest s).2)
            else if r.fromLine ≥ Line - 1 ∧ r.fromLine < Line + Count then
              ((foldOnListDeletedLoop Line Count rest s).1,
                (foldOnListDeletedLoop Line Count rest s).2)
            else if r.fromLine ≥ Line + Count then
              (moveAt (foldOnListDeletedLoop Line Count rest s).1 j (-Count),
                j :: (foldOnListDeletedLoop Line Count rest s).2)
            else ((foldOnListDeletedLoop Line Count rest s).1,
                j :: (foldOnListDeletedLoop Line Count rest s).2)
          else ((foldOnListDeletedLoop Line Count rest s).1,
                j :: (foldOnListDeletedLoop Line Count rest s).2)) := rfl

/-- One more round of the loop of foldOnListDeleted, for the index j, changes
no record behind another index and keeps what the list held. -/
theorem foldOnListDeletedLoop_cons (Line Count : Int) (j : Nat) (rest : List Nat) (s : SynEdit) :
    (∀ i, i ≠ j →
      (foldOnListDeletedLoop Line Count (j :: rest) s).1.foldArena.get? i
        = (foldOnListDeletedLoop Line Count rest s).1.foldArena.get? i)
    ∧ (∀ i, i ∈ (foldOnListDeletedLoop Line Count rest s).2 →
      i ∈ (foldOnListDeletedLoop Line Count (j :: rest) s).2) := by
  rw [foldOnListDeletedLoop_unfold]
  generalize foldOnListDeletedLoop Line Count rest s = p
  constructor
  · intro i hi
    split
    · rfl
    · split
      · split
        · simp only
          rw [uncollapseAt_get, if_neg hi]
        · split
          · rfl
          · split
            · simp only
              rw [moveAt_get, if_neg hi]
            · rfl
      · rfl
  · intro i hi
    split
    · exact List.mem_cons_of_mem _ hi
    · split
      · split
        · exact List.mem_cons_of_mem _ hi
        · split
          · exact hi
          · split
            · exact List.mem_cons_of_mem _ hi
            · exact List.mem_cons_of_mem _ hi
      · exact List.mem_cons_of_mem _ hi

/-- The loop of foldOnListDeleted moves a collapsed record that starts after
the deleted lines and keeps it in the list, when its index comes once in the
list. -/
theorem foldOnListDeletedLoop_moved (Line Count : Int) (i : Nat) (r : SynEditFoldRange)
    (hc : r.collapsed = true) (hfrom : r.fromLine ≥ Line + Count) :
    ∀ (l : List Nat) (s : SynEdit), l.Nodup → i ∈ l → s.foldArena.get? i = some r →
      (foldOnListDeletedLoop Line Count l s).1.foldArena.get? i
        = some ⟨r.fromLine - Count, r.toLine - Count, r.collapsed, r.linesCollapsed, r.parent⟩
      ∧ i ∈ (foldOnListDeletedLoop Line Count l s).2 := by
  intro l
  induction l with
  | nil =>
    intro s _ hi
    simp at hi
  | cons j rest ih =>
    intro s hnd hi hr
    have hnd2 := List.nodup_cons.mp hnd
    by_cases hj : j = i
    · subst hj
      have hprev := foldOnListDeletedLoop_other Line Count j rest s hnd2.1
      rw [hr] at hprev
      have hstep : foldOnListDeletedLoop Line Count (j :: rest) s
          = (moveAt (foldOnListDeletedLoop Line Count rest s).1 j (-Count),
              j :: (foldOnListDeletedLoop Line Count rest s).2) := by
        rw [foldOnListDeletedLoop_unfold,
          show foldAt (foldOnListDeletedLoop Line Count rest s).1 j = some r from hprev]
        simp only
        rw [if_pos (Or.inl hc), if_neg (by omega), if_neg (by omega), if_pos hfrom]
      rw [hstep]
      refine ⟨?_, List.mem_cons_self _ _⟩
      simp only
      rw [moveAt_get, if_pos rfl, hprev]
      simp only [Option.map_some', Option.some.injEq]
      rw [Int.sub_eq_add_neg, Int.sub_eq_add_neg]
    · have hi2 : i ∈ rest := by
        rcases List.mem_cons.mp hi with h | h
        · exact absurd h.symm hj
        · exact h
      have hrec := ih s hnd2.2 hi2 hr
      have hc2 := foldOnListDeletedLoop_cons Line Count j rest s
      rw [hc2.1 i (fun h => hj h.symm)]
      exact ⟨hrec.1, hc2.2 i hrec.2⟩


/-- The positional match of rescanForFoldRanges: when the fold list keeps some
range and the scan into the list of its own ends in st, every scanned range t
that matches a kept range j (same first and last line, j collapsed) is
replaced by a kept range that matches it. -/
theorem rescan_keeps_matched_range (inp : FoldScanInput) (s : SynEdit) (st : FoldScan)
    (hkept : (s.mAllFoldRanges.filter (keepsOnRescan s)).length > 0)
    (hscan : scanForFoldRanges inp
        { s with mAllFoldRanges := s.mAllFoldRanges.filter (keepsOnRescan s) } (some [])
      = some st)
    (t : Nat) (ht : t ∈ st.temp.getD [])
    (j : Nat) (hj : j ∈ s.mAllFoldRanges.filter (keepsOnRescan s))
    (hm : rescanMatches st.ed t j = true) :
    ∃ s1, rescanForFoldRanges inp s = some s1 ∧ s1.foldArena = st.ed.foldArena
      ∧ ∃ k ∈ s1.mAllFoldRanges, k ∈ s.mAllFoldRanges ∧ rescanMatches st.ed t k = true := by
  unfold rescanForFoldRanges
  simp only
  rw [if_pos hkept, hscan]
  refine ⟨_, rfl, rfl, ?_⟩
  simp only
  cases hf : (s.mAllFoldRanges.filter (keepsOnRescan s)).find?
      (fun j => rescanMatches st.ed t j) with
  | none =>
    have := List.find?_eq_none.mp hf j hj
    exact absurd hm this
  | some k =>
    refine ⟨k, ?_, (List.mem_filter.mp (List.mem_of_find?_eq_some hf)).1,
      List.find?_some hf⟩
    refine List.mem_map.mpr ⟨t, ht, ?_⟩
    rw [hf]

/-- A range of the list whose first line is the deleted line ends uncollapsed
with linesCollapsed = 0 after foldOnListDeleted(Line, 1), and stays in the
list, when its index comes once in the list and it obeys the invariant of
linesCollapsed. -/
theorem foldOnListDeletedLoop_first_line (Line : Int) (i : Nat) (r : SynEditFoldRange)
    (hfrom : r.fromLine = Line) (hinv : foldInvariant r) :
    ∀ (l : List Nat) (s : SynEdit), l.Nodup → i ∈ l → s.foldArena.get? i = some r →
      (∃ r1, (foldOnListDeletedLoop Line 1 l s).1.foldArena.get? i = some r1
        ∧ r1.collapsed = false ∧ r1.linesCollapsed = 0)
      ∧ i ∈ (foldOnListDeletedLoop Line 1 l s).2 := by
  intro l
  induction l with
  | nil =>
    intro s _ hi
    simp at hi
  | cons j rest ih =>
    intro s hnd hi hr
    have hnd2 := List.nodup_cons.mp hnd
    by_cases hj : j = i
    · subst hj
      have hprev := foldOnListDeletedLoop_other Line 1 j rest s hnd2.1
      rw [hr] at hprev
      rw [foldOnListDeletedLoop_unfold,
        show foldAt (foldOnListDeletedLoop Line 1 rest s).1 j = some r from hprev]
      simp only
      by_cases hcp : r.collapsed = true
          ∨ parentCollapsed (foldOnListDeletedLoop Line 1 rest s).1 r = true
      · rw [if_pos hcp, if_pos ⟨hfrom, trivial⟩]
        refine ⟨⟨{ r with linesCollapsed := 0, collapsed := false }, ?_, rfl, rfl⟩,
          List.mem_cons_self _ _⟩
        simp only
        rw [uncollapseAt_get, if_pos rfl, hprev]
        rfl
      · rw [if_neg hcp]
        refine ⟨⟨r, hprev, ?_, ?_⟩, List.mem_cons_self _ _⟩
        · cases hc : r.collapsed with
          | true => exact absurd (Or.inl hc) hcp
          | false => rfl
        · unfold foldInvariant at hinv
          rw [if_neg (fun h => hcp (Or.inl h))] at hinv
          exact hinv
    · have hi2 : i ∈ rest := by
        rcases List.mem_cons.mp hi with h | h
        · exact absurd h.symm hj
        · exact h
      have hrec := ih s hnd2.2 hi2 hr
      have hc2 := foldOnListDeletedLoop_cons Line 1 j rest s
      rw [hc2.1 i (fun h => hj h.symm)]
      exact ⟨hrec.1, hc2.2 i hrec.2⟩


/-- The ancestor walk finds no more in an arena whose records have the same
parents and are collapsed only where the records of the other arena are. -/
theorem parentCollapsedFuel_mono (A B : List SynEditFoldRange)
    (h : ∀ k ra, A.get? k = some ra →
      ∃ rb, B.get? k = some rb ∧ ra.parent = rb.parent
        ∧ (ra.collapsed = true → rb.collapsed = true)) :
    ∀ (fuel : Nat) (p : Option Nat),
      parentCollapsedFuel A fuel p = true → parentCollapsedFuel B fuel p = true := by
  intro fuel
  induction fuel with
  | zero =>
    intro p hp
    simp [parentCollapsedFuel] at hp
  | succ n ih =>
    intro p hp
    cases p with
    | none => simp [parentCollapsedFuel] at hp
    | some k =>
      unfold parentCollapsedFuel at hp ⊢
      cases ha : A.get? k with
      | none =>
        rw [ha] at hp
        simp at hp
      | some ra =>
        obtain ⟨rb, hb, hpar, hcol⟩ := h k ra ha
        rw [ha] at hp
        rw [hb]
        simp only at hp ⊢
        by_cases hc : ra.collapsed = true
        · rw [if_pos (hcol hc)]
        · rw [if_neg hc] at hp
          have := ih ra.parent hp
          rw [hpar] at this
          split
          · rfl
          · exact this

/-- The loops of foldOnListInserted and foldOnListDeleted only uncollapse and
move records: what they keep of a state s is the size of the arena, the
parents, and that no record becomes collapsed. -/
theorem arena_le_step (s t : SynEdit) (j : Nat) (count : Int)
    (h : t.foldArena.length = s.foldArena.length
      ∧ ∀ k ra, t.foldArena.get? k = some ra →
          ∃ rb, s.foldArena.get? k = some rb ∧ ra.parent = rb.parent
            ∧ (ra.collapsed = true → rb.collapsed = true)) :
    ((uncollapseAt t j).foldArena.length = s.foldArena.length
      ∧ ∀ k ra, (uncollapseAt t j).foldArena.get? k = some ra →
          ∃ rb, s.foldArena.get? k = some rb ∧ ra.parent = rb.parent
            ∧ (ra.collapsed = true → rb.collapsed = true))
    ∧ ((moveAt t j count).foldArena.length = s.foldArena.length
      ∧ ∀ k ra, (moveAt t j count).foldArena.get? k = some ra →
          ∃ rb, s.foldArena.get? k = some rb ∧ ra.parent = rb.parent
            ∧ (ra.collapsed = true → rb.collapsed = true)) := by
  refine ⟨⟨?_, ?_⟩, ⟨?_, ?_⟩⟩
  · unfold uncollapseAt
    split
    · exact h.1
    · simp only [List.length_set]
      exact h.1
  · intro k ra hk
    rw [uncollapseAt_get] at hk
    by_cases hkj : k = j
    · rw [if_pos hkj] at hk
      cases h0 : t.foldArena.get? k with
      | none =>
        rw [h0] at hk
        simp at hk
      | some r0 =>
        rw [h0] at hk
        obtain ⟨rb, hb, hpar, _⟩ := h.2 k r0 h0
        have e : ra = { r0 with linesCollapsed := 0, collapsed := false } :=
          (Option.some.inj hk).symm
        subst e
        exact ⟨rb, hb, hpar, fun hc => by simp at hc⟩
    · rw [if_neg hkj] at hk
      exact h.2 k ra hk
  · unfold moveAt
    split
    · exact h.1
    · simp only [List.length_set]
      exact h.1
  · intro k ra hk
    rw [moveAt_get] at hk
    by_cases hkj : k = j
    · rw [if_pos hkj] at hk
      cases h0 : t.foldArena.get? k with
      | none =>
        rw [h0] at hk
        simp at hk
      | some r0 =>
        rw [h0] at hk
        obtain ⟨rb, hb, hpar, hcol⟩ := h.2 k r0 h0
        have e : ra = { r0 with fromLine := r0.fromLine + count, toLine := r0.toLine + count } :=
          (Option.some.inj hk).symm
        subst e
        exact ⟨rb, hb, hpar, hcol⟩
    · rw [if_neg hkj] at hk
      exact h.2 k ra hk

/-- A record that is neither collapsed nor has a collapsed ancestor is left as
it is by foldOnListInserted and by foldOnListDeleted. -/
theorem open_range_untouched (s : SynEdit) (Line Count : Int) (i : Nat) (r : SynEditFoldRange)
    (hr : s.foldArena.get? i = some r) (hc : r.collapsed = false)
    (hp : parentCollapsed s r = false) :
    (foldOnListInserted s Line Count).foldArena.get? i = some r
    ∧ (foldOnListDeleted s Line Count).foldArena.get? i = some r := by
  have hstart : s.foldArena.length = s.foldArena.length
      ∧ ∀ k ra, s.foldArena.get? k = some ra →
          ∃ rb, s.foldArena.get? k = some rb ∧ ra.parent = rb.parent
            ∧ (ra.collapsed = true → rb.collapsed = true) :=
    ⟨rfl, fun k ra hk => ⟨ra, hk, rfl, fun h => h⟩⟩
  have hne : ∀ (t : SynEdit) (j : Nat) (q : SynEditFoldRange),
      (t.foldArena.length = s.foldArena.length
        ∧ ∀ k ra, t.foldArena.get? k = some ra →
            ∃ rb, s.foldArena.get? k = some rb ∧ ra.parent = rb.parent
              ∧ (ra.collapsed = true → rb.collapsed = true)) →
      t.foldArena.get? i = some r → foldAt t j = some q →
      (q.collapsed = true ∨ parentCollapsed t q = true) → i ≠ j := by
    intro t j q hle hti hq hcond hij
    subst hij
    have : q = r := Option.some.inj (hq.symm.trans hti)
    subst this
    rcases hcond with h | h
    · rw [hc] at h
      exact Bool.noConfusion h
    · unfold parentCollapsed at h hp
      rw [hle.1] at h
      have := parentCollapsedFuel_mono t.foldArena s.foldArena hle.2 _ _ h
      rw [hp] at this
      exact Bool.noConfusion this
  constructor
  · unfold foldOnListInserted
    refine (foldOnListInsertedLoop_induct
      (fun t => (t.foldArena.length = s.foldArena.length
        ∧ ∀ k ra, t.foldArena.get? k = some ra →
            ∃ rb, s.foldArena.get? k = some rb ∧ ra.parent = rb.parent
              ∧ (ra.collapsed = true → rb.collapsed = true))
        ∧ t.foldArena.get? i = some r) Line Count _ ?_ ?_ s ⟨hstart, hr⟩).2
    · rintro t j q _ ⟨hle, hti⟩ hq hcond _
      refine ⟨(arena_le_step s t j Count hle).1, ?_⟩
      rw [uncollapseAt_get, if_neg (hne t j q hle hti hq hcond)]
      exact hti
    · rintro t j q _ ⟨hle, hti⟩ hq hcond _ _
      refine ⟨(arena_le_step s t j Count hle).2, ?_⟩
      rw [moveAt_get, if_neg (hne t j q hle hti hq hcond)]
      exact hti
  · refine (foldOnListDeletedLoop_induct
      (fun t => (t.foldArena.length = s.foldArena.length
        ∧ ∀ k ra, t.foldArena.get? k = some ra →
            ∃ rb, s.foldArena.get? k = some rb ∧ ra.parent = rb.parent
              ∧ (ra.collapsed = true → rb.collapsed = true))
        ∧ t.foldArena.get? i = some r) Line Count _ ?_ ?_ s ⟨hstart, hr⟩).2
    · rintro t j q _ ⟨hle, hti⟩ hq hcond _
      refine ⟨(arena_le_step s t j Count hle).1, ?_⟩
      rw [uncollapseAt_get, if_neg (hne t j q hle hti hq hcond)]
      exact hti
    · rintro t j q _ ⟨hle, hti⟩ hq hcond _ _
      refine ⟨(arena_le_step s t j (-Count) hle).2, ?_⟩
      rw [moveAt_get, if_neg (hne t j q hle hti hq hcond)]
      exact hti


/-! ### Shifting ranges inside a collapsed range -/

/-- The record behind an index of the arena with the records of a line taken
as open. -/
theorem arenaOpenedAt_get (A : List SynEditFoldRange) (L : Int) (k : Nat) :
    (arenaOpenedAt A L).get? k
      = (A.get? k).map (fun q => if q.fromLine = L then { q with collapsed := false } else q) := by
  unfold arenaOpenedAt
  rw [List.get?_eq_getElem?, List.getElem?_map, List.get?_eq_getElem?]

/-- The loop of foldOnListInserted over two lists one after the other. -/
theorem foldOnListInsertedLoop_append (Line Count : Int) (a b : List Nat) :
    ∀ s, foldOnListInsertedLoop Line Count (a ++ b) s
      = foldOnListInsertedLoop Line Count b (foldOnListInsertedLoop Line Count a s) := by
  induction a with
  | nil => intro s; rfl
  | cons j rest ih =>
    intro s
    rw [List.cons_append, foldOnListInsertedLoop_cons, ih, ← foldOnListInsertedLoop_cons]

/-- A property that every uncollapse and every move of the loop of
foldOnListInserted keeps holds after the loop; over a list without repeated
entries the record that a round works on is the record of the state the loop
started from. -/
theorem foldOnListInsertedLoop_induct_nodup (P : SynEdit → Prop) (Line Count : Int)
    (s0 : SynEdit) (l : List Nat)
    (hU : ∀ t j r, j ∈ l → P t → foldAt t j = some r → foldAt s0 j = some r →
      (r.collapsed = true ∨ parentCollapsed t r = true) → r.fromLine = Line - 1 →
      P (uncollapseAt t j))
    (hM : ∀ t j r, j ∈ l → P t → foldAt t j = some r → foldAt s0 j = some r →
      (r.collapsed = true ∨ parentCollapsed t r = true) → r.fromLine ≥ Line →
      ¬ r.fromLine = Line - 1 → P (moveAt t j Count)) :
    l.Nodup → ∀ s, (∀ k ∈ l, foldAt s k = foldAt s0 k) → P s →
      P (foldOnListInsertedLoop Line Count l s) := by
  induction l with
  | nil =>
    intro _ s _ hs
    exact hs
  | cons j rest ih =>
    intro hnd s hsame hs
    have hnd2 := List.nodup_cons.mp hnd
    have hj0 := hsame j (List.mem_cons_self _ _)
    rw [foldOnListInsertedLoop_cons]
    have hother : ∀ k ∈ rest, foldAt (foldOnListInsertedLoop Line Count [j] s) k
        = foldAt s0 k := by
      intro k hk
      have hkj : k ∉ [j] := by
        simp only [List.mem_singleton]
        intro h
        exact hnd2.1 (h ▸ hk)
      unfold foldAt
      rw [foldOnListInsertedLoop_other Line Count k [j] s hkj]
      exact hsame k (List.mem_cons_of_mem _ hk)
    apply ih (fun t k r hk => hU t k r (List.mem_cons_of_mem _ hk))
      (fun t k r hk => hM t k r (List.mem_cons_of_mem _ hk)) hnd2.2 _ hother
    have e : foldOnListInsertedLoop Line Count [j] s
        = (match foldAt s j with
          | none => s
          | some r =>
            if r.collapsed ∨ parentCollapsed s r then
              if r.fromLine = Line - 1 then uncollapseAt s j
              else if r.fromLine ≥ Line then moveAt s j Count
              else s
            else s) := rfl
    rw [e]
    cases hj : foldAt s j with
    | none => exact hs
    | some r =>
      simp only
      have hr0 : foldAt s0 j = some r := by rw [← hj0, hj]
      split
      · rename_i h0
        split
        · rename_i h1
          exact hU s j r (List.mem_cons_self _ _) hs hj hr0 h0 h1
        · rename_i h1
          split
          · rename_i h2
            exact hM s j r (List.mem_cons_self _ _) hs hj hr0 h0 h2 h1
          · exact hs
      · exact hs

/-- The same for the loop of foldOnListDeleted. -/
theorem foldOnListDeletedLoop_induct_nodup (P : SynEdit → Prop) (Line Count : Int)
    (s : SynEdit) (l : List Nat)
    (hU : ∀ t j r, j ∈ l → P t → foldAt t j = some r → foldAt s j = some r →
      (r.collapsed = true ∨ parentCollapsed t r = true) → r.fromLine = Line ∧ Count = 1 →
      P (uncollapseAt t j))
    (hM : ∀ t j r, j ∈ l → P t → foldAt t j = some r → foldAt s j = some r →
      (r.collapsed = true ∨ parentCollapsed t r = true) → r.fromLine ≥ Line + Count →
      ¬ (r.fromLine ≥ Line - 1 ∧ r.fromLine < Line + Count) → P (moveAt t j (-Count))) :
    l.Nodup → P s → P (foldOnListDeletedLoop Line Count l s).1 := by
  induction l with
  | nil =>
    intro _ hs
    exact hs
  | cons j rest ih =>
    intro hnd hs
    have hnd2 := List.nodup_cons.mp hnd
    have hp := ih (fun t k r hk => hU t k r (List.mem_cons_of_mem _ hk))
      (fun t k r hk => hM t k r (List.mem_cons_of_mem _ hk)) hnd2.2 hs
    have hsame : foldAt (foldOnListDeletedLoop Line Count rest s).1 j = foldAt s j :=
      foldOnListDeletedLoop_other Line Count j rest s hnd2.1
    rw [foldOnListDeletedLoop_unfold]
    generalize foldOnListDeletedLoop Line Count rest s = p at hp hsame ⊢
    cases hj : foldAt p.1 j with
    | none => exact hp
    | some r =>
      simp only
      have hr0 : foldAt s j = some r := by rw [← hsame, hj]
      split
      · rename_i h0
        split
        · rename_i h1
          exact hU p.1 j r (List.mem_cons_self _ _) hp hj hr0 h0 h1
        · split
          · exact hp
          · rename_i h2
            split
            · rename_i h3
              exact hM p.1 j r (List.mem_cons_self _ _) hp hj hr0 h0 h3 h2
            · exact hp
      · exact hp

/-- What the loops keep of the arena B in which the records that they may
uncollapse are open already: the size, the parents, and every collapsed
record of B stays collapsed. -/
theorem arena_bound_step (B : List SynEditFoldRange) (t : SynEdit) (j : Nat) (count : Int)
    (q : SynEditFoldRange) (hq : foldAt t j = some q)
    (h : t.foldArena.length = B.length
      ∧ ∀ k rb, B.get? k = some rb →
          ∃ ra, t.foldArena.get? k = some ra ∧ rb.parent = ra.parent
            ∧ (rb.collapsed = true → ra.collapsed = true)) :
    ((∀ rb, B.get? j = some rb → rb.collapsed = false) →
      (uncollapseAt t j).foldArena.length = B.length
      ∧ ∀ k rb, B.get? k = some rb →
          ∃ ra, (uncollapseAt t j).foldArena.get? k = some ra ∧ rb.parent = ra.parent
            ∧ (rb.collapsed = true → ra.collapsed = true))
    ∧ ((moveAt t j count).foldArena.length = B.length
      ∧ ∀ k rb, B.get? k = some rb →
          ∃ ra, (moveAt t j count).foldArena.get? k = some ra ∧ rb.parent = ra.parent
            ∧ (rb.collapsed = true → ra.collapsed = true)) := by
  have hq2 : t.foldArena.get? j = some q := hq
  refine ⟨fun hopen => ⟨?_, ?_⟩, ⟨?_, ?_⟩⟩
  · unfold uncollapseAt
    rw [hq2]
    simp only [List.length_set]
    exact h.1
  · intro k rb hk
    obtain ⟨ra, hra, hpar, hcol⟩ := h.2 k rb hk
    rw [uncollapseAt_get]
    by_cases hkj : k = j
    · subst hkj
      rw [if_pos rfl, hra]
      refine ⟨_, rfl, hpar, fun hc => ?_⟩
      rw [hopen rb hk] at hc
      exact Bool.noConfusion hc
    · rw [if_neg hkj]
      exact ⟨ra, hra, hpar, hcol⟩
  · unfold moveAt
    rw [hq2]
    simp only [List.length_set]
    exact h.1
  · intro k rb hk
    obtain ⟨ra, hra, hpar, hcol⟩ := h.2 k rb hk
    rw [moveAt_get]
    by_cases hkj : k = j
    · subst hkj
      rw [if_pos rfl, hra]
      exact ⟨_, rfl, hpar, hcol⟩
    · rw [if_neg hkj]
      exact ⟨ra, hra, hpar, hcol⟩

/-- The arena with the records of a line taken as open is below the arena
itself. -/
theorem arenaOpenedAt_bound (A : List SynEditFoldRange) (L : Int) :
    A.length = (arenaOpenedAt A L).length
    ∧ ∀ k rb, (arenaOpenedAt A L).get? k = some rb →
        ∃ ra, A.get? k = some ra ∧ rb.parent = ra.parent
          ∧ (rb.collapsed = true → ra.collapsed = true) := by
  refine ⟨by unfold arenaOpenedAt; rw [List.length_map], ?_⟩
  intro k rb hk
  rw [arenaOpenedAt_get] at hk
  cases ha : A.get? k with
  | none =>
    rw [ha] at hk
    simp at hk
  | some ra =>
    rw [ha] at hk
    simp only [Option.map_some', Option.some.injEq] at hk
    refine ⟨ra, rfl, ?_, ?_⟩
    · rw [← hk]
      split <;> rfl
    · rw [← hk]
      split
      · intro hc
        exact Bool.noConfusion hc
      · exact fun hc => hc

/-- A record of the arena that starts on the line L is open in the arena with
the records of that line taken as open. -/
theorem arenaOpenedAt_open (A : List SynEditFoldRange) (L : Int) (j : Nat)
    (r : SynEditFoldRange) (hr : A.get? j = some r) (hL : r.fromLine = L) :
    ∀ rb, (arenaOpenedAt A L).get? j = some rb → rb.collapsed = false := by
  intro rb hk
  rw [arenaOpenedAt_get, hr] at hk
  simp only [Option.map_some', Option.some.injEq] at hk
  rw [← hk, if_pos hL]

/-- The loop of foldOnListInserted moves a record that starts at or after the
line and is collapsed or has a collapsed ancestor that does not start on the
line before, when the list has no repeated entries. -/
theorem foldOnListInsertedLoop_moved_inside (Line Count : Int) (i : Nat) (r : SynEditFoldRange)
    (hfrom : r.fromLine ≥ Line) (l : List Nat) (s : SynEdit) (hnd : l.Nodup) (hi : i ∈ l)
    (hr : s.foldArena.get? i = some r)
    (hc : r.collapsed = true ∨ collapsedAncestorOutside s (Line - 1) r = true) :
    (foldOnListInsertedLoop Line Count l s).foldArena.get? i
      = some ⟨r.fromLine + Count, r.toLine + Count, r.collapsed, r.linesCollapsed, r.parent⟩ := by
  obtain ⟨pre, post, hl⟩ := List.append_of_mem hi
  subst hl
  have hnd1 : pre.Nodup := (List.nodup_append.mp hnd).1
  have hnd2 := List.nodup_cons.mp (List.nodup_append.mp hnd).2.1
  have hipre : i ∉ pre := fun h =>
    (List.nodup_append.mp hnd).2.2 h (List.mem_cons_self _ _)
  have hB := arenaOpenedAt_bound s.foldArena (Line - 1)
  have hP := foldOnListInsertedLoop_induct_nodup
    (fun t => t.foldArena.length = (arenaOpenedAt s.foldArena (Line - 1)).length
      ∧ ∀ k rb, (arenaOpenedAt s.foldArena (Line - 1)).get? k = some rb →
          ∃ ra, t.foldArena.get? k = some ra ∧ rb.parent = ra.parent
            ∧ (rb.collapsed = true → ra.collapsed = true))
    Line Count s pre
    (fun t j q _ ht hq hq0 _ h1 =>
      (arena_bound_step _ t j Count q hq ht).1
        (arenaOpenedAt_open s.foldArena (Line - 1) j q hq0 h1))
    (fun t j q _ ht hq _ _ _ _ => (arena_bound_step _ t j Count q hq ht).2)
    hnd1 s (fun _ _ => rfl) hB
  have hti : (foldOnListInsertedLoop Line Count pre s).foldArena.get? i = some r := by
    rw [foldOnListInsertedLoop_other Line Count i pre s hipre]
    exact hr
  have hcond : r.collapsed = true
      ∨ parentCollapsed (foldOnListInsertedLoop Line Count pre s) r = true := by
    rcases hc with hc | hc
    · exact Or.inl hc
    · right
      unfold parentCollapsed
      unfold collapsedAncestorOutside at hc
      rw [hP.1, ← hB.1]
      exact parentCollapsedFuel_mono _ _ hP.2 _ _ hc
  have hsingle : foldOnListInsertedLoop Line Count [i] (foldOnListInsertedLoop Line Count pre s)
      = moveAt (foldOnListInsertedLoop Line Count pre s) i Count := by
    have e : foldOnListInsertedLoop Line Count [i] (foldOnListInsertedLoop Line Count pre s)
        = (match foldAt (foldOnListInsertedLoop Line Count pre s) i with
          | none => foldOnListInsertedLoop Line Count pre s
          | some r =>
            if r.collapsed ∨ parentCollapsed (foldOnListInsertedLoop Line Count pre s) r then
              if r.fromLine = Line - 1 then uncollapseAt (foldOnListInsertedLoop Line Count pre s) i
              else if r.fromLine ≥ Line then moveAt (foldOnListInsertedLoop Line Count pre s) i Count
              else foldOnListInsertedLoop Line Count pre s
            else foldOnListInsertedLoop Line Count pre s) := rfl
    rw [e, show foldAt (foldOnListInsertedLoop Line Count pre s) i = some r from hti]
    simp only
    rw [if_pos hcond, if_neg (by omega), if_pos hfrom]
  rw [foldOnListInsertedLoop_append, foldOnListInsertedLoop_cons, hsingle,
    foldOnListInsertedLoop_other Line Count i post _ hnd2.1, moveAt_get, if_pos rfl, hti]
  rfl

/-- The loop of foldOnListDeleted moves a record that starts behind the deleted
lines and keeps it in the list, when at its turn the record is collapsed or has
a collapsed ancestor and the list has no repeated entries. -/
theorem foldOnListDeletedLoop_moved_when (Line Count : Int) (i : Nat) (r : SynEditFoldRange)
    (hfrom : r.fromLine ≥ Line + Count) (s : SynEdit)
    (hc : ∀ l : List Nat, l.Nodup →
      r.collapsed = true ∨ parentCollapsed (foldOnListDeletedLoop Line Count l s).1 r = true) :
    ∀ (l : List Nat), l.Nodup → i ∈ l → s.foldArena.get? i = some r →
      (foldOnListDeletedLoop Line Count l s).1.foldArena.get? i
        = some ⟨r.fromLine - Count, r.toLine - Count, r.collapsed, r.linesCollapsed, r.parent⟩
      ∧ i ∈ (foldOnListDeletedLoop Line Count l s).2 := by
  intro l
  induction l with
  | nil =>
    intro _ hi
    simp at hi
  | cons j rest ih =>
    intro hnd hi hr
    have hnd2 := List.nodup_cons.mp hnd
    by_cases hj : j = i
    · subst hj
      have hprev := foldOnListDeletedLoop_other Line Count j rest s hnd2.1
      rw [hr] at hprev
      have hstep : foldOnListDeletedLoop Line Count (j :: rest) s
          = (moveAt (foldOnListDeletedLoop Line Count rest s).1 j (-Count),
              j :: (foldOnListDeletedLoop Line Count rest s).2) := by
        rw [foldOnListDeletedLoop_unfold,
          show foldAt (foldOnListDeletedLoop Line Count rest s).1 j = some r from hprev]
        simp only
        rw [if_pos (hc rest hnd2.2), if_neg (by omega), if_neg (by omega), if_pos hfrom]
      rw [hstep]
      refine ⟨?_, List.mem_cons_self _ _⟩
      simp only
      rw [moveAt_get, if_pos rfl, hprev]
      simp only [Option.map_some', Option.some.injEq]
      rw [Int.sub_eq_add_neg, Int.sub_eq_add_neg]
    · have hi2 : i ∈ rest := by
        rcases List.mem_cons.mp hi with h | h
        · exact absurd h.symm hj
        · exact h
      have hrec := ih hnd2.2 hi2 hr
      have hc2 := foldOnListDeletedLoop_cons Line Count j rest s
      rw [hc2.1 i (fun h => hj h.symm)]
      exact ⟨hrec.1, hc2.2 i hrec.2⟩

/-- The condition of foldOnListDeletedLoop_moved_when for a record that is
collapsed or has a collapsed ancestor which the deletion does not uncollapse:
when one line is deleted the ranges that start on it count as open. -/
theorem foldOnListDeletedLoop_still_inside (Line Count : Int) (s : SynEdit)
    (r : SynEditFoldRange)
    (hc : r.collapsed = true
      ∨ (if Count = 1 then collapsedAncestorOutside s Line r else parentCollapsed s r) = true) :
    ∀ l : List Nat, l.Nodup →
      r.collapsed = true ∨ parentCollapsed (foldOnListDeletedLoop Line Count l s).1 r = true := by
  intro l hnd
  rcases hc with hc | hc
  · exact Or.inl hc
  · right
    by_cases h1 : Count = 1
    · rw [if_pos h1] at hc
      have hB := arenaOpenedAt_bound s.foldArena Line
      have hP := foldOnListDeletedLoop_induct_nodup
        (fun t => t.foldArena.length = (arenaOpenedAt s.foldArena Line).length
          ∧ ∀ k rb, (arenaOpenedAt s.foldArena Line).get? k = some rb →
              ∃ ra, t.foldArena.get? k = some ra ∧ rb.parent = ra.parent
                ∧ (rb.collapsed = true → ra.collapsed = true))
        Line Count s l
        (fun t j q _ ht hq hq0 _ h1 =>
          (arena_bound_step _ t j Count q hq ht).1
            (arenaOpenedAt_open s.foldArena Line j q hq0 h1.1))
        (fun t j q _ ht hq _ _ _ _ => (arena_bound_step _ t j (-Count) q hq ht).2)
        hnd hB
      unfold parentCollapsed
      unfold collapsedAncestorOutside at hc
      rw [hP.1, ← hB.1]
      exact parentCollapsedFuel_mono _ _ hP.2 _ _ hc
    · rw [if_neg h1] at hc
      have hP := foldOnListDeletedLoop_induct_nodup
        (fun t => t.foldArena.length = s.foldArena.length
          ∧ ∀ k rb, s.foldArena.get? k = some rb →
              ∃ ra, t.foldArena.get? k = some ra ∧ rb.parent = ra.parent
                ∧ (rb.collapsed = true → ra.collapsed = true))
        Line Count s l
        (fun t j q _ ht hq hq0 _ hh => absurd hh.2 h1)
        (fun t j q _ ht hq _ _ _ _ => (arena_bound_step _ t j (-Count) q hq ht).2)
        hnd ⟨rfl, fun k rb hk => ⟨rb, hk, rfl, fun h => h⟩⟩
      unfold parentCollapsed at hc ⊢
      rw [hP.1]
      exact parentCollapsedFuel_mono _ _ hP.2 _ _ hc

/-- Where no record starts on the line L, taking the records of that line as
open changes nothing. -/
theorem collapsedAncestorOutside_eq (s : SynEdit) (L : Int) (r : SynEditFoldRange)
    (h : ∀ q ∈ s.foldArena, q.fromLine ≠ L) :
    collapsedAncestorOutside s L r = parentCollapsed s r := by
  have e : arenaOpenedAt s.foldArena L = s.foldArena := by
    unfold arenaOpenedAt
    conv => rhs; rw [← List.map_id s.foldArena]
    apply List.map_congr_left
    intro q hq
    rw [if_neg (h q hq)]
    rfl
  unfold collapsedAncestorOutside parentCollapsed
  rw [e]

/-- What the loop of foldOnListInserted does with a record that starts at or
after the line, by the state of the loop when it comes to the record: the
record is moved exactly when it is collapsed or has a collapsed ancestor
then. -/
theorem foldOnListInsertedLoop_at_turn (Line Count : Int) (i : Nat) (r : SynEditFoldRange)
    (hfrom : r.fromLine ≥ Line) (pre post : List Nat) (s : SynEdit)
    (hnd : (pre ++ i :: post).Nodup) (hr : s.foldArena.get? i = some r) :
    (foldOnListInsertedLoop Line Count (pre ++ i :: post) s).foldArena.get? i
      = some (if r.collapsed = true
                  ∨ parentCollapsed (foldOnListInsertedLoop Line Count pre s) r = true then
                ⟨r.fromLine + Count, r.toLine + Count, r.collapsed, r.linesCollapsed, r.parent⟩
              else r) := by
  have hnd2 := List.nodup_cons.mp (List.nodup_append.mp hnd).2.1
  have hipre : i ∉ pre := fun h =>
    (List.nodup_append.mp hnd).2.2 h (List.mem_cons_self _ _)
  have hti : (foldOnListInsertedLoop Line Count pre s).foldArena.get? i = some r := by
    rw [foldOnListInsertedLoop_other Line Count i pre s hipre]
    exact hr
  have e : foldOnListInsertedLoop Line Count [i] (foldOnListInsertedLoop Line Count pre s)
      = (match foldAt (foldOnListInsertedLoop Line Count pre s) i with
        | none => foldOnListInsertedLoop Line Count pre s
        | some r =>
          if r.collapsed ∨ parentCollapsed (foldOnListInsertedLoop Line Count pre s) r then
            if r.fromLine = Line - 1 then uncollapseAt (foldOnListInsertedLoop Line Count pre s) i
            else if r.fromLine ≥ Line then moveAt (foldOnListInsertedLoop Line Count pre s) i Count
            else foldOnListInsertedLoop Line Count pre s
          else foldOnListInsertedLoop Line Count pre s) := rfl
  rw [foldOnListInsertedLoop_append, foldOnListInsertedLoop_cons,
    foldOnListInsertedLoop_other Line Count i post _ hnd2.1, e,
    show foldAt (foldOnListInsertedLoop Line Count pre s) i = some r from hti]
  simp only
  by_cases hcond : r.collapsed = true
      ∨ parentCollapsed (foldOnListInsertedLoop Line Count pre s) r = true
  · rw [if_pos hcond, if_neg (by omega), if_pos hfrom, if_pos hcond, moveAt_get, if_pos rfl, hti]
    rfl
  · rw [if_neg hcond, if_neg hcond]
    exact hti

/-- The records behind the indices that the loop of foldOnListDeleted handles
last are those of the loop over the other indices. -/
theorem foldOnListDeletedLoop_append_other (Line Count : Int) (i : Nat) (l : List Nat) (s : SynEdit) :
    ∀ pre : List Nat, i ∉ pre →
      (foldOnListDeletedLoop Line Count (pre ++ l) s).1.foldArena.get? i
        = (foldOnListDeletedLoop Line Count l s).1.foldArena.get? i
      ∧ (i ∈ (foldOnListDeletedLoop Line Count l s).2 →
          i ∈ (foldOnListDeletedLoop Line Count (pre ++ l) s).2) := by
  intro pre
  induction pre with
  | nil => intro _; exact ⟨rfl, fun h => h⟩
  | cons j rest ih =>
    intro hi
    have hj : j ≠ i := fun h => hi (h ▸ List.mem_cons_self _ _)
    have hrec := ih (fun h => hi (List.mem_cons_of_mem _ h))
    have hc2 := foldOnListDeletedLoop_cons Line Count j (rest ++ l) s
    rw [List.cons_append, hc2.1 i (fun h => hj h.symm)]
    exact ⟨hrec.1, fun h => hc2.2 i (hrec.2 h)⟩

/-- What the loop of foldOnListDeleted does with a record that starts behind
the deleted lines, by the state of the loop when it comes to the record: the
record is moved exactly when it is collapsed or has a collapsed ancestor then,
and it stays in the list. -/
theorem foldOnListDeletedLoop_at_turn (Line Count : Int) (i : Nat) (r : SynEditFoldRange)
    (hfrom : r.fromLine ≥ Line + Count) (pre post : List Nat) (s : SynEdit)
    (hnd : (pre ++ i :: post).Nodup) (hr : s.foldArena.get? i = some r) :
    (foldOnListDeletedLoop Line Count (pre ++ i :: post) s).1.foldArena.get? i
      = some (if r.collapsed = true
                  ∨ parentCollapsed (foldOnListDeletedLoop Line Count post s).1 r = true then
                ⟨r.fromLine - Count, r.toLine - Count, r.collapsed, r.linesCollapsed, r.parent⟩
              else r)
    ∧ i ∈ (foldOnListDeletedLoop Line Count (pre ++ i :: post) s).2 := by
  have hnd2 := List.nodup_cons.mp (List.nodup_append.mp hnd).2.1
  have hipre : i ∉ pre := fun h =>
    (List.nodup_append.mp hnd).2.2 h (List.mem_cons_self _ _)
  have hprev := foldOnListDeletedLoop_other Line Count i post s hnd2.1
  rw [hr] at hprev
  have happ := foldOnListDeletedLoop_append_other Line Count i (i :: post) s pre hipre
  rw [happ.1]
  refine ⟨?_, happ.2 ?_⟩
  · rw [foldOnListDeletedLoop_unfold,
      show foldAt (foldOnListDeletedLoop Line Count post s).1 i = some r from hprev]
    simp only
    by_cases hcond : r.collapsed = true
        ∨ parentCollapsed (foldOnListDeletedLoop Line Count post s).1 r = true
    · rw [if_pos hcond, if_neg (by omega), if_neg (by omega), if_pos hfrom, if_pos hcond]
      simp only
      rw [moveAt_get, if_pos rfl, hprev]
      simp only [Option.map_some', Option.some.injEq]
      rw [Int.sub_eq_add_neg, Int.sub_eq_add_neg]
    · rw [if_neg hcond, if_neg hcond]
      exact hprev
  · rw [foldOnListDeletedLoop_unfold,
      show foldAt (foldOnListDeletedLoop Line Count post s).1 i = some r from hprev]
    simp only
    by_cases hcond : r.collapsed = true
        ∨ parentCollapsed (foldOnListDeletedLoop Line Count post s).1 r = true
    · rw [if_pos hcond, if_neg (by omega), if_neg (by omega), if_pos hfrom]
      exact List.mem_cons_self _ _
    · rw [if_neg hcond]
      exact List.mem_cons_self _ _

/-- C17 (amended): for a fold list without repeated entries and a range of
the list that is collapsed or has a collapsed ancestor which the call does not
uncollapse (a call uncollapses ranges that start on the line before an
insertion, or on the one deleted line).  If its fromLine is at or after the
insertion line, foldOnListInserted(line, count) raises its fromLine and toLine
by count and keeps the list; if its fromLine is at or after line + count,
foldOnListDeleted(line, count) lowers both by count and keeps the range in
the list.  In general such a range is shifted exactly when it is collapsed or
has a collapsed ancestor at the moment the loop comes to it, the ranges behind
it in the list being handled first.  A range of the list, in a collapsed range
or not, that starts before the line keeps its fromLine and toLine (for a
deletion count that is not negative).  A range that is neither collapsed nor
has a collapsed ancestor is left as it is by both functions. -/
theorem C17_collapsed_ranges_shift (s : SynEdit) (Line Count : Int) (i : Nat)
    (r : SynEditFoldRange) (hnd : s.mAllFoldRanges.Nodup) (hi : i ∈ s.mAllFoldRanges)
    (hr : s.foldArena.get? i = some r) :
    ((r.collapsed = true ∨ collapsedAncestorOutside s (Line - 1) r = true) →
      r.fromLine ≥ Line →
        (foldOnListInserted s Line Count).foldArena.get? i
          = some ⟨r.fromLine + Count, r.toLine + Count, r.collapsed, r.linesCollapsed, r.parent⟩
        ∧ (foldOnListInserted s Line Count).mAllFoldRanges = s.mAllFoldRanges)
    ∧ ((r.collapsed = true
          ∨ (if Count = 1 then collapsedAncestorOutside s Line r else parentCollapsed s r) = true) →
      r.fromLine ≥ Line + Count →
        (foldOnListDeleted s Line Count).foldArena.get? i
          = some ⟨r.fromLine - Count, r.toLine - Count, r.collapsed, r.linesCollapsed, r.parent⟩
        ∧ i ∈ (foldOnListDeleted s Line Count).mAllFoldRanges)
    ∧ (∀ L : Int, (∀ q ∈ s.foldArena, q.fromLine ≠ L) →
        collapsedAncestorOutside s L r = parentCollapsed s r)
    ∧ (∀ before after : List Nat, s.mAllFoldRanges = before ++ i :: after →
        r.fromLine ≥ Line →
        (foldOnListInserted s Line Count).foldArena.get? i
          = some (if r.collapsed = true
                      ∨ parentCollapsed
                          (foldOnListInsertedLoop Line Count after.reverse s) r = true then
                    ⟨r.fromLine + Count, r.toLine + Count, r.collapsed, r.linesCollapsed,
                      r.parent⟩
                  else r))
    ∧ (∀ before after : List Nat, s.mAllFoldRanges = before ++ i :: after →
        r.fromLine ≥ Line + Count →
        (foldOnListDeleted s Line Count).foldArena.get? i
          = some (if r.collapsed = true
                      ∨ parentCollapsed (foldOnListDeletedLoop Line Count after s).1 r = true then
                    ⟨r.fromLine - Count, r.toLine - Count, r.collapsed, r.linesCollapsed,
                      r.parent⟩
                  else r)
        ∧ i ∈ (foldOnListDeleted s Line Count).mAllFoldRanges)
    ∧ (r.fromLine < Line →
        ∃ r1, (foldOnListInserted s Line Count).foldArena.get? i = some r1
          ∧ r1.fromLine = r.fromLine ∧ r1.toLine = r.toLine)
    ∧ (0 ≤ Count → r.fromLine < Line →
        ∃ r2, (foldOnListDeleted s Line Count).foldArena.get? i = some r2
          ∧ r2.fromLine = r.fromLine ∧ r2.toLine = r.toLine)
    ∧ (r.collapsed = false → parentCollapsed s r = false →
        (foldOnListInserted s Line Count).foldArena.get? i = some r
        ∧ (foldOnListDeleted s Line Count).foldArena.get? i = some r) := by
  refine ⟨?_, ?_, fun L h => collapsedAncestorOutside_eq s L r h, ?_, ?_, ?_, ?_,
    fun hc hp => open_range_untouched s Line Count i r hr hc hp⟩
  · intro hc hfrom
    unfold foldOnListInserted
    exact ⟨foldOnListInsertedLoop_moved_inside Line Count i r hfrom _ s
      (List.nodup_reverse.mpr hnd) (List.mem_reverse.mpr hi) hr hc,
      foldOnListInsertedLoop_list Line Count _ s⟩
  · intro hc hfrom
    exact foldOnListDeletedLoop_moved_when Line Count i r hfrom s
      (foldOnListDeletedLoop_still_inside Line Count s r hc) _ hnd hi hr
  · intro before after hl hfrom
    unfold foldOnListInserted
    have hrev : s.mAllFoldRanges.reverse = after.reverse ++ i :: before.reverse := by
      rw [hl, List.reverse_append, List.reverse_cons, List.append_assoc]
      rfl
    rw [hrev]
    apply foldOnListInsertedLoop_at_turn Line Count i r hfrom _ _ s _ hr
    rw [← hrev]
    exact List.nodup_reverse.mpr hnd
  · intro before after hl hfrom
    show (foldOnListDeletedLoop Line Count s.mAllFoldRanges s).1.foldArena.get? i = _
      ∧ i ∈ (foldOnListDeletedLoop Line Count s.mAllFoldRanges s).2
    rw [hl]
    exact foldOnListDeletedLoop_at_turn Line Count i r hfrom before after s (hl ▸ hnd) hr
  · intro hlt
    unfold foldOnListInserted
    refine foldOnListInsertedLoop_induct
      (fun t => ∃ r1, t.foldArena.get? i = some r1 ∧ r1.fromLine = r.fromLine
        ∧ r1.toLine = r.toLine) Line Count _ ?_ ?_ s ⟨r, hr, rfl, rfl⟩
    · rintro t j q _ ⟨r1, h1, h2, h3⟩ _ _ _
      rw [uncollapseAt_get]
      by_cases hij : i = j
      · rw [if_pos hij, h1]
        exact ⟨_, rfl, h2, h3⟩
      · rw [if_neg hij]
        exact ⟨r1, h1, h2, h3⟩
    · rintro t j q _ ⟨r1, h1, h2, h3⟩ hq _ hge _
      rw [moveAt_get]
      by_cases hij : i = j
      · subst hij
        have : q = r1 := Option.some.inj (hq.symm.trans h1)
        subst this
        omega
      · rw [if_neg hij]
        exact ⟨r1, h1, h2, h3⟩
  · intro hcount hlt
    refine foldOnListDeletedLoop_induct
      (fun t => ∃ r2, t.foldArena.get? i = some r2 ∧ r2.fromLine = r.fromLine
        ∧ r2.toLine = r.toLine) Line Count _ ?_ ?_ s ⟨r, hr, rfl, rfl⟩
    · rintro t j q _ ⟨r1, h1, h2, h3⟩ _ _ _
      rw [uncollapseAt_get]
      by_cases hij : i = j
      · rw [if_pos hij, h1]
        exact ⟨_, rfl, h2, h3⟩
      · rw [if_neg hij]
        exact ⟨r1, h1, h2, h3⟩
    · rintro t j q _ ⟨r1, h1, h2, h3⟩ hq _ hge _
      rw [moveAt_get]
      by_cases hij : i = j
      · subst hij
        have : q = r1 := Option.some.inj (hq.symm.trans h1)
        subst this
        omega
      · rw [if_neg hij]
        exact ⟨r1, h1, h2, h3⟩

/-- C17 (witness): the collapsed range of lines 2 to 4 moves to lines 5 to 7
when three lines are inserted at line 1, and to lines 1 to 3 when line 1 is
deleted; the open range of lines 3 to 4 inside the collapsed range of lines 2
to 5 moves to lines 6 to 7 and to lines 2 to 3; inserting or deleting at
line 5 leaves the range of lines 2 to 4 where it is; the open range of lines 2
to 4 stays when three lines are inserted at line 1. -/
theorem C17_collapsed_ranges_shift_witness :
    (foldOnListInserted foldedEditor 1 3).foldArena.get? 0 = some ⟨5, 7, true, 2, none⟩
    ∧ (foldOnListDeleted foldedEditor 1 1).foldArena.get? 0 = some ⟨1, 3, true, 2, none⟩
    ∧ (foldOnListInserted nestedFoldEditor 1 3).foldArena.get? 1
        = some ⟨6, 7, false, 0, some 0⟩
    ∧ (foldOnListDeleted nestedFoldEditor 1 1).foldArena.get? 1
        = some ⟨2, 3, false, 0, some 0⟩
    ∧ (∃ r1, (foldOnListInserted foldedEditor 5 3).foldArena.get? 0 = some r1
        ∧ r1.fromLine = 2 ∧ r1.toLine = 4)
    ∧ (∃ r2, (foldOnListDeleted foldedEditor 5 1).foldArena.get? 0 = some r2
        ∧ r2.fromLine = 2 ∧ r2.toLine = 4)
    ∧ (foldOnListInserted openFoldEditor 1 3).foldArena.get? 0 = some ⟨2, 4, false, 0, none⟩ :=
  ⟨((C17_collapsed_ranges_shift foldedEditor 1 3 0 ⟨2, 4, true, 2, none⟩ (by decide)
      (by decide) rfl).1 (Or.inl rfl) (by decide)).1,
   ((C17_collapsed_ranges_shift foldedEditor 1 1 0 ⟨2, 4, true, 2, none⟩ (by decide)
      (by decide) rfl).2.1 (Or.inl rfl) (by decide)).1,
   ((C17_collapsed_ranges_shift nestedFoldEditor 1 3 1 ⟨3, 4, false, 0, some 0⟩ (by decide)
      (by decide) rfl).1 (Or.inr (by decide)) (by decide)).1,
   ((C17_collapsed_ranges_shift nestedFoldEditor 1 1 1 ⟨3, 4, false, 0, some 0⟩ (by decide)
      (by decide) rfl).2.1 (Or.inr (by decide)) (by decide)).1,
   (C17_collapsed_ranges_shift foldedEditor 5 3 0 ⟨2, 4, true, 2, none⟩ (by decide)
      (by decide) rfl).2.2.2.2.2.1 (by decide),
   (C17_collapsed_ranges_shift foldedEditor 5 1 0 ⟨2, 4, true, 2, none⟩ (by decide)
      (by decide) rfl).2.2.2.2.2.2.1 (by decide) (by decide),
   ((C17_collapsed_ranges_shift openFoldEditor 1 3 0 ⟨2, 4, false, 0, none⟩ (by decide)
      (by decide) rfl).2.2.2.2.2.2.2 rfl (by decide)).1⟩

/-- C20: the invariant of linesCollapsed.  The record of a range after
collapse is collapsed and obeys the invariant, after uncollapse it is open
and obeys it; a record that obeys it still does after foldOnListInserted and
after foldOnListDeleted; collapse followed by uncollapse gives the record with
collapsed = false and linesCollapsed = 0, fromLine and toLine as before. -/
theorem C20_lines_collapsed_invariant (s : SynEdit) (i : Nat) (r : SynEditFoldRange)
    (hr : s.foldArena.get? i = some r) (Line Count : Int) :
    (collapseAt s i).foldArena.get? i
        = some ⟨r.fromLine, r.toLine, true, r.toLine - r.fromLine, r.parent⟩
    ∧ foldInvariant ⟨r.fromLine, r.toLine, true, r.toLine - r.fromLine, r.parent⟩
    ∧ (uncollapseAt s i).foldArena.get? i = some ⟨r.fromLine, r.toLine, false, 0, r.parent⟩
    ∧ foldInvariant ⟨r.fromLine, r.toLine, false, 0, r.parent⟩
    ∧ (foldInvariant r →
        ∃ r1, (foldOnListInserted s Line Count).foldArena.get? i = some r1 ∧ foldInvariant r1)
    ∧ (foldInvariant r →
        ∃ r2, (foldOnListDeleted s Line Count).foldArena.get? i = some r2 ∧ foldInvariant r2)
    ∧ (uncollapseAt (collapseAt s i) i).foldArena.get? i
        = some ⟨r.fromLine, r.toLine, false, 0, r.parent⟩ := by
  have hlt : i < s.foldArena.length := by
    by_contra hn
    rw [List.get?_eq_getElem?, List.getElem?_eq_none (by omega)] at hr
    exact Option.noConfusion hr
  have hcol : (collapseAt s i).foldArena.get? i
      = some ⟨r.fromLine, r.toLine, true, r.toLine - r.fromLine, r.parent⟩ := by
    unfold collapseAt
    rw [hr]
    simp only
    split
    · rw [setCaretXY_foldArena]
      simp [List.getElem?_set, hlt]
    · simp [List.getElem?_set, hlt]
  have hunc : ∀ q : SynEditFoldRange,
      foldInvariant { q with linesCollapsed := 0, collapsed := false } := by
    intro q
    simp [foldInvariant]
  have hmov : ∀ (q : SynEditFoldRange) (c : Int), foldInvariant q →
      foldInvariant { q with fromLine := q.fromLine + c, toLine := q.toLine + c } := by
    intro q c hq
    unfold foldInvariant at hq ⊢
    simp only
    split
    · rename_i h
      rw [if_pos h] at hq
      omega
    · rename_i h
      rw [if_neg h] at hq
      exact hq
  refine ⟨hcol, by simp [foldInvariant], ?_, by simp [foldInvariant], ?_, ?_, ?_⟩
  · rw [uncollapseAt_get, if_pos rfl, hr]
    rfl
  · intro hinv
    unfold foldOnListInserted
    refine foldOnListInsertedLoop_induct
      (fun t => ∃ r1, t.foldArena.get? i = some r1 ∧ foldInvariant r1) Line Count _ ?_ ?_ s
      ⟨r, hr, hinv⟩
    · rintro t j q _ ⟨r1, h1, h2⟩ _ _ _
      rw [uncollapseAt_get]
      by_cases hij : i = j
      · rw [if_pos hij, h1]
        exact ⟨_, rfl, hunc r1⟩
      · rw [if_neg hij]
        exact ⟨r1, h1, h2⟩
    · rintro t j q _ ⟨r1, h1, h2⟩ _ _ _ _
      rw [moveAt_get]
      by_cases hij : i = j
      · rw [if_pos hij, h1]
        exact ⟨_, rfl, hmov r1 Count h2⟩
      · rw [if_neg hij]
        exact ⟨r1, h1, h2⟩
  · intro hinv
    refine foldOnListDeletedLoop_induct
      (fun t => ∃ r2, t.foldArena.get? i = some r2 ∧ foldInvariant r2) Line Count _ ?_ ?_ s
      ⟨r, hr, hinv⟩
    · rintro t j q _ ⟨r1, h1, h2⟩ _ _ _
      rw [uncollapseAt_get]
      by_cases hij : i = j
      · rw [if_pos hij, h1]
        exact ⟨_, rfl, hunc r1⟩
      · rw [if_neg hij]
        exact ⟨r1, h1, h2⟩
    · rintro t j q _ ⟨r1, h1, h2⟩ _ _ _ _
      rw [moveAt_get]
      by_cases hij : i = j
      · rw [if_pos hij, h1]
        exact ⟨_, rfl, hmov r1 (-Count) h2⟩
      · rw [if_neg hij]
        exact ⟨r1, h1, h2⟩
  · rw [uncollapseAt_get, if_pos rfl, hcol]
    rfl

/-- C20 (witness): the open range of lines 2 to 4 of openFoldEditor: collapsed
it has linesCollapsed = 2, uncollapsed again it is the open range of lines 2
to 4 with linesCollapsed = 0. -/
theorem C20_lines_collapsed_invariant_witness :
    (collapseAt openFoldEditor 0).foldArena.get? 0 = some ⟨2, 4, true, 2, none⟩
    ∧ (uncollapseAt (collapseAt openFoldEditor 0) 0).foldArena.get? 0
        = some ⟨2, 4, false, 0, none⟩ :=
  ⟨(C20_lines_collapsed_invariant openFoldEditor 0 ⟨2, 4, false, 0, none⟩ rfl 1 1).1,
   (C20_lines_collapsed_invariant openFoldEditor 0 ⟨2, 4, false, 0, none⟩ rfl 1 1).2.2.2.2.2.2⟩



/-! ### Sortedness of the fold list, whole-line insertion, empty selections, empty undo lists -/

/-- C21 (failing input): with the brace region and a second fold region
configured, rescanForFoldRanges on a four-line document with an empty fold list
returns the brace range of lines 2 to 3 before the range of lines 1 to 4; with
the first of two sorted ranges collapsed and the second open,
foldOnListInserted(1, 3) moves only the first, the list is no longer sorted
and foldStartAtLine(6) does not find the range that starts on line 6; with the
first open and the second collapsed, foldOnListDeleted(1, 3) moves only the
second in front of the first. -/
theorem C21_fold_list_not_kept_sorted :
    (rescanForFoldRanges twoRegionsInput twoRegionsEditor).map foldSpans
        = some [(2, 3, false), (1, 4, false)]
    ∧ foldsSortedByFromLine collapsedThenOpenEditor
    ∧ foldSpans (foldOnListInserted collapsedThenOpenEditor 1 3)
        = [(7, 8, true), (6, 8, false)]
    ∧ ¬ foldsSortedByFromLine (foldOnListInserted collapsedThenOpenEditor 1 3)
    ∧ foldStartAtLine (foldOnListInserted collapsedThenOpenEditor 1 3) 6 = none
    ∧ foldsSortedByFromLine openThenCollapsedEditor
    ∧ foldSpans (foldOnListDeleted openThenCollapsedEditor 1 3)
        = [(4, 5, false), (3, 5, true)]
    ∧ ¬ foldsSortedByFromLine (foldOnListDeleted openThenCollapsedEditor 1 3) := by
  decide

/-- C23 (failing input): document of the lines a and b, caret on line 1,
insert mode on; doInsertText of the one line x in line mode leaves an empty
line in front of a and b, and the text x is nowhere in the document. -/
theorem C23_line_mode_insert_drops_text :
    docStrings (doInsertText twoLinesEditor ⟨1, 1⟩ ["x".toList] SynSelectionMode.smLine 1 1)
      = ["", "a", "b"] := by
  decide

/-- C29 (failing input): with an empty selection at (1, 1), setSelectedTextEmpty
in stream mode keeps the line ab and pushes one delete item onto the empty undo
list; in column mode it removes the first character of the line ab; in line
mode it removes the whole first line of the document. -/
theorem C29_empty_selection_deletes :
    blockBegin (sampleEditor ["ab"] ⟨1, 1⟩) = blockEnd (sampleEditor ["ab"] ⟨1, 1⟩)
    ∧ docStrings (setSelectedTextEmpty (sampleEditor ["ab"] ⟨1, 1⟩)) = ["ab"]
    ∧ groupTags (setSelectedTextEmpty (sampleEditor ["ab"] ⟨1, 1⟩)).mUndoList
        = [(1, SynChangeReason.crDelete)]
    ∧ blockBegin columnModeEditor = blockEnd columnModeEditor
    ∧ docStrings (setSelectedTextEmpty columnModeEditor) = ["b"]
    ∧ blockBegin lineModeEditor = blockEnd lineModeEditor
    ∧ docStrings (setSelectedTextEmpty lineModeEditor) = ["cd"] := by
  decide

/-- C30: with an empty undo list doUndo returns the state it was given, and
with an empty redo list doRedo returns the state it was given, so the
document, the caret, the selection, the selection mode and both lists are the
ones from before. -/
theorem C30_undo_redo_on_empty_lists (s : SynEdit) :
    (s.mUndoList.items = [] → doUndo s = s)
    ∧ (s.mRedoList.items = [] → doRedo s = s) := by
  constructor
  · intro h
    simp [doUndo, h, SynEditUndoList.PeekItem]
  · intro h
    simp [doRedo, h, SynEditUndoList.PeekItem]

/-- C30 (witness): the sample editor over one line has empty undo and redo
lists. -/
theorem C30_undo_redo_on_empty_lists_witness :
    (sampleEditor ["abcd"] ⟨2, 1⟩).mUndoList.items = []
    ∧ (sampleEditor ["abcd"] ⟨2, 1⟩).mRedoList.items = []
    ∧ doUndo (sampleEditor ["abcd"] ⟨2, 1⟩) = sampleEditor ["abcd"] ⟨2, 1⟩
    ∧ doRedo (sampleEditor ["abcd"] ⟨2, 1⟩) = sampleEditor ["abcd"] ⟨2, 1⟩ :=
  ⟨rfl, rfl, (C30_undo_redo_on_empty_lists _).1 rfl, (C30_undo_redo_on_empty_lists _).2 rfl⟩



/-! ### Deleting up to the marker of a collapsed fold -/

/-- The state after a recorded stream deletion, given the end position that
doDeleteText settles on: the lines between the two ends are gone, the start line
holds the joined remainders, and the delete item with that end position is on
the undo list. -/
theorem deleteText_stream_shape (s : SynEdit) (start stop0 stop : BufferCoord)
    (hdel : deleteEnd s start stop0 SynSelectionMode.smNormal = some stop)
    (htrim : s.cfg.eoTrimTrailingSpaces = false) (hundo : s.mUndoing = false)
    (hs : 1 ≤ start.Line ∧ start.Line ≤ stop.Line ∧ stop.Line ≤ docCount s)
    (hsc : 1 ≤ start.Char ∧ start.Char ≤ qlen (getString s (start.Line - 1)) + 1)
    (hec : 1 ≤ stop.Char ∧ stop.Char ≤ qlen (getString s (stop.Line - 1)) + 1) :
    TextIs s (doDeleteText s start stop0 SynSelectionMode.smNormal)
        (s.mDocument.take (start.Line - 1).toNat
          ++ ((getString s (start.Line - 1)).take (start.Char - 1).toNat
              ++ (getString s (stop.Line - 1)).drop (stop.Char - 1).toNat)
            :: s.mDocument.drop stop.Line.toNat)
      ∧ ∃ item ∈ (doDeleteText s start stop0 SynSelectionMode.smNormal).mUndoList.items,
          item.changeReason = SynChangeReason.crDelete ∧ item.changeStartPos = start
          ∧ item.changeEndPos = stop
          ∧ item.changeText = getContent s start stop SynSelectionMode.smNormal
          ∧ item.changeSelMode = SynSelectionMode.smNormal := by
  have hlen_s : 0 ≤ qlen (getString s (start.Line - 1)) := by unfold qlen; omega
  have hlen_e : 0 ≤ qlen (getString s (stop.Line - 1)) := by unfold qlen; omega
  have hbody : TextIs s (deleteTextBody s start stop SynSelectionMode.smNormal)
      (s.mDocument.take (start.Line - 1).toNat
          ++ ((getString s (start.Line - 1)).take (start.Char - 1).toNat
              ++ (getString s (stop.Line - 1)).drop (stop.Char - 1).toNat)
            :: s.mDocument.drop stop.Line.toNat) := by
    unfold deleteTextBody
    simp only
    rw [if_pos (by omega)]
    rw [qmid_zero _ _ (by omega), qmidFrom_drop _ _ (by omega)]
    have h1 := docDeleteLines_text s start.Line (stop.Line - start.Line)
    have h2 := properSetLine_text (docDeleteLines s start.Line (stop.Line - start.Line))
      (by rw [h1.2.1]; exact htrim) (start.Line - 1)
      ((getString s (start.Line - 1)).take (start.Char - 1).toNat
              ++ (getString s (stop.Line - 1)).drop (stop.Char - 1).toNat) true
    refine TextIs.then ?_ (internalSetCaretXY_sameText _ _)
    refine ⟨?_, h2.2.1.trans h1.2.1, h2.2.2.trans h1.2.2⟩
    rw [h2.1, h1.1, deleted_doc_shape _ _ _ (by unfold docCount at hs; omega)]
  unfold doDeleteText
  rw [hdel]
  simp only
  rw [if_pos (hbody.2.2.trans hundo)]
  exact ⟨hbody.then (undoAddChange_sameText _ _ _ _ _ _),
    undoAddChange_mem _ _ _ _ _ _⟩

/-- C24 (failing input): fold of lines 2 to 4 collapsed, header line of three
characters followed by a marker of three dots.  The stream deletion from
(4, 2) to (7, 2) starts right behind the text of the header line and ends
behind the marker: getContent and selText read the same span through the end
of the fold, and doInsertText accepts the position (4, 2), but doDeleteText
changes no line and records nothing; from (3, 2) the same deletion runs
through the fold.  The deletion from (1, 2) to (5, 2), whose end is inside the
marker, changes no line and records nothing either, while getContent reads the
text of the header line for it. -/
theorem C24_deletion_into_marker_does_nothing :
    collapsedFoldAt markerFoldEditor 2 = true
    ∧ docStrings markerFoldEditor = ["a", "b \x7b", "c", "\x7d", "\tde", "f"]
    ∧ docStrings (doDeleteText markerFoldEditor ⟨1, 2⟩ ⟨5, 2⟩ SynSelectionMode.smNormal)
        = ["a", "b \x7b", "c", "\x7d", "\tde", "f"]
    ∧ (doDeleteText markerFoldEditor ⟨1, 2⟩ ⟨5, 2⟩ SynSelectionMode.smNormal).mUndoList.items = []
    ∧ docStrings (doDeleteText markerFoldEditor ⟨4, 2⟩ ⟨7, 2⟩ SynSelectionMode.smNormal)
        = ["a", "b \x7b", "c", "\x7d", "\tde", "f"]
    ∧ (doDeleteText markerFoldEditor ⟨4, 2⟩ ⟨7, 2⟩ SynSelectionMode.smNormal).mUndoList.items
        = []
    ∧ (getContent markerFoldEditor ⟨4, 2⟩ ⟨7, 2⟩ SynSelectionMode.smNormal).map String.mk
        = ["", "c", "\x7d"]
    ∧ String.mk (selText { markerFoldEditor with mBlockBegin := ⟨4, 2⟩, mBlockEnd := ⟨7, 2⟩ })
        = "\nc\n\x7d"
    ∧ docStrings (doInsertText markerFoldEditor ⟨4, 2⟩ ["X".toList] SynSelectionMode.smNormal 2 2)
        = ["a", "b \x7bX", "c", "\x7d", "\tde", "f"]
    ∧ docStrings (doDeleteText markerFoldEditor ⟨3, 2⟩ ⟨7, 2⟩ SynSelectionMode.smNormal)
        = ["a", "b ", "\tde", "f"]
    ∧ (getContent markerFoldEditor ⟨1, 2⟩ ⟨5, 2⟩ SynSelectionMode.smNormal).map String.mk
        = ["b \x7b"] := by
  decide

/-- What doDeleteText does with a stream deletion whose end is on the header
line of a collapsed fold at a char beyond the real text of that line.  When
the end is also beyond the marker that follows the text, and the start is
inside the text of that line or on an earlier line, then (trimming off,
outside a replay, valid start, fold inside the document) the deletion runs to
the end of the last line of the fold: the start line keeps what is in front of
the start, the lines up to the last line of the fold go, and the delete item
records (length + 1, toLine) as its end.  In every other case doDeleteText
returns the state it was given. -/
theorem doDeleteText_fold_marker_cases (s : SynEdit) (start stop : BufferCoord)
    (fr : SynEditFoldRange)
    (hfr : foldStartAtLine s stop.Line = some fr) (hcol : fr.collapsed = true)
    (hpast : stop.Char > qlen (getString s (stop.Line - 1))) :
    (((start.Char ≤ qlen (getString s (stop.Line - 1)) ∨ start.Line < stop.Line)
          ∧ stop.Char > qlen (getString s (stop.Line - 1)) + qlen s.cfg.foldString) →
        s.cfg.eoTrimTrailingSpaces = false → s.mUndoing = false →
        (1 ≤ start.Line ∧ start.Line ≤ stop.Line ∧ stop.Line ≤ fr.toLine
          ∧ fr.toLine ≤ docCount s) →
        (1 ≤ start.Char ∧ start.Char ≤ qlen (getString s (start.Line - 1)) + 1) →
        TextIs s (doDeleteText s start stop SynSelectionMode.smNormal)
            (s.mDocument.take (start.Line - 1).toNat
              ++ (getString s (start.Line - 1)).take (start.Char - 1).toNat
                :: s.mDocument.drop fr.toLine.toNat)
          ∧ ∃ item ∈ (doDeleteText s start stop SynSelectionMode.smNormal).mUndoList.items,
              item.changeReason = SynChangeReason.crDelete ∧ item.changeStartPos = start
              ∧ item.changeEndPos
                  = { Char := qlen (getString s (fr.toLine - 1)) + 1, Line := fr.toLine }
              ∧ item.changeText = getContent s start
                  { Char := qlen (getString s (fr.toLine - 1)) + 1, Line := fr.toLine }
                  SynSelectionMode.smNormal
              ∧ item.changeSelMode = SynSelectionMode.smNormal)
    ∧ (¬ ((start.Char ≤ qlen (getString s (stop.Line - 1)) ∨ start.Line < stop.Line)
          ∧ stop.Char > qlen (getString s (stop.Line - 1)) + qlen s.cfg.foldString) →
        doDeleteText s start stop SynSelectionMode.smNormal = s) := by
  have hlen : qlen (getString s (stop.Line - 1) ++ s.cfg.foldString)
      = qlen (getString s (stop.Line - 1)) + qlen s.cfg.foldString := by
    unfold qlen
    simp
  constructor
  · intro hc htrim hundo hs hsc
    have hdel : deleteEnd s start stop SynSelectionMode.smNormal
        = some { Char := qlen (getString s (fr.toLine - 1)) + 1, Line := fr.toLine } := by
      unfold deleteEnd
      rw [if_pos rfl, hfr]
      simp only
      rw [if_pos ⟨hcol, hpast⟩, if_pos ⟨hc.1, by rw [hlen]; exact hc.2⟩]
    have hq : 0 ≤ qlen (getString s (fr.toLine - 1)) := by unfold qlen; omega
    have h := deleteText_stream_shape s start stop _ hdel htrim hundo
      ⟨hs.1, by simp only; omega, hs.2.2.2⟩ hsc ⟨by simp only; omega, le_refl _⟩
    have hd : (getString s (fr.toLine - 1)).drop
        (qlen (getString s (fr.toLine - 1)) + 1 - 1).toNat = [] := by
      unfold qlen
      simp
    simp only [hd, List.append_nil] at h
    exact h
  · intro hc
    unfold doDeleteText deleteEnd
    rw [if_pos rfl, hfr]
    simp only
    rw [if_pos ⟨hcol, hpast⟩, if_neg (by rw [hlen]; exact hc)]

/-- In the state markerFoldEditor the deletion from (1, 2) to (7, 2), whose end
is behind the marker, empties line 2 and removes lines 3 and 4; the deletion
from (1, 2) to (5, 2) returns the state unchanged. -/
theorem doDeleteText_fold_marker_cases_sample :
    (doDeleteText markerFoldEditor ⟨1, 2⟩ ⟨7, 2⟩ SynSelectionMode.smNormal).mDocument
        = ["a", "", "\tde", "f"].map String.toList
    ∧ doDeleteText markerFoldEditor ⟨1, 2⟩ ⟨5, 2⟩ SynSelectionMode.smNormal = markerFoldEditor :=
  ⟨((doDeleteText_fold_marker_cases markerFoldEditor ⟨1, 2⟩ ⟨7, 2⟩
        { fromLine := 2, toLine := 4, collapsed := true, linesCollapsed := 2, parent := none }
        (by decide) rfl (by decide)).1
      (by decide) rfl rfl (by decide) (by decide)).1.1,
   (doDeleteText_fold_marker_cases markerFoldEditor ⟨1, 2⟩ ⟨5, 2⟩
        { fromLine := 2, toLine := 4, collapsed := true, linesCollapsed := 2, parent := none }
        (by decide) rfl (by decide)).2 (by decide)⟩



/-! ### Column insertion -/

/-- Reading a line after writing one. -/
theorem linesGet_linesPut (D : List QString) (i j : Int) (t : QString)
    (hi : 0 ≤ i ∧ i ≤ (D.length : Int)) :
    linesGet (linesPut D i t) j = if j = i then t else linesGet D j := by
  unfold linesPut
  rw [if_neg (by omega)]
  by_cases he : i = (D.length : Int)
  · rw [if_pos he]
    unfold linesGet
    by_cases hj : j < 0
    · rw [if_pos hj, if_neg (by omega), if_pos hj]
    · rw [if_neg hj, if_neg hj]
      by_cases hji : j = i
      · rw [if_pos hji]
        have : j.toNat = D.length := by omega
        rw [this, List.getD_eq_getElem?_getD, List.getElem?_append_right (le_refl _)]
        simp
      · rw [if_neg hji, List.getD_eq_getElem?_getD, List.getD_eq_getElem?_getD]
        by_cases hlt : j.toNat < D.length
        · rw [List.getElem?_append_left hlt]
        · have h1 : (D ++ [t])[j.toNat]? = none := by
            apply List.getElem?_eq_none
            simp only [List.length_append, List.length_singleton]
            omega
          have h2 : D[j.toNat]? = none := List.getElem?_eq_none (by omega)
          rw [h1, h2]
  · rw [if_neg he]
    unfold linesGet
    by_cases hj : j < 0
    · rw [if_pos hj, if_neg (by omega), if_pos hj]
    · rw [if_neg hj, if_neg hj]
      by_cases hji : j = i
      · rw [if_pos hji, hji, List.getD_eq_getElem?_getD, List.getElem?_set_self (by omega)]
        rfl
      · rw [if_neg hji, List.getD_eq_getElem?_getD, List.getD_eq_getElem?_getD,
          List.getElem?_set_ne (by omega)]

/-- The line count after writing a line. -/
theorem linesPut_length (D : List QString) (i : Int) (t : QString)
    (hi : 0 ≤ i ∧ i ≤ (D.length : Int)) :
    ((linesPut D i t).length : Int) = max (D.length : Int) (i + 1) := by
  unfold linesPut
  rw [if_neg (by omega)]
  by_cases he : i = (D.length : Int)
  · rw [if_pos he]
    simp only [List.length_append, List.length_singleton]
    push_cast
    omega
  · rw [if_neg he, List.length_set]
    omega

/-- Tab-free glyphs of width 1 advance the column walk by one column each. -/
theorem foldl_advanceColumn_width_one (s : SynEdit) (l : QString)
    (h : ∀ ch ∈ l, ch ≠ chTab ∧ s.cfg.charColumnsOf ch = 1) (x : Int) :
    l.foldl (advanceColumn s) x = x + (l.length : Int) := by
  induction l generalizing x with
  | nil => simp
  | cons c rest ih =>
    have hc := h c (List.mem_cons_self _ _)
    rw [List.foldl_cons, ih (fun ch hch => h ch (List.mem_cons_of_mem _ hch))]
    unfold advanceColumn
    rw [if_neg hc.1, hc.2]
    simp only [List.length_cons]
    push_cast
    omega


/-- Recording an undo item outside a replay keeps the text. -/
theorem undoAddChange_outside_replay_sameText (x : SynEdit) (reason : SynChangeReason)
    (a b : BufferCoord) (text : List QString) (mode : SynSelectionMode) :
    SameText x (if x.mUndoing = false then undoAddChange x reason a b text mode else x) := by
  split
  · exact undoAddChange_sameText _ _ _ _ _ _
  · exact SameText.refl x

/-- One round of the loop of the column insertion on an existing line or on
the line after the last one, with trailing blanks kept: the line is rewritten
and the loop goes on with the next line. -/
theorem insertColumnLoop_round (text : List QString) (C endLine : Int) (fuel : Nat)
    (line i : Int) (s : SynEdit) (result : Int)
    (htrim : s.cfg.eoTrimTrailingSpaces = false)
    (hline : 1 ≤ line ∧ line ≤ docCount s + 1) (hle : line ≤ endLine) :
    ∃ sD result1,
      insertColumnLoop text C endLine (fuel + 1) line i s result
        = insertColumnLoop text C endLine fuel (line + 1)
            (if i < (text.length : Int) - 1 then i + 1 else i) sD result1
      ∧ TextIs s sD (linesPut s.mDocument (line - 1)
          (if line > docCount s then qfill (C - 1) chSpace ++ text.getD i.toNat []
           else if stringColumns s (getString s (line - 1)) 0 < C then
             getString s (line - 1)
               ++ qfill (C - stringColumns s (getString s (line - 1)) 0 - 1) chSpace
               ++ text.getD i.toNat []
           else qinsert (getString s (line - 1)) (columnToChar s line C - 1)
             (text.getD i.toNat []))) := by
  refine ⟨_, _, (by rw [insertColumnLoop, if_pos hle]), ?_⟩
  by_cases hb : line > docCount s
  · simp only [hb, decide_True, if_true, true_and]
    refine TextIs.then ?_ (undoAddChange_outside_replay_sameText _ _ _ _ _ _)
    have hB : TextIs s (if (docAdd s []).mUndoing = false then
          undoAddChange (docAdd s []) SynChangeReason.crLineBreak
            { Char := qlen (getString (docAdd s []) (line - 2)) + 1, Line := line - 1 }
            { Char := qlen (getString (docAdd s []) (line - 2)) + 1, Line := line - 1 }
            [] SynSelectionMode.smNormal
        else docAdd s []) (s.mDocument ++ [[]]) :=
      (docAdd_text s []).then (undoAddChange_outside_replay_sameText _ _ _ _ _ _)
    generalize (if (docAdd s []).mUndoing = false then
          undoAddChange (docAdd s []) SynChangeReason.crLineBreak
            { Char := qlen (getString (docAdd s []) (line - 2)) + 1, Line := line - 1 }
            { Char := qlen (getString (docAdd s []) (line - 2)) + 1, Line := line - 1 }
            [] SynSelectionMode.smNormal
        else docAdd s []) = sB at hB ⊢
    have hC := properSetLine_text sB (by rw [hB.2.1]; exact htrim) (line - 1)
      (qfill (C - 1) chSpace ++ text.getD i.toNat []) true
    refine ⟨?_, hC.2.1.trans hB.2.1, hC.2.2.trans hB.2.2⟩
    rw [hC.1, hB.1]
    unfold docCount at hb hline
    have e : line - 1 = (s.mDocument.length : Int) := by omega
    unfold linesPut
    rw [if_neg (by omega), if_neg (by simp only [List.length_append, List.length_singleton]; push_cast; omega),
      if_neg (by omega), if_pos e, e]
    simp
  · simp only [hb, decide_False, Bool.false_eq_true, if_false, false_and]
    refine TextIs.then ?_ (undoAddChange_outside_replay_sameText _ _ _ _ _ _)
    by_cases hlen : stringColumns s (getString s (line - 1)) 0 < C
    · simp only [hlen, if_true]
      exact properSetLine_text s htrim _ _ true
    · simp only [hlen, if_false]
      exact properSetLine_text s htrim _ _ true


/-- The line that a round of the column insertion writes, for a line of
tab-free glyphs of width 1 and a column C of at least 1. -/
theorem columnRound_line (s : SynEdit) (C line : Int) (str : QString) (hC : 1 ≤ C)
    (hline : 1 ≤ line ∧ line ≤ docCount s + 1)
    (hg : ∀ ch ∈ getString s (line - 1), ch ≠ chTab ∧ s.cfg.charColumnsOf ch = 1) :
    (if line > docCount s then qfill (C - 1) chSpace ++ str
     else if stringColumns s (getString s (line - 1)) 0 < C then
       getString s (line - 1)
         ++ qfill (C - stringColumns s (getString s (line - 1)) 0 - 1) chSpace ++ str
     else qinsert (getString s (line - 1)) (columnToChar s line C - 1) str)
      = columnInsertedLine C (getString s (line - 1)) str := by
  have hcols : stringColumns s (getString s (line - 1)) 0 = qlen (getString s (line - 1)) := by
    unfold stringColumns qlen
    rw [foldl_advanceColumn_width_one s _ hg]
    omega
  by_cases hb : line > docCount s
  · rw [if_pos hb]
    have hempty : getString s (line - 1) = [] := by
      unfold getString linesGet
      unfold docCount at hb
      rw [if_neg (by omega), List.getD_eq_getElem?_getD, List.getElem?_eq_none (by omega)]
      rfl
    rw [hempty]
    unfold columnInsertedLine qlen
    rw [if_pos (by simp only [List.length_nil, Nat.cast_zero]; omega)]
    simp
  · rw [if_neg hb, hcols]
    unfold columnInsertedLine
    by_cases hlen : qlen (getString s (line - 1)) < C
    · rw [if_pos hlen, if_pos hlen]
      have e : C - qlen (getString s (line - 1)) - 1 = C - 1 - qlen (getString s (line - 1)) := by
        omega
      rw [e]
    · rw [if_neg hlen, if_neg hlen]
      obtain ⟨sfx, hsfx⟩ : ∃ sfx, getDisplayStringAtLine s line = getString s (line - 1) ++ sfx := by
        unfold getDisplayStringAtLine
        split
        · exact ⟨_, rfl⟩
        · exact ⟨[], (List.append_nil _).symm⟩
      have h1 := ( columnToCharLoop_prefix s C (getString s (line - 1)) sfx hg 0 0 (by omega)).1
        (by unfold qlen at hlen; omega)
      have hct : columnToChar s line C = C := by
        unfold columnToChar
        rw [if_pos (by omega), hsfx, h1]
        omega
      rw [hct]
      unfold qinsert
      by_cases hstr : str = []
      · rw [if_pos (Or.inr hstr), hstr]
        simp
      · rw [if_neg (by
          intro h
          rcases h with h | h
          · omega
          · exact hstr h), if_neg (by omega)]

/-- The lines after the loop of the column insertion, with trailing blanks
kept, tab-free glyphs of width 1 on the lines still to be visited, and a
column C of at least 1: the visited lines hold the inserted slices, the other
lines are the ones from before. -/
theorem insertColumnLoop_lines (text : List QString) (C endLine : Int) (hC : 1 ≤ C)
    (htext : text ≠ []) :
    ∀ (fuel : Nat) (line i : Int) (s : SynEdit) (result : Int) (t : SynEdit),
      (insertColumnLoop text C endLine fuel line i s result).1 = t →
      s.cfg.eoTrimTrailingSpaces = false →
      (∀ L, line ≤ L → ∀ ch ∈ getString s (L - 1), ch ≠ chTab ∧ s.cfg.charColumnsOf ch = 1) →
      1 ≤ line → line ≤ docCount s + 1 → fuel = (endLine - line + 1).toNat →
      0 ≤ i → i ≤ (text.length : Int) - 1 →
      t.cfg = s.cfg ∧ t.mUndoing = s.mUndoing ∧ docCount t = max (docCount s) endLine
      ∧ (∀ L, L < line ∨ endLine < L → getString t (L - 1) = getString s (L - 1))
      ∧ (∀ L, line ≤ L → L ≤ endLine →
          getString t (L - 1) = columnInsertedLine C (getString s (L - 1))
            (text.getD (min (i.toNat + (L - line).toNat) (text.length - 1)) [])) := by
  intro fuel
  induction fuel with
  | zero =>
    intro line i s result t ht htrim hg h1 h2 hfuel hi0 hi1
    simp only [insertColumnLoop] at ht
    subst ht
    refine ⟨rfl, rfl, by omega, fun _ _ => rfl, fun L hL1 hL2 => by omega⟩
  | succ fuel ih =>
    intro line i s result t ht htrim hg h1 h2 hfuel hi0 hi1
    have hle : line ≤ endLine := by omega
    obtain ⟨sD, r1, heq, hT⟩ := insertColumnLoop_round text C endLine fuel line i s result htrim
      ⟨h1, h2⟩ hle
    rw [columnRound_line s C line _ hC ⟨h1, h2⟩ (hg line (le_refl _))] at hT
    rw [heq] at ht
    have hD : 0 ≤ line - 1 ∧ line - 1 ≤ (s.mDocument.length : Int) := by
      unfold docCount at h2
      omega
    have hget : ∀ L, getString sD (L - 1)
        = if L = line then columnInsertedLine C (getString s (line - 1)) (text.getD i.toNat [])
          else getString s (L - 1) := by
      intro L
      have e : getString sD (L - 1) = linesGet sD.mDocument (L - 1) := rfl
      rw [e, hT.1, linesGet_linesPut _ _ _ _ hD]
      by_cases hL : L = line
      · rw [if_pos (by omega), if_pos hL]
      · rw [if_neg (by omega), if_neg hL]
        rfl
    have hcount : docCount sD = max (docCount s) line := by
      unfold docCount
      rw [hT.1, linesPut_length _ _ _ hD]
      omega
    have hlen : 0 < text.length := List.length_pos.mpr htext
    have := ih (line + 1) (if i < (text.length : Int) - 1 then i + 1 else i) sD r1 t ht
      (by rw [hT.2.1]; exact htrim)
      (by
        intro L hL ch hch
        rw [hget L, if_neg (by omega)] at hch
        rw [hT.2.1]
        exact hg L (by omega) ch hch)
      (by omega) (by omega) (by omega) (by split <;> omega) (by split <;> omega)
    obtain ⟨c1, c2, c3, c4, c5⟩ := this
    refine ⟨c1.trans hT.2.1, c2.trans hT.2.2, by omega, ?_, ?_⟩
    · intro L hL
      rw [c4 L (by omega), hget L, if_neg (by omega)]
    · intro L hL1 hL2
      by_cases hL : L = line
      · subst hL
        rw [c4 L (by omega), hget L, if_pos rfl]
        congr 2
        omega
      · rw [c5 L (by omega) hL2, hget L, if_neg hL]
        congr 2
        split <;> omega


/-- The line that the column insertion is to leave splits into a part of
C - 1 characters, each from the old line or a blank, the slice, and the old
line from column C on. -/
theorem columnInsertedLine_split (C : Int) (old slice : QString) (hC : 1 ≤ C) :
    ∃ pre, columnInsertedLine C old slice = pre ++ slice ++ old.drop (C - 1).toNat
      ∧ pre.length = (C - 1).toNat ∧ ∀ ch ∈ pre, ch ∈ old ∨ ch = chSpace := by
  unfold columnInsertedLine
  by_cases hlen : qlen old < C
  · rw [if_pos hlen]
    unfold qlen at hlen
    refine ⟨old ++ qfill (C - 1 - qlen old) chSpace, ?_, ?_, ?_⟩
    · rw [List.drop_eq_nil_of_le (by omega)]
      simp
    · unfold qfill qlen
      simp only [List.length_append, List.length_replicate]
      omega
    · intro ch hch
      rcases List.mem_append.mp hch with h | h
      · exact Or.inl h
      · exact Or.inr (List.eq_of_mem_replicate h)
  · rw [if_neg hlen]
    unfold qlen at hlen
    refine ⟨old.take (C - 1).toNat, rfl, ?_, fun ch hch => Or.inl (List.mem_of_mem_take hch)⟩
    simp only [List.length_take]
    omega

/-- C22 (counterexample): with trailing-space trimming on, the lines abc and h,
the caret at (4, 1), so at display column 4, and the slices X and the empty
slice inserted over the lines 1 to 3: line 2, narrower than 3 columns, is left
as h without padding, and line 3, beyond the line count, is created empty
instead of as 3 blanks. -/
theorem C22_trimming_removes_padding :
    (bufferToDisplayPos trimmingInsertEditor (caretXY trimmingInsertEditor)).Column = 4
    ∧ docStrings (doInsertTextByColumnMode trimmingInsertEditor ⟨4, 1⟩
          ["X".toList, "".toList] 1 3).state = ["abcX", "h", ""]
    ∧ columnInsertedLine 4 "h".toList "".toList = "h  ".toList
    ∧ columnInsertedLine 4 [] [] = "   ".toList := by
  decide

/-- C22 (amended): column-mode insert with trailing-space trimming off.  The
document holds tab-free glyphs of width 1, the blank is one column wide, the
text is not empty, the display column C of the caret is at least 1, and the
lines a..b start no later than one line behind the document.  Then the
document ends up with max(count, b) lines; the lines outside a..b are
unchanged; on every line of a..b a line of fewer than C columns is followed by
blanks up to column C - 1 and by its slice, a wider line gets the slice in front
of its character at column C, so that char C of the new line is at display
column C and the slice starts there, followed by the old line from column C
on; a line beyond the old line count is C - 1 blanks followed by the slice. -/
theorem C22_column_insert_lines (s : SynEdit) (pos : BufferCoord) (text : List QString)
    (a b : Int)
    (htrim : s.cfg.eoTrimTrailingSpaces = false)
    (hglyph : ∀ l ∈ s.mDocument, ∀ ch ∈ l, ch ≠ chTab ∧ s.cfg.charColumnsOf ch = 1)
    (hspace : s.cfg.charColumnsOf chSpace = 1)
    (htext : text ≠ [])
    (hab : 1 ≤ a ∧ a ≤ b ∧ a ≤ docCount s + 1)
    (hC : 1 ≤ (bufferToDisplayPos s (caretXY s)).Column) :
    docCount (doInsertTextByColumnMode s pos text a b).state = max (docCount s) b
    ∧ (∀ L, L < a ∨ b < L →
        getString (doInsertTextByColumnMode s pos text a b).state (L - 1) = getString s (L - 1))
    ∧ (∀ L, a ≤ L → L ≤ b →
        getString (doInsertTextByColumnMode s pos text a b).state (L - 1)
          = columnInsertedLine (bufferToDisplayPos s (caretXY s)).Column (getString s (L - 1))
              (columnSlice text (L - a))
        ∧ charToColumnStr s
            (getString (doInsertTextByColumnMode s pos text a b).state (L - 1))
            (bufferToDisplayPos s (caretXY s)).Column
          = (bufferToDisplayPos s (caretXY s)).Column
        ∧ (getString (doInsertTextByColumnMode s pos text a b).state (L - 1)).drop
            ((bufferToDisplayPos s (caretXY s)).Column - 1).toNat
          = columnSlice text (L - a)
            ++ (getString s (L - 1)).drop ((bufferToDisplayPos s (caretXY s)).Column - 1).toNat)
    ∧ (∀ L, docCount s < L → a ≤ L → L ≤ b →
        getString (doInsertTextByColumnMode s pos text a b).state (L - 1)
          = qfill ((bufferToDisplayPos s (caretXY s)).Column - 1) chSpace
            ++ columnSlice text (L - a)) := by
  generalize hCdef : (bufferToDisplayPos s (caretXY s)).Column = C at *
  have hget0 : ∀ L, L < 1 ∨ docCount s < L → getString s (L - 1) = [] := by
    intro L hL
    unfold getString linesGet
    unfold docCount at hL
    by_cases h : L - 1 < 0
    · rw [if_pos h]
    · rw [if_neg h, List.getD_eq_getElem?_getD, List.getElem?_eq_none (by omega)]
      rfl
  have hg : ∀ (x : SynEdit), x.mDocument = s.mDocument → x.cfg = s.cfg →
      ∀ L, a ≤ L → ∀ ch ∈ getString x (L - 1), ch ≠ chTab ∧ x.cfg.charColumnsOf ch = 1 := by
    intro x hx hcfg L _ ch hch
    rw [hcfg]
    have e : getString x (L - 1) = getString s (L - 1) := by
      unfold getString
      rw [hx]
    rw [e] at hch
    by_cases hL : L < 1 ∨ docCount s < L
    · rw [hget0 L hL] at hch
      simp at hch
    · refine hglyph (getString s (L - 1)) ?_ ch hch
      unfold getString linesGet
      unfold docCount at hL
      rw [if_neg (by omega), List.getD_eq_getElem?_getD,
        List.getElem?_eq_getElem (by omega)]
      exact List.getElem_mem _
  have key : ∀ (s0 : SynEdit), s0.mDocument = s.mDocument → s0.cfg = s.cfg →
      ∀ t, (insertColumnLoop text C b (b - a + 1).toNat a 0 s0 0).1 = t →
      docCount t = max (docCount s) b
      ∧ (∀ L, L < a ∨ b < L → getString t (L - 1) = getString s (L - 1))
      ∧ (∀ L, a ≤ L → L ≤ b →
          getString t (L - 1) = columnInsertedLine C (getString s (L - 1))
            (columnSlice text (L - a))) := by
    intro s0 hdoc hcfg t ht
    have hlen : 0 < text.length := List.length_pos.mpr htext
    have hcount : docCount s0 = docCount s := by
      unfold docCount
      rw [hdoc]
    have hgs : ∀ L, getString s0 (L - 1) = getString s (L - 1) := by
      intro L
      unfold getString
      rw [hdoc]
    obtain ⟨_, _, c3, c4, c5⟩ := insertColumnLoop_lines text C b hC htext _ a 0 s0 0 t ht
      (by rw [hcfg]; exact htrim) (hg s0 hdoc hcfg) hab.1 (by omega) rfl (le_refl _) (by omega)
    refine ⟨by omega, fun L hL => by rw [c4 L hL, hgs], fun L h1 h2 => ?_⟩
    rw [c5 L h1 h2, hgs]
    unfold columnSlice
    simp
  have hstate : ∀ t, (doInsertTextByColumnMode s pos text a b).state = t →
      docCount t = max (docCount s) b
      ∧ (∀ L, L < a ∨ b < L → getString t (L - 1) = getString s (L - 1))
      ∧ (∀ L, a ≤ L → L ≤ b →
          getString t (L - 1) = columnInsertedLine C (getString s (L - 1))
            (columnSlice text (L - a))) := by
    intro t ht
    unfold doInsertTextByColumnMode at ht
    simp only [hCdef] at ht
    have hend : ∀ x : SynEdit, (if x.mUndoing = false then undoEndBlock x else x).mDocument
        = x.mDocument := by
      intro x
      split <;> rfl
    have h0 : (if s.mUndoing = false then undoBeginBlock s else s).mDocument = s.mDocument
        ∧ (if s.mUndoing = false then undoBeginBlock s else s).cfg = s.cfg := by
      split <;> exact ⟨rfl, rfl⟩
    have hk := key _ h0.1 h0.2 _ rfl
    have hd : t.mDocument
        = (insertColumnLoop text C b (b - a + 1).toNat a 0
            (if s.mUndoing = false then undoBeginBlock s else s) 0).1.mDocument := by
      rw [← ht]
      exact hend _
    have hgt : ∀ j, getString t j
        = getString (insertColumnLoop text C b (b - a + 1).toNat a 0
            (if s.mUndoing = false then undoBeginBlock s else s) 0).1 j := by
      intro j
      unfold getString
      rw [hd]
    refine ⟨?_, fun L hL => by rw [hgt]; exact hk.2.1 L hL,
      fun L h1 h2 => by rw [hgt]; exact hk.2.2 L h1 h2⟩
    have : docCount t = docCount (insertColumnLoop text C b (b - a + 1).toNat a 0
        (if s.mUndoing = false then undoBeginBlock s else s) 0).1 := by
      unfold docCount
      rw [hd]
    rw [this]
    exact hk.1
  obtain ⟨r1, r2, r3⟩ := hstate _ rfl
  refine ⟨r1, r2, fun L h1 h2 => ?_, fun L h0 h1 h2 => ?_⟩
  · obtain ⟨pre, hsplit, hprelen, hpre⟩ :=
      columnInsertedLine_split C (getString s (L - 1)) (columnSlice text (L - a)) hC
    have hpreg : ∀ ch ∈ pre, ch ≠ chTab ∧ s.cfg.charColumnsOf ch = 1 := by
      intro ch hch
      rcases hpre ch hch with h | h
      · exact hg s rfl rfl L h1 ch h
      · rw [h]
        exact ⟨by decide, hspace⟩
    refine ⟨r3 L h1 h2, ?_, ?_⟩
    · rw [r3 L h1 h2, hsplit, charToColumnStr_of_ne s _ C (by omega)]
      unfold qlen
      have e : (min (C - 1) ((pre ++ columnSlice text (L - a)
          ++ (getString s (L - 1)).drop (C - 1).toNat).length : Int)).toNat = pre.length := by
        simp only [List.length_append]
        push_cast
        omega
      rw [e, List.append_assoc, List.take_left, foldl_advanceColumn_width_one s pre hpreg]
      omega
    · rw [r3 L h1 h2, hsplit, List.append_assoc, ← hprelen, List.drop_left]
  · rw [r3 L h1 h2, hget0 L (Or.inr h0)]
    unfold columnInsertedLine qlen
    rw [if_pos (by simp only [List.length_nil, Nat.cast_zero]; omega)]
    simp

/-- C22 (witness): the slices X and YY inserted at display column 4 over the
lines 1 to 4 of the three lines abcdef, g and hij, with trimming off. -/
theorem C22_column_insert_lines_witness :
    docStrings (doInsertTextByColumnMode columnInsertEditor ⟨4, 1⟩
        ["X".toList, "YY".toList] 1 4).state = ["abcXdef", "g  YY", "hijYY", "   YY"]
    ∧ docCount (doInsertTextByColumnMode columnInsertEditor ⟨4, 1⟩
        ["X".toList, "YY".toList] 1 4).state = max (docCount columnInsertEditor) 4
    ∧ getString (doInsertTextByColumnMode columnInsertEditor ⟨4, 1⟩
        ["X".toList, "YY".toList] 1 4).state (2 - 1)
        = columnInsertedLine (bufferToDisplayPos columnInsertEditor (caretXY columnInsertEditor)).Column
            (getString columnInsertEditor (2 - 1)) (columnSlice ["X".toList, "YY".toList] (2 - 1)) :=
  ⟨by decide,
   (C22_column_insert_lines columnInsertEditor ⟨4, 1⟩ ["X".toList, "YY".toList] 1 4 rfl
      (by decide) (by decide) (by decide) (by decide) (by decide)).1,
   ((C22_column_insert_lines columnInsertEditor ⟨4, 1⟩ ["X".toList, "YY".toList] 1 4 rfl
      (by decide) (by decide) (by decide) (by decide) (by decide)).2.2.1 2
      (by decide) (by decide)).1⟩


/-! ### Search and replace -/

/-- C25 (failing input): whole-document forward search for foo with a callback
that always answers Skip.  In the one-line document foo the matcher reports
one match, at offset 0 with length 3, and searchReplace returns 0; in the
document of the lines a foo and b foo the matcher reports one match on each
line and searchReplace returns 1: the match that ends at the last character of
the last line is filtered out. -/
theorem C25_match_at_end_of_last_line_not_counted :
    plainEngine.findAll wholeDocumentSearch "foo".toList "foo".toList = [(0, 3)]
    ∧ (searchReplace 10 (sampleEditor ["foo"] ⟨1, 1⟩) "foo".toList "bar".toList
          wholeDocumentSearch (some plainEngine) (some alwaysSkip) none).map
        (fun o => o.result) = some 0
    ∧ plainEngine.findAll wholeDocumentSearch "foo".toList "a foo".toList = [(2, 3)]
    ∧ plainEngine.findAll wholeDocumentSearch "foo".toList "b foo".toList = [(2, 3)]
    ∧ (searchReplace 10 (sampleEditor ["a foo", "b foo"] ⟨1, 1⟩) "foo".toList "bar".toList
          wholeDocumentSearch (some plainEngine) (some alwaysSkip) none).map
        (fun o => (o.result, o.trace))
        = some (1, [SearchEvent.lineSearched 1, SearchEvent.matchFound 1 3 3,
                    SearchEvent.asked SynSearchAction.Skip, SearchEvent.lineSearched 2]) := by
  decide

/-- C28 (failing input): trailing-space trimming on, the lines x x and c,
whole-document forward search for x, replacement yy, callback always answering
Replace.  The matcher reports the offsets 0 and 2 on line 1; the second match
is replaced at char 4 (offset 2, plus 1 for the char base, plus the delta 1),
and line 1 ends up as yyyy, not as yy yy: the blank between the two matches is
lost.  With trimming off the line ends up as yy yy. -/
theorem C28_replace_loses_blank_with_trimming :
    plainEngine.findAll wholeDocumentSearch "x".toList "x x".toList = [(0, 1), (2, 1)]
    ∧ (searchReplace 10 (editorWith trimmingConfig ["x x".toList, "c".toList] ⟨1, 1⟩)
          "x".toList "yy".toList wholeDocumentSearch (some plainEngine) (some alwaysReplace)
          none).map (fun o => (o.result, docStrings o.ed, o.trace))
        = some (2, ["yyyy", "c"],
            [SearchEvent.lineSearched 1, SearchEvent.matchFound 1 1 1,
             SearchEvent.asked SynSearchAction.Replace, SearchEvent.replaced 1 1,
             SearchEvent.matchFound 1 4 1, SearchEvent.asked SynSearchAction.Replace,
             SearchEvent.replaced 1 4, SearchEvent.lineSearched 2])
    ∧ (searchReplace 10 (editorWith sampleConfig ["x x".toList, "c".toList] ⟨1, 1⟩)
          "x".toList "yy".toList wholeDocumentSearch (some plainEngine) (some alwaysReplace)
          none).map (fun o => (o.result, docStrings o.ed)) = some (2, ["yy yy", "c"]) := by
  decide


/-- The events behind the first replacement of a batch stay of that kind when
more of them follow. -/
theorem batchTail_append (a b : List SearchEvent) (ha : batchTail a = true)
    (hb : batchTail b = true) : batchTail (a ++ b) = true := by
  induction a using batchTail.induct with
  | case1 => simpa using hb
  | case2 l f n l2 f2 rest ih =>
    simp only [batchTail, Bool.and_eq_true] at ha
    simp only [List.cons_append, batchTail, Bool.and_eq_true]
    exact ⟨ha.1, ih ha.2⟩
  | case3 l rest ih =>
    simp only [batchTail] at ha
    simp only [List.cons_append, batchTail]
    exact ih ha
  | case4 rest ih =>
    simp only [batchTail] at ha
    simp only [List.cons_append, batchTail]
    exact ih ha
  | case5 t h1 h2 h3 h4 =>
    exfalso
    unfold batchTail at ha
    split at ha
    · exact h1 rfl
    · exact h2 _ _ _ _ _ _ rfl
    · exact h3 _ _ rfl
    · exact h4 _ rfl
    · simp at ha

/-- Among the events behind the first replacement of a batch there is no
callback call, no BeginBlock and no EndBlock. -/
theorem batchTail_quiet (a : List SearchEvent) (ha : batchTail a = true) :
    ∀ e ∈ a, (∀ x, e ≠ SearchEvent.asked x) ∧ e ≠ SearchEvent.blockOpened
      ∧ e ≠ SearchEvent.blockClosed := by
  induction a using batchTail.induct with
  | case1 => simp
  | case2 l f n l2 f2 rest ih =>
    simp only [batchTail, Bool.and_eq_true] at ha
    intro e he
    simp only [List.mem_cons] at he
    rcases he with he | he | he
    · subst he
      simp
    · subst he
      simp
    · exact ih ha.2 e he
  | case3 l rest ih =>
    simp only [batchTail] at ha
    intro e he
    simp only [List.mem_cons] at he
    rcases he with he | he
    · subst he
      simp
    · exact ih ha e he
  | case4 rest ih =>
    simp only [batchTail] at ha
    intro e he
    simp only [List.mem_cons] at he
    rcases he with he | he
    · subst he
      simp
    · exact ih ha e he
  | case5 t h1 h2 h3 h4 =>
    exfalso
    unfold batchTail at ha
    split at ha
    · exact h1 rfl
    · exact h2 _ _ _ _ _ _ rfl
    · exact h3 _ _ rfl
    · exact h4 _ rfl
    · simp at ha

/-- Every state is in frame with itself. -/
theorem searchFrame_refl (st : SearchRun) : searchFrame st st := ⟨rfl, rfl, rfl, rfl, rfl⟩

/-- Frames compose. -/
theorem searchFrame_trans {a b c : SearchRun} (h1 : searchFrame a b) (h2 : searchFrame b c) :
    searchFrame a c :=
  ⟨h2.1.trans h1.1, h2.2.1.trans h1.2.1, h2.2.2.1.trans h1.2.2.1,
    h2.2.2.2.1.trans h1.2.2.2.1, h2.2.2.2.2.trans h1.2.2.2.2⟩

/-- Selecting a match keeps the frame. -/
theorem searchSelect_frame (opts : SynSearchOptions) (st : SearchRun) (f n : Int) :
    searchFrame st (searchSelect opts st f n) := by
  refine ⟨rfl, rfl, rfl, rfl, ?_⟩
  simp [searchSelect, wrapCount]

/-- Asking the callback keeps the frame. -/
theorem searchAsk_frame
    (cb : Option (Nat → QString → QString → Int → Int → Int → SynSearchAction))
    (a b : QString) (st : SearchRun) (f n : Int) :
    searchFrame st (searchAsk cb a b st f n) := by
  unfold searchAsk
  split
  · split
    · refine ⟨rfl, rfl, rfl, rfl, ?_⟩
      simp [wrapCount]
    · exact searchFrame_refl st
  · exact searchFrame_refl st

/-- Moving the char of a position keeps its line. -/
theorem moved_char_line (c : Prop) [Decidable c] (p : BufferCoord) (x : Int) :
    (if c then { p with Char := x } else p).Line = p.Line := by
  split <;> rfl

/-- The events of a replacement hold no wrap-around. -/
theorem wrapCount_replacement (c : Prop) [Decidable c] (t : List SearchEvent) (l f : Int) :
    wrapCount ((if c then t ++ [SearchEvent.blockOpened] else t) ++ [SearchEvent.replaced l f])
      = wrapCount t := by
  split <;> simp [wrapCount]

/-- A replacement keeps the frame. -/
theorem searchDoReplace_frame (b : Bool) (st : SearchRun) (txt : QString) (f n off : Int) :
    searchFrame st (searchDoReplace b st txt f n off).1 :=
  ⟨rfl, rfl, moved_char_line _ _ _, rfl, wrapCount_replacement _ _ _ _⟩

/-- A round over a match keeps the frame. -/
theorem searchMatch_frame (eng : SynSearchBase)
    (cb : Option (Nat → QString → QString → Int → Int → Int → SynSearchAction))
    (opts : SynSearchOptions) (sSearch sReplace : QString) (st : SearchRun) (off : Int)
    (m : Int × Int) :
    searchFrame st (searchMatch eng cb opts sSearch sReplace st off m).1 := by
  unfold searchMatch
  simp only
  split
  · exact searchFrame_refl st
  · have h12 := searchFrame_trans (searchSelect_frame opts st (m.1 + 1 + off) m.2)
      (searchAsk_frame cb sSearch
        (eng.replace (selText (searchSelect opts st (m.1 + 1 + off) m.2).ed) sReplace)
        (searchSelect opts st (m.1 + 1 + off) m.2) (m.1 + 1 + off) m.2)
    split
    · exact h12
    · exact h12
    · exact searchFrame_trans h12
        (searchDoReplace_frame opts.ssoBackwards _ _ (m.1 + 1 + off) m.2 off)

/-- A property that every round over a match keeps holds after the rounds over
the matches of a line. -/
theorem searchLine_invariant (eng : SynSearchBase)
    (cb : Option (Nat → QString → QString → Int → Int → Int → SynSearchAction))
    (opts : SynSearchOptions) (sSearch sReplace : QString) (Inv : SearchRun → Prop)
    (hstep : ∀ st off m, Inv st → Inv (searchMatch eng cb opts sSearch sReplace st off m).1) :
    ∀ (order : List (Int × Int)) (st : SearchRun) (off : Int), Inv st →
      Inv (searchLine eng cb opts sSearch sReplace order st off).1 := by
  intro order
  induction order with
  | nil =>
    intro st off h
    exact h
  | cons m rest ih =>
    intro st off h
    unfold searchLine
    simp only
    split
    · exact hstep st off m h
    · exact ih _ _ (hstep st off m h)

/-- The work on a line keeps the frame. -/
theorem searchCurrentLine_frame (eng : SynSearchBase)
    (cb : Option (Nat → QString → QString → Int → Int → Int → SynSearchAction))
    (opts : SynSearchOptions) (sSearch sReplace : QString) (st : SearchRun) :
    searchFrame st (searchCurrentLine eng cb opts sSearch sReplace st).1 := by
  unfold searchCurrentLine
  simp only
  have h0 : searchFrame st
      { st with trace := st.trace ++ [SearchEvent.lineSearched st.ptCurrent.Line] } := by
    refine ⟨rfl, rfl, rfl, rfl, ?_⟩
    simp [wrapCount]
  exact searchLine_invariant eng cb opts sSearch sReplace (fun x => searchFrame st x)
    (fun x off m hx => searchFrame_trans hx (searchMatch_frame eng cb opts sSearch sReplace x off m))
    _ _ 0 h0


/-- A round of the line loop, unfolded. -/
theorem searchLoop_succ (eng : SynSearchBase)
    (cb : Option (Nat → QString → QString → Int → Int → Int → SynSearchAction))
    (confirm : Option Bool) (opts : SynSearchOptions) (sSearch sReplace : QString)
    (origin : BufferCoord) (fuel : Nat) (st : SearchRun) :
    searchLoop eng cb confirm opts sSearch sReplace origin (fuel + 1) st
      = if st.ptCurrent.Line ≥ st.ptStart.Line ∧ st.ptCurrent.Line ≤ st.ptEnd.Line then
          if (searchCurrentLine eng cb opts sSearch sReplace st).2 = true then
            some (searchCurrentLine eng cb opts sSearch sReplace st).1
          else if ((searchNextLine opts (searchCurrentLine eng cb opts sSearch sReplace st).1).ptCurrent.Line
                  < (searchNextLine opts (searchCurrentLine eng cb opts sSearch sReplace st).1).ptStart.Line
                ∨ (searchNextLine opts (searchCurrentLine eng cb opts sSearch sReplace st).1).ptCurrent.Line
                  > (searchNextLine opts (searchCurrentLine eng cb opts sSearch sReplace st).1).ptEnd.Line)
              ∧ (searchNextLine opts (searchCurrentLine eng cb opts sSearch sReplace st).1).bFromCursor
                  = true
              ∧ opts.ssoWrapAround = true then
            if confirm = some false then
              some (searchNextLine opts (searchCurrentLine eng cb opts sSearch sReplace st).1)
            else
              searchLoop eng cb confirm opts sSearch sReplace origin fuel
                (searchWrap opts origin
                  (searchNextLine opts (searchCurrentLine eng cb opts sSearch sReplace st).1))
          else
            searchLoop eng cb confirm opts sSearch sReplace origin fuel
              (searchNextLine opts (searchCurrentLine eng cb opts sSearch sReplace st).1)
        else some st := rfl

/-- Inside the range there is a line left. -/
theorem searchLinesLeft_pos (opts : SynSearchOptions) (st : SearchRun)
    (h : st.ptCurrent.Line ≥ st.ptStart.Line ∧ st.ptCurrent.Line ≤ st.ptEnd.Line) :
    0 < searchLinesLeft opts st := by
  unfold searchLinesLeft
  split <;> omega

/-- The step to the next line, taken inside the range, leaves one line
less. -/
theorem searchLinesLeft_next (opts : SynSearchOptions) (st r : SearchRun)
    (hf : searchFrame st r)
    (h : st.ptCurrent.Line ≥ st.ptStart.Line ∧ st.ptCurrent.Line ≤ st.ptEnd.Line) :
    searchLinesLeft opts (searchNextLine opts r) + 1 = searchLinesLeft opts st := by
  obtain ⟨h1, h2, h3, _, _⟩ := hf
  unfold searchLinesLeft searchNextLine
  cases hb : opts.ssoBackwards
  · simp only [Bool.false_eq_true, if_false]
    rw [h1, h3]
    omega
  · simp only [if_true]
    rw [h1, h2]
    omega

/-- The line loop returns once no wrap-around can follow: at most one round per
line left and one more. -/
theorem searchLoop_returns_without_wrap (eng : SynSearchBase)
    (cb : Option (Nat → QString → QString → Int → Int → Int → SynSearchAction))
    (confirm : Option Bool) (opts : SynSearchOptions) (sSearch sReplace : QString)
    (origin : BufferCoord) :
    ∀ (d : Nat) (st : SearchRun) (fuel : Nat),
      (st.bFromCursor = false ∨ opts.ssoWrapAround = false) →
      searchLinesLeft opts st ≤ d → d < fuel →
      ∃ out, searchLoop eng cb confirm opts sSearch sReplace origin fuel st = some out := by
  intro d
  induction d with
  | zero =>
    intro st fuel _ hd hfuel
    obtain ⟨f, rfl⟩ : ∃ f, fuel = f + 1 := ⟨fuel - 1, by omega⟩
    rw [searchLoop_succ]
    by_cases hin : st.ptCurrent.Line ≥ st.ptStart.Line ∧ st.ptCurrent.Line ≤ st.ptEnd.Line
    · have := searchLinesLeft_pos opts st hin
      omega
    · rw [if_neg hin]
      exact ⟨_, rfl⟩
  | succ d ih =>
    intro st fuel hw hd hfuel
    obtain ⟨f, rfl⟩ : ∃ f, fuel = f + 1 := ⟨fuel - 1, by omega⟩
    rw [searchLoop_succ]
    by_cases hin : st.ptCurrent.Line ≥ st.ptStart.Line ∧ st.ptCurrent.Line ≤ st.ptEnd.Line
    · rw [if_pos hin]
      have hfr := searchCurrentLine_frame eng cb opts sSearch sReplace st
      by_cases hx : (searchCurrentLine eng cb opts sSearch sReplace st).2 = true
      · rw [if_pos hx]
        exact ⟨_, rfl⟩
      · rw [if_neg hx]
        have hflag : (searchNextLine opts (searchCurrentLine eng cb opts sSearch sReplace st).1).bFromCursor
            = st.bFromCursor := hfr.2.2.2.1
        rw [if_neg (by
          rintro ⟨_, h2, h3⟩
          rw [hflag] at h2
          rcases hw with hw | hw
          · rw [hw] at h2
            exact Bool.noConfusion h2
          · rw [hw] at h3
            exact Bool.noConfusion h3)]
        have hnext := searchLinesLeft_next opts st _ hfr hin
        exact ih _ f (by rw [hflag]; exact hw) (by omega) (by omega)
    · rw [if_neg hin]
      exact ⟨_, rfl⟩

/-- The line loop returns for every state when the fuel is large enough. -/
theorem searchLoop_returns (eng : SynSearchBase)
    (cb : Option (Nat → QString → QString → Int → Int → Int → SynSearchAction))
    (confirm : Option Bool) (opts : SynSearchOptions) (sSearch sReplace : QString)
    (origin : BufferCoord) :
    ∀ (d : Nat) (st : SearchRun), searchLinesLeft opts st ≤ d →
      ∃ fuel0, ∀ fuel, fuel0 ≤ fuel →
        ∃ out, searchLoop eng cb confirm opts sSearch sReplace origin fuel st = some out := by
  intro d
  induction d with
  | zero =>
    intro st hd
    refine ⟨1, fun fuel hfuel => ?_⟩
    obtain ⟨f, rfl⟩ : ∃ f, fuel = f + 1 := ⟨fuel - 1, by omega⟩
    rw [searchLoop_succ]
    by_cases hin : st.ptCurrent.Line ≥ st.ptStart.Line ∧ st.ptCurrent.Line ≤ st.ptEnd.Line
    · have := searchLinesLeft_pos opts st hin
      omega
    · rw [if_neg hin]
      exact ⟨_, rfl⟩
  | succ d ih =>
    intro st hd
    by_cases hin : st.ptCurrent.Line ≥ st.ptStart.Line ∧ st.ptCurrent.Line ≤ st.ptEnd.Line
    · have hfr := searchCurrentLine_frame eng cb opts sSearch sReplace st
      have hnext := searchLinesLeft_next opts st _ hfr hin
      obtain ⟨f1, hf1⟩ := ih (searchNextLine opts
        (searchCurrentLine eng cb opts sSearch sReplace st).1) (by omega)
      refine ⟨max f1 (searchLinesLeft opts (searchWrap opts origin (searchNextLine opts
        (searchCurrentLine eng cb opts sSearch sReplace st).1)) + 1) + 1, fun fuel hfuel => ?_⟩
      obtain ⟨f, rfl⟩ : ∃ f, fuel = f + 1 := ⟨fuel - 1, by omega⟩
      rw [searchLoop_succ, if_pos hin]
      split
      · exact ⟨_, rfl⟩
      · split
        · split
          · exact ⟨_, rfl⟩
          · refine searchLoop_returns_without_wrap eng cb confirm opts sSearch sReplace origin
              _ _ f (Or.inl ?_) (le_refl _) (by omega)
            unfold searchWrap
            simp only
            split <;> rfl
        · exact hf1 f (by omega)
    · refine ⟨1, fun fuel hfuel => ?_⟩
      obtain ⟨f, rfl⟩ : ∃ f, fuel = f + 1 := ⟨fuel - 1, by omega⟩
      rw [searchLoop_succ, if_neg hin]
      exact ⟨_, rfl⟩

/-- Termination of searchReplace: for every editor, pattern, replacement,
options, engine and callbacks the call returns once the fuel of the line loop
is large enough. -/
theorem searchReplace_returns (s : SynEdit) (sSearch sReplace : QString)
    (sOptions : SynSearchOptions) (searchEngine : Option SynSearchBase)
    (cb : Option (Nat → QString → QString → Int → Int → Int → SynSearchAction))
    (confirm : Option Bool) :
    ∃ fuel0, ∀ fuel, fuel0 ≤ fuel →
      ∃ out, searchReplace fuel s sSearch sReplace sOptions searchEngine cb confirm
        = some out := by
  cases searchEngine with
  | none => exact ⟨0, fun fuel _ => ⟨_, rfl⟩⟩
  | some eng =>
    by_cases hs : sSearch = []
    · refine ⟨0, fun fuel _ => ?_⟩
      unfold searchReplace
      simp only
      rw [if_pos hs]
      exact ⟨_, rfl⟩
    · obtain ⟨f0, hf0⟩ := searchLoop_returns eng cb confirm
        (if selAvail s = true then sOptions else { sOptions with ssoSelectedOnly := false })
        sSearch sReplace (caretXY s) _
        (searchStart s
          (if selAvail s = true then sOptions else { sOptions with ssoSelectedOnly := false }))
        (le_refl _)
      refine ⟨f0, fun fuel hfuel => ?_⟩
      obtain ⟨st, hst⟩ := hf0 fuel hfuel
      unfold searchReplace
      simp only
      rw [if_neg hs, hst]
      simp only
      split
      · exact ⟨_, rfl⟩
      · exact ⟨_, rfl⟩


/-- A property that the parts of a round of the line loop keep holds for every
state that the line loop returns. -/
theorem searchLoop_invariant (eng : SynSearchBase)
    (cb : Option (Nat → QString → QString → Int → Int → Int → SynSearchAction))
    (confirm : Option Bool) (opts : SynSearchOptions) (sSearch sReplace : QString)
    (origin : BufferCoord) (Inv : SearchRun → Prop)
    (hline : ∀ st, Inv st →
      Inv { st with trace := st.trace ++ [SearchEvent.lineSearched st.ptCurrent.Line] })
    (hmatch : ∀ st off m, Inv st → Inv (searchMatch eng cb opts sSearch sReplace st off m).1)
    (hnext : ∀ st, Inv st → Inv (searchNextLine opts st))
    (hwrap : ∀ st, Inv st → st.bFromCursor = true → Inv (searchWrap opts origin st)) :
    ∀ (fuel : Nat) (st out : SearchRun), Inv st →
      searchLoop eng cb confirm opts sSearch sReplace origin fuel st = some out → Inv out := by
  intro fuel
  induction fuel with
  | zero =>
    intro st out _ h
    simp [searchLoop] at h
  | succ fuel ih =>
    intro st out hst h
    rw [searchLoop_succ] at h
    have hcur : Inv (searchCurrentLine eng cb opts sSearch sReplace st).1 := by
      unfold searchCurrentLine
      exact searchLine_invariant eng cb opts sSearch sReplace Inv hmatch _ _ 0 (hline st hst)
    split at h
    · split at h
      · simp only [Option.some.injEq] at h
        rw [← h]
        exact hcur
      · split at h
        · rename_i hw
          split at h
          · simp only [Option.some.injEq] at h
            rw [← h]
            exact hnext _ hcur
          · exact ih _ out (hwrap _ (hnext _ hcur) hw.2.1) h
        · exact ih _ out (hnext _ hcur) h
    · simp only [Option.some.injEq] at h
      rw [← h]
      exact hst

/-- The batch events stay in order over a round on a match. -/
theorem searchMatch_batchInvariant (eng : SynSearchBase)
    (cb : Option (Nat → QString → QString → Int → Int → Int → SynSearchAction))
    (opts : SynSearchOptions) (sSearch sReplace : QString) (st : SearchRun) (off : Int)
    (m : Int × Int) (h : batchInvariant st) :
    batchInvariant (searchMatch eng cb opts sSearch sReplace st off m).1 := by
  unfold searchMatch
  simp only
  split
  · exact h
  · generalize hS : searchSelect opts st (m.1 + 1 + off) m.2 = S
    have hSb : S.dobatchReplace = st.dobatchReplace := by rw [← hS]; rfl
    have hSa : S.searchAction = st.searchAction := by rw [← hS]; rfl
    have hSt : S.trace
        = st.trace ++ [SearchEvent.matchFound st.ptCurrent.Line (m.1 + 1 + off) m.2] := by
      rw [← hS]
      rfl
    have hSl : S.ptCurrent.Line = st.ptCurrent.Line := by rw [← hS]; rfl
    generalize eng.replace (selText S.ed) sReplace = txt
    generalize m.1 + 1 + off = f at *
    generalize m.2 = n at *
    rcases h with ⟨hb, hact, hpre⟩ | ⟨hb, hact, pre, l, f2, mid, htr, hpre, hmid⟩
    · -- no batch is running
      have hfound : beforeBatch (st.trace ++ [SearchEvent.matchFound st.ptCurrent.Line f n]) := by
        intro e he
        rcases List.mem_append.mp he with he | he
        · exact hpre e he
        · simp only [List.mem_singleton] at he
          subst he
          simp
      cases cb with
      | none =>
        have hA : searchAsk none sSearch txt S f n = S := rfl
        rw [hA]
        split
        · exact Or.inl ⟨hSb.trans hb, by rw [hSa]; exact hact, by rw [hSt]; exact hfound⟩
        · exact Or.inl ⟨hSb.trans hb, by rw [hSa]; exact hact, by rw [hSt]; exact hfound⟩
        · refine Or.inl ⟨?_, ?_, ?_⟩
          · show (S.dobatchReplace || (!S.dobatchReplace
                && decide (S.searchAction = SynSearchAction.ReplaceAll))) = false
            rw [hSb, hb, hSa]
            simp [hact]
          · show S.searchAction ≠ SynSearchAction.ReplaceAll
            rw [hSa]
            exact hact
          · show beforeBatch ((if (!S.dobatchReplace
                && decide (S.searchAction = SynSearchAction.ReplaceAll)) = true
                then S.trace ++ [SearchEvent.blockOpened] else S.trace)
                ++ [SearchEvent.replaced S.ptCurrent.Line f])
            rw [hSb, hb, hSa, if_neg (by simp [hact]), hSt]
            intro e he
            rcases List.mem_append.mp he with he | he
            · exact hfound e he
            · simp only [List.mem_singleton] at he
              subst he
              simp
      | some c =>
        generalize ha : c S.asked sSearch txt S.ptCurrent.Line f n = a
        have hA : searchAsk (some c) sSearch txt S f n
            = { S with searchAction := a, asked := S.asked + 1,
                       trace := S.trace ++ [SearchEvent.asked a] } := by
          unfold searchAsk
          simp only
          rw [if_pos (hSb.trans hb), ha]
        rw [hA]
        have hasked : a ≠ SynSearchAction.ReplaceAll →
            beforeBatch (S.trace ++ [SearchEvent.asked a]) := by
          intro hne e he
          rw [hSt] at he
          rcases List.mem_append.mp he with he | he
          · exact hfound e he
          · simp only [List.mem_singleton] at he
            subst he
            simp [hne]
        cases a with
        | Exit => exact Or.inl ⟨hSb.trans hb, by simp, hasked (by simp)⟩
        | Skip => exact Or.inl ⟨hSb.trans hb, by simp, hasked (by simp)⟩
        | Replace =>
          refine Or.inl ⟨?_, ?_, ?_⟩
          · show (S.dobatchReplace || (!S.dobatchReplace
                && decide (SynSearchAction.Replace = SynSearchAction.ReplaceAll))) = false
            rw [hSb, hb]
            simp
          · show SynSearchAction.Replace ≠ SynSearchAction.ReplaceAll
            simp
          · show beforeBatch ((if (!S.dobatchReplace
                && decide (SynSearchAction.Replace = SynSearchAction.ReplaceAll)) = true
                then (S.trace ++ [SearchEvent.asked SynSearchAction.Replace])
                  ++ [SearchEvent.blockOpened]
                else S.trace ++ [SearchEvent.asked SynSearchAction.Replace])
                ++ [SearchEvent.replaced S.ptCurrent.Line f])
            rw [if_neg (by simp)]
            intro e he
            rcases List.mem_append.mp he with he | he
            · exact hasked (by simp) e he
            · simp only [List.mem_singleton] at he
              subst he
              simp
        | ReplaceAll =>
          refine Or.inr ⟨?_, rfl, st.trace ++ [SearchEvent.matchFound st.ptCurrent.Line f n],
            S.ptCurrent.Line, f, [], ?_, hfound, rfl⟩
          · show (S.dobatchReplace || (!S.dobatchReplace
                && decide (SynSearchAction.ReplaceAll = SynSearchAction.ReplaceAll))) = true
            rw [hSb, hb]
            simp
          · show (if (!S.dobatchReplace
                && decide (SynSearchAction.ReplaceAll = SynSearchAction.ReplaceAll)) = true
                then (S.trace ++ [SearchEvent.asked SynSearchAction.ReplaceAll])
                  ++ [SearchEvent.blockOpened]
                else S.trace ++ [SearchEvent.asked SynSearchAction.ReplaceAll])
                ++ [SearchEvent.replaced S.ptCurrent.Line f] = _
            rw [hSb, hb, if_pos (by simp), hSt]
            simp
    · -- a batch is running
      have hA : searchAsk cb sSearch txt S f n = S := by
        unfold searchAsk
        cases cb with
        | none => rfl
        | some c =>
          simp only
          rw [if_neg (by rw [hSb, hb]; simp)]
      rw [hA]
      have hSact : S.searchAction = SynSearchAction.ReplaceAll := hSa.trans hact
      split
      · rename_i heq
        rw [hSact] at heq
        exact absurd heq (by simp)
      · rename_i heq
        rw [hSact] at heq
        exact absurd heq (by simp)
      · refine Or.inr ⟨?_, hSact, pre, l, f2,
          mid ++ [SearchEvent.matchFound st.ptCurrent.Line f n,
                  SearchEvent.replaced st.ptCurrent.Line f], ?_, hpre, ?_⟩
        · show (S.dobatchReplace || (!S.dobatchReplace
              && decide (S.searchAction = SynSearchAction.ReplaceAll))) = true
          rw [hSb, hb]
          rfl
        · show (if (!S.dobatchReplace
              && decide (S.searchAction = SynSearchAction.ReplaceAll)) = true
              then S.trace ++ [SearchEvent.blockOpened] else S.trace)
              ++ [SearchEvent.replaced S.ptCurrent.Line f] = _
          rw [hSb, hb, if_neg (by simp), hSt, htr, hSl]
          simp
        · exact batchTail_append _ _ hmid (by simp [batchTail])


/-- The work on a line without a match adds the line to the events and nothing
else. -/
theorem searchCurrentLine_no_match (eng : SynSearchBase)
    (cb : Option (Nat → QString → QString → Int → Int → Int → SynSearchAction))
    (opts : SynSearchOptions) (sSearch sReplace : QString) (st : SearchRun)
    (h : eng.findAll opts sSearch (getString st.ed (st.ptCurrent.Line - 1)) = []) :
    searchCurrentLine eng cb opts sSearch sReplace st
      = ({ st with trace := st.trace ++ [SearchEvent.lineSearched st.ptCurrent.Line] }, false) := by
  unfold searchCurrentLine
  simp only [h, List.reverse_nil, ite_self]
  rfl

/-- A round of the line loop of a forward search on a line without a match,
inside the range. -/
theorem searchLoop_no_match_step (eng : SynSearchBase)
    (cb : Option (Nat → QString → QString → Int → Int → Int → SynSearchAction))
    (confirm : Option Bool) (opts : SynSearchOptions) (sSearch sReplace : QString)
    (origin : BufferCoord) (fuel : Nat) (st : SearchRun)
    (hfw : opts.ssoBackwards = false)
    (hin : st.ptStart.Line ≤ st.ptCurrent.Line ∧ st.ptCurrent.Line ≤ st.ptEnd.Line)
    (h : eng.findAll opts sSearch (getString st.ed (st.ptCurrent.Line - 1)) = []) :
    searchLoop eng cb confirm opts sSearch sReplace origin (fuel + 1) st
      = if st.ptCurrent.Line + 1 > st.ptEnd.Line ∧ st.bFromCursor = true
            ∧ opts.ssoWrapAround = true then
          if confirm = some false then
            some { st with ptCurrent := { st.ptCurrent with Line := st.ptCurrent.Line + 1 },
                           trace := st.trace ++ [SearchEvent.lineSearched st.ptCurrent.Line] }
          else
            searchLoop eng cb confirm opts sSearch sReplace origin fuel
              (searchWrap opts origin
                { st with ptCurrent := { st.ptCurrent with Line := st.ptCurrent.Line + 1 },
                          trace := st.trace ++ [SearchEvent.lineSearched st.ptCurrent.Line] })
        else
          searchLoop eng cb confirm opts sSearch sReplace origin fuel
            { st with ptCurrent := { st.ptCurrent with Line := st.ptCurrent.Line + 1 },
                      trace := st.trace ++ [SearchEvent.lineSearched st.ptCurrent.Line] } := by
  rw [searchLoop_succ, if_pos ⟨hin.1, hin.2⟩, searchCurrentLine_no_match eng cb opts sSearch
    sReplace st h]
  simp only [Bool.false_eq_true, if_false]
  have hnext : searchNextLine opts
      { st with trace := st.trace ++ [SearchEvent.lineSearched st.ptCurrent.Line] }
      = { st with ptCurrent := { st.ptCurrent with Line := st.ptCurrent.Line + 1 },
                  trace := st.trace ++ [SearchEvent.lineSearched st.ptCurrent.Line] } := by
    unfold searchNextLine
    simp only [hfw, Bool.false_eq_true, if_false]
  rw [hnext]
  have hlt : ¬ (st.ptCurrent.Line + 1 < st.ptStart.Line) := by omega
  simp only [hlt, false_or]

/-- The rounds of the line loop of a forward search over lines without a match
that end on a line still inside the range. -/
theorem searchLoop_no_match_run (eng : SynSearchBase)
    (cb : Option (Nat → QString → QString → Int → Int → Int → SynSearchAction))
    (confirm : Option Bool) (opts : SynSearchOptions) (sSearch sReplace : QString)
    (origin : BufferCoord) (hfw : opts.ssoBackwards = false) :
    ∀ (k : Nat) (st : SearchRun) (fuel : Nat) (target : Int),
      st.ptStart.Line ≤ st.ptCurrent.Line → (k : Int) = target - st.ptCurrent.Line →
      target ≤ st.ptEnd.Line →
      (∀ L, st.ptCurrent.Line ≤ L → L < target →
        eng.findAll opts sSearch (getString st.ed (L - 1)) = []) →
      searchLoop eng cb confirm opts sSearch sReplace origin (fuel + k) st
        = searchLoop eng cb confirm opts sSearch sReplace origin fuel
            { st with ptCurrent := { st.ptCurrent with Line := target },
                      trace := st.trace
                        ++ (intRange st.ptCurrent.Line (target - 1)).map
                            SearchEvent.lineSearched } := by
  intro k
  induction k with
  | zero =>
    intro st fuel target _ hk _ _
    have ht : target = st.ptCurrent.Line := by omega
    subst ht
    rw [intRange_nil _ _ (by omega)]
    simp
  | succ k ih =>
    intro st fuel target hs hk ht hnone
    push_cast at hk
    rw [show fuel + (k + 1) = (fuel + k) + 1 from rfl,
      searchLoop_no_match_step eng cb confirm opts sSearch sReplace origin (fuel + k) st hfw
        ⟨hs, by omega⟩ (hnone _ (le_refl _) (by omega)),
      if_neg (fun hc => by omega)]
    rw [ih { st with ptCurrent := { st.ptCurrent with Line := st.ptCurrent.Line + 1 },
                     trace := st.trace ++ [SearchEvent.lineSearched st.ptCurrent.Line] }
      fuel target (by simp only; omega) (by simp only; omega) ht
      (fun L h1 h2 => hnone L (by simp only at h1; omega) h2)]
    simp only
    rw [intRange_cons st.ptCurrent.Line (target - 1) (by omega)]
    simp


/-- The wrap-around happens at most once in a call of searchReplace. -/
theorem searchReplace_wraps_at_most_once (s : SynEdit) (sSearch sReplace : QString)
    (sOptions : SynSearchOptions) (searchEngine : Option SynSearchBase)
    (cb : Option (Nat → QString → QString → Int → Int → Int → SynSearchAction))
    (confirm : Option Bool) (fuel : Nat) (out : SearchOutcome)
    (h : searchReplace fuel s sSearch sReplace sOptions searchEngine cb confirm = some out) :
    wrapCount out.trace ≤ 1 := by
  unfold searchReplace at h
  cases searchEngine with
  | none =>
    simp only [Option.some.injEq] at h
    rw [← h]
    exact Nat.zero_le _
  | some eng =>
    simp only at h
    split at h
    · simp only [Option.some.injEq] at h
      rw [← h]
      exact Nat.zero_le _
    · split at h
      · exact absurd h (by simp)
      · rename_i st hst
        generalize (if selAvail s = true then sOptions
          else { sOptions with ssoSelectedOnly := false }) = opts at hst
        have hinv := searchLoop_invariant eng cb confirm opts sSearch sReplace (caretXY s)
          (fun x => wrapCount x.trace + (if x.bFromCursor = true then 1 else 0) ≤ 1)
          (fun x hx => by
            simp only [wrapCount, List.count_append] at hx ⊢
            simpa using hx)
          (fun x off m hx => by
            have hf := searchMatch_frame eng cb opts sSearch sReplace x off m
            simp only
            rw [hf.2.2.2.2, hf.2.2.2.1]
            exact hx)
          (fun x hx => hx)
          (fun x hx hflag => by
            simp only [hflag, if_true] at hx
            have h0 : wrapCount x.trace = 0 := by omega
            unfold searchWrap
            simp only
            split <;> simp [wrapCount, List.count_append] <;>
              (unfold wrapCount at h0; omega))
          fuel _ st (by
            simp only [searchStart, wrapCount, List.count_nil]
            split <;> omega) hst
        simp only at hinv
        split at h
        · simp only [Option.some.injEq] at h
          rw [← h]
          simp only [wrapCount, List.count_append] at hinv ⊢
          have : List.count SearchEvent.wrapped [SearchEvent.blockClosed] = 0 := by decide
          omega
        · simp only [Option.some.injEq] at h
          rw [← h]
          simp only
          omega

/-- The last line of a range of lines. -/
theorem intRange_snoc (lo hi : Int) (h : lo ≤ hi) :
    intRange lo hi = intRange lo (hi - 1) ++ [hi] := by
  unfold intRange
  obtain ⟨n, hn⟩ : ∃ n : Nat, (hi - lo + 1).toNat = n + 1 := ⟨(hi - lo).toNat, by omega⟩
  have hn2 : (hi - 1 - lo + 1).toNat = n := by omega
  rw [hn, hn2, List.range_succ, List.map_append]
  simp only [List.map_cons, List.map_nil, List.append_cancel_left_eq, List.cons.injEq, and_true]
  omega

/-- A line of the document, read by its number. -/
theorem getString_mem (s : SynEdit) (L : Int) (h : 1 ≤ L ∧ L ≤ docCount s) :
    getString s (L - 1) ∈ s.mDocument := by
  unfold getString linesGet
  unfold docCount at h
  rw [if_neg (by omega), List.getD_eq_getElem?_getD, List.getElem?_eq_getElem (by omega)]
  exact List.getElem_mem _


/-- C26: forward search from the caret with wrap-around, no confirmation
callback, a caret on a line of the document and no match on any line:
searchReplace searches the lines from the caret line to the last line, wraps
once, searches the lines 1 to the caret line and returns 0 with the editor as
it was (fuel: one round per searched line and one more).  And for every
input, searchReplace returns once the fuel is large enough, and in whatever it
returns the wrap-around has happened at most once. -/
theorem C26_forward_search_wraps_once (s : SynEdit) (sSearch sReplace : QString)
    (eng : SynSearchBase)
    (cb : Option (Nat → QString → QString → Int → Int → Int → SynSearchAction))
    (hpat : sSearch ≠ [])
    (hcaret : 1 ≤ s.mCaretY ∧ s.mCaretY ≤ docCount s)
    (hnone : ∀ l ∈ s.mDocument, eng.findAll fromCursorWrapSearch sSearch l = []) :
    (∀ fuel, s.mDocument.length + 2 ≤ fuel →
      searchReplace fuel s sSearch sReplace fromCursorWrapSearch (some eng) cb none
        = some { result := 0, ed := s,
                 trace := (intRange s.mCaretY (docCount s)).map SearchEvent.lineSearched
                   ++ SearchEvent.wrapped
                     :: (intRange 1 s.mCaretY).map SearchEvent.lineSearched })
    ∧ ∀ (s2 : SynEdit) (p r : QString) (o : SynSearchOptions) (e : Option SynSearchBase)
        (cb2 : Option (Nat → QString → QString → Int → Int → Int → SynSearchAction))
        (confirm : Option Bool),
        (∃ fuel0, ∀ fuel, fuel0 ≤ fuel → ∃ out, searchReplace fuel s2 p r o e cb2 confirm = some out)
        ∧ ∀ fuel out, searchReplace fuel s2 p r o e cb2 confirm = some out →
            wrapCount out.trace ≤ 1 := by
  refine ⟨fun fuel hfuel => ?_, fun s2 p r o e cb2 confirm =>
    ⟨searchReplace_returns s2 p r o e cb2 confirm,
     fun fuel out h => searchReplace_wraps_at_most_once s2 p r o e cb2 confirm fuel out h⟩⟩
  have hline : ∀ L, 1 ≤ L → L ≤ docCount s →
      eng.findAll fromCursorWrapSearch sSearch (getString s (L - 1)) = [] :=
    fun L h1 h2 => hnone _ (getString_mem s L ⟨h1, h2⟩)
  have hcount : ((s.mDocument.length : Nat) : Int) = docCount s := rfl
  obtain ⟨f, hf⟩ : ∃ f, fuel
      = f + 1 + 1 + (s.mCaretY - 1).toNat + 1 + (docCount s - s.mCaretY).toNat :=
    ⟨fuel - (s.mDocument.length + 2), by omega⟩
  have hopts : (if selAvail s = true then fromCursorWrapSearch
      else { fromCursorWrapSearch with ssoSelectedOnly := false }) = fromCursorWrapSearch := by
    split <;> rfl
  generalize hE : (⟨qlen (getString s (docCount s - 1)), docCount s⟩ : BufferCoord) = E
  have hEl : E.Line = docCount s := by rw [← hE]
  have hstart : searchStart s fromCursorWrapSearch
      = { ed := s, ptCurrent := caretXY s, ptStart := caretXY s, ptEnd := E,
          bFromCursor := true, result := 0, dobatchReplace := false,
          searchAction := SynSearchAction.Exit, asked := 0, trace := [] } := by
    rw [← hE]
    rfl
  -- the first pass up to the last line
  have hA := searchLoop_no_match_run eng cb none fromCursorWrapSearch sSearch sReplace
    (caretXY s) rfl (docCount s - s.mCaretY).toNat
    { ed := s, ptCurrent := caretXY s, ptStart := caretXY s, ptEnd := E,
      bFromCursor := true, result := 0, dobatchReplace := false,
      searchAction := SynSearchAction.Exit, asked := 0, trace := [] }
    (f + 1 + 1 + (s.mCaretY - 1).toNat + 1) (docCount s)
    (le_refl _) (by show _ = docCount s - s.mCaretY; omega) (by show docCount s ≤ E.Line; omega)
    (fun L h1 h2 => hline L (by
      have : s.mCaretY ≤ L := h1
      omega) (by omega))
  -- the last line and the wrap-around
  have hB := searchLoop_no_match_step eng cb none fromCursorWrapSearch sSearch sReplace
    (caretXY s) (f + 1 + 1 + (s.mCaretY - 1).toNat)
    { ed := s, ptCurrent := { caretXY s with Line := docCount s }, ptStart := caretXY s,
      ptEnd := E, bFromCursor := true, result := 0, dobatchReplace := false,
      searchAction := SynSearchAction.Exit, asked := 0,
      trace := [] ++ (intRange s.mCaretY (docCount s - 1)).map SearchEvent.lineSearched }
    rfl ⟨hcaret.2, by show docCount s ≤ E.Line; omega⟩
    (hline (docCount s) (by omega) (le_refl _))
  rw [if_pos ⟨by show docCount s + 1 > E.Line; omega, rfl, rfl⟩, if_neg (by simp)] at hB
  -- the second pass up to the caret line
  have hC := searchLoop_no_match_run eng cb none fromCursorWrapSearch sSearch sReplace
    (caretXY s) rfl (s.mCaretY - 1).toNat
    { ed := s, ptCurrent := ⟨1, 1⟩, ptStart := ⟨1, 1⟩, ptEnd := caretXY s,
      bFromCursor := false, result := 0, dobatchReplace := false,
      searchAction := SynSearchAction.Exit, asked := 0,
      trace := ([] ++ (intRange s.mCaretY (docCount s - 1)).map SearchEvent.lineSearched
        ++ [SearchEvent.lineSearched (docCount s)]) ++ [SearchEvent.wrapped] }
    (f + 1 + 1) s.mCaretY
    (le_refl _) (by show _ = s.mCaretY - 1; omega) (le_refl _)
    (fun L h1 h2 => hline L h1 (by omega))
  -- the caret line and the end of the loop
  have hD := searchLoop_no_match_step eng cb none fromCursorWrapSearch sSearch sReplace
    (caretXY s) (f + 1)
    { ed := s, ptCurrent := ⟨1, s.mCaretY⟩, ptStart := ⟨1, 1⟩, ptEnd := caretXY s,
      bFromCursor := false, result := 0, dobatchReplace := false,
      searchAction := SynSearchAction.Exit, asked := 0,
      trace := (([] ++ (intRange s.mCaretY (docCount s - 1)).map SearchEvent.lineSearched
        ++ [SearchEvent.lineSearched (docCount s)]) ++ [SearchEvent.wrapped])
        ++ (intRange 1 (s.mCaretY - 1)).map SearchEvent.lineSearched }
    rfl ⟨hcaret.1, le_refl _⟩ (hline s.mCaretY hcaret.1 hcaret.2)
  rw [if_neg (fun hc => Bool.noConfusion hc.2.1)] at hD
  have hEnd := searchLoop_succ eng cb none fromCursorWrapSearch sSearch sReplace (caretXY s) f
    { ed := s, ptCurrent := ⟨1, s.mCaretY + 1⟩, ptStart := ⟨1, 1⟩, ptEnd := caretXY s,
      bFromCursor := false, result := 0, dobatchReplace := false,
      searchAction := SynSearchAction.Exit, asked := 0,
      trace := ((([] ++ (intRange s.mCaretY (docCount s - 1)).map SearchEvent.lineSearched
        ++ [SearchEvent.lineSearched (docCount s)]) ++ [SearchEvent.wrapped])
        ++ (intRange 1 (s.mCaretY - 1)).map SearchEvent.lineSearched)
        ++ [SearchEvent.lineSearched s.mCaretY] }
  rw [if_neg (fun hc => by
    have : s.mCaretY + 1 ≤ s.mCaretY := hc.2
    omega)] at hEnd
  have hloop := hA.trans (hB.trans (hC.trans (hD.trans hEnd)))
  unfold searchReplace
  simp only
  rw [if_neg hpat, hopts, hf, hstart, hloop]
  simp only [Bool.false_eq_true, if_false]
  rw [intRange_snoc s.mCaretY (docCount s) hcaret.2, intRange_snoc 1 s.mCaretY hcaret.1]
  simp


/-- C26 (witness): four lines without the letter x, caret on line 3: the
lines 3, 4, then after one wrap-around the lines 1, 2, 3 are searched and 0 is
returned. -/
theorem C26_forward_search_wraps_once_witness :
    (searchReplace 6 fourLinesEditor "x".toList "y".toList fromCursorWrapSearch
        (some plainEngine) none none).map (fun o => (o.result, o.trace))
      = some (0, [SearchEvent.lineSearched 3, SearchEvent.lineSearched 4, SearchEvent.wrapped,
                  SearchEvent.lineSearched 1, SearchEvent.lineSearched 2,
                  SearchEvent.lineSearched 3])
    ∧ searchReplace 6 fourLinesEditor "x".toList "y".toList fromCursorWrapSearch
        (some plainEngine) none none
      = some { result := 0, ed := fourLinesEditor,
               trace := (intRange fourLinesEditor.mCaretY (docCount fourLinesEditor)).map
                   SearchEvent.lineSearched
                 ++ SearchEvent.wrapped
                   :: (intRange 1 fourLinesEditor.mCaretY).map SearchEvent.lineSearched } :=
  ⟨by decide,
   (C26_forward_search_wraps_once fourLinesEditor "x".toList "y".toList plainEngine none
      (by decide) (by decide) (by decide)).1 6 (by decide)⟩


/-! ### Coordinates, content, undo blocks, library arguments -/

/-- C33 (counterexample): one line, display row 5 (past the last line) and
column 0: displayToBufferPos answers char 0 on line 5, while for column 1 of
the same row it answers char 1. -/
theorem C33_column_zero_past_last_line :
    docCount (sampleEditor ["abcd"] ⟨1, 1⟩) = 1
    ∧ displayToBufferPos (sampleEditor ["abcd"] ⟨1, 1⟩) { Column := 0, Row := 5 }
        = { Char := 0, Line := 5 }
    ∧ displayToBufferPos (sampleEditor ["abcd"] ⟨1, 1⟩) { Column := 1, Row := 5 }
        = { Char := 1, Line := 5 } := by
  decide

/-- C35 (failing input): the lines abcd and ef, caret on line 1.  doDeleteLine
leaves the line ef and records a delete item from (1, 1) to (3, 1) with the
text lines abcd and the empty line; doUndo gives both lines back; doRedo then
leaves cd and ef, not the line ef alone.  On the one line abcd the item ends at
(2, 1) and doRedo leaves bcd, not the empty line. -/
theorem C35_redo_of_deleted_line_differs :
    docStrings (doDeleteLine (sampleEditor ["abcd", "ef"] ⟨1, 1⟩)) = ["ef"]
    ∧ (doDeleteLine (sampleEditor ["abcd", "ef"] ⟨1, 1⟩)).mUndoList.items.head?
        = some { changeReason := SynChangeReason.crDelete,
                 changeSelMode := SynSelectionMode.smNormal,
                 changeStartPos := ⟨1, 1⟩, changeEndPos := ⟨3, 1⟩,
                 changeText := ["abcd".toList, []], changeNumber := 1 }
    ∧ docStrings (doUndo (doDeleteLine (sampleEditor ["abcd", "ef"] ⟨1, 1⟩))) = ["abcd", "ef"]
    ∧ docStrings (doRedo (doUndo (doDeleteLine (sampleEditor ["abcd", "ef"] ⟨1, 1⟩))))
        = ["cd", "ef"]
    ∧ docStrings (doDeleteLine (sampleEditor ["abcd"] ⟨1, 1⟩)) = [""]
    ∧ docStrings (doRedo (doUndo (doDeleteLine (sampleEditor ["abcd"] ⟨1, 1⟩)))) = ["bcd"] := by
  decide

/-- C37 (failing input): two states with the same two lines, no folds and
column mode, one with an empty selection at (1, 1), the other with the
selection from (3, 1) to (5, 2); getContent from (2, 1) to (4, 2) in column
mode answers the one string a in the first state and the strings cd and ij in
the second, and in neither the strings bc and hi of the columns 2 to 3. -/
theorem C37_column_content_reads_selection :
    columnEmptySelection.mDocument = columnOtherSelection.mDocument
    ∧ columnEmptySelection.mAllFoldRanges = columnOtherSelection.mAllFoldRanges
    ∧ columnEmptySelection.foldArena = columnOtherSelection.foldArena
    ∧ getContent columnEmptySelection ⟨2, 1⟩ ⟨4, 2⟩ SynSelectionMode.smColumn = ["a".toList]
    ∧ getContent columnOtherSelection ⟨2, 1⟩ ⟨4, 2⟩ SynSelectionMode.smColumn
        = ["cd".toList, "ij".toList] := by
  decide

/-- C38 (failing input): one line abcd, no open undo block, the selection
from (1, 1) to (3, 1) saved by the drag; a copy drop of the text ab at column
5 of row 1 inserts the text and leaves one undo block open, a move drop at the
same place leaves none open. -/
theorem C38_copy_drop_leaves_block_open :
    (sampleEditor ["abcd"] ⟨1, 1⟩).mUndoList.blockCount = 0
    ∧ docStrings (dropEvent (sampleEditor ["abcd"] ⟨1, 1⟩) { Column := 5, Row := 1 } "ab".toList
        DropAction.CopyAction ⟨1, 1⟩ ⟨3, 1⟩) = ["abcdab"]
    ∧ (dropEvent (sampleEditor ["abcd"] ⟨1, 1⟩) { Column := 5, Row := 1 } "ab".toList
        DropAction.CopyAction ⟨1, 1⟩ ⟨3, 1⟩).mUndoList.blockCount = 1
    ∧ docStrings (dropEvent (sampleEditor ["abcd"] ⟨1, 1⟩) { Column := 5, Row := 1 } "ab".toList
        DropAction.MoveAction ⟨1, 1⟩ ⟨3, 1⟩) = ["cdab"]
    ∧ (dropEvent (sampleEditor ["abcd"] ⟨1, 1⟩) { Column := 5, Row := 1 } "ab".toList
        DropAction.MoveAction ⟨1, 1⟩ ⟨3, 1⟩).mUndoList.blockCount = 0 := by
  decide

/-- C39 (failing input): custom link parameters switched on, link parameters
-lm, compile parameters -Wall, one library directory: the result holds the
compile parameters behind the directory option and not the link parameters,
and it changes with the compile parameters. -/
theorem C39_library_arguments_hold_compile_parameters :
    getLibraryArguments sampleCompilerSet = " -L\"/usr/lib\" -Wall".toList
    ∧ getLibraryArguments { sampleCompilerSet with customCompileParams := "-O2".toList }
        = " -L\"/usr/lib\" -O2".toList
    ∧ getLibraryArguments { sampleCompilerSet with customLinkParams := "-lpthread".toList }
        = " -L\"/usr/lib\" -Wall".toList := by
  decide

/-- C40 (failing input): the fold list holds one range, collapsed, of the lines
2 to 4; collapsedFoldStartAtLine(2) finds no range.  With two collapsed ranges
starting on the lines 1 and 4 it finds the first one and not the last one. -/
theorem C40_last_collapsed_range_not_found :
    foldSpans foldedEditor = [(2, 4, true)]
    ∧ collapsedFoldStartAtLine foldedEditor 2 = none
    ∧ foldSpans twoBlocksCollapsed = [(1, 3, true), (4, 6, true)]
    ∧ (collapsedFoldStartAtLine twoBlocksCollapsed 1).map (fun r => r.fromLine) = some 1
    ∧ collapsedFoldStartAtLine twoBlocksCollapsed 4 = none := by
  decide


/-! ### The column walk -/

/-- The column walk of the editor accumulates the width of the specification
when it starts at a width that is not negative, the tab width is positive and
no glyph width is negative; the width stays non-negative. -/
theorem foldl_advanceColumn_accumulated (s : SynEdit) (hw : 0 < s.cfg.mTabWidth)
    (d : QString) (hg : ∀ ch ∈ d, 0 ≤ s.cfg.charColumnsOf ch) (x : Int) (hx : 0 ≤ x) :
    d.foldl (advanceColumn s) x = accumulatedWidth s.cfg.mTabWidth s.cfg.charColumnsOf d x
      ∧ 0 ≤ d.foldl (advanceColumn s) x := by
  induction d generalizing x with
  | nil => exact ⟨rfl, hx⟩
  | cons c rest ih =>
    have hstep : advanceColumn s x c
        = (if c = chTab then x + (s.cfg.mTabWidth - x % s.cfg.mTabWidth)
           else x + s.cfg.charColumnsOf c) := by
      unfold advanceColumn
      rw [Int.tmod_eq_emod hx (le_of_lt hw)]
    have hnn : 0 ≤ advanceColumn s x c := by
      rw [hstep]
      split
      · have := Int.emod_lt_of_pos x hw
        omega
      · have := hg c (List.mem_cons_self _ _)
        omega
    have h := ih (fun ch hch => hg ch (List.mem_cons_of_mem _ hch)) (advanceColumn s x c) hnn
    rw [List.foldl_cons]
    refine ⟨?_, h.2⟩
    rw [h.1, hstep]
    rfl

/-- The width that the column walk reaches just after a tab is a multiple of
the tab width. -/
theorem advanceColumn_tab_multiple (s : SynEdit) (x : Int) :
    s.cfg.mTabWidth ∣ advanceColumn s x chTab := by
  unfold advanceColumn
  rw [if_pos rfl]
  refine ⟨Int.tdiv x s.cfg.mTabWidth + 1, ?_⟩
  have h := Int.tmod_add_tdiv x s.cfg.mTabWidth
  rw [mul_add, mul_one]
  omega

/-- C31 (counterexample): tab width 4, every glyph one column wide, the string
a, tab, b, c and the least int as char index: the difference aChar - 1 wraps
around to the greatest int, the walk runs over the whole string and the column
is 7, not 1. -/
theorem C31_least_char_index_walks_the_string :
    (-2147483648 : Int) ≤ 1
    ∧ (sampleEditor ["a\tbc"] ⟨1, 1⟩).cfg.mTabWidth = 4
    ∧ charToColumnStr (sampleEditor ["a\tbc"] ⟨1, 1⟩) "a\tbc".toList (-2147483648) = 7
    ∧ charToColumn (sampleEditor ["a\tbc"] ⟨1, 1⟩) 1 (-2147483648) = 7
    ∧ charToColumnStr (sampleEditor ["a\tbc"] ⟨1, 1⟩) "a\tbc".toList (-2147483647) = 1 := by
  decide

/-- C31 (amended): for a char index c that is not the least int, charToColumn of
a string is 1 plus the width that the column walk accumulates over the first
min(c - 1, length) characters, which is 1 when c is at most 1; the width
reached just after a tab, at any place of the string, is a multiple of the tab
width; and with a positive tab width and no negative glyph width the walk
accumulates the width of the specification: a tab met at the width x adds
w - (x mod w), any other character adds its glyph width. -/
theorem C31_charToColumn_accumulates (s : SynEdit) (str : QString) (c : Int)
    (hc : c ≠ -2147483648) :
    charToColumnStr s str c = 1 + widthAfter s str (min (c - 1) (qlen str))
    ∧ (c ≤ 1 → charToColumnStr s str c = 1)
    ∧ (∀ pre post, str = pre ++ chTab :: post →
        s.cfg.mTabWidth ∣ widthAfter s str ((pre.length : Int) + 1)
        ∧ charToColumnStr s str ((pre.length : Int) + 2)
            = 1 + widthAfter s str ((pre.length : Int) + 1))
    ∧ (0 < s.cfg.mTabWidth → (∀ ch ∈ str, 0 ≤ s.cfg.charColumnsOf ch) →
        charToColumnStr s str c
          = 1 + accumulatedWidth s.cfg.mTabWidth s.cfg.charColumnsOf
              (str.take (min (c - 1) (qlen str)).toNat) 0) := by
  have h1 : charToColumnStr s str c = 1 + widthAfter s str (min (c - 1) (qlen str)) := by
    rw [charToColumnStr_of_ne s str c hc]
    unfold widthAfter
    omega
  refine ⟨h1, ?_, ?_, ?_⟩
  · intro hc1
    rw [h1]
    unfold widthAfter qlen
    have : (min (c - 1) (str.length : Int)).toNat = 0 := by omega
    rw [this]
    rfl
  · intro pre post hstr
    have hw : widthAfter s str ((pre.length : Int) + 1)
        = advanceColumn s (pre.foldl (advanceColumn s) 0) chTab := by
      unfold widthAfter
      have e : ((pre.length : Int) + 1).toNat = (pre ++ [chTab]).length := by
        simp only [List.length_append, List.length_singleton]
        omega
      have e2 : str = (pre ++ [chTab]) ++ post := by
        rw [hstr]
        simp
      rw [e, e2, List.take_left, List.foldl_append]
      rfl
    refine ⟨?_, ?_⟩
    · rw [hw]
      exact advanceColumn_tab_multiple s _
    · rw [charToColumnStr_of_ne s str _ (by omega)]
      unfold widthAfter qlen
      have e : (min ((pre.length : Int) + 2 - 1) (str.length : Int)).toNat
          = ((pre.length : Int) + 1).toNat := by
        rw [hstr]
        simp only [List.length_append, List.length_cons]
        push_cast
        omega
      rw [e]
      omega
  · intro hw hg
    rw [h1]
    unfold widthAfter
    have hsub : ∀ ch ∈ str.take (min (c - 1) (qlen str)).toNat, 0 ≤ s.cfg.charColumnsOf ch :=
      fun ch hch => hg ch (List.mem_of_mem_take hch)
    rw [(foldl_advanceColumn_accumulated s hw _ hsub 0 (le_refl _)).1]


/-- C31 (witness): tab width 4, every glyph one column wide, the string a, tab,
b, c and the char index 4: the width after the tab is 4 and the column is 6. -/
theorem C31_charToColumn_accumulates_witness :
    charToColumnStr (sampleEditor ["a\tbc"] ⟨1, 1⟩) "a\tbc".toList 4 = 6
    ∧ (sampleEditor ["a\tbc"] ⟨1, 1⟩).cfg.mTabWidth
        ∣ widthAfter (sampleEditor ["a\tbc"] ⟨1, 1⟩) "a\tbc".toList (("a".toList.length : Int) + 1)
    ∧ charToColumnStr (sampleEditor ["a\tbc"] ⟨1, 1⟩) "a\tbc".toList 4
        = 1 + accumulatedWidth (sampleEditor ["a\tbc"] ⟨1, 1⟩).cfg.mTabWidth
            (sampleEditor ["a\tbc"] ⟨1, 1⟩).cfg.charColumnsOf
            ("a\tbc".toList.take (min (4 - 1) (qlen "a\tbc".toList)).toNat) 0 :=
  ⟨by decide,
   ((C31_charToColumn_accumulates (sampleEditor ["a\tbc"] ⟨1, 1⟩) "a\tbc".toList 4
      (by decide)).2.2.1 "a".toList "bc".toList (by decide)).1,
   (C31_charToColumn_accumulates (sampleEditor ["a\tbc"] ⟨1, 1⟩) "a\tbc".toList 4
      (by decide)).2.2.2 (by decide) (by decide)⟩

/-- The loop of columnToChar stops at the first character at which the
accumulated width reaches the column, and behind the string when no character
does. -/
theorem columnToCharLoop_first (s : SynEdit) (col : Int) :
    ∀ (d : QString) (x i : Int),
      i ≤ columnToCharLoop s col d x i
      ∧ columnToCharLoop s col d x i ≤ i + (d.length : Int)
      ∧ (∀ j : Nat, (j : Int) < columnToCharLoop s col d x i - i →
          (d.take (j + 1)).foldl (advanceColumn s) x < col)
      ∧ (columnToCharLoop s col d x i < i + (d.length : Int) →
          (d.take ((columnToCharLoop s col d x i - i).toNat + 1)).foldl (advanceColumn s) x
            ≥ col) := by
  intro d
  induction d with
  | nil =>
    intro x i
    simp only [columnToCharLoop, List.length_nil, Nat.cast_zero]
    refine ⟨le_refl _, by omega, fun j hj => by omega, fun h => by omega⟩
  | cons c rest ih =>
    intro x i
    unfold columnToCharLoop
    simp only
    by_cases hx : advanceColumn s x c ≥ col
    · rw [if_pos hx]
      simp only [List.length_cons]
      push_cast
      refine ⟨le_refl _, by omega, fun j hj => by omega, fun _ => ?_⟩
      simpa using hx
    · rw [if_neg hx]
      obtain ⟨h1, h2, h3, h4⟩ := ih (advanceColumn s x c) (i + 1)
      simp only [List.length_cons]
      push_cast
      refine ⟨by omega, by omega, fun j hj => ?_, fun hlt => ?_⟩
      · cases j with
        | zero =>
          simp only [zero_add, List.take_succ_cons, List.take_zero, List.foldl_cons,
            List.foldl_nil]
          omega
        | succ j =>
          rw [List.take_succ_cons, List.foldl_cons]
          exact h3 j (by push_cast at hj; omega)
      · have e : (columnToCharLoop s col rest (advanceColumn s x c) (i + 1) - i).toNat + 1
            = ((columnToCharLoop s col rest (advanceColumn s x c) (i + 1) - (i + 1)).toNat + 1)
              + 1 := by omega
        rw [e, List.take_succ_cons, List.foldl_cons]
        exact h4 (by omega)

/-- C32 (counterexample): a fold marker of three dots behind the collapsed
header line 2, whose text has 3 characters: columnToChar answers 5 for the
column 5 and 7 for the column 10, both above the length of the line plus 1. -/
theorem C32_collapsed_line_answers_past_the_line :
    collapsedFoldAt markerFoldEditor 2 = true
    ∧ qlen (getString markerFoldEditor (2 - 1)) = 3
    ∧ columnToChar markerFoldEditor 2 5 = 5
    ∧ columnToChar markerFoldEditor 2 10 = 7 := by
  decide

/-- C32 (amended): for every line number L up to the line count and every
column k, with D the display string of the line (the line, followed by the
fold marker when a collapsed fold starts on it): columnToChar(L, k) is the
smallest 1-based index i at which the width accumulated over the first i
characters of D reaches k, and the length of D plus 1 when no index does; it
lies between 1 and the length of D plus 1; on a line on which no collapsed fold
starts D is the line itself. -/
theorem C32_columnToChar_first_index (s : SynEdit) (L k : Int) (hL : L ≤ docCount s) :
    1 ≤ columnToChar s L k
    ∧ columnToChar s L k ≤ qlen (getDisplayStringAtLine s L) + 1
    ∧ (∀ j, 1 ≤ j → j < columnToChar s L k → widthAfter s (getDisplayStringAtLine s L) j < k)
    ∧ (columnToChar s L k ≤ qlen (getDisplayStringAtLine s L) →
        widthAfter s (getDisplayStringAtLine s L) (columnToChar s L k) ≥ k)
    ∧ (collapsedFoldAt s L = false → getDisplayStringAtLine s L = getString s (L - 1)) := by
  have hc : columnToChar s L k
      = columnToCharLoop s k (getDisplayStringAtLine s L) 0 0 + 1 := by
    unfold columnToChar
    rw [if_pos hL]
  obtain ⟨h1, h2, h3, h4⟩ := columnToCharLoop_first s k (getDisplayStringAtLine s L) 0 0
  rw [hc]
  unfold qlen widthAfter
  refine ⟨by omega, by omega, fun j hj1 hj2 => ?_, fun hle => ?_, fun hf => ?_⟩
  · have := h3 (j - 1).toNat (by omega)
    have e : (j - 1).toNat + 1 = j.toNat := by omega
    rw [e] at this
    exact this
  · have := h4 (by omega)
    have e : (columnToCharLoop s k (getDisplayStringAtLine s L) 0 0 - 0).toNat + 1
        = (columnToCharLoop s k (getDisplayStringAtLine s L) 0 0 + 1).toNat := by omega
    rw [e] at this
    exact this
  · unfold getDisplayStringAtLine
    rw [hf]
    rfl

/-- C32 (witness): tab width 4, the line a, tab, b, c: the column 3 lies in the
tab, at char 2, and the column 9 is past the line, at char 5. -/
theorem C32_columnToChar_first_index_witness :
    columnToChar (sampleEditor ["a\tbc"] ⟨1, 1⟩) 1 3 = 2
    ∧ columnToChar (sampleEditor ["a\tbc"] ⟨1, 1⟩) 1 9 = 5
    ∧ 1 ≤ columnToChar (sampleEditor ["a\tbc"] ⟨1, 1⟩) 1 3
    ∧ columnToChar (sampleEditor ["a\tbc"] ⟨1, 1⟩) 1 3
        ≤ qlen (getDisplayStringAtLine (sampleEditor ["a\tbc"] ⟨1, 1⟩) 1) + 1 :=
  ⟨by decide, by decide,
   (C32_columnToChar_first_index (sampleEditor ["a\tbc"] ⟨1, 1⟩) 1 3 (by decide)).1,
   (C32_columnToChar_first_index (sampleEditor ["a\tbc"] ⟨1, 1⟩) 1 3 (by decide)).2.1⟩


/-! ### The fold scan as a brace stack -/

/-- Emitting one more range leaves the links of the stack as they are. -/
theorem stackLinked_append (base : Nat) (ranges : List SynEditFoldRange) (r : SynEditFoldRange)
    (st : List Nat) (h : stackLinked base ranges st) : stackLinked base (ranges ++ [r]) st := by
  induction st with
  | nil => trivial
  | cons k rest ih =>
    obtain ⟨⟨q, hq, hp⟩, hrest⟩ := h
    refine ⟨⟨q, ?_, hp⟩, ih hrest⟩
    have hk : k < ranges.length := by
      rw [List.get?_eq_getElem?] at hq
      exact (List.getElem?_eq_some_iff.mp hq).1
    rw [List.get?_eq_getElem?, List.getElem?_append_left hk, ← List.get?_eq_getElem?]
    exact hq

/-- Setting the last line of a range leaves the links of the stack as they
are. -/
theorem stackLinked_set (base : Nat) (ranges : List SynEditFoldRange) (k : Nat)
    (r : SynEditFoldRange) (L : Int) (hr : ranges.get? k = some r) (st : List Nat)
    (h : stackLinked base ranges st) :
    stackLinked base (ranges.set k { r with toLine := L }) st := by
  induction st with
  | nil => trivial
  | cons j rest ih =>
    obtain ⟨⟨q, hq, hp⟩, hrest⟩ := h
    refine ⟨?_, ih hrest⟩
    by_cases hjk : k = j
    · subst hjk
      rw [hr] at hq
      simp only [Option.some.injEq] at hq
      subst hq
      refine ⟨{ r with toLine := L }, ?_, hp⟩
      have hk : k < ranges.length := by
        rw [List.get?_eq_getElem?] at hr
        exact (List.getElem?_eq_some_iff.mp hr).1
      rw [List.get?_eq_getElem?, List.getElem?_set_self hk]
    · refine ⟨q, ?_, hp⟩
      rw [List.get?_eq_getElem?, List.getElem?_set_ne hjk, ← List.get?_eq_getElem?]
      exact hq

/-- The opening step of the scan is the opening step of the brace stack. -/
theorem scanOpen_stack (s : SynEdit) (b : BraceStack) (L : Int) :
    scanOpen (scanOfStack s b) L = scanOfStack s (stackOpen s.foldArena.length b L) := by
  simp [scanOpen, scanOfStack, stackOpen, List.range_succ]

/-- The closing step of the scan is the closing step of the brace stack. -/
theorem scanClose_stack (s : SynEdit) (b : BraceStack) (L : Int)
    (h : stackLinked s.foldArena.length b.ranges b.stack) :
    scanClose (scanOfStack s b) L = scanOfStack s (stackClose b L) := by
  obtain ⟨ranges, st⟩ := b
  cases st with
  | nil => simp [scanClose, scanOfStack, stackClose]
  | cons k rest =>
    obtain ⟨⟨r, hr, hp⟩, _⟩ := h
    have hk : k < ranges.length := by
      rw [List.get?_eq_getElem?] at hr
      exact (List.getElem?_eq_some_iff.mp hr).1
    have hget : (s.foldArena ++ ranges).get? (s.foldArena.length + k) = some r := by
      rw [List.get?_eq_getElem?, List.getElem?_append_right (Nat.le_add_right _ _),
        Nat.add_sub_cancel_left, ← List.get?_eq_getElem?]
      exact hr
    simp only [scanClose, scanOfStack, stackClose, List.head?_cons, Option.map_some', hget, hr,
      hp, List.length_set]
    congr 2
    rw [List.set_append]
    simp

/-- The invariant of the brace pairing holds on for the next line. -/
theorem stackInvariant_mono (base : Nat) (b : BraceStack) (L M : Int) (hLM : L ≤ M)
    (h : stackInvariant base b L) : stackInvariant base b M := by
  obtain ⟨h1, h2, h3⟩ := h
  refine ⟨h1, fun r hr => ?_, h3⟩
  obtain ⟨a, c, d⟩ := h2 r hr
  exact ⟨a, c, by omega⟩

/-- The closing step on the 0-based line L keeps the invariant. -/
theorem stackClose_invariant (base : Nat) (b : BraceStack) (L : Int)
    (h : stackInvariant base b (L + 1)) : stackInvariant base (stackClose b L) (L + 1) := by
  obtain ⟨ranges, st⟩ := b
  obtain ⟨h1, h2, h3⟩ := h
  cases st with
  | nil => exact ⟨h1, h2, h3⟩
  | cons k rest =>
    obtain ⟨⟨r, hr, hp⟩, hrest⟩ := h1
    have hk : k < ranges.length := by
      rw [List.get?_eq_getElem?] at hr
      exact (List.getElem?_eq_some_iff.mp hr).1
    have hmem : r ∈ ranges := List.get?_mem hr
    simp only [stackClose, hr]
    refine ⟨stackLinked_set base ranges k r (L + 1) hr rest hrest, fun q hq => ?_, ?_⟩
    · rcases List.mem_or_eq_of_mem_set hq with hq | hq
      · exact h2 q hq
      · subst hq
        obtain ⟨a, c, d⟩ := h2 r hmem
        exact ⟨a, by simp only; omega, by simp only; omega⟩
    · have e : (ranges.set k { r with toLine := L + 1 }).map (fun r => r.fromLine)
          = ranges.map (fun r => r.fromLine) := by
        apply List.ext_getElem?
        intro i
        rw [List.getElem?_map, List.getElem?_map]
        by_cases hik : k = i
        · subst hik
          rw [List.getElem?_set_self hk, ← List.get?_eq_getElem?, hr]
          rfl
        · rw [List.getElem?_set_ne hik]
      simp only
      rw [e]
      exact h3

/-- The opening step on the 0-based line L keeps the invariant. -/
theorem stackOpen_invariant (base : Nat) (b : BraceStack) (L : Int)
    (h : stackInvariant base b (L + 1)) : stackInvariant base (stackOpen base b L) (L + 1) := by
  obtain ⟨ranges, st⟩ := b
  obtain ⟨h1, h2, h3⟩ := h
  refine ⟨⟨⟨{ fromLine := L + 1, toLine := L + 1, collapsed := false, linesCollapsed := 0,
               parent := st.head?.map (fun k => base + k) }, ?_, rfl⟩,
            stackLinked_append base ranges _ st h1⟩, fun q hq => ?_, ?_⟩
  · simp [stackOpen]
  · simp only [stackOpen, List.mem_append, List.mem_singleton] at hq
    rcases hq with hq | hq
    · exact h2 q hq
    · subst hq
      exact ⟨rfl, le_refl _, le_refl _⟩
  · simp only [stackOpen, List.map_append, List.map_cons, List.map_nil]
    rw [List.pairwise_append]
    refine ⟨h3, List.pairwise_singleton _ _, fun x hx y hy => ?_⟩
    simp only [List.mem_singleton] at hy
    subst hy
    obtain ⟨q, hq, rfl⟩ := List.mem_map.mp hx
    obtain ⟨_, c, d⟩ := h2 q hq
    omega

/-- The closing steps of one line. -/
theorem scanClose_repeat (s : SynEdit) (L : Int) (n : Nat) (b : BraceStack)
    (h : stackInvariant s.foldArena.length b (L + 1)) :
    Nat.repeat (fun x => scanClose x L) n (scanOfStack s b)
        = scanOfStack s (Nat.repeat (fun x => stackClose x L) n b)
      ∧ stackInvariant s.foldArena.length (Nat.repeat (fun x => stackClose x L) n b) (L + 1) := by
  induction n with
  | zero => exact ⟨rfl, h⟩
  | succ n ih =>
    obtain ⟨e, hi⟩ := ih
    refine ⟨?_, stackClose_invariant _ _ L hi⟩
    show scanClose (Nat.repeat (fun x => scanClose x L) n (scanOfStack s b)) L = _
    rw [e, scanClose_stack s _ L hi.1]
    rfl

/-- The opening steps of one line. -/
theorem scanOpen_repeat (s : SynEdit) (L : Int) (n : Nat) (b : BraceStack)
    (h : stackInvariant s.foldArena.length b (L + 1)) :
    Nat.repeat (fun x => scanOpen x L) n (scanOfStack s b)
        = scanOfStack s (Nat.repeat (fun x => stackOpen s.foldArena.length x L) n b)
      ∧ stackInvariant s.foldArena.length
          (Nat.repeat (fun x => stackOpen s.foldArena.length x L) n b) (L + 1) := by
  induction n with
  | zero => exact ⟨rfl, h⟩
  | succ n ih =>
    obtain ⟨e, hi⟩ := ih
    refine ⟨?_, stackOpen_invariant _ _ L hi⟩
    show scanOpen (Nat.repeat (fun x => scanOpen x L) n (scanOfStack s b)) L = _
    rw [e, scanOpen_stack s _ L]
    rfl

/-- The scan of one line of the brace region is the step of the brace stack
for the line. -/
theorem scanLine_stack (inp : FoldScanInput) (s : SynEdit) (L : Int) (b : BraceStack)
    (h : stackInvariant s.foldArena.length b L) :
    scanLine inp 0 true (scanOfStack s b) L
        = scanOfStack s (stackLine s.foldArena.length inp b L)
      ∧ stackInvariant s.foldArena.length (stackLine s.foldArena.length inp b L) (L + 1) := by
  have h1 := stackInvariant_mono _ b L (L + 1) (by omega) h
  obtain ⟨e1, i1⟩ := scanClose_repeat s L (inp.rightBraces L).toNat b h1
  obtain ⟨e2, i2⟩ := scanOpen_repeat s L (inp.leftBraces L).toNat _ i1
  refine ⟨?_, i2⟩
  simp only [scanLine, if_true, e1, e2]
  rfl

/-- No collapsed range is found among open ranges. -/
theorem collapsedFoldStartAtLineLoop_open (Line : Int) (l : List SynEditFoldRange)
    (h : ∀ r ∈ l, r.collapsed = false) : collapsedFoldStartAtLineLoop Line l = none := by
  induction l with
  | nil => rfl
  | cons r rest ih =>
    have hr := h r (List.mem_cons_self _ _)
    simp only [collapsedFoldStartAtLineLoop, hr, Bool.false_eq_true, and_false, if_false]
    split
    · rfl
    · exact ih (fun q hq => h q (List.mem_cons_of_mem _ hq))

/-- A record that the fold list of the scan state names is an emitted range. -/
theorem scanOfStack_foldAt (s : SynEdit) (b : BraceStack) (i : Nat) (r : SynEditFoldRange)
    (hi : i ∈ (scanOfStack s b).ed.mAllFoldRanges)
    (hr : foldAt (scanOfStack s b).ed i = some r) : r ∈ b.ranges := by
  simp only [scanOfStack, List.mem_map, List.mem_range] at hi
  obtain ⟨k, hk, rfl⟩ := hi
  simp only [foldAt, scanOfStack] at hr
  rw [List.get?_eq_getElem?, List.getElem?_append_right (Nat.le_add_right _ _),
    Nat.add_sub_cancel_left] at hr
  exact List.getElem?_mem hr

/-- The scan state of a brace pairing has no collapsed range to skip. -/
theorem scanOfStack_no_collapsed (s : SynEdit) (b : BraceStack) (M Line : Int)
    (h : stackInvariant s.foldArena.length b M) :
    collapsedFoldStartAtLine (scanOfStack s b).ed Line = none := by
  apply collapsedFoldStartAtLineLoop_open
  intro r hr
  obtain ⟨i, hi, hri⟩ := List.mem_filterMap.mp hr
  exact (h.2.1 r (scanOfStack_foldAt s b i r (List.dropLast_subset _ hi) hri)).1

/-- The line loop of the scan over the brace region is the brace pairing over
the lines that are left, and it ends within one round per line and one
more. -/
theorem findSubFoldRangeLoop_stack (inp : FoldScanInput) (s : SynEdit) (n : Nat) :
    ∀ (fuel : Nat) (Line : Int) (b : BraceStack), n + 1 ≤ fuel → docCount s = Line + n →
      stackInvariant s.foldArena.length b Line →
      findSubFoldRangeLoop inp 0 true fuel Line (scanOfStack s b)
          = some (scanOfStack s (stackScanFrom s.foldArena.length inp n Line b))
        ∧ stackInvariant s.foldArena.length (stackScanFrom s.foldArena.length inp n Line b)
            (docCount s) := by
  induction n with
  | zero =>
    intro fuel Line b hf hc hi
    obtain ⟨f, rfl⟩ : ∃ f, fuel = f + 1 := ⟨fuel - 1, by omega⟩
    have hd : docCount (scanOfStack s b).ed = docCount s := rfl
    have hlt : ¬ Line < docCount (scanOfStack s b).ed := by rw [hd]; omega
    refine ⟨?_, ?_⟩
    · simp only [findSubFoldRangeLoop, hlt, if_false, stackScanFrom]
    · have e : docCount s = Line := by omega
      rw [e]
      exact hi
  | succ n ih =>
    intro fuel Line b hf hc hi
    obtain ⟨f, rfl⟩ : ∃ f, fuel = f + 1 := ⟨fuel - 1, by omega⟩
    have hd : docCount (scanOfStack s b).ed = docCount s := rfl
    have hlt : Line < docCount (scanOfStack s b).ed := by rw [hd]; omega
    obtain ⟨e1, i1⟩ := scanLine_stack inp s Line b hi
    obtain ⟨e2, i2⟩ := ih f (Line + 1) _ (by omega) (by omega) i1
    refine ⟨?_, i2⟩
    simp only [findSubFoldRangeLoop, hlt, if_true,
      scanOfStack_no_collapsed s b Line (Line + 1) hi, e1]
    exact e2

/-- Reading the arena at the places behind the old records gives the new
records in their order. -/
theorem filterMap_arena_tail (A l : List SynEditFoldRange) :
    (List.range l.length).filterMap (fun k => (A ++ l).get? (A.length + k)) = l := by
  induction l using List.reverseRecOn with
  | nil => rfl
  | append_singleton l a ih =>
    rw [List.length_append, List.length_singleton, List.range_succ, List.filterMap_append]
    have e1 : List.filterMap (fun k => (A ++ (l ++ [a])).get? (A.length + k)) (List.range l.length)
        = List.filterMap (fun k => (A ++ l).get? (A.length + k)) (List.range l.length) := by
      apply List.filterMap_congr
      intro k hk
      have hk2 : k < l.length := List.mem_range.mp hk
      simp only [List.get?_eq_getElem?]
      rw [List.getElem?_append_right (Nat.le_add_right _ _),
        List.getElem?_append_right (Nat.le_add_right _ _), Nat.add_sub_cancel_left,
        List.getElem?_append_left hk2]
    rw [e1, ih]
    simp [List.getElem?_append_right]

/-- The records that the fold list of a scan state names are the emitted
ranges in their order. -/
theorem scanOfStack_allFoldRanges (s : SynEdit) (b : BraceStack) :
    allFoldRanges (scanOfStack s b).ed = b.ranges := by
  have h := filterMap_arena_tail s.foldArena b.ranges
  simp only [allFoldRanges, scanOfStack, List.filterMap_map]
  exact h


/-- The scan of the one brace region from an empty fold list is the brace
pairing over the lines of the document. -/
theorem scanForFoldRanges_stack (inp : FoldScanInput) (s : SynEdit)
    (hh : s.cfg.hasHighlighter = true) (hr : inp.regionUsesBraces = [true])
    (he : s.mAllFoldRanges = []) :
    scanForFoldRanges inp s none
        = some (scanOfStack s (stackScan s.foldArena.length inp (docCount s).toNat))
      ∧ stackInvariant s.foldArena.length (stackScan s.foldArena.length inp (docCount s).toNat)
          (docCount s) := by
  have h0 : ({ ed := s, temp := none, Parent := none } : FoldScan)
      = scanOfStack s { ranges := [], stack := [] } := by
    cases s
    simp only [scanOfStack, List.append_nil, List.length_nil, List.range_zero, List.map_nil,
      List.head?_nil, Option.map_none'] at he ⊢
    rw [he]
  have hi : stackInvariant s.foldArena.length { ranges := [], stack := [] } 0 :=
    ⟨trivial, fun r hr => absurd hr (List.not_mem_nil r), List.Pairwise.nil⟩
  have hc : docCount s = 0 + ((docCount s).toNat : Nat) := by
    unfold docCount
    simp
  obtain ⟨e, i⟩ := findSubFoldRangeLoop_stack inp s (docCount s).toNat ((docCount s).toNat + 1) 0
    { ranges := [], stack := [] } (le_refl _) hc hi
  refine ⟨?_, i⟩
  have hh2 : ¬ ((scanOfStack s { ranges := [], stack := [] }).ed.cfg.hasHighlighter = false) := by
    show ¬ (s.cfg.hasHighlighter = false)
    rw [hh]
    exact Bool.noConfusion
  have hd : docCount (scanOfStack s { ranges := [], stack := [] }).ed = docCount s := rfl
  have hp : ({ scanOfStack s { ranges := [], stack := [] } with Parent := none } : FoldScan)
      = scanOfStack s { ranges := [], stack := [] } := rfl
  simp only [scanForFoldRanges, hr, List.length_singleton, List.range_succ, List.range_zero,
    List.nil_append, scanForFoldRangesLoop, h0, hp, findSubFoldRange, hh2, if_false, hd,
    List.getD_cons_zero, e]
  rfl

/-- C34: in a document whose fold list holds no collapsed range and no range
below a collapsed one, with the braces as the one fold region, the fold scan
returns, and its fold list is the list of ranges that the brace stack of the
specification emits: on each line the unmatched closing braces are worked
before the unmatched opening braces, a closing brace ends the innermost open
range on its line and is ignored when no range is open, an opening brace
emits a range whose parent is the innermost open range.  The new records
stand in the arena behind the old ones, every range is open and lies inside
the document, and the ranges are in the order of their first line. -/
theorem C34_fold_scan_pairs_braces (inp : FoldScanInput) (s : SynEdit)
    (hh : s.cfg.hasHighlighter = true) (hr : inp.regionUsesBraces = [true])
    (hk : ∀ i ∈ s.mAllFoldRanges, keepsOnRescan s i = false) :
    ∃ t, rescanForFoldRanges inp s = some t
      ∧ allFoldRanges t = (stackScan s.foldArena.length inp (docCount s).toNat).ranges
      ∧ t.foldArena = s.foldArena ++ allFoldRanges t
      ∧ t.mAllFoldRanges
          = (List.range (allFoldRanges t).length).map (fun k => s.foldArena.length + k)
      ∧ t.mDocument = s.mDocument
      ∧ foldsSortedByFromLine t
      ∧ ∀ r ∈ allFoldRanges t,
          r.collapsed = false ∧ r.fromLine ≤ r.toLine ∧ r.toLine ≤ docCount s := by
  have hkept : s.mAllFoldRanges.filter (keepsOnRescan s) = [] := by
    rw [List.filter_eq_nil_iff]
    intro i hi
    rw [hk i hi]
    exact Bool.noConfusion
  obtain ⟨e, i⟩ := scanForFoldRanges_stack inp { s with mAllFoldRanges := [] } hh hr rfl
  have hall := scanOfStack_allFoldRanges { s with mAllFoldRanges := [] }
    (stackScan s.foldArena.length inp (docCount s).toNat)
  refine ⟨(scanOfStack { s with mAllFoldRanges := [] }
    (stackScan s.foldArena.length inp (docCount s).toNat)).ed, ?_, hall, ?_, ?_, rfl, ?_, ?_⟩
  · have e2 : scanForFoldRanges inp { s with mAllFoldRanges := [] } none
        = some (scanOfStack { s with mAllFoldRanges := [] }
            (stackScan s.foldArena.length inp (docCount s).toNat)) := e
    simp only [rescanForFoldRanges, hkept, List.length_nil, gt_iff_lt, lt_self_iff_false,
      if_false, e2]
  · rw [hall]
    rfl
  · rw [hall]
    rfl
  · unfold foldsSortedByFromLine
    rw [hall]
    exact List.pairwise_map.mp i.2.2
  · rw [hall]
    exact i.2.1

/-- C34 at work: the five lines of nestedBlocksDocument give the outer block
(1 to 5), the first inner block (2 to 3) and the second inner block (3 to 4),
both with the outer block as parent; the second closing brace of the last line
is ignored. -/
theorem C34_fold_scan_pairs_braces_witness :
    nestedBlocksEditor.cfg.hasHighlighter = true
    ∧ nestedBlocksInput.regionUsesBraces = [true]
    ∧ (∀ i ∈ nestedBlocksEditor.mAllFoldRanges, keepsOnRescan nestedBlocksEditor i = false)
    ∧ (stackScan nestedBlocksEditor.foldArena.length nestedBlocksInput
          (docCount nestedBlocksEditor).toNat).ranges
        = [{ fromLine := 1, toLine := 5, collapsed := false, linesCollapsed := 0, parent := none },
           { fromLine := 2, toLine := 3, collapsed := false, linesCollapsed := 0,
             parent := some 0 },
           { fromLine := 3, toLine := 4, collapsed := false, linesCollapsed := 0,
             parent := some 0 }]
    ∧ (rescanForFoldRanges nestedBlocksInput nestedBlocksEditor).map allFoldRanges
        = some [{ fromLine := 1, toLine := 5, collapsed := false, linesCollapsed := 0,
                  parent := none },
                { fromLine := 2, toLine := 3, collapsed := false, linesCollapsed := 0,
                  parent := some 0 },
                { fromLine := 3, toLine := 4, collapsed := false, linesCollapsed := 0,
                  parent := some 0 }]
    ∧ ∃ t, rescanForFoldRanges nestedBlocksInput nestedBlocksEditor = some t
      ∧ allFoldRanges t = (stackScan nestedBlocksEditor.foldArena.length nestedBlocksInput
          (docCount nestedBlocksEditor).toNat).ranges
      ∧ t.foldArena = nestedBlocksEditor.foldArena ++ allFoldRanges t
      ∧ t.mAllFoldRanges = (List.range (allFoldRanges t).length).map
          (fun k => nestedBlocksEditor.foldArena.length + k)
      ∧ t.mDocument = nestedBlocksEditor.mDocument
      ∧ foldsSortedByFromLine t
      ∧ ∀ r ∈ allFoldRanges t,
          r.collapsed = false ∧ r.fromLine ≤ r.toLine
            ∧ r.toLine ≤ docCount nestedBlocksEditor :=
  ⟨by decide, by decide, by decide, by decide, by decide,
    C34_fold_scan_pairs_braces nestedBlocksInput nestedBlocksEditor (by decide) (by decide)
      (by decide)⟩


/-! ### Moving the selection up and down again -/

/-- C36, the counterexample: a writable document without folds and a stream
selection over the lines 2 to 3.  With the caret at the start of the
selection, (1, 2), the two moves put the lines and the selection back but
leave the caret at (1, 3); with the caret at the end of the selection, (6, 3),
they leave it at (2, 3), since the caret passes through the shorter line 2. -/
theorem C36_move_up_then_down_moves_caret :
    backwardSelection.mReadOnly = false
    ∧ backwardSelection.mActiveSelectionMode = SynSelectionMode.smNormal
    ∧ backwardSelection.foldArena = []
    ∧ blockBegin backwardSelection = ⟨1, 2⟩ ∧ blockEnd backwardSelection = ⟨3, 3⟩
    ∧ (doMoveSelDown (doMoveSelUp backwardSelection)).mDocument = backwardSelection.mDocument
    ∧ blockBegin (doMoveSelDown (doMoveSelUp backwardSelection)) = ⟨1, 2⟩
    ∧ blockEnd (doMoveSelDown (doMoveSelUp backwardSelection)) = ⟨3, 3⟩
    ∧ caretXY backwardSelection = ⟨1, 2⟩
    ∧ caretXY (doMoveSelUp backwardSelection) = ⟨1, 1⟩
    ∧ caretXY (doMoveSelDown (doMoveSelUp backwardSelection)) = ⟨1, 3⟩
    ∧ longLastLineSelection.mReadOnly = false
    ∧ longLastLineSelection.mActiveSelectionMode = SynSelectionMode.smNormal
    ∧ longLastLineSelection.foldArena = []
    ∧ blockBegin longLastLineSelection = ⟨1, 2⟩ ∧ blockEnd longLastLineSelection = ⟨6, 3⟩
    ∧ (doMoveSelDown (doMoveSelUp longLastLineSelection)).mDocument
        = longLastLineSelection.mDocument
    ∧ caretXY longLastLineSelection = ⟨6, 3⟩
    ∧ caretXY (doMoveSelUp longLastLineSelection) = ⟨2, 1⟩
    ∧ caretXY (doMoveSelDown (doMoveSelUp longLastLineSelection)) = ⟨2, 3⟩ := by
  decide


/-- Un-collapsing a range touches the fold records only and collapses
nothing. -/
theorem uncollapseAt_core (s : SynEdit) (i : Nat) :
    moveCore (uncollapseAt s i) = moveCore s ∧ (AllOpen s → AllOpen (uncollapseAt s i)) := by
  unfold uncollapseAt
  split
  · exact ⟨rfl, fun h => h⟩
  · refine ⟨rfl, fun h r hr => ?_⟩
    rcases List.mem_or_eq_of_mem_set hr with hr | hr
    · exact h r hr
    · rw [hr]

/-- Moving a range touches the fold records only and collapses nothing. -/
theorem moveAt_core (s : SynEdit) (i : Nat) (n : Int) :
    moveCore (moveAt s i n) = moveCore s ∧ (AllOpen s → AllOpen (moveAt s i n)) := by
  unfold moveAt
  split
  · exact ⟨rfl, fun h => h⟩
  · rename_i r0 h0
    refine ⟨rfl, fun h r hr => ?_⟩
    rcases List.mem_or_eq_of_mem_set hr with hr | hr
    · exact h r hr
    · rw [hr]
      exact h r0 (List.get?_mem h0)

/-- The fold list update after an insertion touches the fold records only and
collapses nothing. -/
theorem foldOnListInserted_core (s : SynEdit) (Line Count : Int) :
    moveCore (foldOnListInserted s Line Count) = moveCore s
      ∧ (AllOpen s → AllOpen (foldOnListInserted s Line Count)) := by
  unfold foldOnListInserted
  exact foldOnListInsertedLoop_induct
    (fun t => moveCore t = moveCore s ∧ (AllOpen s → AllOpen t)) Line Count _
    (fun t j _ _ ht _ _ _ =>
      ⟨(uncollapseAt_core t j).1.trans ht.1, fun h => (uncollapseAt_core t j).2 (ht.2 h)⟩)
    (fun t j _ _ ht _ _ _ _ =>
      ⟨(moveAt_core t j Count).1.trans ht.1, fun h => (moveAt_core t j Count).2 (ht.2 h)⟩)
    s ⟨rfl, fun h => h⟩

/-- The fold list update after a deletion touches the fold records only and
collapses nothing. -/
theorem foldOnListDeleted_core (s : SynEdit) (Line Count : Int) :
    moveCore (foldOnListDeleted s Line Count) = moveCore s
      ∧ (AllOpen s → AllOpen (foldOnListDeleted s Line Count)) := by
  have h := foldOnListDeletedLoop_induct
    (fun t => moveCore t = moveCore s ∧ (AllOpen s → AllOpen t)) Line Count s.mAllFoldRanges
    (fun t j _ _ ht _ _ _ =>
      ⟨(uncollapseAt_core t j).1.trans ht.1, fun h => (uncollapseAt_core t j).2 (ht.2 h)⟩)
    (fun t j _ _ ht _ _ _ _ =>
      ⟨(moveAt_core t j (-Count)).1.trans ht.1,
        fun h => (moveAt_core t j (-Count)).2 (ht.2 h)⟩)
    s ⟨rfl, fun h => h⟩
  unfold foldOnListDeleted
  exact ⟨h.1, h.2⟩

/-- A fold re-scan that collapses nothing touches the fold records only. -/
theorem rescanFolds_core (s : SynEdit) (hor : rescanKeepsOpen s.cfg) :
    moveCore (rescanFolds s) = moveCore s ∧ (AllOpen s → AllOpen (rescanFolds s)) := by
  unfold rescanFolds
  split
  · exact ⟨rfl, fun h => hor s.mDocument s.foldArena s.mAllFoldRanges h⟩
  · exact ⟨rfl, fun h => h⟩

/-- The scan from a line touches the fold records only. -/
theorem scanFrom_core (s : SynEdit) (i : Int) (hor : rescanKeepsOpen s.cfg) :
    moveCore (scanFrom s i) = moveCore s ∧ (AllOpen s → AllOpen (scanFrom s i)) := by
  unfold scanFrom
  split
  · exact ⟨rfl, fun h => h⟩
  · exact rescanFolds_core s hor

/-- A property of both branches holds of a conditional. -/
theorem ite_holds {c : Prop} [Decidable c] (P : SynEdit → Prop) {a b : SynEdit} (ha : P a)
    (hb : P b) : P (if c then a else b) := by
  split
  · exact ha
  · exact hb

/-- The lines-deleted slot touches the fold records only. -/
theorem onLinesDeleted_core (s : SynEdit) (i n : Int) (hor : rescanKeepsOpen s.cfg) :
    moveCore (onLinesDeleted s i n) = moveCore s
      ∧ (AllOpen s → AllOpen (onLinesDeleted s i n)) := by
  have h1 : moveCore (if s.cfg.hasHighlighter = true ∧ docCount s > 0 then scanFrom s i else s)
      = moveCore s
      ∧ (AllOpen s →
          AllOpen (if s.cfg.hasHighlighter = true ∧ docCount s > 0 then scanFrom s i else s)) :=
    ite_holds (fun t => moveCore t = moveCore s ∧ (AllOpen s → AllOpen t))
      (scanFrom_core s i hor) ⟨rfl, fun h => h⟩
  have h2 := foldOnListDeleted_core
    (if s.cfg.hasHighlighter = true ∧ docCount s > 0 then scanFrom s i else s) (i + 1) n
  unfold onLinesDeleted
  exact ite_holds (fun t => moveCore t = moveCore s ∧ (AllOpen s → AllOpen t))
    ⟨h2.1.trans h1.1, fun h => h2.2 (h1.2 h)⟩ h1

/-- The lines-inserted slot touches the fold records only. -/
theorem onLinesInserted_core (s : SynEdit) (i n : Int) (hor : rescanKeepsOpen s.cfg) :
    moveCore (onLinesInserted s i n) = moveCore s
      ∧ (AllOpen s → AllOpen (onLinesInserted s i n)) := by
  have h1 : moveCore (if s.cfg.mUseCodeFolding = true then foldOnListInserted s (i + 1) n else s)
      = moveCore s
      ∧ (AllOpen s →
          AllOpen (if s.cfg.mUseCodeFolding = true then foldOnListInserted s (i + 1) n else s)) :=
    ite_holds (fun t => moveCore t = moveCore s ∧ (AllOpen s → AllOpen t))
      (foldOnListInserted_core s (i + 1) n) ⟨rfl, fun h => h⟩
  have hc : (if s.cfg.mUseCodeFolding = true then foldOnListInserted s (i + 1) n else s).cfg
      = s.cfg := congrArg MoveCore.cfg h1.1
  have h2 := scanFrom_core
    (if s.cfg.mUseCodeFolding = true then foldOnListInserted s (i + 1) n else s) i
    (by rw [hc]; exact hor)
  unfold onLinesInserted
  exact ite_holds (fun t => moveCore t = moveCore s ∧ (AllOpen s → AllOpen t))
    ⟨h2.1.trans h1.1, fun h => h2.2 (h1.2 h)⟩ h1

/-- Deleting a line of the document: the line goes, the fold records may
change, nothing gets collapsed. -/
theorem docDeleteAt_core (s : SynEdit) (i : Int) (hi : 0 ≤ i ∧ i < docCount s)
    (hor : rescanKeepsOpen s.cfg) :
    moveCore (docDeleteAt s i) = { moveCore s with doc := linesDelete s.mDocument i 1 }
      ∧ (AllOpen s → AllOpen (docDeleteAt s i)) := by
  unfold docDeleteAt
  rw [if_neg (by omega)]
  have h := onLinesDeleted_core { s with mDocument := linesDelete s.mDocument i 1 } i 1 hor
  exact ⟨h.1, fun ho => h.2 ho⟩

/-- Inserting a line into the document: the line comes, the fold records may
change, nothing gets collapsed. -/
theorem docInsert_core (s : SynEdit) (i : Int) (t : QString) (hi : 0 ≤ i ∧ i ≤ docCount s)
    (hor : rescanKeepsOpen s.cfg) :
    moveCore (docInsert s i t) = { moveCore s with doc := linesInsert s.mDocument i [t] }
      ∧ (AllOpen s → AllOpen (docInsert s i t)) := by
  unfold docInsert
  rw [if_neg (by omega)]
  have h := onLinesInserted_core { s with mDocument := linesInsert s.mDocument i [t] } i 1 hor
  exact ⟨h.1, fun ho => h.2 ho⟩

/-- Recording an undo item touches the undo lists and the modified flag
only. -/
theorem undoAddChange_core (s : SynEdit) (reason : SynChangeReason) (a b : BufferCoord)
    (text : List QString) (mode : SynSelectionMode) :
    moveCore (undoAddChange s reason a b text mode) = moveCore s
      ∧ (undoAddChange s reason a b text mode).foldArena = s.foldArena := by
  have h1 : ∀ x : SynEdit, moveCore (updateModifiedStatus x) = moveCore x
      ∧ (updateModifiedStatus x).foldArena = x.foldArena := by
    intro x
    unfold updateModifiedStatus setModified
    split
    · exact ⟨rfl, rfl⟩
    · exact ⟨rfl, rfl⟩
  have h2 := h1 { s with mUndoList := s.mUndoList.AddChange reason a b text mode }
  unfold undoAddChange onUndoAdded
  simp only
  split
  · split
    · exact ⟨h2.1, h2.2⟩
    · exact h2
  · exact h2

/-- With every record open no line is the head of a collapsed fold. -/
theorem collapsedFoldAt_open (s : SynEdit) (L : Int) (h : AllOpen s) :
    collapsedFoldAt s L = false := by
  apply collapsedFoldAt_false
  intro r hr _
  obtain ⟨i, _, hri⟩ := List.mem_filterMap.mp hr
  exact h r (List.get?_mem hri)

/-- With every record open a line is shown as it is. -/
theorem getDisplayStringAtLine_open (s : SynEdit) (L : Int) (h : AllOpen s) :
    getDisplayStringAtLine s L = getString s (L - 1) := by
  unfold getDisplayStringAtLine
  rw [collapsedFoldAt_open s L h]
  rfl


/-- Setting the caret in stream mode, every fold open, on a line inside the
document. -/
theorem internalSetCaretXY_core (s : SynEdit) (c : BufferCoord)
    (hmode : s.mActiveSelectionMode = SynSelectionMode.smNormal) (hopen : AllOpen s)
    (hc : 1 ≤ c.Line ∧ c.Line ≤ docCount s) :
    moveCore (internalSetCaretXY s c)
      = { moveCore s with
          caretX := max (min c.Char (qlen (getString s (c.Line - 1)) + 1)) 1
          caretY := c.Line }
      ∧ (internalSetCaretXY s c).foldArena = s.foldArena := by
  have hcol : SynSelectionMode.smNormal ≠ SynSelectionMode.smColumn := by decide
  have h1 : ¬ c.Line > docCount s := by omega
  have h2 : ¬ c.Line < 1 := by omega
  refine ⟨?_, rfl⟩
  simp only [internalSetCaretXY, setCaretXYEx, updateLastCaretX, moveCore, hmode, h1, h2,
    if_false, ne_eq, hcol, not_false_eq_true, and_false, if_true,
    getDisplayStringAtLine_open s c.Line hopen]

/-- The character cut of the selection ends in stream mode, every fold open,
on a line inside the document. -/
theorem clampBlockChar_open (s : SynEdit) (ch line : Int)
    (hmode : s.mActiveSelectionMode = SynSelectionMode.smNormal) (hopen : AllOpen s)
    (hl : 1 ≤ line ∧ line ≤ docCount s) :
    clampBlockChar s ch line = min ch (qlen (getString s (line - 1)) + 1)
    ∧ minMax line 1 (docCount s) = line := by
  have hm : minMax line 1 (docCount s) = line := by
    unfold minMax
    omega
  refine ⟨?_, hm⟩
  unfold clampBlockChar
  rw [if_pos hmode, if_pos ⟨by omega, hl.2⟩, getDisplayStringAtLine_open s line hopen]

/-- Setting the selection begin in stream mode, every fold open, on a line
inside the document. -/
theorem setBlockBegin_core (s : SynEdit) (v : BufferCoord)
    (hmode : s.mActiveSelectionMode = SynSelectionMode.smNormal) (hopen : AllOpen s)
    (hv : 1 ≤ v.Line ∧ v.Line ≤ docCount s) :
    moveCore (setBlockBegin s v)
      = { moveCore s with
          blockBegin := ⟨min v.Char (qlen (getString s (v.Line - 1)) + 1), v.Line⟩
          blockEnd := ⟨min v.Char (qlen (getString s (v.Line - 1)) + 1), v.Line⟩ }
      ∧ (setBlockBegin s v).foldArena = s.foldArena := by
  obtain ⟨e1, e2⟩ := clampBlockChar_open s v.Char v.Line hmode hopen hv
  refine ⟨?_, rfl⟩
  simp only [setBlockBegin, moveCore, e1, e2]

/-- Setting the selection end in stream mode, every fold open, on a line
inside the document. -/
theorem setBlockEnd_core (s : SynEdit) (v : BufferCoord)
    (hmode : s.mActiveSelectionMode = SynSelectionMode.smNormal) (hopen : AllOpen s)
    (hv : 1 ≤ v.Line ∧ v.Line ≤ docCount s) :
    moveCore (setBlockEnd s v)
      = { moveCore s with
          blockEnd := ⟨min v.Char (qlen (getString s (v.Line - 1)) + 1), v.Line⟩ }
      ∧ (setBlockEnd s v).foldArena = s.foldArena := by
  obtain ⟨e1, e2⟩ := clampBlockChar_open s v.Char v.Line hmode hopen hv
  refine ⟨?_, rfl⟩
  simp only [setBlockEnd, moveCore, e1, e2]

/-- Setting the caret and the selection in stream mode, every fold open, all
three lines inside the document: the lines are taken as they are and the
characters are cut at the end of their lines. -/
theorem setCaretAndSelection_core (s : SynEdit) (c bb be : BufferCoord)
    (hmode : s.mActiveSelectionMode = SynSelectionMode.smNormal) (hopen : AllOpen s)
    (hc : 1 ≤ c.Line ∧ c.Line ≤ docCount s) (hb : 1 ≤ bb.Line ∧ bb.Line ≤ docCount s)
    (he : 1 ≤ be.Line ∧ be.Line ≤ docCount s) :
    moveCore (setCaretAndSelection s c bb be)
      = { moveCore s with
          caretX := max (min c.Char (qlen (getString s (c.Line - 1)) + 1)) 1
          caretY := c.Line
          blockBegin := ⟨min bb.Char (qlen (getString s (bb.Line - 1)) + 1), bb.Line⟩
          blockEnd := ⟨min be.Char (qlen (getString s (be.Line - 1)) + 1), be.Line⟩ }
      ∧ (setCaretAndSelection s c bb be).foldArena = s.foldArena := by
  obtain ⟨k1, a1⟩ := internalSetCaretXY_core s c hmode hopen hc
  have m1 : (internalSetCaretXY s c).mActiveSelectionMode = SynSelectionMode.smNormal :=
    (congrArg MoveCore.mode k1).trans hmode
  have d1 : (internalSetCaretXY s c).mDocument = s.mDocument := congrArg MoveCore.doc k1
  have o1 : AllOpen (internalSetCaretXY s c) := by
    unfold AllOpen
    rw [a1]
    exact hopen
  have c1 : docCount (internalSetCaretXY s c) = docCount s := by
    unfold docCount
    rw [d1]
  have g1 : ∀ i, getString (internalSetCaretXY s c) i = getString s i := by
    intro i
    unfold getString
    rw [d1]
  obtain ⟨k2, a2⟩ := setBlockBegin_core (internalSetCaretXY s c) bb m1 o1 (by rw [c1]; exact hb)
  have m2 : (setBlockBegin (internalSetCaretXY s c) bb).mActiveSelectionMode
      = SynSelectionMode.smNormal := (congrArg MoveCore.mode k2).trans m1
  have d2 : (setBlockBegin (internalSetCaretXY s c) bb).mDocument = s.mDocument :=
    (congrArg MoveCore.doc k2).trans d1
  have o2 : AllOpen (setBlockBegin (internalSetCaretXY s c) bb) := by
    unfold AllOpen
    rw [a2]
    exact o1
  have c2 : docCount (setBlockBegin (internalSetCaretXY s c) bb) = docCount s := by
    unfold docCount
    rw [d2]
  have g2 : ∀ i, getString (setBlockBegin (internalSetCaretXY s c) bb) i = getString s i := by
    intro i
    unfold getString
    rw [d2]
  obtain ⟨k3, a3⟩ := setBlockEnd_core (setBlockBegin (internalSetCaretXY s c) bb) be m2 o2
    (by rw [c2]; exact he)
  refine ⟨?_, a3.trans (a2.trans a1)⟩
  have k4 : moveCore (setCaretAndSelection s c bb be)
      = { moveCore (setBlockEnd (setBlockBegin (internalSetCaretXY s c) bb) be) with
          mode := s.mActiveSelectionMode } := rfl
  rw [k4, k3, k2, k1, g2, g1]
  simp only [moveCore]


/-- Deleting the line behind a prefix. -/
theorem linesDelete_at (P : List QString) (x : QString) (R : List QString) :
    linesDelete (P ++ x :: R) (P.length : Int) 1 = P ++ R := by
  unfold linesDelete
  rw [if_neg (by simp)]
  simp

/-- Inserting a line behind a prefix. -/
theorem linesInsert_at (P R : List QString) (t : QString) :
    linesInsert (P ++ R) (P.length : Int) [t] = P ++ t :: R := by
  unfold linesInsert
  rw [if_neg (by simp)]
  simp

/-- Reading the line behind a prefix. -/
theorem linesGet_at (P : List QString) (x : QString) (R : List QString) :
    linesGet (P ++ x :: R) (P.length : Int) = x := by
  unfold linesGet
  rw [if_neg (by omega)]
  simp only [Int.toNat_ofNat, List.getD_eq_getElem?_getD,
    List.getElem?_append_right (le_refl _), Nat.sub_self, List.getElem?_cons_zero,
    Option.getD_some]

/-- Moving one line inside a document keeps the number of lines. -/
theorem linesMove_length (D : List QString) (i j : Int) (t : QString)
    (hi : 0 ≤ i ∧ i < (D.length : Int)) (hj : 0 ≤ j ∧ j < (D.length : Int)) :
    (linesInsert (linesDelete D i 1) j [t]).length = D.length := by
  have h1 : (linesDelete D i 1).length + 1 = D.length := by
    unfold linesDelete
    rw [if_neg (by omega)]
    simp only [List.length_append, List.length_take, List.length_drop]
    omega
  unfold linesInsert
  rw [if_neg (by omega)]
  simp only [List.length_append, List.length_take, List.length_drop, List.length_singleton]
  omega

/-- The common part of both selection moves in stream mode with every fold
open: the line at index i goes to index j, then the caret and the selection
are set on lines inside the document. -/
theorem moveLine_core (s : SynEdit) (i j : Int) (c bb be : BufferCoord)
    (hmode : s.mActiveSelectionMode = SynSelectionMode.smNormal) (hopen : AllOpen s)
    (hor : rescanKeepsOpen s.cfg)
    (hi : 0 ≤ i ∧ i < docCount s) (hj : 0 ≤ j ∧ j < docCount s)
    (hc : 1 ≤ c.Line ∧ c.Line ≤ docCount s) (hb : 1 ≤ bb.Line ∧ bb.Line ≤ docCount s)
    (he : 1 ≤ be.Line ∧ be.Line ≤ docCount s) (hcx : c.Char = s.mCaretX) :
    moveCore (setCaretAndSelection (docInsert (docDeleteAt s i) j (getString s i)) c bb be)
      = { moveCore s with
          doc := linesInsert (linesDelete s.mDocument i 1) j [getString s i]
          caretX := max (min s.mCaretX (qlen (linesGet
            (linesInsert (linesDelete s.mDocument i 1) j [getString s i]) (c.Line - 1)) + 1)) 1
          caretY := c.Line
          blockBegin := ⟨min bb.Char (qlen (linesGet
            (linesInsert (linesDelete s.mDocument i 1) j [getString s i]) (bb.Line - 1)) + 1),
            bb.Line⟩
          blockEnd := ⟨min be.Char (qlen (linesGet
            (linesInsert (linesDelete s.mDocument i 1) j [getString s i]) (be.Line - 1)) + 1),
            be.Line⟩ }
      ∧ AllOpen (setCaretAndSelection (docInsert (docDeleteAt s i) j (getString s i)) c bb be) := by
  obtain ⟨k1, o1⟩ := docDeleteAt_core s i hi hor
  have cfg1 : (docDeleteAt s i).cfg = s.cfg := congrArg MoveCore.cfg k1
  have d1 : (docDeleteAt s i).mDocument = linesDelete s.mDocument i 1 := congrArg MoveCore.doc k1
  have len1 : (linesDelete s.mDocument i 1).length + 1 = s.mDocument.length := by
    unfold docCount at hi
    unfold linesDelete
    rw [if_neg (by omega)]
    simp only [List.length_append, List.length_take, List.length_drop]
    omega
  have c1 : docCount (docDeleteAt s i) + 1 = docCount s := by
    unfold docCount
    rw [d1]
    omega
  obtain ⟨k2, o2⟩ := docInsert_core (docDeleteAt s i) j (getString s i) (by omega)
    (by rw [cfg1]; exact hor)
  have d2 : (docInsert (docDeleteAt s i) j (getString s i)).mDocument
      = linesInsert (linesDelete s.mDocument i 1) j [getString s i] := by
    rw [← d1]
    exact congrArg MoveCore.doc k2
  have m1 : (docDeleteAt s i).mActiveSelectionMode = s.mActiveSelectionMode :=
    congrArg MoveCore.mode k1
  have m2 : (docInsert (docDeleteAt s i) j (getString s i)).mActiveSelectionMode
      = SynSelectionMode.smNormal := by
    have e : (docInsert (docDeleteAt s i) j (getString s i)).mActiveSelectionMode
        = (docDeleteAt s i).mActiveSelectionMode := congrArg MoveCore.mode k2
    rw [e, m1, hmode]
  have c2 : docCount (docInsert (docDeleteAt s i) j (getString s i)) = docCount s := by
    unfold docCount at hi hj ⊢
    rw [d2, linesMove_length s.mDocument i j _ hi hj]
  have g2 : ∀ q, getString (docInsert (docDeleteAt s i) j (getString s i)) q
      = linesGet (linesInsert (linesDelete s.mDocument i 1) j [getString s i]) q := by
    intro q
    show linesGet (docInsert (docDeleteAt s i) j (getString s i)).mDocument q = _
    rw [d2]
  have o3 := o2 (o1 hopen)
  obtain ⟨k3, a3⟩ := setCaretAndSelection_core (docInsert (docDeleteAt s i) j (getString s i))
    c bb be m2 o3 (by rw [c2]; exact hc) (by rw [c2]; exact hb) (by rw [c2]; exact he)
  refine ⟨?_, ?_⟩
  · rw [k3, k2, k1, g2, g2, g2, hcx]
    simp only [moveCore, d1]
  · unfold AllOpen
    rw [a3]
    exact o3

/-- The undo record of a selection move touches the undo lists and the
modified flag only. -/
theorem moveRecord_core (s : SynEdit) (reason : SynChangeReason) (B E : BufferCoord) :
    moveCore (if s.mUndoing = false then
        undoEndBlock (undoAddChange (undoAddChange (undoBeginBlock s) SynChangeReason.crCaret
          (caretXY (undoBeginBlock s)) (caretXY (undoBeginBlock s)) [] SynSelectionMode.smNormal)
          reason B E [] SynSelectionMode.smNormal)
      else s) = moveCore s
    ∧ (if s.mUndoing = false then
        undoEndBlock (undoAddChange (undoAddChange (undoBeginBlock s) SynChangeReason.crCaret
          (caretXY (undoBeginBlock s)) (caretXY (undoBeginBlock s)) [] SynSelectionMode.smNormal)
          reason B E [] SynSelectionMode.smNormal)
      else s).foldArena = s.foldArena := by
  split
  · obtain ⟨k1, a1⟩ := undoAddChange_core (undoBeginBlock s) SynChangeReason.crCaret
      (caretXY (undoBeginBlock s)) (caretXY (undoBeginBlock s)) [] SynSelectionMode.smNormal
    obtain ⟨k2, a2⟩ := undoAddChange_core (undoAddChange (undoBeginBlock s)
      SynChangeReason.crCaret (caretXY (undoBeginBlock s)) (caretXY (undoBeginBlock s)) []
      SynSelectionMode.smNormal) reason B E [] SynSelectionMode.smNormal
    exact ⟨k2.trans k1, a2.trans a1⟩
  · exact ⟨rfl, rfl⟩


/-- Moving a line keeps the caret character. -/
theorem moveLine_caretX (s : SynEdit) (i j : Int) (t : QString) (hor : rescanKeepsOpen s.cfg)
    (hi : 0 ≤ i ∧ i < docCount s) (hj : 0 ≤ j ∧ j < docCount s) :
    (docInsert (docDeleteAt s i) j t).mCaretX = s.mCaretX := by
  obtain ⟨k1, _⟩ := docDeleteAt_core s i hi hor
  have cfg1 : (docDeleteAt s i).cfg = s.cfg := congrArg MoveCore.cfg k1
  have d1 : (docDeleteAt s i).mDocument = linesDelete s.mDocument i 1 := congrArg MoveCore.doc k1
  have c1 : docCount (docDeleteAt s i) + 1 = docCount s := by
    unfold docCount at hi ⊢
    rw [d1]
    unfold linesDelete
    rw [if_neg (by omega)]
    simp only [List.length_append, List.length_take, List.length_drop]
    omega
  obtain ⟨k2, _⟩ := docInsert_core (docDeleteAt s i) j t (by omega) (by rw [cfg1]; exact hor)
  have e1 : (docDeleteAt s i).mCaretX = s.mCaretX := congrArg MoveCore.caretX k1
  have e2 : (docInsert (docDeleteAt s i) j t).mCaretX = (docDeleteAt s i).mCaretX :=
    congrArg MoveCore.caretX k2
  rw [e2, e1]

/-- The selection of a stream-mode editor begins no later than it ends. -/
theorem blockBegin_le_blockEnd (s : SynEdit)
    (hmode : s.mActiveSelectionMode = SynSelectionMode.smNormal) :
    (blockBegin s).Line ≤ (blockEnd s).Line
      ∧ ((blockBegin s).Line = (blockEnd s).Line → (blockBegin s).Char ≤ (blockEnd s).Char) := by
  have hcol : ¬ SynSelectionMode.smNormal = SynSelectionMode.smColumn := by decide
  unfold blockBegin blockEnd
  rw [hmode, if_neg hcol, if_neg hcol]
  split
  · rename_i h
    constructor
    · omega
    · intro h2
      omega
  · rename_i h
    constructor
    · omega
    · intro h2
      omega

/-- SynEdit::doMoveSelUp in stream mode with every fold open, on a writable
document, the selection below line 1 and inside the document: the line above
the selection goes below it, the caret goes to the first line of the moved
selection. -/
theorem doMoveSelUp_core (s : SynEdit)
    (hmode : s.mActiveSelectionMode = SynSelectionMode.smNormal) (hro : s.mReadOnly = false)
    (hopen : AllOpen s) (hor : rescanKeepsOpen s.cfg)
    (hb : 1 < (blockBegin s).Line) (he : (blockEnd s).Line ≤ docCount s) :
    moveCore (doMoveSelUp s)
      = { moveCore s with
          doc := linesInsert (linesDelete s.mDocument ((blockBegin s).Line - 2) 1)
            ((blockEnd s).Line - 1) [linesGet s.mDocument ((blockBegin s).Line - 2)]
          caretX := max (min s.mCaretX (qlen (linesGet
            (linesInsert (linesDelete s.mDocument ((blockBegin s).Line - 2) 1)
              ((blockEnd s).Line - 1) [linesGet s.mDocument ((blockBegin s).Line - 2)])
            ((blockBegin s).Line - 1 - 1)) + 1)) 1
          caretY := (blockBegin s).Line - 1
          blockBegin := ⟨min (blockBegin s).Char (qlen (linesGet
            (linesInsert (linesDelete s.mDocument ((blockBegin s).Line - 2) 1)
              ((blockEnd s).Line - 1) [linesGet s.mDocument ((blockBegin s).Line - 2)])
            ((blockBegin s).Line - 1 - 1)) + 1), (blockBegin s).Line - 1⟩
          blockEnd := ⟨min (blockEnd s).Char (qlen (linesGet
            (linesInsert (linesDelete s.mDocument ((blockBegin s).Line - 2) 1)
              ((blockEnd s).Line - 1) [linesGet s.mDocument ((blockBegin s).Line - 2)])
            ((blockEnd s).Line - 1 - 1)) + 1), (blockEnd s).Line - 1⟩ }
      ∧ AllOpen (doMoveSelUp s) := by
  have hle := (blockBegin_le_blockEnd s hmode).1
  have hcol : ¬ s.mActiveSelectionMode = SynSelectionMode.smColumn := by
    rw [hmode]
    decide
  have hfold := collapsedFoldAt_open s (blockEnd s).Line hopen
  obtain ⟨k0, a0⟩ := moveRecord_core s SynChangeReason.crMoveSelectionUp (blockBegin s)
    (blockEnd s)
  have heq : doMoveSelUp s = setCaretAndSelection
      (docInsert (docDeleteAt (if s.mUndoing = false then
        undoEndBlock (undoAddChange (undoAddChange (undoBeginBlock s) SynChangeReason.crCaret
          (caretXY (undoBeginBlock s)) (caretXY (undoBeginBlock s)) [] SynSelectionMode.smNormal)
          SynChangeReason.crMoveSelectionUp (blockBegin s) (blockEnd s) []
          SynSelectionMode.smNormal)
      else s) ((blockBegin s).Line - 2)) ((blockEnd s).Line - 1)
        (getString (if s.mUndoing = false then
        undoEndBlock (undoAddChange (undoAddChange (undoBeginBlock s) SynChangeReason.crCaret
          (caretXY (undoBeginBlock s)) (caretXY (undoBeginBlock s)) [] SynSelectionMode.smNormal)
          SynChangeReason.crMoveSelectionUp (blockBegin s) (blockEnd s) []
          SynSelectionMode.smNormal)
      else s) ((blockBegin s).Line - 2)))
      { Char := (docInsert (docDeleteAt (if s.mUndoing = false then
        undoEndBlock (undoAddChange (undoAddChange (undoBeginBlock s) SynChangeReason.crCaret
          (caretXY (undoBeginBlock s)) (caretXY (undoBeginBlock s)) [] SynSelectionMode.smNormal)
          SynChangeReason.crMoveSelectionUp (blockBegin s) (blockEnd s) []
          SynSelectionMode.smNormal)
      else s) ((blockBegin s).Line - 2)) ((blockEnd s).Line - 1)
        (getString (if s.mUndoing = false then
        undoEndBlock (undoAddChange (undoAddChange (undoBeginBlock s) SynChangeReason.crCaret
          (caretXY (undoBeginBlock s)) (caretXY (undoBeginBlock s)) [] SynSelectionMode.smNormal)
          SynChangeReason.crMoveSelectionUp (blockBegin s) (blockEnd s) []
          SynSelectionMode.smNormal)
      else s) ((blockBegin s).Line - 2))).mCaretX, Line := (blockBegin s).Line - 1 }
      { Char := (blockBegin s).Char, Line := (blockBegin s).Line - 1 }
      { Char := (blockEnd s).Char, Line := (blockEnd s).Line - 1 } := by
    unfold doMoveSelUp
    rw [if_neg hcol, if_pos ⟨hro, by omega, by omega⟩]
    simp only [hfold, Bool.false_eq_true, if_false]
  rw [heq]
  generalize (if s.mUndoing = false then
        undoEndBlock (undoAddChange (undoAddChange (undoBeginBlock s) SynChangeReason.crCaret
          (caretXY (undoBeginBlock s)) (caretXY (undoBeginBlock s)) [] SynSelectionMode.smNormal)
          SynChangeReason.crMoveSelectionUp (blockBegin s) (blockEnd s) []
          SynSelectionMode.smNormal)
      else s) = s1 at k0 a0 ⊢
  have d0 : s1.mDocument = s.mDocument := congrArg MoveCore.doc k0
  have m0 : s1.mActiveSelectionMode = SynSelectionMode.smNormal :=
    (congrArg MoveCore.mode k0).trans hmode
  have cfg0 : s1.cfg = s.cfg := congrArg MoveCore.cfg k0
  have x0 : s1.mCaretX = s.mCaretX := congrArg MoveCore.caretX k0
  have c0 : docCount s1 = docCount s := by
    unfold docCount
    rw [d0]
  have g0 : ∀ q, getString s1 q = linesGet s.mDocument q := by
    intro q
    unfold getString
    rw [d0]
  have o0 : AllOpen s1 := by
    unfold AllOpen
    rw [a0]
    exact hopen
  have hor0 : rescanKeepsOpen s1.cfg := by
    rw [cfg0]
    exact hor
  have hx := moveLine_caretX s1 ((blockBegin s).Line - 2) ((blockEnd s).Line - 1)
    (getString s1 ((blockBegin s).Line - 2)) hor0 (by omega) (by omega)
  obtain ⟨k, o⟩ := moveLine_core s1 ((blockBegin s).Line - 2) ((blockEnd s).Line - 1)
    { Char := (docInsert (docDeleteAt s1 ((blockBegin s).Line - 2)) ((blockEnd s).Line - 1)
        (getString s1 ((blockBegin s).Line - 2))).mCaretX, Line := (blockBegin s).Line - 1 }
    { Char := (blockBegin s).Char, Line := (blockBegin s).Line - 1 }
    { Char := (blockEnd s).Char, Line := (blockEnd s).Line - 1 }
    m0 o0 hor0 (by omega) (by omega) ⟨by show 1 ≤ (blockBegin s).Line - 1; omega,
      by show (blockBegin s).Line - 1 ≤ docCount s1; omega⟩
    ⟨by show 1 ≤ (blockBegin s).Line - 1; omega,
      by show (blockBegin s).Line - 1 ≤ docCount s1; omega⟩
    ⟨by show 1 ≤ (blockEnd s).Line - 1; omega,
      by show (blockEnd s).Line - 1 ≤ docCount s1; omega⟩ hx
  refine ⟨?_, o⟩
  rw [k, k0, d0, g0, x0]


/-- SynEdit::doMoveSelDown in stream mode with every fold open, on a writable
document, the selection inside the document and above its last line: the line
below the selection goes above it, the caret goes to the last line of the
moved selection. -/
theorem doMoveSelDown_core (s : SynEdit)
    (hmode : s.mActiveSelectionMode = SynSelectionMode.smNormal) (hro : s.mReadOnly = false)
    (hopen : AllOpen s) (hor : rescanKeepsOpen s.cfg)
    (hb : 1 ≤ (blockBegin s).Line) (he : (blockEnd s).Line < docCount s) :
    moveCore (doMoveSelDown s)
      = { moveCore s with
          doc := linesInsert (linesDelete s.mDocument (blockEnd s).Line 1)
            ((blockBegin s).Line - 1) [linesGet s.mDocument (blockEnd s).Line]
          caretX := max (min s.mCaretX (qlen (linesGet
            (linesInsert (linesDelete s.mDocument (blockEnd s).Line 1)
              ((blockBegin s).Line - 1) [linesGet s.mDocument (blockEnd s).Line])
            ((blockEnd s).Line + 1 - 1)) + 1)) 1
          caretY := (blockEnd s).Line + 1
          blockBegin := ⟨min (blockBegin s).Char (qlen (linesGet
            (linesInsert (linesDelete s.mDocument (blockEnd s).Line 1)
              ((blockBegin s).Line - 1) [linesGet s.mDocument (blockEnd s).Line])
            ((blockBegin s).Line + 1 - 1)) + 1), (blockBegin s).Line + 1⟩
          blockEnd := ⟨min (blockEnd s).Char (qlen (linesGet
            (linesInsert (linesDelete s.mDocument (blockEnd s).Line 1)
              ((blockBegin s).Line - 1) [linesGet s.mDocument (blockEnd s).Line])
            ((blockEnd s).Line + 1 - 1)) + 1), (blockEnd s).Line + 1⟩ }
      ∧ AllOpen (doMoveSelDown s) := by
  have hle := (blockBegin_le_blockEnd s hmode).1
  have hcol : ¬ s.mActiveSelectionMode = SynSelectionMode.smColumn := by
    rw [hmode]
    decide
  have hfold := collapsedFoldAt_open s (blockEnd s).Line hopen
  obtain ⟨k0, a0⟩ := moveRecord_core s SynChangeReason.crMoveSelectionDown (blockBegin s)
    (blockEnd s)
  have heq : doMoveSelDown s = setCaretAndSelection
      (docInsert (docDeleteAt (if s.mUndoing = false then
        undoEndBlock (undoAddChange (undoAddChange (undoBeginBlock s) SynChangeReason.crCaret
          (caretXY (undoBeginBlock s)) (caretXY (undoBeginBlock s)) [] SynSelectionMode.smNormal)
          SynChangeReason.crMoveSelectionDown (blockBegin s) (blockEnd s) []
          SynSelectionMode.smNormal)
      else s) (blockEnd s).Line) ((blockBegin s).Line - 1)
        (getString (if s.mUndoing = false then
        undoEndBlock (undoAddChange (undoAddChange (undoBeginBlock s) SynChangeReason.crCaret
          (caretXY (undoBeginBlock s)) (caretXY (undoBeginBlock s)) [] SynSelectionMode.smNormal)
          SynChangeReason.crMoveSelectionDown (blockBegin s) (blockEnd s) []
          SynSelectionMode.smNormal)
      else s) (blockEnd s).Line))
      { Char := (docInsert (docDeleteAt (if s.mUndoing = false then
        undoEndBlock (undoAddChange (undoAddChange (undoBeginBlock s) SynChangeReason.crCaret
          (caretXY (undoBeginBlock s)) (caretXY (undoBeginBlock s)) [] SynSelectionMode.smNormal)
          SynChangeReason.crMoveSelectionDown (blockBegin s) (blockEnd s) []
          SynSelectionMode.smNormal)
      else s) (blockEnd s).Line) ((blockBegin s).Line - 1)
        (getString (if s.mUndoing = false then
        undoEndBlock (undoAddChange (undoAddChange (undoBeginBlock s) SynChangeReason.crCaret
          (caretXY (undoBeginBlock s)) (caretXY (undoBeginBlock s)) [] SynSelectionMode.smNormal)
          SynChangeReason.crMoveSelectionDown (blockBegin s) (blockEnd s) []
          SynSelectionMode.smNormal)
      else s) (blockEnd s).Line)).mCaretX, Line := (blockEnd s).Line + 1 }
      { Char := (blockBegin s).Char, Line := (blockBegin s).Line + 1 }
      { Char := (blockEnd s).Char, Line := (blockEnd s).Line + 1 } := by
    unfold doMoveSelDown
    rw [if_neg hcol, if_pos ⟨hro, by omega, by omega⟩]
    simp only [hfold, Bool.false_eq_true, if_false]
  rw [heq]
  generalize (if s.mUndoing = false then
        undoEndBlock (undoAddChange (undoAddChange (undoBeginBlock s) SynChangeReason.crCaret
          (caretXY (undoBeginBlock s)) (caretXY (undoBeginBlock s)) [] SynSelectionMode.smNormal)
          SynChangeReason.crMoveSelectionDown (blockBegin s) (blockEnd s) []
          SynSelectionMode.smNormal)
      else s) = s1 at k0 a0 ⊢
  have d0 : s1.mDocument = s.mDocument := congrArg MoveCore.doc k0
  have m0 : s1.mActiveSelectionMode = SynSelectionMode.smNormal :=
    (congrArg MoveCore.mode k0).trans hmode
  have cfg0 : s1.cfg = s.cfg := congrArg MoveCore.cfg k0
  have x0 : s1.mCaretX = s.mCaretX := congrArg MoveCore.caretX k0
  have c0 : docCount s1 = docCount s := by
    unfold docCount
    rw [d0]
  have g0 : ∀ q, getString s1 q = linesGet s.mDocument q := by
    intro q
    unfold getString
    rw [d0]
  have o0 : AllOpen s1 := by
    unfold AllOpen
    rw [a0]
    exact hopen
  have hor0 : rescanKeepsOpen s1.cfg := by
    rw [cfg0]
    exact hor
  have hx := moveLine_caretX s1 (blockEnd s).Line ((blockBegin s).Line - 1)
    (getString s1 (blockEnd s).Line) hor0 (by omega) (by omega)
  obtain ⟨k, o⟩ := moveLine_core s1 (blockEnd s).Line ((blockBegin s).Line - 1)
    { Char := (docInsert (docDeleteAt s1 (blockEnd s).Line) ((blockBegin s).Line - 1)
        (getString s1 (blockEnd s).Line)).mCaretX, Line := (blockEnd s).Line + 1 }
    { Char := (blockBegin s).Char, Line := (blockBegin s).Line + 1 }
    { Char := (blockEnd s).Char, Line := (blockEnd s).Line + 1 }
    m0 o0 hor0 (by omega) (by omega) ⟨by show 1 ≤ (blockEnd s).Line + 1; omega,
      by show (blockEnd s).Line + 1 ≤ docCount s1; omega⟩
    ⟨by show 1 ≤ (blockBegin s).Line + 1; omega,
      by show (blockBegin s).Line + 1 ≤ docCount s1; omega⟩
    ⟨by show 1 ≤ (blockEnd s).Line + 1; omega,
      by show (blockEnd s).Line + 1 ≤ docCount s1; omega⟩ hx
  refine ⟨?_, o⟩
  rw [k, k0, d0, g0, x0]


/-- A document splits around the line above a block of lines b to e. -/
theorem lines_decompose (D : List QString) (b e : Int) (hb : 2 ≤ b) (hbe : b ≤ e)
    (he : e ≤ (D.length : Int)) :
    ∃ (P : List QString) (x : QString) (M R : List QString),
      D = P ++ x :: (M ++ R) ∧ (P.length : Int) = b - 2 ∧ (M.length : Int) = e - b + 1 := by
  obtain ⟨k, hk⟩ : ∃ k : Nat, (k : Int) = b - 2 := ⟨(b - 2).toNat, by omega⟩
  obtain ⟨m, hm⟩ : ∃ m : Nat, (m : Int) = e - b + 1 := ⟨(e - b + 1).toNat, by omega⟩
  have hkl : k < D.length := by omega
  refine ⟨D.take k, linesGet D (k : Int), (D.drop (k + 1)).take m, (D.drop (k + 1)).drop m,
    ?_, ?_, ?_⟩
  · rw [List.take_append_drop]
    exact lines_split D k hkl
  · rw [List.length_take]
    omega
  · rw [List.length_take, List.length_drop]
    omega

/-- Reading behind a prefix. -/
theorem linesGet_append_right (A B : List QString) (q : Int) (hq : 0 ≤ q) :
    linesGet (A ++ B) ((A.length : Int) + q) = linesGet B q := by
  obtain ⟨n, rfl⟩ := Int.eq_ofNat_of_zero_le hq
  unfold linesGet
  rw [if_neg (by omega), if_neg (by omega)]
  have e : ((A.length : Int) + (n : Int)).toNat = A.length + n := by omega
  rw [e]
  simp only [Int.toNat_ofNat, List.getD_eq_getElem?_getD,
    List.getElem?_append_right (Nat.le_add_right _ _), Nat.add_sub_cancel_left]

/-- Reading inside a prefix. -/
theorem linesGet_append_left (A B : List QString) (q : Int) (hq : q < (A.length : Int)) :
    linesGet (A ++ B) q = linesGet A q := by
  unfold linesGet
  split
  · rfl
  · have hlt : q.toNat < A.length := by omega
    simp only [List.getD_eq_getElem?_getD, List.getElem?_append_left hlt]

/-- The line above a block goes below it. -/
theorem move_up_lines (P : List QString) (x : QString) (M R : List QString) :
    linesInsert (linesDelete (P ++ x :: (M ++ R)) (P.length : Int) 1)
        (((P ++ M).length : Nat) : Int) [linesGet (P ++ x :: (M ++ R)) (P.length : Int)]
      = (P ++ M) ++ x :: R := by
  rw [linesDelete_at, linesGet_at, ← List.append_assoc, linesInsert_at]

/-- The line below a block goes above it. -/
theorem move_down_lines (P : List QString) (x : QString) (M R : List QString) :
    linesInsert (linesDelete ((P ++ M) ++ x :: R) (((P ++ M).length : Nat) : Int) 1)
        (P.length : Int) [linesGet ((P ++ M) ++ x :: R) (((P ++ M).length : Nat) : Int)]
      = P ++ x :: (M ++ R) := by
  rw [linesDelete_at, linesGet_at, List.append_assoc, linesInsert_at]

/-- A line of a block is read at one index less after the line above the block
went below it. -/
theorem moved_line_get (P : List QString) (x : QString) (M R : List QString) (q : Int)
    (hq : 0 ≤ q ∧ q < (M.length : Int)) :
    linesGet ((P ++ M) ++ x :: R) ((P.length : Int) + q)
      = linesGet (P ++ x :: (M ++ R)) ((P.length : Int) + 1 + q) := by
  have e1 : (P ++ M) ++ x :: R = P ++ (M ++ x :: R) := List.append_assoc _ _ _
  have e2 : P ++ x :: (M ++ R) = (P ++ [x]) ++ (M ++ R) := by simp
  have e3 : (P.length : Int) + 1 + q = (((P ++ [x]).length : Nat) : Int) + q := by simp
  rw [e1, linesGet_append_right P _ q hq.1, linesGet_append_left M _ q hq.2, e2, e3,
    linesGet_append_right (P ++ [x]) _ q hq.1, linesGet_append_left M _ q hq.2]

/-- The selection ends of a stream-mode editor whose stored ends are in
order. -/
theorem blockEnds_in_order (t : SynEdit) (X Y : BufferCoord)
    (hmode : t.mActiveSelectionMode = SynSelectionMode.smNormal) (hX : t.mBlockBegin = X)
    (hY : t.mBlockEnd = Y)
    (h : X.Line ≤ Y.Line ∧ (X.Line = Y.Line → X.Char ≤ Y.Char)) :
    blockBegin t = X ∧ blockEnd t = Y := by
  have hcol : ¬ SynSelectionMode.smNormal = SynSelectionMode.smColumn := by decide
  have hn : ¬ (Y.Line < X.Line ∨ (Y.Line = X.Line ∧ Y.Char < X.Char)) := by
    intro hh
    rcases hh with hh | ⟨h1, h2⟩
    · omega
    · have := h.2 h1.symm
      omega
  unfold blockBegin blockEnd
  rw [hmode, hX, hY, if_neg hcol, if_neg hcol, if_neg hn, if_neg hn]
  exact ⟨rfl, rfl⟩


/-- C36, amended: on a writable document in stream mode with every fold range
open (and a fold re-scan that collapses nothing), a selection over the lines
b to e with b > 1, e inside the document and both ends on their lines:
doMoveSelUp followed by doMoveSelDown puts back the lines of the document and
the begin and the end of the selection.  The caret ends on line e, the last
line of the selection, and its character is the old one cut first at the end
of line b and then at the end of line e; so the caret is put back when it
stood at the end of the selection and not behind the end of line b. -/
theorem C36_move_up_then_down_restores_selection (s : SynEdit)
    (hmode : s.mActiveSelectionMode = SynSelectionMode.smNormal) (hro : s.mReadOnly = false)
    (hopen : AllOpen s) (hor : rescanKeepsOpen s.cfg)
    (hb : 1 < (blockBegin s).Line) (he : (blockEnd s).Line ≤ docCount s)
    (hbc : (blockBegin s).Char ≤ qlen (getString s ((blockBegin s).Line - 1)) + 1)
    (hec : (blockEnd s).Char ≤ qlen (getString s ((blockEnd s).Line - 1)) + 1) :
    (doMoveSelDown (doMoveSelUp s)).mDocument = s.mDocument
    ∧ blockBegin (doMoveSelDown (doMoveSelUp s)) = blockBegin s
    ∧ blockEnd (doMoveSelDown (doMoveSelUp s)) = blockEnd s
    ∧ (doMoveSelDown (doMoveSelUp s)).mCaretY = (blockEnd s).Line
    ∧ (doMoveSelDown (doMoveSelUp s)).mCaretX
        = max (min (max (min s.mCaretX (qlen (getString s ((blockBegin s).Line - 1)) + 1)) 1)
            (qlen (getString s ((blockEnd s).Line - 1)) + 1)) 1
    ∧ (caretXY s = blockEnd s → 1 ≤ s.mCaretX →
        s.mCaretX ≤ qlen (getString s ((blockBegin s).Line - 1)) + 1 →
        caretXY (doMoveSelDown (doMoveSelUp s)) = caretXY s) := by
  obtain ⟨hle, hch⟩ := blockBegin_le_blockEnd s hmode
  obtain ⟨P, x, M, R, hD, hP, hM⟩ := lines_decompose s.mDocument (blockBegin s).Line
    (blockEnd s).Line (by omega) hle he
  have hPM : (((P ++ M).length : Nat) : Int) = (blockEnd s).Line - 1 := by
    rw [List.length_append]
    push_cast
    omega
  obtain ⟨ku, ou⟩ := doMoveSelUp_core s hmode hro hopen hor hb he
  have hU : linesInsert (linesDelete s.mDocument ((blockBegin s).Line - 2) 1)
      ((blockEnd s).Line - 1) [linesGet s.mDocument ((blockBegin s).Line - 2)]
      = (P ++ M) ++ x :: R := by
    rw [← hPM, ← hP, hD]
    exact move_up_lines P x M R
  have hg1 : linesGet ((P ++ M) ++ x :: R) ((blockBegin s).Line - 1 - 1)
      = getString s ((blockBegin s).Line - 1) := by
    have h := moved_line_get P x M R 0 ⟨le_refl _, by omega⟩
    have i1 : (blockBegin s).Line - 1 - 1 = (P.length : Int) + 0 := by omega
    have i2 : (blockBegin s).Line - 1 = (P.length : Int) + 1 + 0 := by omega
    unfold getString
    rw [i1, h, hD, ← i2]
  have hg2 : linesGet ((P ++ M) ++ x :: R) ((blockEnd s).Line - 1 - 1)
      = getString s ((blockEnd s).Line - 1) := by
    have h := moved_line_get P x M R ((M.length : Int) - 1) ⟨by omega, by omega⟩
    have i1 : (blockEnd s).Line - 1 - 1 = (P.length : Int) + ((M.length : Int) - 1) := by omega
    have i2 : (blockEnd s).Line - 1 = (P.length : Int) + 1 + ((M.length : Int) - 1) := by omega
    unfold getString
    rw [i1, h, hD, ← i2]
  rw [hU, hg1, hg2, min_eq_left hbc, min_eq_left hec] at ku
  have mu : (doMoveSelUp s).mActiveSelectionMode = SynSelectionMode.smNormal := by
    have e : (doMoveSelUp s).mActiveSelectionMode = s.mActiveSelectionMode :=
      congrArg MoveCore.mode ku
    rw [e, hmode]
  have ru : (doMoveSelUp s).mReadOnly = false := by
    have e : (doMoveSelUp s).mReadOnly = s.mReadOnly := congrArg MoveCore.readOnly ku
    rw [e, hro]
  have cfgu : (doMoveSelUp s).cfg = s.cfg := congrArg MoveCore.cfg ku
  have du : (doMoveSelUp s).mDocument = (P ++ M) ++ x :: R := congrArg MoveCore.doc ku
  have bbu : (doMoveSelUp s).mBlockBegin = ⟨(blockBegin s).Char, (blockBegin s).Line - 1⟩ :=
    congrArg MoveCore.blockBegin ku
  have beu : (doMoveSelUp s).mBlockEnd = ⟨(blockEnd s).Char, (blockEnd s).Line - 1⟩ :=
    congrArg MoveCore.blockEnd ku
  have xu : (doMoveSelUp s).mCaretX
      = max (min s.mCaretX (qlen (getString s ((blockBegin s).Line - 1)) + 1)) 1 :=
    congrArg MoveCore.caretX ku
  obtain ⟨hBu, hEu⟩ := blockEnds_in_order (doMoveSelUp s) _ _ mu bbu beu
    ⟨by show (blockBegin s).Line - 1 ≤ (blockEnd s).Line - 1; omega,
     fun h => hch (by
      have h2 : (blockBegin s).Line - 1 = (blockEnd s).Line - 1 := h
      omega)⟩
  have hBl : (blockBegin (doMoveSelUp s)).Line = (blockBegin s).Line - 1 := by rw [hBu]
  have hBc : (blockBegin (doMoveSelUp s)).Char = (blockBegin s).Char := by rw [hBu]
  have hEl : (blockEnd (doMoveSelUp s)).Line = (blockEnd s).Line - 1 := by rw [hEu]
  have hEc : (blockEnd (doMoveSelUp s)).Char = (blockEnd s).Char := by rw [hEu]
  have cu : docCount (doMoveSelUp s) = docCount s := by
    unfold docCount
    rw [du, hD]
    simp only [List.length_append, List.length_cons]
    omega
  have horu : rescanKeepsOpen (doMoveSelUp s).cfg := by
    rw [cfgu]
    exact hor
  obtain ⟨kd, _⟩ := doMoveSelDown_core (doMoveSelUp s) mu ru ou horu (by rw [hBl]; omega)
    (by rw [hEl, cu]; omega)
  have hV : linesInsert (linesDelete (doMoveSelUp s).mDocument (blockEnd (doMoveSelUp s)).Line 1)
      ((blockBegin (doMoveSelUp s)).Line - 1)
      [linesGet (doMoveSelUp s).mDocument (blockEnd (doMoveSelUp s)).Line] = s.mDocument := by
    have i1 : (blockBegin s).Line - 1 - 1 = (P.length : Int) := by omega
    rw [du, hEl, hBl, ← hPM, i1, hD]
    exact move_down_lines P x M R
  have j1 : (blockBegin s).Line - 1 + 1 - 1 = (blockBegin s).Line - 1 := by omega
  have j2 : (blockEnd s).Line - 1 + 1 - 1 = (blockEnd s).Line - 1 := by omega
  have j3 : (blockBegin s).Line - 1 + 1 = (blockBegin s).Line := by omega
  have j4 : (blockEnd s).Line - 1 + 1 = (blockEnd s).Line := by omega
  have gs : ∀ q, linesGet s.mDocument q = getString s q := fun _ => rfl
  rw [hV, hBl, hBc, hEl, hEc, xu, j1, j2, j3, j4, gs, gs, min_eq_left hbc, min_eq_left hec] at kd
  have md : (doMoveSelDown (doMoveSelUp s)).mActiveSelectionMode = SynSelectionMode.smNormal := by
    have e : (doMoveSelDown (doMoveSelUp s)).mActiveSelectionMode
        = (doMoveSelUp s).mActiveSelectionMode := congrArg MoveCore.mode kd
    rw [e, mu]
  have dd : (doMoveSelDown (doMoveSelUp s)).mDocument = s.mDocument := congrArg MoveCore.doc kd
  have bbd : (doMoveSelDown (doMoveSelUp s)).mBlockBegin
      = ⟨(blockBegin s).Char, (blockBegin s).Line⟩ := congrArg MoveCore.blockBegin kd
  have bed : (doMoveSelDown (doMoveSelUp s)).mBlockEnd
      = ⟨(blockEnd s).Char, (blockEnd s).Line⟩ := congrArg MoveCore.blockEnd kd
  have xd : (doMoveSelDown (doMoveSelUp s)).mCaretX
      = max (min (max (min s.mCaretX (qlen (getString s ((blockBegin s).Line - 1)) + 1)) 1)
          (qlen (getString s ((blockEnd s).Line - 1)) + 1)) 1 := congrArg MoveCore.caretX kd
  have yd : (doMoveSelDown (doMoveSelUp s)).mCaretY = (blockEnd s).Line :=
    congrArg MoveCore.caretY kd
  obtain ⟨hBd, hEd⟩ := blockEnds_in_order (doMoveSelDown (doMoveSelUp s)) (blockBegin s)
    (blockEnd s) md bbd bed ⟨hle, hch⟩
  refine ⟨dd, hBd, hEd, yd, xd, ?_⟩
  intro hcar h1 h2
  have hx : s.mCaretX = (blockEnd s).Char := congrArg BufferCoord.Char hcar
  have hy : s.mCaretY = (blockEnd s).Line := congrArg BufferCoord.Line hcar
  unfold caretXY
  rw [xd, yd, hy]
  have e : max (min (max (min s.mCaretX (qlen (getString s ((blockBegin s).Line - 1)) + 1)) 1)
      (qlen (getString s ((blockEnd s).Line - 1)) + 1)) 1 = s.mCaretX := by
    rw [← hx] at hec
    omega
  rw [e]

/-- C36 at work: on three lines with the lines 2 and 3 selected forwards, the
caret at the end of the selection, both moves together put back the lines,
the selection and the caret. -/
theorem C36_move_up_then_down_restores_selection_witness :
    caretXY forwardSelection = ⟨3, 3⟩
    ∧ caretXY (doMoveSelDown (doMoveSelUp forwardSelection)) = ⟨3, 3⟩
    ∧ (doMoveSelUp forwardSelection).mDocument = ["ab", "cd", "x"].map String.toList
    ∧ ((doMoveSelDown (doMoveSelUp forwardSelection)).mDocument = forwardSelection.mDocument
      ∧ blockBegin (doMoveSelDown (doMoveSelUp forwardSelection)) = blockBegin forwardSelection
      ∧ blockEnd (doMoveSelDown (doMoveSelUp forwardSelection)) = blockEnd forwardSelection
      ∧ (doMoveSelDown (doMoveSelUp forwardSelection)).mCaretY
          = (blockEnd forwardSelection).Line
      ∧ (doMoveSelDown (doMoveSelUp forwardSelection)).mCaretX
          = max (min (max (min forwardSelection.mCaretX
              (qlen (getString forwardSelection ((blockBegin forwardSelection).Line - 1)) + 1)) 1)
              (qlen (getString forwardSelection ((blockEnd forwardSelection).Line - 1)) + 1)) 1
      ∧ (caretXY forwardSelection = blockEnd forwardSelection → 1 ≤ forwardSelection.mCaretX →
          forwardSelection.mCaretX
            ≤ qlen (getString forwardSelection ((blockBegin forwardSelection).Line - 1)) + 1 →
          caretXY (doMoveSelDown (doMoveSelUp forwardSelection)) = caretXY forwardSelection)) :=
  ⟨by decide, by decide, by decide,
    C36_move_up_then_down_restores_selection forwardSelection (by decide) (by decide)
      (fun r hr => absurd hr (List.not_mem_nil r)) (fun _ _ _ h => h) (by decide) (by decide)
      (by decide) (by decide)⟩


/-! ### Columns below 1 -/

/-- C33 (amended): for a positive tab width and glyphs at least one column
wide, a display coordinate with a column of 0 or less whose row is mapped to a
line not past the last line of the document gives the buffer position that
column 1 of the same row gives, and its char is 1.  On a row that is mapped
past the last line the line is the same for both columns, and the char is the
column as it came in, so it stays below 1. -/
theorem C33_column_below_one_inside_document (s : SynEdit) (p : DisplayCoord)
    (htab : 0 < s.cfg.mTabWidth) (hglyph : ∀ ch, 1 ≤ s.cfg.charColumnsOf ch)
    (hcol : p.Column ≤ 0) :
    (displayToBufferPos s p).Line = (displayToBufferPos s { p with Column := 1 }).Line
    ∧ ((displayToBufferPos s p).Line ≤ docCount s →
        displayToBufferPos s p = displayToBufferPos s { p with Column := 1 }
        ∧ (displayToBufferPos s p).Char = 1)
    ∧ (docCount s < (displayToBufferPos s p).Line →
        (displayToBufferPos s p).Char = p.Column
        ∧ (displayToBufferPos s { p with Column := 1 }).Char = 1) := by
  have hloop : ∀ (k : Int) (D : QString), k ≤ 1 → columnToCharLoop s k D 0 0 = 0 := by
    intro k D hk
    cases D with
    | nil => rfl
    | cons c rest =>
      have := advanceColumn_gt s htab hglyph 0 c
      unfold columnToCharLoop
      simp only
      rw [if_pos (by omega)]
  refine ⟨rfl, fun hin => ?_, fun hout => ?_⟩
  · have hin2 : (if s.cfg.mUseCodeFolding = true then foldRowToLine s p.Row else p.Row)
        ≤ docCount s := hin
    unfold displayToBufferPos columnToChar
    simp only [if_pos hin2, hloop p.Column _ (by omega), hloop 1 _ (le_refl _)]
    exact ⟨trivial, rfl⟩
  · have hout2 : ¬ (if s.cfg.mUseCodeFolding = true then foldRowToLine s p.Row else p.Row)
        ≤ docCount s := not_le.mpr hout
    unfold displayToBufferPos
    simp only [if_neg hout2]
    exact ⟨trivial, trivial⟩

/-- C33 (witness): on the one line abcd the columns 0 and -3 of row 1 give the
position (1, 1), as column 1 does. -/
theorem C33_column_below_one_inside_document_witness :
    displayToBufferPos (sampleEditor ["abcd"] ⟨1, 1⟩) { Column := -3, Row := 1 } = ⟨1, 1⟩
    ∧ displayToBufferPos (sampleEditor ["abcd"] ⟨1, 1⟩) { Column := 0, Row := 1 }
        = displayToBufferPos (sampleEditor ["abcd"] ⟨1, 1⟩) { Column := 1, Row := 1 }
    ∧ (displayToBufferPos (sampleEditor ["abcd"] ⟨1, 1⟩) { Column := 0, Row := 1 }).Char = 1 :=
  ⟨by decide,
   ((C33_column_below_one_inside_document (sampleEditor ["abcd"] ⟨1, 1⟩)
      { Column := 0, Row := 1 } (by decide) (fun _ => le_refl _) (by decide)).2.1
      (by decide)).1,
   ((C33_column_below_one_inside_document (sampleEditor ["abcd"] ⟨1, 1⟩)
      { Column := 0, Row := 1 } (by decide) (fun _ => le_refl _) (by decide)).2.1
      (by decide)).2⟩


/-! ### The undo list across an edit -/

/-- A step that leaves the options, the replay flag and the undo list alone. -/
theorem UndoGrows.of_core {s t : SynEdit} (h : undoCore t = undoCore s) : UndoGrows s t := by
  unfold undoCore at h
  simp only [Prod.mk.injEq] at h
  obtain ⟨h1, h2, h3⟩ := h
  refine ⟨h1, h2, fun _ => by rw [h3], fun n hn => ?_, [], by rw [h3]; rfl, fun _ _ => rfl,
    fun _ _ i hi => absurd hi (List.not_mem_nil i)⟩
  rw [h3]
  exact ⟨hn.2.1, hn.2.2⟩

/-- A step that changes nothing. -/
theorem UndoGrows.same (s : SynEdit) : UndoGrows s s := UndoGrows.of_core rfl

/-- Inside an open block a step stays inside it. -/
theorem UndoGrows.inBlock {s t : SynEdit} (h : UndoGrows s t) (n : Int)
    (hn : InBlock n s.mUndoList) : InBlock n t.mUndoList := by
  have h3 := h.2.2.1 (by have := hn.1; omega)
  have h4 := h.2.2.2.1 n hn
  exact ⟨by rw [h3]; exact hn.1, h4.1, h4.2⟩

/-- One step after another. -/
theorem UndoGrows.andThen {s t u : SynEdit} (h1 : UndoGrows s t) (h2 : UndoGrows t u) :
    UndoGrows s u := by
  obtain ⟨a1, b1, c1, d1, add1, e1, f1, g1⟩ := h1
  have hin := fun n hn => UndoGrows.inBlock ⟨a1, b1, c1, d1, add1, e1, f1, g1⟩ n hn
  obtain ⟨a2, b2, c2, d2, add2, e2, f2, g2⟩ := h2
  refine ⟨a2.trans a1, b2.trans b1, fun h0 => ?_, fun n hn => d2 n (hin n hn),
    add2 ++ add1, ?_, fun hu hg => ?_, fun n hn i hi => ?_⟩
  · have := c1 h0
    rw [c2 (by omega), this]
  · rw [e2, e1, List.append_assoc]
  · rw [f1 hu hg, f2 (b1.trans hu) (by rw [a1]; exact hg)]
    rfl
  · rcases List.mem_append.mp hi with hi | hi
    · exact g2 n (hin n hn) i hi
    · exact g1 n hn i hi

/-- UndoGrows passes through a conditional. -/
theorem UndoGrows.ite {c : Prop} [Decidable c] {s a b : SynEdit} (ha : UndoGrows s a)
    (hb : UndoGrows s b) : UndoGrows s (if c then a else b) := by
  split
  · exact ha
  · exact hb

/-- The core passes through a conditional. -/
theorem undoCore_ite {c : Prop} [Decidable c] {s a b : SynEdit}
    (ha : undoCore a = undoCore s) (hb : undoCore b = undoCore s) :
    undoCore (if c then a else b) = undoCore s := by
  split
  · exact ha
  · exact hb

/-- Un-collapsing a range keeps the undo core. -/
theorem uncollapseAt_undoCore (s : SynEdit) (i : Nat) :
    undoCore (uncollapseAt s i) = undoCore s := by
  unfold uncollapseAt
  split <;> rfl

/-- Moving a range keeps the undo core. -/
theorem moveAt_undoCore (s : SynEdit) (i : Nat) (n : Int) :
    undoCore (moveAt s i n) = undoCore s := by
  unfold moveAt
  split <;> rfl

/-- The loop of foldOnListInserted keeps the undo core. -/
theorem foldOnListInsertedLoop_undoCore (Line Count : Int) (l : List Nat) (s : SynEdit) :
    undoCore (foldOnListInsertedLoop Line Count l s) = undoCore s :=
  foldOnListInsertedLoop_induct (fun t => undoCore t = undoCore s) Line Count l
    (fun t j _ _ ht _ _ _ => (uncollapseAt_undoCore t j).trans ht)
    (fun t j _ _ ht _ _ _ _ => (moveAt_undoCore t j Count).trans ht) s rfl

/-- foldOnListInserted keeps the undo core. -/
theorem foldOnListInserted_undoCore (s : SynEdit) (Line Count : Int) :
    undoCore (foldOnListInserted s Line Count) = undoCore s :=
  foldOnListInsertedLoop_undoCore Line Count _ s

/-- foldOnListDeleted keeps the undo core. -/
theorem foldOnListDeleted_undoCore (s : SynEdit) (Line Count : Int) :
    undoCore (foldOnListDeleted s Line Count) = undoCore s := by
  have h := foldOnListDeletedLoop_induct (fun t => undoCore t = undoCore s) Line Count
    s.mAllFoldRanges
    (fun t j _ _ ht _ _ _ => (uncollapseAt_undoCore t j).trans ht)
    (fun t j _ _ ht _ _ _ _ => (moveAt_undoCore t j (-Count)).trans ht) s rfl
  exact h

/-- A fold re-scan keeps the undo core. -/
theorem rescanFolds_undoCore (s : SynEdit) : undoCore (rescanFolds s) = undoCore s := by
  unfold rescanFolds
  split <;> rfl

/-- scanFrom keeps the undo core. -/
theorem scanFrom_undoCore (s : SynEdit) (i : Int) : undoCore (scanFrom s i) = undoCore s := by
  unfold scanFrom
  split
  · rfl
  · exact rescanFolds_undoCore s

/-- The lines-deleted slot keeps the undo core. -/
theorem onLinesDeleted_undoCore (s : SynEdit) (i n : Int) :
    undoCore (onLinesDeleted s i n) = undoCore s := by
  have h1 : undoCore (if s.cfg.hasHighlighter = true ∧ docCount s > 0 then scanFrom s i else s)
      = undoCore s := undoCore_ite (scanFrom_undoCore s i) rfl
  unfold onLinesDeleted
  exact undoCore_ite ((foldOnListDeleted_undoCore _ _ _).trans h1) h1

/-- The lines-inserted slot keeps the undo core. -/
theorem onLinesInserted_undoCore (s : SynEdit) (i n : Int) :
    undoCore (onLinesInserted s i n) = undoCore s := by
  have h1 : undoCore (if s.cfg.mUseCodeFolding = true then foldOnListInserted s (i + 1) n else s)
      = undoCore s := undoCore_ite (foldOnListInserted_undoCore s _ _) rfl
  unfold onLinesInserted
  exact undoCore_ite ((scanFrom_undoCore _ _).trans h1) h1

/-- The line-content-changed slot keeps the undo core. -/
theorem onLinesPutted_undoCore (s : SynEdit) (i : Int) :
    undoCore (onLinesPutted s i) = undoCore s := by
  unfold onLinesPutted
  exact undoCore_ite (scanFrom_undoCore s i) rfl

/-- Deleting lines keeps the undo core. -/
theorem docDeleteLines_undoCore (s : SynEdit) (i n : Int) :
    undoCore (docDeleteLines s i n) = undoCore s := by
  unfold docDeleteLines
  exact undoCore_ite rfl (onLinesDeleted_undoCore _ _ _)

/-- Deleting a line keeps the undo core. -/
theorem docDeleteAt_undoCore (s : SynEdit) (i : Int) :
    undoCore (docDeleteAt s i) = undoCore s := by
  unfold docDeleteAt
  exact undoCore_ite rfl (onLinesDeleted_undoCore _ _ _)

/-- Inserting empty lines keeps the undo core. -/
theorem docInsertLines_undoCore (s : SynEdit) (i n : Int) :
    undoCore (docInsertLines s i n) = undoCore s := by
  unfold docInsertLines
  exact undoCore_ite rfl (onLinesInserted_undoCore _ _ _)

/-- Inserting a line keeps the undo core. -/
theorem docInsert_undoCore (s : SynEdit) (i : Int) (t : QString) :
    undoCore (docInsert s i t) = undoCore s := by
  unfold docInsert
  exact undoCore_ite rfl (onLinesInserted_undoCore _ _ _)

/-- Appending a line keeps the undo core. -/
theorem docAdd_undoCore (s : SynEdit) (t : QString) : undoCore (docAdd s t) = undoCore s := by
  unfold docAdd
  exact onLinesInserted_undoCore _ _ _

/-- Writing a line keeps the undo core. -/
theorem docPutString_undoCore (s : SynEdit) (i : Int) (t : QString) (notify : Bool) :
    undoCore (docPutString s i t notify) = undoCore s := by
  unfold docPutString
  refine undoCore_ite (docAdd_undoCore s t) (undoCore_ite rfl ?_)
  simp only
  exact undoCore_ite (onLinesPutted_undoCore _ _) rfl

/-- The properSetLine routine keeps the undo core. -/
theorem properSetLine_undoCore (s : SynEdit) (i : Int) (t : QString) (notify : Bool) :
    undoCore (properSetLine s i t notify) = undoCore s := by
  unfold properSetLine
  exact undoCore_ite (docPutString_undoCore _ _ _ _) (docPutString_undoCore _ _ _ _)

/-- Setting the caret keeps the undo core. -/
theorem internalSetCaretXY_undoCore (s : SynEdit) (v : BufferCoord) :
    undoCore (internalSetCaretXY s v) = undoCore s := rfl

/-- Setting the begin of the block keeps the undo core. -/
theorem setBlockBegin_undoCore (s : SynEdit) (v : BufferCoord) :
    undoCore (setBlockBegin s v) = undoCore s := rfl

/-- Setting the end of the block keeps the undo core. -/
theorem setBlockEnd_undoCore (s : SynEdit) (v : BufferCoord) :
    undoCore (setBlockEnd s v) = undoCore s := rfl

/-- Setting caret and selection keeps the undo core. -/
theorem setCaretAndSelection_undoCore (s : SynEdit) (a b c : BufferCoord) :
    undoCore (setCaretAndSelection s a b c) = undoCore s := rfl

/-- The loop of the column-mode deletion keeps the undo core. -/
theorem deleteColumnsLoop_undoCore (c1 c2 : Int) (l : List Int) :
    ∀ s, undoCore (deleteColumnsLoop c1 c2 l s) = undoCore s := by
  induction l with
  | nil => intro s; rfl
  | cons i rest ih =>
    intro s
    unfold deleteColumnsLoop
    exact (ih _).trans (properSetLine_undoCore _ _ _ _)

/-- The mode switch of doDeleteText keeps the undo core. -/
theorem deleteTextBody_undoCore (s : SynEdit) (a b : BufferCoord) (mode : SynSelectionMode) :
    undoCore (deleteTextBody s a b mode) = undoCore s := by
  unfold deleteTextBody
  cases mode with
  | smNormal =>
    simp only
    refine undoCore_ite ?_ rfl
    exact (internalSetCaretXY_undoCore _ _).trans
      ((properSetLine_undoCore _ _ _ _).trans (docDeleteLines_undoCore _ _ _))
  | smColumn =>
    simp only
    exact (internalSetCaretXY_undoCore _ _).trans (deleteColumnsLoop_undoCore _ _ _ _)
  | smLine =>
    simp only
    refine (internalSetCaretXY_undoCore _ _).trans (undoCore_ite ?_ ?_)
    · exact (docDeleteLines_undoCore _ _ _).trans (docPutString_undoCore _ _ _ _)
    · exact docDeleteLines_undoCore _ _ _

/-- The loop of the stream insertion keeps the undo core. -/
theorem insertRestLoop_undoCore (pos : BufferCoord) (right : QString) (n : Int)
    (l : List QString) :
    ∀ (i : Int) (s : SynEdit) (str : QString),
      undoCore (insertRestLoop pos right n l i s str).1 = undoCore s := by
  induction l with
  | nil => intro i s str; rfl
  | cons t rest ih =>
    intro i s str
    unfold insertRestLoop
    exact (ih _ _ _).trans (properSetLine_undoCore _ _ _ _)

/-- The line writes of the stream insertion keep the undo core. -/
theorem insertNormalLines_undoCore (s : SynEdit) (pos : BufferCoord) (text : List QString) :
    undoCore (insertNormalLines s pos text).1 = undoCore s := by
  unfold insertNormalLines
  refine (insertRestLoop_undoCore _ _ _ _ _ _ _).trans ?_
  exact undoCore_ite ((docInsertLines_undoCore _ _ _).trans (properSetLine_undoCore _ _ _ _))
    (properSetLine_undoCore _ _ _ _)

/-- The loop of the whole-line insertion keeps the undo core. -/
theorem insertLineLoop_undoCore (l : List QString) :
    ∀ (s : SynEdit) (r : Int), undoCore (insertLineLoop l s r).1 = undoCore s := by
  induction l with
  | nil => intro s r; rfl
  | cons t rest ih =>
    intro s r
    unfold insertLineLoop
    refine (ih _ _).trans ((properSetLine_undoCore _ _ _ _).trans ?_)
    exact undoCore_ite (docInsert_undoCore _ _ _) rfl


/-- A step that pushes one item with AddChange, outside a replay with group
undo off, and leaves the block counters as AddChange leaves them. -/
theorem UndoGrows.push {s t : SynEdit} (reason : SynChangeReason) (a b : BufferCoord)
    (text : List QString) (mode : SynSelectionMode)
    (hcfg : t.cfg = s.cfg) (hund : t.mUndoing = s.mUndoing)
    (hbc : t.mUndoList.blockCount = s.mUndoList.blockCount)
    (hbcn : t.mUndoList.blockChangeNumber = s.mUndoList.blockChangeNumber)
    (hnext : t.mUndoList.nextChangeNumber
      = (s.mUndoList.AddChange reason a b text mode).nextChangeNumber)
    (hitems : t.mUndoList.items = (s.mUndoList.AddChange reason a b text mode).items)
    (hok : ¬ (s.mUndoing = true ∧ s.cfg.eoGroupUndo = false)) : UndoGrows s t := by
  refine ⟨hcfg, hund, fun _ => hbc, fun n hn => ?_, ?_⟩
  · refine ⟨hbcn.trans hn.2.1, ?_⟩
    rw [hnext]
    unfold SynEditUndoList.AddChange
    simp only
    rw [if_neg (by have := hn.1; omega)]
    exact hn.2.2
  · obtain ⟨item, hitem, hnum⟩ : ∃ item,
        (s.mUndoList.AddChange reason a b text mode).items = item :: s.mUndoList.items
        ∧ item.changeNumber = (if s.mUndoList.blockChangeNumber ≠ 0
            then s.mUndoList.blockChangeNumber else s.mUndoList.nextChangeNumber) :=
      ⟨_, rfl, rfl⟩
    refine ⟨[item], ?_, fun h1 h2 => absurd ⟨h1, h2⟩ hok, fun n hn i hi => ?_⟩
    · rw [hitems, hitem]
      rfl
    · simp only [List.mem_singleton] at hi
      rw [hi, hnum, hn.2.1, hn.2.2]
      split <;> rfl

/-- A step that keeps the undo core, taken after another step. -/
theorem UndoGrows.then_core {s x y : SynEdit} (h : UndoGrows s x)
    (hc : undoCore y = undoCore x) : UndoGrows s y := h.andThen (UndoGrows.of_core hc)

/-- SetModified pushes at most a group break, and that with group undo on
only. -/
theorem setModified_grows (s : SynEdit) (v : Bool) : UndoGrows s (setModified s v) := by
  unfold setModified
  split
  · by_cases hc : s.cfg.eoGroupUndo = true ∧ v = false ∧ s.mUndoList.items ≠ []
    · rw [if_pos hc]
      unfold SynEditUndoList.AddGroupBreak
      by_cases hb : s.mUndoList.LastChangeReason ≠ SynChangeReason.crGroupBreak
      · rw [if_pos hb]
        exact UndoGrows.push SynChangeReason.crGroupBreak ⟨0, 0⟩ ⟨0, 0⟩ []
          SynSelectionMode.smNormal rfl rfl rfl rfl rfl rfl
          (fun h => by rw [hc.1] at h; exact Bool.noConfusion h.2)
      · rw [if_neg hb]
        exact ⟨rfl, rfl, fun _ => rfl, fun n hn => ⟨hn.2.1, hn.2.2⟩, [], rfl, fun _ _ => rfl,
          fun _ _ i hi => absurd hi (List.not_mem_nil i)⟩
    · rw [if_neg hc]
      exact ⟨rfl, rfl, fun _ => rfl, fun n hn => ⟨hn.2.1, hn.2.2⟩, [], rfl, fun _ _ => rfl,
        fun _ _ i hi => absurd hi (List.not_mem_nil i)⟩
  · exact UndoGrows.same s

/-- The status update pushes at most a group break, and that with group undo
on only. -/
theorem updateModifiedStatus_grows (s : SynEdit) : UndoGrows s (updateModifiedStatus s) :=
  setModified_grows s _

/-- Recording a redo item pushes at most a group break onto the undo list. -/
theorem redoAddChange_grows (s : SynEdit) (reason : SynChangeReason) (a b : BufferCoord)
    (text : List QString) (mode : SynSelectionMode) :
    UndoGrows s (redoAddChange s reason a b text mode) := by
  unfold redoAddChange onRedoAdded
  exact (UndoGrows.of_core rfl).andThen (updateModifiedStatus_grows _)

/-- Recording an undo item outside a replay. -/
theorem undoAddChange_grows (s : SynEdit) (reason : SynChangeReason) (a b : BufferCoord)
    (text : List QString) (mode : SynSelectionMode) (hu : s.mUndoing = false) :
    UndoGrows s (undoAddChange s reason a b text mode) := by
  unfold undoAddChange onUndoAdded
  simp only
  have h1 : UndoGrows s { s with mUndoList := s.mUndoList.AddChange reason a b text mode } :=
    UndoGrows.push reason a b text mode rfl rfl rfl rfl rfl rfl
      (fun h => by rw [hu] at h; exact Bool.noConfusion h.1)
  have h2 := h1.andThen (updateModifiedStatus_grows _)
  split
  · split
    · exact h2.andThen (UndoGrows.of_core rfl)
    · exact h2
  · exact h2

/-- Recording an undo item when the state is not in a replay. -/
theorem UndoGrows.then_add {s x : SynEdit} (h : UndoGrows s x) (reason : SynChangeReason)
    (a b : BufferCoord) (text : List QString) (mode : SynSelectionMode) :
    UndoGrows s (if x.mUndoing = false then undoAddChange x reason a b text mode else x) := by
  split
  · rename_i hu
    exact h.andThen (undoAddChange_grows _ _ _ _ _ _ hu)
  · exact h

/-- Recording an undo item under a condition, when the state is not in a
replay. -/
theorem UndoGrows.then_add_when {s x : SynEdit} (h : UndoGrows s x) (c : Prop) [Decidable c]
    (reason : SynChangeReason) (a b : BufferCoord) (text : List QString)
    (mode : SynSelectionMode) :
    UndoGrows s (if c ∧ x.mUndoing = false then undoAddChange x reason a b text mode else x) := by
  split
  · rename_i hu
    exact h.andThen (undoAddChange_grows _ _ _ _ _ _ hu.2)
  · exact h

/-- EndBlock keeps the items. -/
theorem undoEndBlock_items (t : SynEdit) :
    (undoEndBlock t).mUndoList.items = t.mUndoList.items := by
  unfold undoEndBlock SynEditUndoList.EndBlock
  simp only
  split
  · split <;> rfl
  · rfl

/-- A step between BeginBlock and the EndBlock that closes it. -/
theorem UndoGrows.bracket {s t : SynEdit} (h : UndoGrows (undoBeginBlock s) t) :
    UndoGrows s (undoEndBlock t) := by
  obtain ⟨a, b, c, d, added, e, f, g⟩ := h
  have hin : ∀ n, InBlock n s.mUndoList → InBlock n (undoBeginBlock s).mUndoList := by
    intro n hn
    unfold undoBeginBlock SynEditUndoList.BeginBlock
    refine ⟨?_, hn.2.2, hn.2.2⟩
    show (1 : Int) ≤ s.mUndoList.blockCount + 1
    have := hn.1
    omega
  have hbc : (undoBeginBlock s).mUndoList.blockCount = s.mUndoList.blockCount + 1 := rfl
  refine ⟨a, b, fun h0 => ?_, fun n hn => ?_, added, (undoEndBlock_items t).trans e, f,
    fun n hn => g n (hin n hn)⟩
  · have hc := c (by rw [hbc]; omega)
    rw [hbc] at hc
    unfold undoEndBlock SynEditUndoList.EndBlock
    simp only
    rw [if_pos (by omega)]
    split
    · show (0 : Int) = _
      omega
    · show t.mUndoList.blockCount - 1 = _
      omega
  · have hc := c (by rw [hbc]; have := hn.1; omega)
    rw [hbc] at hc
    have hd := d n (hin n hn)
    unfold undoEndBlock SynEditUndoList.EndBlock
    simp only
    rw [if_pos (by have := hn.1; omega), if_neg (by have := hn.1; omega)]
    exact hd

/-- SynEdit::doDeleteText pushes its delete item outside a replay only. -/
theorem doDeleteText_grows (s : SynEdit) (a b : BufferCoord) (mode : SynSelectionMode) :
    UndoGrows s (doDeleteText s a b mode) := by
  unfold doDeleteText
  split
  · exact UndoGrows.same s
  · simp only
    exact UndoGrows.then_add (UndoGrows.of_core (deleteTextBody_undoCore s a _ mode)) _ _ _ _ _

/-- SynEdit::doInsertTextByNormalMode pushes its insert item outside a replay
only. -/
theorem doInsertTextByNormalMode_grows (s : SynEdit) (pos : BufferCoord)
    (text : List QString) : UndoGrows s (doInsertTextByNormalMode s pos text).state := by
  unfold doInsertTextByNormalMode
  simp only
  exact UndoGrows.then_add (UndoGrows.of_core
    ((onLinesPutted_undoCore _ _).trans (insertNormalLines_undoCore s pos text))) _ _ _ _ _

/-- The loop of the column-mode insertion pushes its items outside a replay
only. -/
theorem insertColumnLoop_grows (text : List QString) (insertCol endLine : Int) (fuel : Nat) :
    ∀ (line i : Int) (s : SynEdit) (result : Int),
      UndoGrows s (insertColumnLoop text insertCol endLine fuel line i s result).1 := by
  induction fuel with
  | zero => intro line i s result; exact UndoGrows.same s
  | succ fuel ih =>
    intro line i s result
    unfold insertColumnLoop
    split
    · simp only
      refine UndoGrows.andThen ?_ (ih _ _ _ _)
      refine UndoGrows.then_add ?_ _ _ _ _ _
      refine UndoGrows.then_core ?_ (properSetLine_undoCore _ _ _ _)
      refine UndoGrows.then_add_when ?_ _ _ _ _ _ _
      exact UndoGrows.ite (UndoGrows.of_core (docAdd_undoCore s [])) (UndoGrows.same s)
    · exact UndoGrows.same s


/-- SynEdit::doInsertTextByColumnMode pushes its items outside a replay only,
inside a block of its own. -/
theorem doInsertTextByColumnMode_grows (s : SynEdit) (pos : BufferCoord)
    (text : List QString) (startLine endLine : Int) :
    UndoGrows s (doInsertTextByColumnMode s pos text startLine endLine).state := by
  unfold doInsertTextByColumnMode
  simp only
  by_cases hu : s.mUndoing = false
  · rw [if_pos hu]
    have h := insertColumnLoop_grows text (bufferToDisplayPos s (caretXY s)).Column endLine
      (endLine - startLine + 1).toNat startLine 0 (undoBeginBlock s) 0
    rw [if_pos (h.2.1.trans hu)]
    exact UndoGrows.bracket h
  · rw [if_neg hu]
    have h := insertColumnLoop_grows text (bufferToDisplayPos s (caretXY s)).Column endLine
      (endLine - startLine + 1).toNat startLine 0 s 0
    rw [if_neg (by rw [h.2.1]; exact hu)]
    exact h

/-- SynEdit::doInsertTextByLineMode pushes its insert item outside a replay
only. -/
theorem doInsertTextByLineMode_grows (s : SynEdit) (pos : BufferCoord)
    (text : List QString) : UndoGrows s (doInsertTextByLineMode s pos text).state := by
  unfold doInsertTextByLineMode
  simp only
  exact UndoGrows.then_add (UndoGrows.of_core (insertLineLoop_undoCore text s 0)) _ _ _ _ _

/-- SynEdit::doInsertText pushes its items outside a replay only. -/
theorem doInsertText_grows (s : SynEdit) (pos : BufferCoord) (text : List QString)
    (mode : SynSelectionMode) (l1 l2 : Int) :
    UndoGrows s (doInsertText s pos text mode l1 l2) := by
  unfold doInsertText
  refine UndoGrows.ite (UndoGrows.same s) ?_
  simp only
  refine UndoGrows.ite (UndoGrows.same s) ?_
  refine UndoGrows.then_core ?_ (internalSetCaretXY_undoCore _ _)
  cases mode with
  | smNormal => exact doInsertTextByNormalMode_grows s pos text
  | smColumn => exact doInsertTextByColumnMode_grows s pos text _ _
  | smLine => exact doInsertTextByLineMode_grows s pos text

/-- The two items that the selection moves record, inside a block of their
own. -/
theorem moveRecord_grows (s : SynEdit) (reason : SynChangeReason) (a b : BufferCoord) :
    UndoGrows s
      (if s.mUndoing = false then
        undoEndBlock
          (undoAddChange
            (undoAddChange (undoBeginBlock s) SynChangeReason.crCaret (caretXY (undoBeginBlock s))
              (caretXY (undoBeginBlock s)) [] SynSelectionMode.smNormal)
            reason a b [] SynSelectionMode.smNormal)
      else s) := by
  split
  · rename_i hu
    apply UndoGrows.bracket
    have h1 := undoAddChange_grows (undoBeginBlock s) SynChangeReason.crCaret
      (caretXY (undoBeginBlock s)) (caretXY (undoBeginBlock s)) [] SynSelectionMode.smNormal hu
    exact h1.andThen (undoAddChange_grows _ _ _ _ _ _ (h1.2.1.trans hu))
  · exact UndoGrows.same s

/-- SynEdit::doMoveSelUp pushes its items outside a replay only. -/
theorem doMoveSelUp_grows (s : SynEdit) : UndoGrows s (doMoveSelUp s) := by
  unfold doMoveSelUp
  refine UndoGrows.ite (UndoGrows.same s) (UndoGrows.ite ?_ (UndoGrows.same s))
  simp only
  refine UndoGrows.ite (UndoGrows.same s) ?_
  refine UndoGrows.then_core ?_ (setCaretAndSelection_undoCore _ _ _ _)
  refine UndoGrows.then_core ?_ (docInsert_undoCore _ _ _)
  refine UndoGrows.then_core ?_ (docDeleteAt_undoCore _ _)
  exact moveRecord_grows s SynChangeReason.crMoveSelectionUp (blockBegin s) (blockEnd s)

/-- SynEdit::doMoveSelDown pushes its items outside a replay only. -/
theorem doMoveSelDown_grows (s : SynEdit) : UndoGrows s (doMoveSelDown s) := by
  unfold doMoveSelDown
  refine UndoGrows.ite (UndoGrows.same s) (UndoGrows.ite ?_ (UndoGrows.same s))
  simp only
  refine UndoGrows.ite (UndoGrows.same s) ?_
  refine UndoGrows.then_core ?_ (setCaretAndSelection_undoCore _ _ _ _)
  refine UndoGrows.then_core ?_ (docInsert_undoCore _ _ _)
  refine UndoGrows.then_core ?_ (docDeleteAt_undoCore _ _)
  exact moveRecord_grows s SynChangeReason.crMoveSelectionDown (blockBegin s) (blockEnd s)

/-- The switch of doUndoItem pushes onto the undo list what the steps it is
made of push. -/
theorem undoItemBody_grows (s : SynEdit) (Item : SynEditUndoItem) :
    UndoGrows s (undoItemBody s Item) := by
  unfold undoItemBody
  split
  · exact UndoGrows.then_core (redoAddChange_grows _ _ _ _ _ _) (internalSetCaretXY_undoCore _ _)
  · exact UndoGrows.then_core (redoAddChange_grows _ _ _ _ _ _) rfl
  · exact UndoGrows.then_core (redoAddChange_grows _ _ _ _ _ _)
      (setCaretAndSelection_undoCore _ _ _ _)
  · refine UndoGrows.then_core ?_ (internalSetCaretXY_undoCore _ _)
    exact (doDeleteText_grows _ _ _ _).andThen (redoAddChange_grows _ _ _ _ _ _)
  · refine UndoGrows.andThen ?_ (redoAddChange_grows _ _ _ _ _ _)
    exact UndoGrows.andThen (UndoGrows.of_core rfl) (doMoveSelDown_grows _)
  · refine UndoGrows.andThen ?_ (redoAddChange_grows _ _ _ _ _ _)
    exact UndoGrows.andThen (UndoGrows.of_core rfl) (doMoveSelUp_grows _)
  · refine UndoGrows.andThen ?_ (redoAddChange_grows _ _ _ _ _ _)
    exact UndoGrows.then_core (doInsertText_grows _ _ _ _ _ _) (internalSetCaretXY_undoCore _ _)
  · refine UndoGrows.andThen ?_ (redoAddChange_grows _ _ _ _ _ _)
    simp only
    refine UndoGrows.ite ?_ (UndoGrows.of_core rfl)
    exact UndoGrows.of_core ((docDeleteAt_undoCore _ _).trans (properSetLine_undoCore _ _ _ _))
  · exact UndoGrows.same s

/-- SynEdit::doUndoItem with group undo off pops the newest item of the undo
list and leaves the other items and the options as they are. -/
theorem doUndoItem_pops (s : SynEdit) (hg : s.cfg.eoGroupUndo = false) :
    (doUndoItem s).mUndoList.items = s.mUndoList.items.tail
    ∧ (doUndoItem s).cfg = s.cfg := by
  unfold doUndoItem
  split
  · rename_i h
    rw [h]
    exact ⟨rfl, rfl⟩
  · rename_i Item rest h
    unfold undoItemWith
    simp only
    have hb := undoItemBody_grows
      { setActiveSelectionMode
          { s with mUndoList := s.mUndoList.PopItem, mUndoing := true } Item.changeSelMode with
        eoScrollPastEol := true } Item
    obtain ⟨a, _, _, _, added, e, f, _⟩ := hb
    have hnil := f rfl hg
    subst hnil
    exact ⟨e, a⟩

/-- SynEdit::setSelTextPrimitiveEx pushes its items outside a replay only;
the block it opens it closes. -/
theorem setSelTextPrimitiveEx_grows (s : SynEdit) (mode : SynSelectionMode)
    (text : List QString) : UndoGrows s (setSelTextPrimitiveEx s mode text) := by
  have hins : ∀ x : SynEdit, UndoGrows x
      (if text ≠ [] then
        doInsertText x (caretXY x) text mode x.mBlockBegin.Line x.mBlockEnd.Line
      else x) := fun x => UndoGrows.ite (doInsertText_grows _ _ _ _ _ _) (UndoGrows.same x)
  have hdel : ∀ x : SynEdit, UndoGrows x
      (if mode = SynSelectionMode.smColumn then
        if charToColumn (doDeleteText x (blockBegin s) (blockEnd s) x.mActiveSelectionMode)
              (blockBegin s).Line (blockBegin s).Char
            < charToColumn (doDeleteText x (blockBegin s) (blockEnd s) x.mActiveSelectionMode)
              (blockEnd s).Line (blockEnd s).Char then
          internalSetCaretXY (doDeleteText x (blockBegin s) (blockEnd s) x.mActiveSelectionMode)
            (blockBegin s)
        else internalSetCaretXY
          (doDeleteText x (blockBegin s) (blockEnd s) x.mActiveSelectionMode) (blockEnd s)
      else internalSetCaretXY
        (doDeleteText x (blockBegin s) (blockEnd s) x.mActiveSelectionMode) (blockBegin s)) :=
    fun x => UndoGrows.ite
      (UndoGrows.ite
        (UndoGrows.then_core (doDeleteText_grows _ _ _ _) (internalSetCaretXY_undoCore _ _))
        (UndoGrows.then_core (doDeleteText_grows _ _ _ _) (internalSetCaretXY_undoCore _ _)))
      (UndoGrows.then_core (doDeleteText_grows _ _ _ _) (internalSetCaretXY_undoCore _ _))
  unfold setSelTextPrimitiveEx
  simp only
  by_cases hsel : selAvail s = true
  · by_cases hg : (selAvail s && !s.mUndoing && decide (text ≠ [])) = true
    · rw [if_pos hsel, if_pos hg, if_pos hg]
      apply UndoGrows.bracket
      exact (hdel (undoBeginBlock s)).andThen (hins _)
    · rw [if_pos hsel, if_neg hg, if_neg hg]
      exact (hdel s).andThen (hins _)
  · have hg : ¬ (selAvail s && !s.mUndoing && decide (text ≠ [])) = true := by
      intro h
      simp only [Bool.and_eq_true] at h
      exact hsel h.1.1
    rw [if_neg hsel, if_neg hg]
    exact hins s

/-- SynEdit::doSetSelText pushes its items outside a replay only; the block it
opens it closes. -/
theorem doSetSelText_grows (s : SynEdit) (value : QString) :
    UndoGrows s (doSetSelText s value) := by
  unfold doSetSelText setSelTextPrimitive
  simp only
  by_cases hsel : selAvail s = true
  · rw [if_pos hsel, if_pos hsel]
    apply UndoGrows.bracket
    exact UndoGrows.andThen (UndoGrows.of_core rfl) (setSelTextPrimitiveEx_grows _ _ _)
  · rw [if_neg hsel, if_neg hsel]
    exact UndoGrows.andThen (UndoGrows.of_core rfl) (setSelTextPrimitiveEx_grows _ _ _)


/-! ### One doUndo with group undo off -/

/-- The do-while loop of doUndo with group undo off and fuel for every item:
it pops the newest item and then every item of the old change number that
follows. -/
theorem undoLoop_items (Old : Int) :
    ∀ (fuel : Nat) (reason : SynChangeReason) (s : SynEdit), s.cfg.eoGroupUndo = false →
      s.mUndoList.items.length < fuel →
      (undoLoop Old fuel reason s).mUndoList.items
        = s.mUndoList.items.tail.dropWhile (fun j => decide (j.changeNumber = Old)) := by
  intro fuel
  induction fuel with
  | zero =>
    intro reason s _ hlen
    exact absurd hlen (Nat.not_lt_zero _)
  | succ fuel ih =>
    intro reason s hg hlen
    have hp := doUndoItem_pops s hg
    unfold undoLoop
    simp only
    cases hpeek : (doUndoItem s).mUndoList.PeekItem with
    | none =>
      simp only
      unfold SynEditUndoList.PeekItem at hpeek
      rw [hp.1] at hpeek ⊢
      cases htail : s.mUndoList.items.tail with
      | nil => rfl
      | cons a b =>
        rw [htail] at hpeek
        exact absurd hpeek (by simp)
    | some Item =>
      simp only
      unfold SynEditUndoList.PeekItem at hpeek
      rw [hp.1] at hpeek
      cases htail : s.mUndoList.items.tail with
      | nil =>
        rw [htail] at hpeek
        exact absurd hpeek (by simp)
      | cons a b =>
        rw [htail] at hpeek
        simp only [List.head?_cons, Option.some.injEq] at hpeek
        subst hpeek
        have hg1 : (doUndoItem s).cfg.eoGroupUndo = false := by rw [hp.2]; exact hg
        have hlen1 : (doUndoItem s).mUndoList.items.length < fuel := by
          rw [hp.1, htail]
          have : s.mUndoList.items.length = (a :: b).length + 1 := by
            rw [← htail, List.length_tail]
            have h0 : s.mUndoList.items ≠ [] := by
              intro h
              rw [h] at htail
              exact absurd htail (by simp)
            have := List.length_pos.mpr h0
            omega
          omega
        by_cases hnum : a.changeNumber = Old
        · rw [if_pos (Or.inl hnum), ih _ _ hg1 hlen1, hp.1, htail]
          simp only [List.tail_cons]
          rw [List.dropWhile_cons_of_pos (by simpa using hnum)]
        · rw [if_neg (by
            rintro (h | h)
            · exact hnum h
            · rw [hg1] at h
              exact Bool.noConfusion h.1)]
          rw [hp.1, htail, List.dropWhile_cons_of_neg (by simpa using hnum)]

/-- The count of the items with a property does not change when a leading run
of items without the property is dropped. -/
theorem countP_dropWhile_other (p q : SynEditUndoItem → Bool)
    (h : ∀ i, p i = true → q i = false) :
    ∀ l : List SynEditUndoItem, (l.dropWhile p).countP q = l.countP q := by
  intro l
  induction l with
  | nil => rfl
  | cons a b ih =>
    by_cases hp : p a = true
    · rw [List.dropWhile_cons_of_pos hp, ih, List.countP_cons_of_neg]
      rw [h a hp]
      exact Bool.false_ne_true
    · rw [List.dropWhile_cons_of_neg hp]

/-- The contiguity of the groups of a list, by its first item. -/
theorem groupsContiguous_cons (i : SynEditUndoItem) (rest : List SynEditUndoItem) :
    groupsContiguous (i :: rest) = true
      ↔ (rest.dropWhile (fun j => decide (j.changeNumber = i.changeNumber))).all
            (fun j => decide (j.changeNumber ≠ i.changeNumber)) = true
          ∧ groupsContiguous rest = true := by
  rw [groupsContiguous, Bool.and_eq_true]

/-- On a list whose groups are contiguous, behind the run of the items that
share the number of the first item no item of that number is left, and every
other number has all its items. -/
theorem groupSize_after_run (x : SynEditUndoItem) (r : List SynEditUndoItem)
    (hc : groupsContiguous (x :: r) = true) (n : Int) :
    (n = x.changeNumber →
      groupSize n (r.dropWhile (fun j => decide (j.changeNumber = x.changeNumber))) = 0)
    ∧ (n ≠ x.changeNumber →
      groupSize n (r.dropWhile (fun j => decide (j.changeNumber = x.changeNumber)))
        = groupSize n (x :: r)) := by
  have hc := (groupsContiguous_cons x r).mp hc
  constructor
  · intro hn
    subst hn
    unfold groupSize
    rw [List.countP_eq_zero]
    intro i hi
    have := List.all_eq_true.mp hc.1 i hi
    simpa using this
  · intro hn
    unfold groupSize
    rw [countP_dropWhile_other _ _ (fun i hi => by
      simp only [decide_eq_true_eq] at hi
      simp only [decide_eq_false_iff_not]
      rw [hi]
      exact fun h => hn h.symm), List.countP_cons_of_neg]
    simp only [decide_eq_true_eq]
    exact fun h => hn h.symm

/-- What one doUndo leaves of the undo list with group undo off, when the two
newest items are not both group breaks: a leading group break is popped, then
the newest item and every item of its change number that follows. -/
theorem doUndo_items (s : SynEdit) (hro : s.mReadOnly = false)
    (hg : s.cfg.eoGroupUndo = false) (hb : doubleBreakOnTop s.mUndoList.items = false) :
    (doUndo s).mUndoList.items
      = match s.mUndoList.items with
        | [] => []
        | top :: rest =>
          if top.changeReason = SynChangeReason.crGroupBreak then
            match rest with
            | [] => []
            | x :: r => r.dropWhile (fun j => decide (j.changeNumber = x.changeNumber))
          else rest.dropWhile (fun j => decide (j.changeNumber = top.changeNumber)) := by
  unfold doUndo
  rw [hro]
  simp only [Bool.false_eq_true, if_false]
  cases hitems : s.mUndoList.items with
  | nil =>
    simp only
    unfold SynEditUndoList.PeekItem
    rw [hitems]
    simp only [List.head?_nil]
    exact hitems
  | cons top rest =>
    simp only
    by_cases htop : top.changeReason = SynChangeReason.crGroupBreak
    · rw [if_pos htop, if_pos htop]
      cases hrest : rest with
      | nil =>
        simp only
        unfold SynEditUndoList.PeekItem SynEditUndoList.PopItem
        simp only [hitems, hrest, List.tail_cons, List.head?_nil]
      | cons x r =>
        have hx : x.changeReason ≠ SynChangeReason.crGroupBreak := by
          intro h
          rw [hitems, hrest] at hb
          unfold doubleBreakOnTop at hb
          simp only [decide_eq_false_iff_not] at hb
          exact hb ⟨htop, h⟩
        simp only
        unfold SynEditUndoList.PeekItem SynEditUndoList.PopItem
        simp only [hitems, hrest, List.tail_cons, List.head?_cons]
        unfold SynEditUndoList.LastChangeReason
        simp only
        rw [if_neg hx]
        refine (undoLoop_items x.changeNumber _ _ _ ?_ ?_).trans ?_
        · exact hg
        · simp
        · rfl
    · rw [if_neg htop, if_neg htop]
      unfold SynEditUndoList.PeekItem
      simp only [hitems, List.head?_cons]
      unfold SynEditUndoList.LastChangeReason
      simp only [hitems]
      rw [if_neg htop]
      refine (undoLoop_items top.changeNumber _ _ _ ?_ ?_).trans ?_
      · exact hg
      · simp [hitems]
      · simp only [hitems, List.tail_cons]

/-- With group undo off and a group break directly on a group break at the top
of the undo list, one doUndo pops both breaks and one of the two items of
group 1. -/
theorem doUndo_double_break_splits_group :
    doubleBreakEditor.cfg.eoGroupUndo = false
    ∧ groupsContiguous doubleBreakEditor.mUndoList.items = true
    ∧ doubleBreakOnTop doubleBreakEditor.mUndoList.items = true
    ∧ groupTags doubleBreakEditor.mUndoList
      = [(3, SynChangeReason.crGroupBreak), (2, SynChangeReason.crGroupBreak),
         (1, SynChangeReason.crCaret), (1, SynChangeReason.crCaret)]
    ∧ groupTags (doUndo doubleBreakEditor).mUndoList = [(1, SynChangeReason.crCaret)] := by
  decide


/-! ### The undo block of a batch replacement -/

/-- A step taken under other options that agree on group undo, the options
being put back afterwards. -/
theorem UndoGrows.with_cfg {s y : SynEdit} (c c2 : SynEditConfig)
    (hc : c.eoGroupUndo = s.cfg.eoGroupUndo) (h : UndoGrows { s with cfg := c } y)
    (hc2 : c2 = s.cfg) : UndoGrows s { y with cfg := c2 } := by
  obtain ⟨_, b, c1, d, added, e, f, g⟩ := h
  exact ⟨hc2, b, c1, d, added, e, fun hu hg => f hu (hc.trans hg), g⟩

/-- Putting auto-indent back gives the options as they were before it was
switched off. -/
theorem cfg_restore (e x0 : SynEdit) (h : e.cfg = { x0.cfg with eoAutoIndent := false }) :
    { e.cfg with eoAutoIndent := x0.cfg.eoAutoIndent } = x0.cfg := by
  rw [h]

/-- The editor after the replacement of a match: the state that doSetSelText
and the caret and block updates leave, reached with auto-indent off, and then
auto-indent put back. -/
theorem searchDoReplace_ed (b : Bool) (st : SearchRun) (txt : QString) (f n off : Int)
    (ed0 : SynEdit)
    (h0 : ed0 = if (!st.dobatchReplace
        && decide (st.searchAction = SynSearchAction.ReplaceAll)) = true
      then undoBeginBlock st.ed else st.ed) :
    ∃ ed3 : SynEdit,
      UndoGrows { ed0 with cfg := { ed0.cfg with eoAutoIndent := false } } ed3
      ∧ (searchDoReplace b st txt f n off).1.ed
          = { ed3 with cfg := { ed3.cfg with eoAutoIndent := ed0.cfg.eoAutoIndent } } := by
  subst h0
  have h1 := fun x : SynEdit => doSetSelText_grows x txt
  refine ⟨_, ?_, rfl⟩
  refine UndoGrows.ite (UndoGrows.then_core ?_ (setBlockEnd_undoCore _ _)) ?_
  · exact UndoGrows.ite (h1 _) (UndoGrows.then_core (h1 _) (internalSetCaretXY_undoCore _ _))
  · exact UndoGrows.ite (h1 _) (UndoGrows.then_core (h1 _) (internalSetCaretXY_undoCore _ _))

/-- The replacement of a match pushes its items on top of the undo list as it
is after the BeginBlock of an opening batch. -/
theorem searchDoReplace_grows (b : Bool) (st : SearchRun) (txt : QString) (f n off : Int) :
    UndoGrows
      (if (!st.dobatchReplace && decide (st.searchAction = SynSearchAction.ReplaceAll)) = true
        then undoBeginBlock st.ed else st.ed)
      (searchDoReplace b st txt f n off).1.ed := by
  generalize hed : (if (!st.dobatchReplace
      && decide (st.searchAction = SynSearchAction.ReplaceAll)) = true
    then undoBeginBlock st.ed else st.ed) = ed0
  obtain ⟨ed3, hg, he⟩ := searchDoReplace_ed b st txt f n off ed0 hed.symm
  rw [he]
  exact UndoGrows.with_cfg { ed0.cfg with eoAutoIndent := false } _ rfl hg
    (cfg_restore ed3 ed0 hg.1)

/-- The selection of a match keeps the undo core. -/
theorem searchSelect_undoCore (opts : SynSearchOptions) (st : SearchRun) (f n : Int) :
    undoCore (searchSelect opts st f n).ed = undoCore st.ed := by
  unfold searchSelect
  simp only
  split <;> rfl

/-- The decision callback does not touch the editor or the batch flag. -/
theorem searchAsk_ed
    (cb : Option (Nat → QString → QString → Int → Int → Int → SynSearchAction))
    (sSearch txt : QString) (st : SearchRun) (f n : Int) :
    (searchAsk cb sSearch txt st f n).ed = st.ed
    ∧ (searchAsk cb sSearch txt st f n).dobatchReplace = st.dobatchReplace := by
  unfold searchAsk
  split
  · split <;> exact ⟨rfl, rfl⟩
  · exact ⟨rfl, rfl⟩

/-- Inside a batch the decision callback is not called. -/
theorem searchAsk_in_batch
    (cb : Option (Nat → QString → QString → Int → Int → Int → SynSearchAction))
    (sSearch txt : QString) (st : SearchRun) (f n : Int) (hb : st.dobatchReplace = true) :
    searchAsk cb sSearch txt st f n = st := by
  unfold searchAsk
  split
  · rw [if_neg (by rw [hb]; exact Bool.noConfusion)]
  · rfl

/-- A round over a match asks for a return at once only when the last answer
is Exit. -/
theorem searchMatch_flag (eng : SynSearchBase)
    (cb : Option (Nat → QString → QString → Int → Int → Int → SynSearchAction))
    (opts : SynSearchOptions) (sSearch sReplace : QString) (st : SearchRun) (off : Int)
    (m : Int × Int) (h : (searchMatch eng cb opts sSearch sReplace st off m).2.2 = true) :
    (searchMatch eng cb opts sSearch sReplace st off m).1.searchAction
      = SynSearchAction.Exit := by
  unfold searchMatch at h ⊢
  simp only at h ⊢
  split at h
  · exact absurd h Bool.noConfusion
  · rename_i hf
    rw [if_neg hf]
    split at h
    · rename_i hx
      rw [hx]
    · exact absurd h Bool.noConfusion
    · exact absurd h Bool.noConfusion

/-- The rounds over the matches of a line ask for a return at once only when
the last answer is Exit. -/
theorem searchLine_flag (eng : SynSearchBase)
    (cb : Option (Nat → QString → QString → Int → Int → Int → SynSearchAction))
    (opts : SynSearchOptions) (sSearch sReplace : QString) :
    ∀ (order : List (Int × Int)) (st : SearchRun) (off : Int),
      (searchLine eng cb opts sSearch sReplace order st off).2 = true →
      (searchLine eng cb opts sSearch sReplace order st off).1.searchAction
        = SynSearchAction.Exit := by
  intro order
  induction order with
  | nil =>
    intro st off h
    exact absurd h Bool.noConfusion
  | cons m rest ih =>
    intro st off h
    unfold searchLine at h ⊢
    simp only at h ⊢
    split
    · rename_i hflag
      exact searchMatch_flag eng cb opts sSearch sReplace st off m hflag
    · rename_i hflag
      rw [if_neg hflag] at h
      exact ih _ _ h

/-- The line loop ends with the current line outside the range, or with the
answer Exit. -/
theorem searchLoop_ends (eng : SynSearchBase)
    (cb : Option (Nat → QString → QString → Int → Int → Int → SynSearchAction))
    (confirm : Option Bool) (opts : SynSearchOptions) (sSearch sReplace : QString)
    (origin : BufferCoord) :
    ∀ (fuel : Nat) (st out : SearchRun),
      searchLoop eng cb confirm opts sSearch sReplace origin fuel st = some out →
      (out.ptCurrent.Line < out.ptStart.Line ∨ out.ptCurrent.Line > out.ptEnd.Line)
      ∨ out.searchAction = SynSearchAction.Exit := by
  intro fuel
  induction fuel with
  | zero =>
    intro st out h
    simp [searchLoop] at h
  | succ fuel ih =>
    intro st out h
    rw [searchLoop_succ] at h
    split at h
    · split at h
      · rename_i hflag
        simp only [Option.some.injEq] at h
        rw [← h]
        right
        unfold searchCurrentLine at hflag ⊢
        exact searchLine_flag eng cb opts sSearch sReplace _ _ _ hflag
      · split at h
        · rename_i hw
          split at h
          · simp only [Option.some.injEq] at h
            rw [← h]
            exact Or.inl hw.1
          · exact ih _ out h
        · exact ih _ out h
    · rename_i hin
      simp only [Option.some.injEq] at h
      rw [← h]
      left
      omega

/-- Inside a batch a round over a match is: the range filter, the selection of
the match, its replacement; the callback is not asked and the round never asks
for a return. -/
theorem searchMatch_in_batch (eng : SynSearchBase)
    (cb : Option (Nat → QString → QString → Int → Int → Int → SynSearchAction))
    (opts : SynSearchOptions) (sSearch sReplace : QString) (st : SearchRun) (off : Int)
    (m : Int × Int) (hb : st.dobatchReplace = true)
    (ha : st.searchAction = SynSearchAction.ReplaceAll) :
    searchMatch eng cb opts sSearch sReplace st off m
      = if isInValidSearchRange st opts (m.1 + 1 + off) (m.1 + 1 + off + m.2) = false then
          (st, off, false)
        else
          ((searchDoReplace opts.ssoBackwards (searchSelect opts st (m.1 + 1 + off) m.2)
              (eng.replace (selText (searchSelect opts st (m.1 + 1 + off) m.2).ed) sReplace)
              (m.1 + 1 + off) m.2 off).1,
           (searchDoReplace opts.ssoBackwards (searchSelect opts st (m.1 + 1 + off) m.2)
              (eng.replace (selText (searchSelect opts st (m.1 + 1 + off) m.2).ed) sReplace)
              (m.1 + 1 + off) m.2 off).2,
           false) := by
  unfold searchMatch
  simp only
  split
  · rfl
  · rw [searchAsk_in_batch cb sSearch _ (searchSelect opts st (m.1 + 1 + off) m.2) _ _ hb]
    have ha1 : (searchSelect opts st (m.1 + 1 + off) m.2).searchAction
        = SynSearchAction.ReplaceAll := ha
    split
    · rename_i hx
      rw [ha1] at hx
      exact SynSearchAction.noConfusion hx
    · rename_i hx
      rw [ha1] at hx
      exact SynSearchAction.noConfusion hx
    · rfl

/-- A state of the batch stays one over a step that keeps the batch flag and
the answer and pushes onto the undo list as an editing step does. -/
theorem InBatchBlock.step {n : Int} {base : List SynEditUndoItem} {c : Int} {x y : SearchRun}
    (h : InBatchBlock n base c x) (hb : y.dobatchReplace = true)
    (ha : y.searchAction = SynSearchAction.ReplaceAll) (hg : UndoGrows x.ed y.ed) :
    InBatchBlock n base c y := by
  obtain ⟨_, _, hin, hc, added, e, g⟩ := h
  obtain ⟨added2, e2, _, g2⟩ := hg.2.2.2.2
  refine ⟨hb, ha, hg.inBlock n hin, ?_, added2 ++ added, ?_, fun i hi => ?_⟩
  · rw [hg.2.2.1 (by have := hin.1; omega)]
    exact hc
  · rw [e2, e, List.append_assoc]
  · rcases List.mem_append.mp hi with hi | hi
    · exact g2 n hin i hi
    · exact g i hi

/-- A round over a match inside a batch stays in the batch, inside the open
undo block. -/
theorem searchMatch_inBatchBlock (eng : SynSearchBase)
    (cb : Option (Nat → QString → QString → Int → Int → Int → SynSearchAction))
    (opts : SynSearchOptions) (sSearch sReplace : QString) (n : Int)
    (base : List SynEditUndoItem) (c : Int) (st : SearchRun) (off : Int) (m : Int × Int)
    (h : InBatchBlock n base c st) :
    InBatchBlock n base c (searchMatch eng cb opts sSearch sReplace st off m).1
    ∧ (searchMatch eng cb opts sSearch sReplace st off m).2.2 = false
    ∧ (searchMatch eng cb opts sSearch sReplace st off m).1.asked = st.asked := by
  rw [searchMatch_in_batch eng cb opts sSearch sReplace st off m h.1 h.2.1]
  split
  · exact ⟨h, rfl, rfl⟩
  · refine ⟨?_, rfl, rfl⟩
    have hsel : InBatchBlock n base c (searchSelect opts st (m.1 + 1 + off) m.2) :=
      h.step h.1 h.2.1 (UndoGrows.of_core (searchSelect_undoCore opts st _ _))
    refine hsel.step ?_ hsel.2.1 ?_
    · show ((searchSelect opts st (m.1 + 1 + off) m.2).dobatchReplace || _) = true
      rw [hsel.1]
      rfl
    · have hg := searchDoReplace_grows opts.ssoBackwards
        (searchSelect opts st (m.1 + 1 + off) m.2)
        (eng.replace (selText (searchSelect opts st (m.1 + 1 + off) m.2).ed) sReplace)
        (m.1 + 1 + off) m.2 off
      rw [hsel.1] at hg
      exact hg

/-- The rounds over the matches of a line inside a batch stay in the batch,
inside the open undo block; they never ask for a return and never call the
callback. -/
theorem searchLine_inBatchBlock (eng : SynSearchBase)
    (cb : Option (Nat → QString → QString → Int → Int → Int → SynSearchAction))
    (opts : SynSearchOptions) (sSearch sReplace : QString) (n : Int)
    (base : List SynEditUndoItem) (c : Int) :
    ∀ (order : List (Int × Int)) (st : SearchRun) (off : Int), InBatchBlock n base c st →
      InBatchBlock n base c (searchLine eng cb opts sSearch sReplace order st off).1
      ∧ (searchLine eng cb opts sSearch sReplace order st off).2 = false
      ∧ (searchLine eng cb opts sSearch sReplace order st off).1.asked = st.asked := by
  intro order
  induction order with
  | nil =>
    intro st off h
    exact ⟨h, rfl, rfl⟩
  | cons m rest ih =>
    intro st off h
    have hm := searchMatch_inBatchBlock eng cb opts sSearch sReplace n base c st off m h
    unfold searchLine
    simp only
    rw [if_neg (by rw [hm.2.1]; exact Bool.noConfusion)]
    have hr := ih _ (searchMatch eng cb opts sSearch sReplace st off m).2.1 hm.1
    exact ⟨hr.1, hr.2.1, hr.2.2.trans hm.2.2⟩

/-- The line loop from a state inside a batch ends inside the batch, inside the
open undo block, without a call of the callback and with the current line
outside the range. -/
theorem searchLoop_inBatchBlock (eng : SynSearchBase)
    (cb : Option (Nat → QString → QString → Int → Int → Int → SynSearchAction))
    (confirm : Option Bool) (opts : SynSearchOptions) (sSearch sReplace : QString)
    (origin : BufferCoord) (n : Int) (base : List SynEditUndoItem) (c : Int)
    (fuel : Nat) (st out : SearchRun) (h : InBatchBlock n base c st)
    (hout : searchLoop eng cb confirm opts sSearch sReplace origin fuel st = some out) :
    InBatchBlock n base c out ∧ out.asked = st.asked
    ∧ (out.ptCurrent.Line < out.ptStart.Line ∨ out.ptCurrent.Line > out.ptEnd.Line) := by
  have hinv := searchLoop_invariant eng cb confirm opts sSearch sReplace origin
    (fun x => InBatchBlock n base c x ∧ x.asked = st.asked)
    (fun x hx => ⟨hx.1.step hx.1.1 hx.1.2.1 (UndoGrows.same _), hx.2⟩)
    (fun x off m hx =>
      have hm := searchMatch_inBatchBlock eng cb opts sSearch sReplace n base c x off m hx.1
      ⟨hm.1, hm.2.2.trans hx.2⟩)
    (fun x hx => ⟨hx.1.step hx.1.1 hx.1.2.1 (UndoGrows.same _), hx.2⟩)
    (fun x hx _ => by
      have hw : (searchWrap opts origin x).dobatchReplace = x.dobatchReplace
          ∧ (searchWrap opts origin x).searchAction = x.searchAction
          ∧ (searchWrap opts origin x).ed = x.ed
          ∧ (searchWrap opts origin x).asked = x.asked := by
        unfold searchWrap
        simp only
        split <;> exact ⟨rfl, rfl, rfl, rfl⟩
      exact ⟨hx.1.step (hw.1.trans hx.1.1) (hw.2.1.trans hx.1.2.1)
        (by rw [hw.2.2.1]; exact UndoGrows.same _), hw.2.2.2.trans hx.2⟩)
    fuel st out ⟨h, rfl⟩ hout
  refine ⟨hinv.1, hinv.2, ?_⟩
  rcases searchLoop_ends eng cb confirm opts sSearch sReplace origin fuel st out hout with he | he
  · exact he
  · rw [hinv.1.2.1] at he
    exact SynSearchAction.noConfusion he

/-- The replacement that opens a batch leaves the undo list inside a block one
deeper than before, of the number that was next, with the items of the
replacement on top of the list as it was. -/
theorem searchDoReplace_opens (b : Bool) (st : SearchRun) (txt : QString) (f n off : Int)
    (hb : st.dobatchReplace = false) (ha : st.searchAction = SynSearchAction.ReplaceAll)
    (h0 : 0 ≤ st.ed.mUndoList.blockCount) :
    InBatchBlock st.ed.mUndoList.nextChangeNumber st.ed.mUndoList.items
      (st.ed.mUndoList.blockCount + 1) (searchDoReplace b st txt f n off).1 := by
  have hg := searchDoReplace_grows b st txt f n off
  rw [hb, ha] at hg
  simp only [Bool.not_false, Bool.true_and, decide_True, if_true] at hg
  have hin : InBlock st.ed.mUndoList.nextChangeNumber (undoBeginBlock st.ed).mUndoList :=
    ⟨by show (1 : Int) ≤ st.ed.mUndoList.blockCount + 1; omega, rfl, rfl⟩
  obtain ⟨added, e, _, g⟩ := hg.2.2.2.2
  refine ⟨?_, ha, hg.inBlock _ hin, ?_, added, e, g _ hin⟩
  · show (st.dobatchReplace || _) = true
    rw [hb, ha]
    rfl
  · rw [hg.2.2.1 (by show (0 : Int) ≤ st.ed.mUndoList.blockCount + 1; omega)]
    rfl

/-- Over a round on a match the number of open undo blocks is the number at
the start of the search, one more inside a batch, and inside a batch the undo
list is inside an open block. -/
theorem searchMatch_blockCount (eng : SynSearchBase)
    (cb : Option (Nat → QString → QString → Int → Int → Int → SynSearchAction))
    (opts : SynSearchOptions) (sSearch sReplace : QString) (c : Int) (h0 : 0 ≤ c)
    (st : SearchRun) (off : Int) (m : Int × Int)
    (h : st.ed.mUndoList.blockCount = c + (if st.dobatchReplace = true then 1 else 0)
      ∧ (st.dobatchReplace = true → ∃ n, InBlock n st.ed.mUndoList)) :
    (searchMatch eng cb opts sSearch sReplace st off m).1.ed.mUndoList.blockCount
      = c + (if (searchMatch eng cb opts sSearch sReplace st off m).1.dobatchReplace = true
              then 1 else 0)
    ∧ ((searchMatch eng cb opts sSearch sReplace st off m).1.dobatchReplace = true →
        ∃ n, InBlock n (searchMatch eng cb opts sSearch sReplace st off m).1.ed.mUndoList) := by
  have hsel := searchSelect_undoCore opts st (m.1 + 1 + off) m.2
  have hask := searchAsk_ed cb sSearch
    (eng.replace (selText (searchSelect opts st (m.1 + 1 + off) m.2).ed) sReplace)
    (searchSelect opts st (m.1 + 1 + off) m.2) (m.1 + 1 + off) m.2
  have hu : (searchAsk cb sSearch
      (eng.replace (selText (searchSelect opts st (m.1 + 1 + off) m.2).ed) sReplace)
      (searchSelect opts st (m.1 + 1 + off) m.2) (m.1 + 1 + off) m.2).ed.mUndoList
      = st.ed.mUndoList := by
    rw [hask.1]
    exact congrArg (fun p => p.2.2) hsel
  have hd : (searchAsk cb sSearch
      (eng.replace (selText (searchSelect opts st (m.1 + 1 + off) m.2).ed) sReplace)
      (searchSelect opts st (m.1 + 1 + off) m.2) (m.1 + 1 + off) m.2).dobatchReplace
      = st.dobatchReplace := hask.2
  have hkeep : (searchAsk cb sSearch
      (eng.replace (selText (searchSelect opts st (m.1 + 1 + off) m.2).ed) sReplace)
      (searchSelect opts st (m.1 + 1 + off) m.2) (m.1 + 1 + off) m.2).ed.mUndoList.blockCount
        = c + (if (searchAsk cb sSearch
            (eng.replace (selText (searchSelect opts st (m.1 + 1 + off) m.2).ed) sReplace)
            (searchSelect opts st (m.1 + 1 + off) m.2) (m.1 + 1 + off) m.2).dobatchReplace = true
          then 1 else 0)
      ∧ ((searchAsk cb sSearch
            (eng.replace (selText (searchSelect opts st (m.1 + 1 + off) m.2).ed) sReplace)
            (searchSelect opts st (m.1 + 1 + off) m.2) (m.1 + 1 + off) m.2).dobatchReplace = true →
          ∃ n, InBlock n (searchAsk cb sSearch
            (eng.replace (selText (searchSelect opts st (m.1 + 1 + off) m.2).ed) sReplace)
            (searchSelect opts st (m.1 + 1 + off) m.2) (m.1 + 1 + off) m.2).ed.mUndoList) := by
    rw [hu, hd]
    exact h
  unfold searchMatch
  simp only
  split
  · exact h
  · generalize searchAsk cb sSearch
      (eng.replace (selText (searchSelect opts st (m.1 + 1 + off) m.2).ed) sReplace)
      (searchSelect opts st (m.1 + 1 + off) m.2) (m.1 + 1 + off) m.2 = st2 at hkeep ⊢
    split
    · exact hkeep
    · exact hkeep
    · simp only
      have hg := searchDoReplace_grows opts.ssoBackwards st2
        (eng.replace (selText (searchSelect opts st (m.1 + 1 + off) m.2).ed) sReplace)
        (m.1 + 1 + off) m.2 off
      have hdb : (searchDoReplace opts.ssoBackwards st2
          (eng.replace (selText (searchSelect opts st (m.1 + 1 + off) m.2).ed) sReplace)
          (m.1 + 1 + off) m.2 off).1.dobatchReplace
          = (st2.dobatchReplace
              || (!st2.dobatchReplace
                  && decide (st2.searchAction = SynSearchAction.ReplaceAll))) := rfl
      rw [hdb]
      by_cases hb : st2.dobatchReplace = true
      · rw [hb] at hg ⊢
        simp only [Bool.not_true, Bool.false_and, Bool.false_eq_true, if_false] at hg
        rw [hb] at hkeep
        simp only [if_true] at hkeep
        obtain ⟨n, hn⟩ := hkeep.2 trivial
        refine ⟨?_, fun _ => ⟨n, hg.inBlock n hn⟩⟩
        rw [hg.2.2.1 (by have := hn.1; omega), hkeep.1]
        simp
      · have hb2 : st2.dobatchReplace = false := by
          cases hx : st2.dobatchReplace
          · rfl
          · exact absurd hx hb
        rw [hb2] at hg hkeep ⊢
        simp only [Bool.false_eq_true, if_false, Int.add_zero] at hkeep
        by_cases ha : st2.searchAction = SynSearchAction.ReplaceAll
        · rw [ha] at hg ⊢
          simp only [Bool.not_false, Bool.true_and, decide_True, if_true] at hg
          have hin : InBlock st2.ed.mUndoList.nextChangeNumber (undoBeginBlock st2.ed).mUndoList :=
            ⟨by show (1 : Int) ≤ st2.ed.mUndoList.blockCount + 1; omega, rfl, rfl⟩
          refine ⟨?_, fun _ => ⟨_, hg.inBlock _ hin⟩⟩
          rw [hg.2.2.1 (by show (0 : Int) ≤ st2.ed.mUndoList.blockCount + 1; omega)]
          show st2.ed.mUndoList.blockCount + 1 = _
          rw [hkeep.1]
          simp
        · have hdec : decide (st2.searchAction = SynSearchAction.ReplaceAll) = false := by
            simpa using ha
          rw [hdec] at hg ⊢
          simp only [Bool.not_false, Bool.and_false, Bool.false_eq_true, if_false] at hg
          refine ⟨?_, fun hx => absurd hx (by simp)⟩
          rw [hg.2.2.1 (by omega), hkeep.1]
          simp


/-- The batch events stay in order over the line loop. -/
theorem searchLoop_batchInvariant (eng : SynSearchBase)
    (cb : Option (Nat → QString → QString → Int → Int → Int → SynSearchAction))
    (confirm : Option Bool) (opts : SynSearchOptions) (sSearch sReplace : QString)
    (origin : BufferCoord) (fuel : Nat) (st out : SearchRun) (h : batchInvariant st)
    (hout : searchLoop eng cb confirm opts sSearch sReplace origin fuel st = some out) :
    batchInvariant out :=
  searchLoop_invariant eng cb confirm opts sSearch sReplace origin batchInvariant
    (fun x hx => by
      rcases hx with ⟨h1, h2, h3⟩ | ⟨h1, h2, pre, l, f, mid, h3, h4, h5⟩
      · refine Or.inl ⟨h1, h2, fun e he => ?_⟩
        rcases List.mem_append.mp he with he | he
        · exact h3 e he
        · simp only [List.mem_singleton] at he
          subst he
          simp
      · refine Or.inr ⟨h1, h2, pre, l, f,
          mid ++ [SearchEvent.lineSearched x.ptCurrent.Line], ?_, h4,
          batchTail_append _ _ h5 (by simp [batchTail])⟩
        simp only [h3]
        simp)
    (fun x off m hx => searchMatch_batchInvariant eng cb opts sSearch sReplace x off m hx)
    (fun x hx => hx)
    (fun x hx _ => by
      have hw : (searchWrap opts origin x).dobatchReplace = x.dobatchReplace
          ∧ (searchWrap opts origin x).searchAction = x.searchAction
          ∧ (searchWrap opts origin x).trace = x.trace ++ [SearchEvent.wrapped] := by
        unfold searchWrap
        simp only
        split <;> exact ⟨rfl, rfl, rfl⟩
      rcases hx with ⟨h1, h2, h3⟩ | ⟨h1, h2, pre, l, f, mid, h3, h4, h5⟩
      · refine Or.inl ⟨hw.1.trans h1, by rw [hw.2.1]; exact h2, fun e he => ?_⟩
        rw [hw.2.2] at he
        rcases List.mem_append.mp he with he | he
        · exact h3 e he
        · simp only [List.mem_singleton] at he
          subst he
          simp
      · refine Or.inr ⟨hw.1.trans h1, hw.2.1.trans h2, pre, l, f,
          mid ++ [SearchEvent.wrapped], ?_, h4,
          batchTail_append _ _ h5 (by simp [batchTail])⟩
        rw [hw.2.2, h3]
        simp)
    fuel st out h hout

/-- The number of open undo blocks over the line loop: the number at the start
of the search, one more inside a batch, and inside a batch the undo list is
inside an open block. -/
theorem searchLoop_blockCount (eng : SynSearchBase)
    (cb : Option (Nat → QString → QString → Int → Int → Int → SynSearchAction))
    (confirm : Option Bool) (opts : SynSearchOptions) (sSearch sReplace : QString)
    (origin : BufferCoord) (c : Int) (h0 : 0 ≤ c) (fuel : Nat) (st out : SearchRun)
    (h : st.ed.mUndoList.blockCount = c + (if st.dobatchReplace = true then 1 else 0)
      ∧ (st.dobatchReplace = true → ∃ n, InBlock n st.ed.mUndoList))
    (hout : searchLoop eng cb confirm opts sSearch sReplace origin fuel st = some out) :
    out.ed.mUndoList.blockCount = c + (if out.dobatchReplace = true then 1 else 0)
    ∧ (out.dobatchReplace = true → ∃ n, InBlock n out.ed.mUndoList) :=
  searchLoop_invariant eng cb confirm opts sSearch sReplace origin
    (fun x => x.ed.mUndoList.blockCount = c + (if x.dobatchReplace = true then 1 else 0)
      ∧ (x.dobatchReplace = true → ∃ n, InBlock n x.ed.mUndoList))
    (fun _ hx => hx)
    (fun x off m hx => searchMatch_blockCount eng cb opts sSearch sReplace c h0 x off m hx)
    (fun _ hx => hx)
    (fun x hx _ => by
      have hw : (searchWrap opts origin x).dobatchReplace = x.dobatchReplace
          ∧ (searchWrap opts origin x).ed = x.ed := by
        unfold searchWrap
        simp only
        split <;> exact ⟨rfl, rfl⟩
      show (searchWrap opts origin x).ed.mUndoList.blockCount
          = c + (if (searchWrap opts origin x).dobatchReplace = true then 1 else 0)
        ∧ ((searchWrap opts origin x).dobatchReplace = true →
            ∃ n, InBlock n (searchWrap opts origin x).ed.mUndoList)
      rw [hw.1, hw.2]
      exact hx)
    fuel st out h hout

/-- What searchReplace returns: nothing done without an engine or a pattern,
else the state that the line loop ends in, behind an EndBlock when a batch is
running. -/
theorem searchReplace_out (s : SynEdit) (sSearch sReplace : QString)
    (sOptions : SynSearchOptions) (searchEngine : Option SynSearchBase)
    (cb : Option (Nat → QString → QString → Int → Int → Int → SynSearchAction))
    (confirm : Option Bool) (fuel : Nat) (out : SearchOutcome)
    (h : searchReplace fuel s sSearch sReplace sOptions searchEngine cb confirm = some out) :
    out = { result := 0, ed := s, trace := [] }
    ∨ ∃ eng st, searchEngine = some eng
        ∧ searchLoop eng cb confirm
            (if selAvail s = true then sOptions else { sOptions with ssoSelectedOnly := false })
            sSearch sReplace (caretXY s) fuel
            (searchStart s
              (if selAvail s = true then sOptions
                else { sOptions with ssoSelectedOnly := false })) = some st
        ∧ out = (if st.dobatchReplace = true then
                  { result := st.result, ed := undoEndBlock st.ed,
                    trace := st.trace ++ [SearchEvent.blockClosed] }
                else { result := st.result, ed := st.ed, trace := st.trace }) := by
  unfold searchReplace at h
  cases searchEngine with
  | none =>
    simp only [Option.some.injEq] at h
    exact Or.inl h.symm
  | some eng =>
    simp only at h
    split at h
    · simp only [Option.some.injEq] at h
      exact Or.inl h.symm
    · split at h
      · exact absurd h (by simp)
      · rename_i st hst
        refine Or.inr ⟨eng, st, rfl, hst, ?_⟩
        split at h
        · rename_i hb
          rw [if_pos hb]
          exact (Option.some.inj h).symm
        · rename_i hb
          rw [if_neg hb]
          exact (Option.some.inj h).symm

end RedPanda
